import Mathlib

/-! Verified properties of the proof-producing simplifier of
`library/tactic/simplify.cpp` and of the bound bookkeeping, the constraint
check, the constraint normalization, the delta for strict bounds and the
infeasibility measure of `util/lp/lar_solver.cpp`.  The definitions of both
parts come first, the theorems follow. -/

/-! The linear-arithmetic solver of `util/lp/lar_solver.cpp`.

`mpq` is the type of the rationals.  The classes `column_info`,
`canonic_left_side`, `lar_constraint` and `lar_normalized_constraint` are
declared outside `lar_solver.cpp`; the records below hold the members that the
solver reads and writes through them. -/

namespace LarSolver

abbrev mpq := ℚ
abbrev var_index := Nat
abbrev constraint_index := Nat

/-- The enumeration `lconstraint_kind`. -/
inductive lconstraint_kind where
  | LE | LT | GE | GT | EQ
deriving DecidableEq, Repr

/-- The enumeration `lp_status`; the solver code names `INFEASIBLE` and
`OPTIMAL`, every other value is `other`. -/
inductive lp_status where
  | INFEASIBLE
  | OPTIMAL
  | other (code : Nat)
deriving DecidableEq, Repr

/-- A lookup `m.find(k)` in an associative container (`none` is `m.end()`). -/
def map_find {α : Type} : List (Nat × α) → Nat → Option α
  | [], _ => none
  | (k, v) :: m, j => if k = j then some v else map_find m j

/-- The assignment `m[k] = v` of an associative container. -/
def map_set {α : Type} : List (Nat × α) → Nat → α → List (Nat × α)
  | [], j, a => [(j, a)]
  | (k, v) :: m, j, a => if k = j then (k, a) :: m else (k, v) :: map_set m j a

/-- The members of `column_info<mpq>` behind the accessors that the solver
calls on the bounds of a column. -/
structure column_info where
  low_bound_is_set : Bool
  low_bound_strict : Bool
  upper_bound_is_set : Bool
  upper_bound_strict : Bool
  low_bound : mpq
  upper_bound : mpq
  is_fixed : Bool
  fixed_value : mpq
deriving DecidableEq, Repr

namespace column_info

/-- The setter `set_upper_bound(v)`: the bound is recorded and marked as set. -/
def set_upper_bound (ci : column_info) (v : mpq) : column_info :=
  { ci with upper_bound := v, upper_bound_is_set := true }

def set_upper_bound_strict (ci : column_info) (val : Bool) : column_info :=
  { ci with upper_bound_strict := val }

/-- The setter `set_low_bound(v)`: the bound is recorded and marked as set. -/
def set_low_bound (ci : column_info) (v : mpq) : column_info :=
  { ci with low_bound := v, low_bound_is_set := true }

def set_low_bound_strict (ci : column_info) (val : Bool) : column_info :=
  { ci with low_bound_strict := val }

def set_fixed_value (ci : column_info) (v : mpq) : column_info :=
  { ci with is_fixed := true, fixed_value := v }

end column_info

/-- A column without bounds. -/
def free_column_info : column_info :=
  { low_bound_is_set := false, low_bound_strict := false, upper_bound_is_set := false,
    upper_bound_strict := false, low_bound := 0, upper_bound := 0, is_fixed := false,
    fixed_value := 0 }

/-- The immutable members of a `canonic_left_side` that the solver reads: the
coefficients and the additional variable that stands for the left side. -/
structure canonic_left_side where
  coeffs : List (mpq × var_index)
  additional_var_index : var_index
deriving DecidableEq, Repr

/-- An original constraint `lar_constraint`: the left side maps a variable to
its coefficient. -/
structure lar_constraint where
  left_side : List (var_index × mpq)
  kind : lconstraint_kind
  right_side : mpq
  index : constraint_index
deriving DecidableEq, Repr

/-- A normalized constraint `lar_normalized_constraint`. -/
structure lar_normalized_constraint where
  canonic_left_side : canonic_left_side
  ratio_to_original : mpq
  kind : lconstraint_kind
  right_side : mpq
  origin_constraint : lar_constraint
  index : constraint_index
deriving DecidableEq, Repr

/-- The members of the solver that the bound updates read and write.  The
members `m_low_bound_witness` and `m_upper_bound_witness` of a left side are
kept here, keyed by the additional variable of the left side and naming the
witness by its constraint index. -/
structure lar_solver where
  status : lp_status
  infeasible_canonic_left_side : Option var_index
  column_infos : List (var_index × column_info)
  low_bound_witness : List (var_index × constraint_index)
  upper_bound_witness : List (var_index × constraint_index)
deriving DecidableEq, Repr

/-- The method `try_to_set_fixed`, with the column it leaves. -/
def try_to_set_fixed (ci : column_info) : column_info × Bool :=
  if ci.upper_bound_is_set && ci.low_bound_is_set && ci.upper_bound == ci.low_bound &&
      !ci.is_fixed then
    (ci.set_fixed_value ci.upper_bound, true)
  else (ci, false)

/-- The end of both bound updates: the test `ci.is_infeasible()` and
`try_to_set_fixed`.  The method `is_infeasible` of `column_info` is declared
outside the sources and is a parameter. -/
def finish_bound_update (is_infeasible : column_info → Bool) (S : lar_solver)
    (ls : canonic_left_side) (ci : column_info) : lar_solver :=
  if is_infeasible ci then
    { S with
      column_infos := map_set S.column_infos ls.additional_var_index ci
      status := lp_status.INFEASIBLE
      infeasible_canonic_left_side := some ls.additional_var_index }
  else
    { S with
      column_infos := map_set S.column_infos ls.additional_var_index (try_to_set_fixed ci).1 }

/-- The method `set_upper_bound_for_column_info`; `none` is the `throw` of
`get_column_info_from_var_index` for a variable without column. -/
def set_upper_bound_for_column_info (is_infeasible : column_info → Bool) (S : lar_solver)
    (norm_constr : lar_normalized_constraint) : Option lar_solver :=
  let v := norm_constr.right_side
  let ls := norm_constr.canonic_left_side
  match map_find S.column_infos ls.additional_var_index with
  | none => none
  | some ci =>
      let strict := norm_constr.kind == lconstraint_kind.LT
      if !ci.upper_bound_is_set then
        some (finish_bound_update is_infeasible
          { S with
            upper_bound_witness :=
              map_set S.upper_bound_witness ls.additional_var_index norm_constr.index }
          ls ((ci.set_upper_bound v).set_upper_bound_strict strict))
      else if ci.upper_bound > v then
        some (finish_bound_update is_infeasible
          { S with
            upper_bound_witness :=
              map_set S.upper_bound_witness ls.additional_var_index norm_constr.index }
          ls ((ci.set_upper_bound v).set_upper_bound_strict strict))
      else some (finish_bound_update is_infeasible S ls ci)

/-- The method `set_low_bound_for_column_info`. -/
def set_low_bound_for_column_info (is_infeasible : column_info → Bool) (S : lar_solver)
    (norm_constr : lar_normalized_constraint) : Option lar_solver :=
  let v := norm_constr.right_side
  let ls := norm_constr.canonic_left_side
  match map_find S.column_infos ls.additional_var_index with
  | none => none
  | some ci =>
      let strict := norm_constr.kind == lconstraint_kind.GT
      if !ci.low_bound_is_set then
        some (finish_bound_update is_infeasible
          { S with
            low_bound_witness :=
              map_set S.low_bound_witness ls.additional_var_index norm_constr.index }
          ls ((ci.set_low_bound v).set_low_bound_strict strict))
      else if ci.low_bound < v then
        some (finish_bound_update is_infeasible
          { S with
            low_bound_witness :=
              map_set S.low_bound_witness ls.additional_var_index norm_constr.index }
          ls ((ci.set_low_bound v).set_low_bound_strict strict))
      else some (finish_bound_update is_infeasible S ls ci)

/-- The method `get_left_side_val`: the sum of coefficient times value over
the left side; `none` when a variable has no value in `var_map` (the assertion
`vi != var_map.end()` fails). -/
def get_left_side_val (cns : lar_constraint) (var_map : List (var_index × mpq)) : Option mpq :=
  cns.left_side.foldl
    (fun ret it =>
      match ret, map_find var_map it.1 with
      | some r, some x => some (r + it.2 * x)
      | _, _ => none)
    (some 0)

/-- The method `constraint_holds`. -/
def constraint_holds (constr : lar_constraint) (var_map : List (var_index × mpq)) :
    Option Bool :=
  match get_left_side_val constr var_map with
  | none => none
  | some left_side_val =>
      match constr.kind with
      | .LE => some (decide (left_side_val ≤ constr.right_side))
      | .LT => some (decide (left_side_val ≤ constr.right_side))
      | .GE => some (decide (left_side_val ≥ constr.right_side))
      | .GT => some (decide (left_side_val ≥ constr.right_side))
      | .EQ => some (decide (left_side_val = constr.right_side))

/-! ### Notions used to state the claims -/

/-- The value `x` is admitted by the recorded upper bound of the column. -/
def admits_upper (ci : column_info) (x : mpq) : Prop :=
  if ci.upper_bound_strict then x < ci.upper_bound else x ≤ ci.upper_bound

/-- The value `x` is admitted by the recorded lower bound of the column. -/
def admits_low (ci : column_info) (x : mpq) : Prop :=
  if ci.low_bound_strict then ci.low_bound < x else ci.low_bound ≤ x

/-- The value `x` of the left side satisfies the upper constraint of kind
`kind` (`LE`, `LT` or `EQ`) with right side `v`. -/
def satisfies_upper (kind : lconstraint_kind) (v x : mpq) : Prop :=
  x ≤ v ∧ (kind = lconstraint_kind.LT → x < v)

/-- The value `x` of the left side satisfies the lower constraint of kind
`kind` (`GE`, `GT` or `EQ`) with right side `v`. -/
def satisfies_low (kind : lconstraint_kind) (v x : mpq) : Prop :=
  v ≤ x ∧ (kind = lconstraint_kind.GT → v < x)

/-- The relation of a constraint kind. -/
def kind_holds (kind : lconstraint_kind) (l r : mpq) : Prop :=
  match kind with
  | .LE => l ≤ r
  | .LT => l < r
  | .GE => l ≥ r
  | .GT => l > r
  | .EQ => l = r

/-- The value of a left side under a model: the sum of coefficient times
value of the variable. -/
def left_side_sum (left_side : List (var_index × mpq)) (m : var_index → mpq) : mpq :=
  (left_side.map (fun it => it.2 * m it.1)).sum

/-! ### Sample data -/

/-- A column with the upper bound `5`, not strict, and the lower bound `3`,
not strict. -/
def weak_column : column_info :=
  { free_column_info with
    upper_bound_is_set := true, upper_bound := 5, low_bound_is_set := true, low_bound := 3 }

/-- A solver whose variable `0` has the column `weak_column`. -/
def weak_solver : lar_solver :=
  { status := lp_status.other 0, infeasible_canonic_left_side := none,
    column_infos := [(0, weak_column)], low_bound_witness := [], upper_bound_witness := [] }

/-- A solver whose variable `0` has a column without bounds. -/
def free_solver : lar_solver :=
  { status := lp_status.other 0, infeasible_canonic_left_side := none,
    column_infos := [(0, free_column_info)], low_bound_witness := [], upper_bound_witness := [] }

/-- The normalized constraint `x₁ kind v` with index `7`, whose left side is
named by the additional variable `0`. -/
def sample_constraint (kind : lconstraint_kind) (v : mpq) : lar_normalized_constraint :=
  { canonic_left_side := { coeffs := [(1, 1)], additional_var_index := 0 }
    ratio_to_original := 1
    kind := kind
    right_side := v
    origin_constraint := { left_side := [(1, 1)], kind := kind, right_side := v, index := 7 }
    index := 7 }

/-! ### The model of a solution, constraint normalization and the infeasibility measure -/

/-- A value `numeric_pair<mpq>`: `x + y·ε` for an infinitesimal `ε`. -/
structure numeric_pair where
  x : mpq
  y : mpq
deriving DecidableEq, Repr

/-- The vectors of `m_lar_core_solver_params` that the solver reads when it
builds a model. -/
structure lar_core_solver_params where
  x : List numeric_pair
  low_bounds : List numeric_pair
  upper_bounds : List numeric_pair
deriving DecidableEq, Repr

/-- The members of the solver that `add_constraint`, the model construction and
the infeasibility measure read and write; the record `lar_solver` holds the
members of the bound updates. -/
structure lar_solver_ext where
  available_var_index : var_index
  available_constr_index : constraint_index
  set_of_canonic_left_sides : List canonic_left_side
  column_infos : List (var_index × column_info)
  normalized_constraints : List (constraint_index × lar_normalized_constraint)
  lar_core_solver_params : lar_core_solver_params
deriving DecidableEq, Repr

/-- The ways in which a method of the solver fails: the `throw` of
`get_column_info_from_var_index`, an access outside a vector or buffer, the use
of an iterator that is `end()`, and a division by zero. -/
inductive lp_error where
  | no_column
  | out_of_bounds
  | not_found
  | division_by_zero
deriving DecidableEq, Repr

/-- The division of two rationals; the divisor must not be zero. -/
def mpq_div (a b : mpq) : Except lp_error mpq :=
  if b = 0 then .error .division_by_zero else .ok (a / b)

/-- The method `get_column_info_from_var_index`. -/
def get_column_info_from_var_index (column_infos : List (var_index × column_info))
    (vi : var_index) : Except lp_error column_info :=
  match map_find column_infos vi with
  | none => .error .no_column
  | some ci => .ok ci

/-- The method `restrict_delta_on_low_bound_column`: the new value of `delta`.
The assertions on `xy` and `xx` have no effect on the result. -/
def restrict_delta_on_low_bound_column (P : lar_core_solver_params) (delta : mpq) (j : Nat) :
    Except lp_error mpq :=
  match P.x.get? j, P.low_bounds.get? j with
  | some x, some l =>
      if x.x = l.x then .ok delta
      else if x.y ≥ 0 then .ok delta
      else
        match mpq_div (l.x - x.x) (2 * x.y) with
        | .ok q => .ok (min delta q)
        | .error err => .error err
  | _, _ => .error .out_of_bounds

/-- The method `restrict_delta_on_upper_bound`: the new value of `delta`. -/
def restrict_delta_on_upper_bound (P : lar_core_solver_params) (delta : mpq) (j : Nat) :
    Except lp_error mpq :=
  match P.x.get? j, P.upper_bounds.get? j with
  | some x, some u =>
      if x.x = u.x then .ok delta
      else if x.y ≤ 0 then .ok delta
      else
        match mpq_div (u.x - x.x) (2 * x.y) with
        | .ok q => .ok (min delta q)
        | .error err => .error err
  | _, _ => .error .out_of_bounds

/-- The body of the loop of `find_delta_for_strict_bounds` for the left side
`t`.  The accessor `get_column_index` of `column_info` is declared outside the
sources and is a parameter. -/
def find_delta_step (get_column_index : column_info → Nat) (D : lar_solver_ext) (delta : mpq)
    (t : canonic_left_side) : Except lp_error mpq :=
  match get_column_info_from_var_index D.column_infos t.additional_var_index with
  | .error err => .error err
  | .ok ci =>
      match (if ci.low_bound_is_set then
          restrict_delta_on_low_bound_column D.lar_core_solver_params delta (get_column_index ci)
        else .ok delta) with
      | .error err => .error err
      | .ok delta1 =>
          if ci.upper_bound_is_set then
            restrict_delta_on_upper_bound D.lar_core_solver_params delta1 (get_column_index ci)
          else .ok delta1

/-- The loop of `find_delta_for_strict_bounds` over the left sides. -/
def find_delta_loop (get_column_index : column_info → Nat) (D : lar_solver_ext) :
    List canonic_left_side → mpq → Except lp_error mpq
  | [], delta => .ok delta
  | t :: ts, delta =>
      match find_delta_step get_column_index D delta t with
      | .error err => .error err
      | .ok delta1 => find_delta_loop get_column_index D ts delta1

/-- The method `find_delta_for_strict_bounds`. -/
def find_delta_for_strict_bounds (get_column_index : column_info → Nat) (D : lar_solver_ext) :
    Except lp_error mpq :=
  find_delta_loop get_column_index D D.set_of_canonic_left_sides 1

/-- The solution pair `x` respects the low bound `l` as
`restrict_delta_on_low_bound_column` asserts. -/
def respects_low (x l : numeric_pair) : Prop := l.x < x.x ∨ (x.x = l.x ∧ 0 ≤ x.y)

/-- The solution pair `x` respects the upper bound `u` as
`restrict_delta_on_upper_bound` asserts. -/
def respects_upper (x u : numeric_pair) : Prop := x.x < u.x ∨ (x.x = u.x ∧ x.y ≤ 0)

/-- The column of the left side `t` exists, its index is within the vectors,
and the solution pair respects the bounds that are set. -/
def column_respects_bounds (get_column_index : column_info → Nat) (D : lar_solver_ext)
    (t : canonic_left_side) : Prop :=
  ∃ ci x, map_find D.column_infos t.additional_var_index = some ci ∧
    D.lar_core_solver_params.x.get? (get_column_index ci) = some x ∧
    (ci.low_bound_is_set = true →
      ∃ l, D.lar_core_solver_params.low_bounds.get? (get_column_index ci) = some l ∧
        respects_low x l) ∧
    (ci.upper_bound_is_set = true →
      ∃ u, D.lar_core_solver_params.upper_bounds.get? (get_column_index ci) = some u ∧
        respects_upper x u)

/-- With `delta` for the infinitesimal, the value of the column of the left
side `t` is within the bounds that are set, strictly when its rational part is
strictly within. -/
def column_within_bounds (get_column_index : column_info → Nat) (D : lar_solver_ext)
    (delta : mpq) (t : canonic_left_side) : Prop :=
  ∀ ci x, map_find D.column_infos t.additional_var_index = some ci →
    D.lar_core_solver_params.x.get? (get_column_index ci) = some x →
    (ci.low_bound_is_set = true →
      ∀ l, D.lar_core_solver_params.low_bounds.get? (get_column_index ci) = some l →
        l.x ≤ x.x + delta * x.y ∧ (l.x < x.x → l.x < x.x + delta * x.y)) ∧
    (ci.upper_bound_is_set = true →
      ∀ u, D.lar_core_solver_params.upper_bounds.get? (get_column_index ci) = some u →
        x.x + delta * x.y ≤ u.x ∧ (x.x < u.x → x.x + delta * x.y < u.x))

/-- A solver with the one left side `x₁`, named by the additional variable
`0`, whose column has the bounds of `weak_column` and the index `0`; the
solution pair of the column is `4 - 2ε`. -/
def delta_solver : lar_solver_ext :=
  { available_var_index := 2, available_constr_index := 0,
    set_of_canonic_left_sides := [{ coeffs := [(1, 1)], additional_var_index := 0 }],
    column_infos := [(0, weak_column)],
    normalized_constraints := [],
    lar_core_solver_params :=
      { x := [⟨4, -2⟩], low_bounds := [⟨3, 0⟩], upper_bounds := [⟨5, 0⟩] } }

/-- Modelled from the spec: `flip_kind` is declared in
`util/lp/lar_constraints.h`, which is not part of the sources.  It is the kind
of a constraint whose two sides are multiplied by a negative number: `LE` and
`GE` are exchanged, `LT` and `GT` are exchanged, `EQ` is kept. -/
def flip_kind : lconstraint_kind → lconstraint_kind
  | .LE => .GE
  | .LT => .GT
  | .GE => .LE
  | .GT => .LT
  | .EQ => .EQ

/-- The method `create_or_fetch_existing_left_side`, with the solver it leaves.
The constructor `canonic_left_side(left_side_par)` is declared outside the
sources: `mk_coeffs` gives the coefficients of the new left side, and two left
sides of the set are the same when their coefficients are.  The index
`m_available_var_index` is an `unsigned`. -/
def create_or_fetch_existing_left_side
    (mk_coeffs : List (mpq × var_index) → List (mpq × var_index)) (D : lar_solver_ext)
    (left_side_par : List (mpq × var_index)) : canonic_left_side × lar_solver_ext :=
  match D.set_of_canonic_left_sides.find? (fun t => t.coeffs == mk_coeffs left_side_par) with
  | none =>
      let vj := D.available_var_index
      (⟨mk_coeffs left_side_par, vj⟩,
        { D with
          set_of_canonic_left_sides :=
            D.set_of_canonic_left_sides ++ [⟨mk_coeffs left_side_par, vj⟩]
          column_infos := map_set D.column_infos vj free_column_info
          available_var_index := (vj + 1) % 4294967296 })
  | some t => (t, D)

/-- The method `find_ratio_of_original_constraint_to_normalized`: the
coefficient that the original constraint has for the first variable of the
canonic left side. -/
def find_ratio_of_original_constraint_to_normalized (ls : canonic_left_side)
    (constraint : lar_constraint) : Except lp_error mpq :=
  match ls.coeffs with
  | [] => .error .out_of_bounds
  | first_pair :: _ =>
      match map_find constraint.left_side first_pair.2 with
      | none => .error .not_found
      | some ratio => .ok ratio

/-- The method `add_constraint`: the index of the new constraint and the solver
it leaves.  The constructor of `lar_constraint` is declared outside the
sources: `mk_left_side` gives the left side of the original constraint.  The
index `m_available_constr_index` is an `unsigned`. -/
def add_constraint (mk_coeffs : List (mpq × var_index) → List (mpq × var_index))
    (mk_left_side : List (mpq × var_index) → List (var_index × mpq)) (D : lar_solver_ext)
    (left_side : List (mpq × var_index)) (kind_par : lconstraint_kind) (right_side_par : mpq) :
    Except lp_error (constraint_index × lar_solver_ext) :=
  let i := D.available_constr_index
  let original_constr : lar_constraint := ⟨mk_left_side left_side, kind_par, right_side_par, i⟩
  let f := create_or_fetch_existing_left_side mk_coeffs
    { D with available_constr_index := (i + 1) % 4294967296 } left_side
  match find_ratio_of_original_constraint_to_normalized f.1 original_constr with
  | .error err => .error err
  | .ok ratio =>
      let kind := if ratio < 0 then flip_kind kind_par else kind_par
      match mpq_div right_side_par ratio with
      | .error err => .error err
      | .ok right_side =>
          .ok (i,
            { f.2 with
              normalized_constraints :=
                map_set f.2.normalized_constraints i
                  ⟨f.1, ratio, kind, right_side, original_constr, i⟩ })

/-- A solver without constraints and left sides, whose variable `1` has a
column without bounds. -/
def empty_solver : lar_solver_ext :=
  { available_var_index := 2, available_constr_index := 0, set_of_canonic_left_sides := [],
    column_infos := [(1, free_column_info)], normalized_constraints := [],
    lar_core_solver_params := { x := [], low_bounds := [], upper_bounds := [] } }

/-- Coefficients for the sample left sides: the one variable of the left side
with the coefficient one. -/
def sample_mk_coeffs (left_side : List (mpq × var_index)) : List (mpq × var_index) :=
  left_side.map (fun it => (1, it.2))

/-- The left side of an original constraint for the sample left sides: every
variable with its coefficient. -/
def sample_mk_left_side (left_side : List (mpq × var_index)) : List (var_index × mpq) :=
  left_side.map (fun it => (it.2, it.1))

/-- The method `get_variable_name`.  The accessor `get_name` of `column_info`
and the helper `T_to_string` are declared outside the sources and are
parameters. -/
def get_variable_name (get_name : column_info → String) (T_to_string : var_index → String)
    (D : lar_solver_ext) (vi : var_index) : String :=
  match map_find D.column_infos vi with
  | none => "variable " ++ T_to_string vi ++ " is not found"
  | some ci => get_name ci

/-- A lookup `solution.find(s)` in a map from names to values (`none` is
`solution.end()`). -/
def solution_find : List (String × mpq) → String → Option mpq
  | [], _ => none
  | (k, v) :: m, s => if k = s then some v else solution_find m s

/-- The loop of `get_canonic_left_side_val` over the coefficients, with the
value of `ret`; a variable without a value fails the assertion
`t != solution.end()`. -/
def canonic_left_side_val_loop (get_name : column_info → String)
    (T_to_string : var_index → String) (D : lar_solver_ext) (solution : List (String × mpq)) :
    List (mpq × var_index) → mpq → Except lp_error mpq
  | [], ret => .ok ret
  | it :: its, ret =>
      match solution_find solution (get_variable_name get_name T_to_string D it.2) with
      | none => .error .not_found
      | some v =>
          canonic_left_side_val_loop get_name T_to_string D solution its (ret + it.1 * v)

/-- The method `get_canonic_left_side_val`. -/
def get_canonic_left_side_val (get_name : column_info → String)
    (T_to_string : var_index → String) (D : lar_solver_ext) (ls : canonic_left_side)
    (solution : List (String × mpq)) : Except lp_error mpq :=
  canonic_left_side_val_loop get_name T_to_string D solution ls.coeffs 0

/-- The method `get_infeasibility_of_constraint`. -/
def get_infeasibility_of_constraint (get_name : column_info → String)
    (T_to_string : var_index → String) (D : lar_solver_ext)
    (norm_constr : lar_normalized_constraint) (solution : List (String × mpq)) :
    Except lp_error mpq :=
  match get_canonic_left_side_val get_name T_to_string D norm_constr.canonic_left_side
      solution with
  | .error err => .error err
  | .ok left_side_val =>
      match norm_constr.kind with
      | .LT => .ok (max (left_side_val - norm_constr.right_side) 0)
      | .LE => .ok (max (left_side_val - norm_constr.right_side) 0)
      | .GT => .ok (max (-(left_side_val - norm_constr.right_side)) 0)
      | .GE => .ok (max (-(left_side_val - norm_constr.right_side)) 0)
      | .EQ => .ok |left_side_val - norm_constr.right_side|

/-- The loop of `get_infeasibility_of_solution` over the normalized
constraints, with the value of `ret`. -/
def infeasibility_of_solution_loop (get_name : column_info → String)
    (T_to_string : var_index → String) (D : lar_solver_ext) (solution : List (String × mpq)) :
    List (constraint_index × lar_normalized_constraint) → mpq → Except lp_error mpq
  | [], ret => .ok ret
  | it :: its, ret =>
      match get_infeasibility_of_constraint get_name T_to_string D it.2 solution with
      | .error err => .error err
      | .ok v => infeasibility_of_solution_loop get_name T_to_string D solution its (ret + v)

/-- The method `get_infeasibility_of_solution`. -/
def get_infeasibility_of_solution (get_name : column_info → String)
    (T_to_string : var_index → String) (D : lar_solver_ext) (solution : List (String × mpq)) :
    Except lp_error mpq :=
  infeasibility_of_solution_loop get_name T_to_string D solution D.normalized_constraints 0

/-- The constraint of kind `kind` holds non-strictly between `l` and `r`. -/
def holds_non_strictly (kind : lconstraint_kind) (l r : mpq) : Prop :=
  match kind with
  | .LE => l ≤ r
  | .LT => l ≤ r
  | .GE => l ≥ r
  | .GT => l ≥ r
  | .EQ => l = r

/-- The solution has a value for every variable of the left side. -/
def solution_defined_on (get_name : column_info → String) (T_to_string : var_index → String)
    (D : lar_solver_ext) (solution : List (String × mpq)) (ls : canonic_left_side) : Prop :=
  ∀ it ∈ ls.coeffs,
    ∃ v, solution_find solution (get_variable_name get_name T_to_string D it.2) = some v

/-- The value of a canonic left side under a solution: the sum of coefficient
times value of the variable. -/
def canonic_sum (get_name : column_info → String) (T_to_string : var_index → String)
    (D : lar_solver_ext) (solution : List (String × mpq)) (coeffs : List (mpq × var_index)) :
    mpq :=
  (coeffs.map (fun it =>
    it.1 * (solution_find solution (get_variable_name get_name T_to_string D it.2)).getD 0)).sum

/-- A solver whose variable `1` has a column, with the one normalized
constraint `x₁ ≤ 5`. -/
def measure_solver : lar_solver_ext :=
  { empty_solver with normalized_constraints := [(7, sample_constraint lconstraint_kind.LE 5)] }

end LarSolver

/-! The proof-producing simplifier of `library/tactic/simplify.cpp`.

A shallow embedding of the simplifier classes `simplify_core_fn`,
`simplify_ext_core_fn`, `simplify_fn` and `vm_simplify_fn`.

* Kernel terms are an inductive type `expr`; the kernel helpers the simplifier
  calls on terms are defined on it.
* The collaborators that live outside `simplify.cpp` (type context, temporary
  type context, lemma index, congruence-lemma synthesizer, canonizer, app
  builder, script hooks) are the fields of the record `env`: the simplifier is
  verified for every behaviour of these collaborators.
* The mutable members of the simplifier object are the record `state`; a
  method is a function `state → result`, where a `result` is a normal return
  with the new state, a C++ exception, an out-of-bounds buffer access, or
  exhaustion of the fuel that bounds recursion depth and loop iterations.
* `check_system` (asynchronous cancellation) and the trace channels have no
  effect on results and are left out.
-/

namespace Simplify

/-! ## Terms -/

abbrev name := String

def get_eq_name : name := "eq"
def get_iff_name : name := "iff"
def get_propext_name : name := "propext"
def get_eq_rec_name : name := "eq.rec"
def get_eq_drec_name : name := "eq.drec"
def get_eq_nrec_name : name := "eq.nrec"
def get_eq_refl_name : name := "eq.refl"
def get_eq_mpr_name : name := "eq.mpr"
def get_iff_mpr_name : name := "iff.mpr"
def get_forall_congr_name : name := "forall_congr"
def get_forall_congr_eq_name : name := "forall_congr_eq"
def get_imp_congr_name : name := "imp_congr"
def get_imp_congr_eq_name : name := "imp_congr_eq"
def get_imp_congr_ctx_name : name := "imp_congr_ctx"
def get_imp_congr_ctx_eq_name : name := "imp_congr_ctx_eq"

/-- Modelled from the spec: the kernel term representation (`kernel/expr.h`) is
not part of the sources.  The spec lists the ten kinds, application and binder
decomposition, substitution and structural equality.  Universe levels are
natural numbers, a constant carries its
universe levels, local constants and metavariables carry their type, binder
annotations are dropped. -/
inductive expr where
  | Var (idx : Nat)
  | «Sort» (l : Nat)
  | Constant (n : name) (ls : List Nat)
  | Meta (n : name) (type : expr)
  | Local (n : name) (type : expr)
  | App (f a : expr)
  | Lambda (n : name) (d b : expr)
  | Pi (n : name) (d b : expr)
  | Let (n : name) (t v b : expr)
  | Macro (n : name)
deriving DecidableEq, Repr

inductive expr_kind where
  | Var | «Sort» | Constant | Meta | Local | App | Lambda | Pi | Let | Macro
deriving DecidableEq, Repr

namespace expr

def kind : expr → expr_kind
  | Var _ => .Var
  | expr.Sort _ => expr_kind.Sort
  | Constant _ _ => .Constant
  | Meta _ _ => .Meta
  | Local _ _ => .Local
  | App _ _ => .App
  | Lambda _ _ _ => .Lambda
  | Pi _ _ _ => .Pi
  | Let _ _ _ _ => .Let
  | Macro _ => .Macro

end expr

open expr

def is_app (e : expr) : Bool := e.kind == .App
def is_lambda (e : expr) : Bool := e.kind == .Lambda
def is_pi (e : expr) : Bool := e.kind == .Pi
def is_constant (e : expr) : Bool := e.kind == .Constant
def is_metavar (e : expr) : Bool := e.kind == .Meta

/-- The name of a constant (only applied to constants). -/
def const_name : expr → name
  | Constant n _ => n
  | _ => ""

/-- The name of a local constant or metavariable. -/
def mlocal_name : expr → name
  | Local n _ => n
  | Meta n _ => n
  | _ => ""

/-- The function of a binary application node (only applied to applications). -/
def app_fn : expr → expr
  | App f _ => f
  | e => e

/-- The argument of a binary application node (only applied to applications). -/
def app_arg : expr → expr
  | App _ a => a
  | e => e

def binding_name : expr → name
  | Lambda n _ _ => n
  | Pi n _ _ => n
  | _ => ""

/-- The domain of a lambda or pi (only applied to binders). -/
def binding_domain : expr → expr
  | Lambda _ d _ => d
  | Pi _ d _ => d
  | e => e

/-- The body of a lambda or pi (only applied to binders). -/
def binding_body : expr → expr
  | Lambda _ _ b => b
  | Pi _ _ b => b
  | e => e

/-- The head of an application spine. -/
def get_app_fn : expr → expr
  | App f _ => get_app_fn f
  | e => e

def get_app_args_aux : expr → List expr → List expr
  | App f a, acc => get_app_args_aux f (a :: acc)
  | _, acc => acc

/-- The arguments of an application spine, first argument first
(`get_app_args(e, args)` returns `get_app_fn e` and fills `args`). -/
def get_app_args (e : expr) : List expr := get_app_args_aux e []

/-- The application `f a₁ … aₙ`. -/
def mk_app (f : expr) (args : List expr) : expr := args.foldl App f

/-- Does the term contain a metavariable? -/
def has_metavar : expr → Bool
  | Var _ => false
  | expr.Sort _ => false
  | Constant _ _ => false
  | Meta _ _ => true
  | Local _ t => has_metavar t
  | App f a => has_metavar f || has_metavar a
  | Lambda _ d b => has_metavar d || has_metavar b
  | Pi _ d b => has_metavar d || has_metavar b
  | Let _ t v b => has_metavar t || has_metavar v || has_metavar b
  | Macro _ => false

/-- Does the loose bound variable `k` occur in the term?  Local constants and
metavariables are closed. -/
def has_free_var : expr → Nat → Bool
  | Var i, k => i == k
  | expr.Sort _, _ => false
  | Constant _ _, _ => false
  | Meta _ _, _ => false
  | Local _ _, _ => false
  | App f a, k => has_free_var f k || has_free_var a k
  | Lambda _ d b, k => has_free_var d k || has_free_var b (k + 1)
  | Pi _ d b, k => has_free_var d k || has_free_var b (k + 1)
  | Let _ t v b, k => has_free_var t k || has_free_var v k || has_free_var b (k + 1)
  | Macro _, _ => false

/-- Has the term a loose bound variable with index at least `k`? -/
def has_loose_from : expr → Nat → Bool
  | Var i, k => decide (k ≤ i)
  | expr.Sort _, _ => false
  | Constant _ _, _ => false
  | Meta _ _, _ => false
  | Local _ _, _ => false
  | App f a, k => has_loose_from f k || has_loose_from a k
  | Lambda _ d b, k => has_loose_from d k || has_loose_from b (k + 1)
  | Pi _ d b, k => has_loose_from d k || has_loose_from b (k + 1)
  | Let _ t v b, k => has_loose_from t k || has_loose_from v k || has_loose_from b (k + 1)
  | Macro _, _ => false

/-- A term is closed when it has no loose bound variable. -/
def closed (e : expr) : Bool := !has_loose_from e 0

/-- A non-dependent arrow: a pi whose body does not use the bound variable. -/
def is_arrow (e : expr) : Bool := is_pi e && !has_free_var (binding_body e) 0

def mk_arrow (a b : expr) : expr := Pi "a" a b

/-- The binder `b` with a new domain and body. -/
def update_binding (b d body : expr) : expr :=
  match b with
  | Lambda n _ _ => Lambda n d body
  | Pi n _ _ => Pi n d body
  | e => e

/-- Add `d` to every loose bound variable with index at least `k`. -/
def lift_free_vars (d : Nat) : expr → Nat → expr
  | Var i, k => if i < k then Var i else Var (i + d)
  | expr.Sort l, _ => expr.Sort l
  | Constant n ls, _ => Constant n ls
  | Meta n t, _ => Meta n t
  | Local n t, _ => Local n t
  | App f a, k => App (lift_free_vars d f k) (lift_free_vars d a k)
  | Lambda n t b, k => Lambda n (lift_free_vars d t k) (lift_free_vars d b (k + 1))
  | Pi n t b, k => Pi n (lift_free_vars d t k) (lift_free_vars d b (k + 1))
  | Let n t v b, k =>
      Let n (lift_free_vars d t k) (lift_free_vars d v k) (lift_free_vars d b (k + 1))
  | Macro n, _ => Macro n

/-- Substitution under `k` binders: the loose variable `k + i` becomes
`subst[n - 1 - i]` for `i < n`, larger variables are lowered by `n`. -/
def instantiate_rev_at (subst : List expr) : expr → Nat → expr
  | Var i, k =>
      if i < k then Var i
      else match subst.reverse.get? (i - k) with
        | some v => lift_free_vars k v 0
        | none => Var (i - subst.length)
  | expr.Sort l, _ => expr.Sort l
  | Constant n ls, _ => Constant n ls
  | Meta n t, _ => Meta n t
  | Local n t, _ => Local n t
  | App f a, k => App (instantiate_rev_at subst f k) (instantiate_rev_at subst a k)
  | Lambda n t b, k =>
      Lambda n (instantiate_rev_at subst t k) (instantiate_rev_at subst b (k + 1))
  | Pi n t b, k => Pi n (instantiate_rev_at subst t k) (instantiate_rev_at subst b (k + 1))
  | Let n t v b, k =>
      Let n (instantiate_rev_at subst t k) (instantiate_rev_at subst v k)
        (instantiate_rev_at subst b (k + 1))
  | Macro n, _ => Macro n

/-- The kernel `instantiate_rev(e, n, subst)`. -/
def instantiate_rev (e : expr) (subst : List expr) : expr := instantiate_rev_at subst e 0

/-- Position of the local constant named `n` among `ls`. -/
def local_index (n : name) : List expr → Option Nat
  | [] => none
  | l :: ls => if mlocal_name l = n then some 0 else (local_index n ls).map Nat.succ

/-- Replace the local constants `ls` by bound variables, under `k` binders:
`ls[i]` becomes the variable `k + n - 1 - i`. -/
def abstract_locals_at (ls : List expr) : expr → Nat → expr
  | Var i, _ => Var i
  | expr.Sort l, _ => expr.Sort l
  | Constant n us, _ => Constant n us
  | Meta n t, _ => Meta n t
  | Local n t, k =>
      match local_index n ls with
      | some i => Var (k + ls.length - 1 - i)
      | none => Local n t
  | App f a, k => App (abstract_locals_at ls f k) (abstract_locals_at ls a k)
  | Lambda n t b, k => Lambda n (abstract_locals_at ls t k) (abstract_locals_at ls b (k + 1))
  | Pi n t b, k => Pi n (abstract_locals_at ls t k) (abstract_locals_at ls b (k + 1))
  | Let n t v b, k =>
      Let n (abstract_locals_at ls t k) (abstract_locals_at ls v k)
        (abstract_locals_at ls b (k + 1))
  | Macro n, _ => Macro n

/-- The kernel `abstract_locals(e, n, ls)`. -/
def abstract_locals (e : expr) (ls : List expr) : expr := abstract_locals_at ls e 0

/-- The term `fun ls, e` obtained by abstracting the local constants `ls`
(`tmp_locals::mk_lambda`). -/
def locals_mk_lambda : List expr → expr → expr
  | [], e => e
  | l :: ls, e =>
      match l with
      | Local n t => Lambda n t (abstract_locals (locals_mk_lambda ls e) [l])
      | _ => locals_mk_lambda ls e

instance : Inhabited expr := ⟨Constant "" []⟩

def mk_constant (n : name) : expr := Constant n []

/-! ## Simplification results -/

/-- Modelled from the spec: `simp_result` (`library/tactic/simp_result.h`) is
not part of the sources.  A result is a pair of the new term and an optional
proof. -/
structure simp_result where
  new : expr
  proof : Option expr
deriving DecidableEq, Repr

namespace simp_result

/-- The result `simp_result(e)`: the term `e` and no proof. -/
def refl (e : expr) : simp_result := ⟨e, none⟩

def has_proof (r : simp_result) : Bool := r.proof.isSome

/-- The proof of a result (only called on results that have one). -/
def get_proof (r : simp_result) : expr := r.proof.getD default

def update (r : simp_result) (e : expr) : simp_result := { r with new := e }

end simp_result

/-! ## Lemmas and the lemma index -/

/-- Modelled from the spec: a rewrite or congruence lemma
(`library/tactic/simp_lemmas.h`), with the getters the simplifier uses. -/
structure simp_lemma where
  id : name
  num_umeta : Nat
  num_emeta : Nat
  emetas : List expr
  instances : List Bool
  lhs : expr
  rhs : expr
  proof : expr
  is_permutation : Bool
  is_refl : Bool
  congr_hyps : List expr

/-- Modelled from the spec: the lemmas of one relation, `find` and
`find_congr` return the candidates for a term (`none` is the null pointer). -/
structure simp_lemmas_for where
  find : expr → Option (List simp_lemma)
  find_congr : expr → Option (List simp_lemma)

/-- Modelled from the spec: the lemma index, `find` returns the lemmas of a
relation (`none` is the null pointer). -/
structure simp_lemmas where
  find : name → Option simp_lemmas_for

inductive congr_arg_kind where
  | Fixed | FixedNoParam | Eq | Cast | HEq
deriving DecidableEq, Repr

/-- The synthesized congruence lemma returned by `mk_specialized_congr_simp`. -/
structure congr_lemma where
  type : expr
  proof : expr
  arg_kinds : List congr_arg_kind

/-- The part of `param_info` read by `defeq_canonize_args_step`. -/
structure param_info where
  is_inst_implicit : Bool
  is_prop : Bool

/-- The class of the simplifier object, which selects the virtual methods
`pre`, `post`, `prove`, `visit_lambda`, `visit_pi` and `visit_let`. -/
inductive simp_class where
  | simplify_core_fn
  | simplify_ext_core_fn
  | simplify_fn
  | vm_simplify_fn
deriving DecidableEq, Repr

/-- The cache `expr_struct_map<simp_result>`, keyed by structural equality. -/
abbrev simplify_cache := List (expr × simp_result)

/-- The lookup `m_cache.find(e)` (`none` is `m_cache.end()`). -/
def cache_find : simplify_cache → expr → Option simp_result
  | [], _ => none
  | (k, v) :: c, e => if k = e then some v else cache_find c e

/-- The call `m_cache.insert(mk_pair(e, r))` of a standard associative
container: an entry that is already present under `e` is kept. -/
def cache_insert (c : simplify_cache) (e : expr) (r : simp_result) : simplify_cache :=
  match cache_find c e with
  | some _ => c
  | none => (e, r) :: c

/-! ## Collaborators and state -/

/-- The options and the collaborators of a simplifier object.  `σ` is the state
of the type context (for the script-driven simplifier also the accumulator and
the tactic state), `τ` is the state of a temporary type context. -/
structure env (σ τ : Type) where
  cls : simp_class
  max_steps : Nat
  contextual : Bool
  lift_eq : Bool
  canonize_instances : Bool
  canonize_proofs : Bool
  use_axioms : Bool
  infer : σ → expr → expr
  relaxed_whnf : σ → expr → expr
  is_prop : σ → expr → Bool
  is_def_eq : σ → expr → expr → Bool
  mk_class_instance : σ → expr → Option expr
  reduce_projection : σ → expr → Option expr
  get_level : σ → expr → Nat
  fresh_name : σ → List expr → name → name
  tmp_type_context : σ → Nat → Nat → τ
  tmp_is_def_eq : τ → expr → expr → Bool × τ
  tmp_infer : τ → expr → expr
  tmp_instantiate_mvars : τ → expr → expr
  tmp_is_eassigned : τ → Nat → Bool
  tmp_is_uassigned : τ → Nat → Bool
  tmp_assign : τ → expr → expr → τ
  is_eqp : expr → expr → Bool
  is_lt : expr → expr → Bool
  add : σ → simp_lemmas → name → expr → expr → Option simp_lemmas
  is_simp_relation : expr → Option (expr × expr × expr)
  is_relation : expr → Option (name × expr × expr)
  is_refl_relation : name → Bool
  is_true : expr → Bool
  mk_true_intro : expr
  mk_specialized_congr_simp : σ → expr → Option congr_lemma
  get_specialized_subsingleton_info : σ → expr → List Bool
  get_fun_info : σ → expr → Nat → List param_info
  defeq_canonize : σ → expr → expr × Bool × σ
  mk_refl : σ → name → expr → expr
  mk_trans : σ → name → expr → expr → expr
  lift_from_eq : σ → name → expr → expr
  mk_congr : σ → expr → expr → expr
  mk_congr_fun : σ → expr → expr → expr
  mk_congr_arg : σ → expr → expr → expr
  mk_funext : σ → expr → expr
  mk_app_builder : σ → name → List expr → expr
  vm_pre : σ → simp_lemmas → name → Option expr → expr → Option (σ × simp_result × Bool)
  vm_post : σ → simp_lemmas → name → Option expr → expr → Option (σ × simp_result × Bool)
  vm_prove : σ → expr → Option (σ × expr)

/-- The mutable members of a simplifier object.  The step counter
`m_num_steps` is a 32-bit `unsigned`, like `max_steps`: `num_steps` is the
number of times `m_num_steps++` has been executed on the object, which is the
number of invocations of `visit` so far, and the value of the member is
`num_steps % 2^32`. -/
structure state (σ : Type) where
  ctx : σ
  rel : name
  slss : simp_lemmas
  cache : simplify_cache
  num_steps : Nat
  need_restart : Bool

/-- The outcome of running a method. -/
inductive result (σ α : Type) where
  | ok (a : α) (s : state σ)
  | exception (msg : String)
  | out_of_bounds
  | out_of_fuel

namespace result

/-- The value of a normal return. -/
def value {σ α : Type} : result σ α → Option α
  | ok a _ => some a
  | _ => none

/-- The state after a normal return. -/
def final {σ α : Type} : result σ α → Option (state σ)
  | ok _ s => some s
  | _ => none

end result

/-- A method of the simplifier object. -/
def M (σ α : Type) : Type := state σ → result σ α

namespace M

def pure {σ α : Type} (a : α) : M σ α := fun s => .ok a s

def bind {σ α β : Type} (m : M σ α) (f : α → M σ β) : M σ β := fun s =>
  match m s with
  | .ok a s1 => f a s1
  | .exception msg => .exception msg
  | .out_of_bounds => .out_of_bounds
  | .out_of_fuel => .out_of_fuel

def get {σ : Type} : M σ (state σ) := fun s => .ok s s

def modify {σ : Type} (f : state σ → state σ) : M σ Unit := fun s => .ok () (f s)

def throw {σ α : Type} (msg : String) : M σ α := fun _ => .exception msg

end M

instance {σ : Type} : Monad (M σ) where
  pure := M.pure
  bind := M.bind

namespace M

/-- A buffer access `b[i]`: outside the buffer the behaviour is undefined. -/
def at_index {σ α : Type} (b : List α) (i : Nat) : M σ α := fun s =>
  match b.get? i with
  | some a => .ok a s
  | none => .out_of_bounds

end M

variable {σ τ : Type}

/-! ## Result algebra -/

/-- Modelled from the spec: the global `join(ctx, rel, r1, r2)`
(`simp_result.cpp` is not part of the sources).  The new term is that of `r2`;
the proof is the transitivity of both proofs, and if either side lacks a proof
the other's proof (or none) is returned. -/
def join_results (E : env σ τ) (ctx : σ) (rel : name) (r1 r2 : simp_result) : simp_result :=
  match r1.proof, r2.proof with
  | none, _ => r2
  | some p1, none => ⟨r2.new, some p1⟩
  | some p1, some p2 => ⟨r2.new, some (E.mk_trans ctx rel p1 p2)⟩

/-- Modelled from the spec: the global `finalize(ctx, rel, r)` materializes a
reflexivity proof if the proof is absent. -/
def finalize (E : env σ τ) (ctx : σ) (rel : name) (r : simp_result) : simp_result :=
  match r.proof with
  | some _ => r
  | none => ⟨r.new, some (E.mk_refl ctx rel r.new)⟩

/-! ## Scoped assignments -/

/-- Run `m` under `flet<name> (m_rel, rel)`. -/
def flet_rel {α : Type} (rel : name) (m : M σ α) : M σ α := fun s =>
  match m { s with rel := rel } with
  | .ok a s1 => .ok a { s1 with rel := s.rel }
  | .exception msg => .exception msg
  | .out_of_bounds => .out_of_bounds
  | .out_of_fuel => .out_of_fuel

/-- Run `m` under `flet<simp_lemmas> (m_slss, slss)`. -/
def flet_slss {α : Type} (slss : simp_lemmas) (m : M σ α) : M σ α := fun s =>
  match m { s with slss := slss } with
  | .ok a s1 => .ok a { s1 with slss := s.slss }
  | .exception msg => .exception msg
  | .out_of_bounds => .out_of_bounds
  | .out_of_fuel => .out_of_fuel

/-- Run `m` under `freset<simplify_cache> (m_cache)`: `m` starts from an empty
cache and the old cache is put back afterwards. -/
def freset_cache {α : Type} (m : M σ α) : M σ α := fun s =>
  match m { s with cache := [] } with
  | .ok a s1 => .ok a { s1 with cache := s.cache }
  | .exception msg => .exception msg
  | .out_of_bounds => .out_of_bounds
  | .out_of_fuel => .out_of_fuel

/-! ## Core methods -/

/-- The step-budget error raised by `inc_num_steps`. -/
def max_steps_msg : String := "simplify failed, maximum number of steps exceeded"

/-- The method `simplify_core_fn::join`. -/
def join (E : env σ τ) (r1 r2 : simp_result) : M σ simp_result := do
  let s ← M.get
  pure (join_results E s.ctx s.rel r1 r2)

/-- The value of the 32-bit member `m_num_steps` in the state `s`. -/
def counter_value (s : state σ) : Nat := s.num_steps % 4294967296

/-- The method `simplify_core_fn::inc_num_steps`: `m_num_steps++` wraps around
at `2^32`. -/
def inc_num_steps (E : env σ τ) : M σ Unit := do
  M.modify (fun s => { s with num_steps := s.num_steps + 1 })
  let s ← M.get
  if counter_value s > E.max_steps then M.throw max_steps_msg else pure ()

def is_dependent_fn (E : env σ τ) (f : expr) : M σ Bool := do
  let s ← M.get
  let f_type := E.relaxed_whnf s.ctx (E.infer s.ctx f)
  pure (!is_arrow f_type)

def should_defeq_canonize (E : env σ τ) : Bool := E.canonize_instances || E.canonize_proofs

/-- The method `simplify_core_fn::lift_from_eq`. -/
def lift_from_eq (E : env σ τ) (r_eq : simp_result) : M σ simp_result := do
  let s ← M.get
  match r_eq.proof with
  | none => pure r_eq
  | some pr => pure ⟨r_eq.new, some (E.lift_from_eq s.ctx s.rel pr)⟩

/-- The method `vm_simplify_fn::prove`: the script callback; when it succeeds
the accumulator and the metavariable context are updated. -/
def vm_prove (E : env σ τ) (e : expr) : M σ (Option expr) := do
  let s ← M.get
  match E.vm_prove s.ctx e with
  | some (ctx1, pf) => do
      M.modify (fun s => { s with ctx := ctx1 })
      pure (some pf)
  | none => pure none

/-- The virtual method `prove`: the script callback for `vm_simplify_fn`, the
default `none_expr()` of `simplify_core_fn` otherwise. -/
def prove (E : env σ τ) (e : expr) : M σ (Option expr) :=
  match E.cls with
  | .vm_simplify_fn => vm_prove E e
  | _ => pure none

/-- The counter `i--` of `instantiate_emetas`, an `unsigned`. -/
def dec_unsigned (i : Nat) : Nat := (i + 4294967295) % 4294967296

/-- The instance step of `instantiate_emetas`: `none` sets `failed`. -/
def instantiate_instance (E : env σ τ) (ctx : σ) (tmp_ctx : τ) (mvar mvar_type : expr)
    (is_instance : Bool) : Option τ :=
  if is_instance then
    match E.mk_class_instance ctx mvar_type with
    | some v => if (E.tmp_is_def_eq tmp_ctx mvar v).1 then some (E.tmp_is_def_eq tmp_ctx mvar v).2
        else none
    | none => none
  else some tmp_ctx

/-- One call of the lambda of `instantiate_emetas` for a metavariable that is
reached with `failed = false`; `none` sets `failed`. -/
def instantiate_emeta (E : env σ τ) (tmp_ctx : τ) (i : Nat) (mvar : expr) (is_instance : Bool) :
    M σ (Option τ) := do
  let s ← M.get
  let mvar_type := E.tmp_instantiate_mvars tmp_ctx (E.tmp_infer tmp_ctx mvar)
  if has_metavar mvar_type then pure none
  else if E.tmp_is_eassigned tmp_ctx i then pure (some tmp_ctx)
  else
    match instantiate_instance E s.ctx tmp_ctx mvar mvar_type is_instance with
    | none => pure none
    | some tmp1 =>
        if E.tmp_is_eassigned tmp1 i then pure (some tmp1)
        else if E.is_prop s.ctx mvar_type then do
          match ← prove E mvar_type with
          | some pf => pure (some (E.tmp_is_def_eq tmp1 mvar pf).2)
          | none => pure none
        else pure none

/-- The loop `for_each2(emetas, instances, …)` of `instantiate_emetas`; `i` is
the counter before the decrement. -/
def instantiate_emetas_loop (E : env σ τ) :
    List expr → List Bool → Nat → τ → M σ (Option τ)
  | mvar :: emetas, is_instance :: instances, i, tmp_ctx => do
      match ← instantiate_emeta E tmp_ctx (dec_unsigned i) mvar is_instance with
      | some tmp1 => instantiate_emetas_loop E emetas instances (dec_unsigned i) tmp1
      | none => pure none
  | _, _, _, tmp_ctx => pure (some tmp_ctx)

/-- The method `simplify_core_fn::instantiate_emetas`: `some` of the updated
temporary context when it returns `true`, `none` when it returns `false`. -/
def instantiate_emetas (E : env σ τ) (tmp_ctx : τ) (num_emeta : Nat) (emetas : List expr)
    (instances : List Bool) : M σ (Option τ) :=
  instantiate_emetas_loop E emetas instances num_emeta tmp_ctx

/-- The loop of `add_to_slss`; an exception of `add` is caught and the lemma
set is left as it was. -/
def add_to_slss (E : env σ τ) (ctx : σ) (slss : simp_lemmas) : List expr → simp_lemmas
  | [] => slss
  | l :: ls =>
      match E.add ctx slss (mlocal_name l) (E.infer ctx l) l with
      | some slss1 => add_to_slss E ctx slss1 ls
      | none => add_to_slss E ctx slss ls

/-- The universe-metavariable check `for i < num_umeta: is_uassigned(i)`. -/
def all_uassigned (E : env σ τ) (tmp_ctx : τ) (num_umeta : Nat) : Bool :=
  (List.range num_umeta).all (fun i => E.tmp_is_uassigned tmp_ctx i)

/-! ## Rewriting -/

/-- The first half of `rewrite(e, sl)`: unify the left-hand side with `e`,
discharge the side conditions and check the universe metavariables.  `some` of
the temporary context when all three pass. -/
def rewrite_unify (E : env σ τ) (e : expr) (sl : simp_lemma) : M σ (Option τ) := do
  let s ← M.get
  let u := E.tmp_is_def_eq (E.tmp_type_context s.ctx sl.num_umeta sl.num_emeta) e sl.lhs
  if !u.1 then pure none
  else do
    match ← instantiate_emetas E u.2 sl.num_emeta sl.emetas sl.instances with
    | none => pure none
    | some tmp1 => if !all_uassigned E tmp1 sl.num_umeta then pure none else pure (some tmp1)

/-- The second half of `rewrite(e, sl)`: the permutation check and the result. -/
def rewrite_result (E : env σ τ) (sl : simp_lemma) (tmp_ctx : τ) : Option simp_result :=
  let new_lhs := E.tmp_instantiate_mvars tmp_ctx sl.lhs
  let new_rhs := E.tmp_instantiate_mvars tmp_ctx sl.rhs
  if sl.is_permutation && !E.is_lt new_rhs new_lhs then none
  else if sl.is_refl then some (simp_result.refl new_rhs)
  else some ⟨new_rhs, some (E.tmp_instantiate_mvars tmp_ctx sl.proof)⟩

/-- The method `rewrite(e, sl)`.  `none` is the return of `simp_result(e)` for
the very object `e`; `some r` is a result built from the instantiated
right-hand side. -/
def rewrite_lemma (E : env σ τ) (e : expr) (sl : simp_lemma) : M σ (Option simp_result) := do
  match ← rewrite_unify E e sl with
  | none => pure none
  | some tmp_ctx => pure (rewrite_result E sl tmp_ctx)

/-- The result object returned by `rewrite(e, sl)`. -/
def rewrite_lemma_result (e : expr) (a : Option simp_result) : simp_result :=
  a.getD (simp_result.refl e)

/-- The loop of `rewrite(e)` over the candidates; `is_eqp` decides whether a
newly built term is the object `e`. -/
def rewrite_loop (E : env σ τ) (e : expr) : List simp_lemma → M σ simp_result
  | [] => pure (simp_result.refl e)
  | sl :: srs => do
      match ← rewrite_lemma E e sl with
      | some r => if !E.is_eqp r.new e then pure r else rewrite_loop E e srs
      | none => rewrite_loop E e srs

/-- The method `rewrite(e)`. -/
def rewrite_expr (E : env σ τ) (e : expr) : M σ simp_result := do
  let s ← M.get
  match s.slss.find s.rel with
  | none => pure (simp_result.refl e)
  | some sr =>
      match sr.find e with
      | none => pure (simp_result.refl e)
      | some srs => rewrite_loop E e srs

/-- The method `propext_rewrite`. -/
def propext_rewrite (E : env σ τ) (e : expr) : M σ simp_result := do
  let s ← M.get
  if s.rel ≠ get_eq_name then pure (simp_result.refl e)
  else
    flet_rel get_iff_name (do
      let r ← rewrite_expr E e
      let s1 ← M.get
      match r.proof with
      | none => pure r
      | some pr => pure ⟨r.new, some (E.mk_app_builder s1.ctx get_propext_name [pr])⟩)

/-! ## Canonicalization and cast elision -/

/-- Number of nodes of a term; local constants and metavariables count one. -/
def expr_size : expr → Nat
  | Var _ => 1
  | expr.Sort _ => 1
  | Constant _ _ => 1
  | Meta _ _ => 1
  | Local _ _ => 1
  | App f a => expr_size f + expr_size a + 1
  | Lambda _ d b => expr_size d + expr_size b + 1
  | Pi _ d b => expr_size d + expr_size b + 1
  | Let _ t v b => expr_size t + expr_size v + expr_size b + 1
  | Macro _ => 1

def is_cast_name (n : name) : Bool :=
  n == get_eq_rec_name || n == get_eq_drec_name || n == get_eq_nrec_name

/-- The inner `while` loop of `remove_unnecessary_casts` on `args[i]`; it
returns the final argument and whether it was replaced.  The first argument
bounds the number of iterations. -/
def remove_casts_loop : Nat → expr → Bool → M σ (expr × Bool)
  | 0, _, _ => fun _ => .out_of_fuel
  | n + 1, a, modified =>
      if is_constant (get_app_fn a) then
        if is_cast_name (const_name (get_app_fn a)) then do
          let major_premise ← M.at_index (get_app_args a) 5
          let f_major_premise := get_app_fn major_premise
          if is_constant f_major_premise && const_name f_major_premise == get_eq_refl_name then do
            let v ← M.at_index (get_app_args a) 3
            remove_casts_loop n v true
          else pure (a, modified)
        else pure (a, modified)
      else pure (a, modified)

/-- The `for` loop of `remove_unnecessary_casts` over the subsingleton flags. -/
def remove_casts_args : List Bool → Nat → List expr → Bool → M σ (List expr × Bool)
  | [], _, args, modified => pure (args, modified)
  | is_subsingleton :: ss_infos, i, args, modified =>
      if is_subsingleton then do
        let a ← M.at_index args i
        let r ← remove_casts_loop (expr_size a) a modified
        remove_casts_args ss_infos (i + 1) (args.set i r.1) r.2
      else remove_casts_args ss_infos (i + 1) args modified

/-- The method `remove_unnecessary_casts`. -/
def remove_unnecessary_casts (E : env σ τ) (e : expr) : M σ expr := do
  let s ← M.get
  let ss_infos := E.get_specialized_subsingleton_info s.ctx e
  let r ← remove_casts_args ss_infos 0 (get_app_args e) false
  pure (if r.2 then mk_app (get_app_fn e) r.1 else e)

/-- The loop of `defeq_canonize_args_step` over the parameter infos. -/
def defeq_canonize_args (E : env σ τ) : List param_info → Nat → List expr → Bool →
    M σ (List expr × Bool)
  | [], _, args, modified => pure (args, modified)
  | pinfo :: infos, i, args, modified =>
      if (E.canonize_instances && pinfo.is_inst_implicit) ||
          (E.canonize_proofs && pinfo.is_prop) then do
        let a ← M.at_index args i
        let s ← M.get
        let c := E.defeq_canonize s.ctx a
        M.modify (fun s => { s with ctx := c.2.2, need_restart := s.need_restart || c.2.1 })
        if c.1 ≠ a then defeq_canonize_args E infos (i + 1) (args.set i c.1) true
        else defeq_canonize_args E infos (i + 1) args modified
      else defeq_canonize_args E infos (i + 1) args modified

/-- The method `defeq_canonize_args_step`. -/
def defeq_canonize_args_step (E : env σ τ) (e : expr) : M σ expr := do
  let s ← M.get
  let args := get_app_args e
  let info := E.get_fun_info s.ctx (get_app_fn e) args.length
  let r ← defeq_canonize_args E info 0 args false
  pure (if r.2 then mk_app (get_app_fn e) r.1 else e)

/-! ## Congruence combinators -/

def congr (E : env σ τ) (r_f r_arg : simp_result) : M σ simp_result := do
  let s ← M.get
  pure ⟨App r_f.new r_arg.new, some (E.mk_congr s.ctx r_f.get_proof r_arg.get_proof)⟩

def congr_fun (E : env σ τ) (r_f : simp_result) (arg : expr) : M σ simp_result := do
  let s ← M.get
  pure ⟨App r_f.new arg, some (E.mk_congr_fun s.ctx r_f.get_proof arg)⟩

def congr_arg (E : env σ τ) (f : expr) (r_arg : simp_result) : M σ simp_result := do
  let s ← M.get
  pure ⟨App f r_arg.new, some (E.mk_congr_arg s.ctx f r_arg.get_proof)⟩

def congr_fun_arg (E : env σ τ) (r_f r_arg : simp_result) : M σ simp_result :=
  if !r_f.has_proof && !r_arg.has_proof then pure (simp_result.refl (App r_f.new r_arg.new))
  else if !r_f.has_proof then congr_arg E r_f.new r_arg
  else if !r_arg.has_proof then congr_fun E r_f r_arg.new
  else congr E r_f r_arg

def congr_funs (E : env σ τ) (r_f : simp_result) (args : List expr) : M σ simp_result := do
  let s ← M.get
  let e := mk_app r_f.new args
  match r_f.proof with
  | none => pure (simp_result.refl e)
  | some pf => pure ⟨e, some (args.foldl (fun pf a => E.mk_congr_fun s.ctx pf a) pf)⟩

/-! ## Hooks -/

def to_ext_result (r : simp_result) : Option (simp_result × Bool) := some (r, true)

def no_ext_result : Option (simp_result × Bool) := none

/-- The method `vm_simplify_fn::invoke_fn`: a failing callback is "no result"
and leaves the type context as it was. -/
def invoke_fn (fn : σ → simp_lemmas → name → Option expr → expr → Option (σ × simp_result × Bool))
    (e : expr) (parent : Option expr) : M σ (Option (simp_result × Bool)) := do
  let s ← M.get
  match fn s.ctx s.slss s.rel parent e with
  | some (ctx1, r, flag) => do
      M.modify (fun s => { s with ctx := ctx1 })
      pure (some (r, flag))
  | none => pure no_ext_result

/-- The method `simplify_fn::pre`. -/
def simplify_fn_pre (E : env σ τ) (e : expr) : M σ (Option (simp_result × Bool)) := do
  let s ← M.get
  match E.reduce_projection s.ctx e with
  | some r => pure (to_ext_result (simp_result.refl r))
  | none => pure no_ext_result

/-- The virtual method `pre`. -/
def pre (E : env σ τ) (e : expr) (parent : Option expr) : M σ (Option (simp_result × Bool)) :=
  match E.cls with
  | .simplify_fn => simplify_fn_pre E e
  | .vm_simplify_fn => invoke_fn E.vm_pre e parent
  | _ => pure none

/-- The method `simplify_fn::post`. -/
def simplify_fn_post (E : env σ τ) (e : expr) : M σ (Option (simp_result × Bool)) := do
  let r ← rewrite_expr E e
  if r.new ≠ e then pure (to_ext_result r)
  else if !E.use_axioms then pure no_ext_result
  else do
    let r ← propext_rewrite E e
    if r.new ≠ e then pure (to_ext_result r) else pure no_ext_result

/-- The virtual method `post`. -/
def post (E : env σ τ) (e : expr) (parent : Option expr) : M σ (Option (simp_result × Bool)) :=
  match E.cls with
  | .simplify_fn => simplify_fn_post E e
  | .vm_simplify_fn => invoke_fn E.vm_post e parent
  | _ => pure none

/-- The local constant made by `tmp_locals::push_local`. -/
def push_local (E : env σ τ) (ctx : σ) (locals : List expr) (n : name) (d : expr) : expr :=
  Local (E.fresh_name ctx locals n) d

/-! ## Structural descent

The methods below call `visit` recursively; the recursive call is the
parameter `vis`, and `visit` ties the knot. -/

/-- The type of the method `visit`. -/
abbrev visit_type (σ : Type) : Type := expr → Option expr → M σ simp_result

/-- The unrolling `while (is_pi(m_type))` of `try_user_congr`: it returns the
remaining type (not yet instantiated) and the local constants. -/
def unroll_pis (E : env σ τ) (ctx : σ) : expr → List expr → expr × List expr
  | Pi n d b, locals =>
      unroll_pis E ctx b (locals ++ [push_local E ctx locals n (instantiate_rev d locals)])
  | m_type, locals => (m_type, locals)

/-- What `try_user_congr` records for one congruence hypothesis: the entry of
`congr_hyp_results`, of `relations` and of `factories`. -/
structure congr_hyp_data where
  result : simp_result
  relation : name
  locals : List expr

/-- The first loop of `try_user_congr` over the congruence hypotheses. -/
def congr_hyps_loop (E : env σ τ) (vis : visit_type σ) (e : expr) :
    List expr → τ → Bool → List congr_hyp_data → M σ (τ × Bool × List congr_hyp_data)
  | [], tmp_ctx, simplified, acc => pure (tmp_ctx, simplified, acc)
  | m :: ms, tmp_ctx, simplified, acc => do
      let s ← M.get
      let u := unroll_pis E s.ctx (E.tmp_instantiate_mvars tmp_ctx (E.tmp_infer tmp_ctx m)) []
      let m_type := instantiate_rev u.1 u.2
      let h := (E.is_simp_relation m_type).getD (default, default, default)
      let h_rel := const_name h.1
      let h_lhs := E.tmp_instantiate_mvars tmp_ctx h.2.1
      let r ← flet_slss (if E.contextual then add_to_slss E s.ctx s.slss u.2 else s.slss)
        (if E.contextual || s.rel ≠ h_rel then
          flet_rel h_rel (freset_cache (vis h_lhs (some e)))
        else vis h_lhs (some e))
      let new_val := locals_mk_lambda (get_app_args h.2.2) r.new
      congr_hyps_loop E vis e ms (E.tmp_assign tmp_ctx (get_app_fn h.2.2) new_val)
        (simplified || r.has_proof) (acc ++ [⟨r, h_rel, u.2⟩])

/-- The second loop of `try_user_congr`: assign the hypothesis proofs. -/
def assign_congr_proofs (E : env σ τ) (ctx : σ) : List expr → List congr_hyp_data → τ → M σ τ
  | [], _, tmp_ctx => pure tmp_ctx
  | pf_meta :: ms, ds, tmp_ctx => do
      let d ← M.at_index ds 0
      let hyp := (finalize E ctx d.relation d.result).get_proof
      assign_congr_proofs E ctx ms ds.tail
        (E.tmp_assign tmp_ctx pf_meta (locals_mk_lambda d.locals hyp))

/-- The method `try_user_congr`. -/
def try_user_congr (E : env σ τ) (vis : visit_type σ) (e : expr) (cl : simp_lemma) :
    M σ simp_result := do
  let s ← M.get
  let u := E.tmp_is_def_eq (E.tmp_type_context s.ctx cl.num_umeta cl.num_emeta) e cl.lhs
  if !u.1 then pure (simp_result.refl e)
  else do
    let h ← congr_hyps_loop E vis e cl.congr_hyps u.2 false []
    if !h.2.1 then pure (simp_result.refl e)
    else do
      let s1 ← M.get
      let tmp1 ← assign_congr_proofs E s1.ctx cl.congr_hyps h.2.2 h.1
      match ← instantiate_emetas E tmp1 cl.num_emeta cl.emetas cl.instances with
      | none => pure (simp_result.refl e)
      | some tmp2 =>
          if !all_uassigned E tmp2 cl.num_umeta then pure (simp_result.refl e)
          else pure ⟨E.tmp_instantiate_mvars tmp2 cl.rhs, some (E.tmp_instantiate_mvars tmp2 cl.proof)⟩

/-- The loop of `try_user_congrs` over the candidates. -/
def try_user_congrs_loop (E : env σ τ) (vis : visit_type σ) (e : expr) :
    List simp_lemma → M σ simp_result
  | [] => pure (simp_result.refl e)
  | cl :: cls => do
      let r ← try_user_congr E vis e cl
      if r.new ≠ e then pure r else try_user_congrs_loop E vis e cls

/-- The method `try_user_congrs`. -/
def try_user_congrs (E : env σ τ) (vis : visit_type σ) (e : expr) : M σ simp_result := do
  let s ← M.get
  match s.slss.find s.rel with
  | none => pure (simp_result.refl e)
  | some sls =>
      match sls.find_congr e with
      | none => pure (simp_result.refl e)
      | some cls => try_user_congrs_loop E vis e cls

/-- The locals of the first pass of `try_auto_eq_congr`. -/
structure eq_congr_pass where
  r_args : List simp_result
  new_args : List expr
  has_proof : Bool
  has_cast : Bool
  has_simplified : Bool

def unreachable_msg : String := "'unreachable' code was reached"

/-- The first pass of `try_auto_eq_congr`: simplify the `Eq` arguments. -/
def eq_congr_first_pass (vis : visit_type σ) (e : expr) (args : List expr) :
    List congr_arg_kind → Nat → eq_congr_pass → M σ eq_congr_pass
  | [], _, p => pure p
  | ckind :: kinds, i, p =>
      match ckind with
      | .HEq => M.throw unreachable_msg
      | .Fixed | .FixedNoParam => do
          let a ← M.at_index args i
          eq_congr_first_pass vis e args kinds (i + 1) { p with new_args := p.new_args ++ [a] }
      | .Eq => do
          let a ← M.at_index args i
          let r_arg ← vis a (some e)
          eq_congr_first_pass vis e args kinds (i + 1)
            { p with
              r_args := p.r_args ++ [r_arg]
              new_args := p.new_args ++ [r_arg.new]
              has_proof := p.has_proof || r_arg.has_proof
              has_simplified := p.has_simplified || decide (r_arg.new ≠ a) }
      | .Cast => do
          let a ← M.at_index args i
          eq_congr_first_pass vis e args kinds (i + 1)
            { p with has_cast := true, new_args := p.new_args ++ [a] }

/-- The second pass of `try_auto_eq_congr`: build the proof, the substitution
and consume the binders of the lemma type. -/
def eq_congr_second_pass (E : env σ τ) (ctx : σ) (rel : name) (args : List expr)
    (r_args : List simp_result) :
    List congr_arg_kind → Nat → Nat → expr → expr → List expr → M σ (expr × expr × List expr)
  | [], _, _, proof, type, subst => pure (proof, type, subst)
  | ckind :: kinds, i, i_eq, proof, type, subst =>
      match ckind with
      | .HEq => M.throw unreachable_msg
      | .Fixed | .Cast => do
          let a ← M.at_index args i
          eq_congr_second_pass E ctx rel args r_args kinds (i + 1) i_eq (App proof a)
            (binding_body type) (subst ++ [a])
      | .FixedNoParam =>
          eq_congr_second_pass E ctx rel args r_args kinds (i + 1) i_eq proof type subst
      | .Eq => do
          let a ← M.at_index args i
          let r ← M.at_index r_args i_eq
          let r_arg := finalize E ctx rel r
          eq_congr_second_pass E ctx rel args r_args kinds (i + 1) (i_eq + 1)
            (App (App (App proof a) r_arg.new) r_arg.get_proof)
            (binding_body (binding_body (binding_body type)))
            (subst ++ [a, r_arg.new, r_arg.get_proof])

/-- The method `try_auto_eq_congr`. -/
def try_auto_eq_congr (E : env σ τ) (vis : visit_type σ) (e : expr) :
    M σ (Option simp_result) := do
  let args := get_app_args e
  let f := get_app_fn e
  let s ← M.get
  match E.mk_specialized_congr_simp s.ctx e with
  | none => pure none
  | some congr_lemma =>
      if congr_lemma.arg_kinds.length < args.length then pure none
      else do
        let p ← eq_congr_first_pass vis e args congr_lemma.arg_kinds 0 ⟨[], [], false, false, false⟩
        if !p.has_simplified then pure (some (simp_result.refl e))
        else if !p.has_proof then pure (some (simp_result.refl (mk_app f p.new_args)))
        else do
          let s1 ← M.get
          let b ← eq_congr_second_pass E s1.ctx s1.rel args p.r_args congr_lemma.arg_kinds 0 0
            congr_lemma.proof congr_lemma.type []
          let rhs := instantiate_rev (app_arg b.2.1) b.2.2
          if p.has_cast then do
            let e1 ← remove_unnecessary_casts E rhs
            pure (some ⟨e1, some b.1⟩)
          else pure (some ⟨rhs, some b.1⟩)

/-- The method `visit_fn`. -/
def visit_fn (E : env σ τ) (vis : visit_type σ) (e : expr) : M σ simp_result := do
  let r_f ← vis (get_app_fn e) (some e)
  congr_funs E r_f (get_app_args e)

/-- The method `visit_app`. -/
def visit_app (E : env σ τ) (vis : visit_type σ) (e0 : expr) : M σ simp_result := do
  let e ← (if should_defeq_canonize E then defeq_canonize_args_step E e0 else pure e0)
  let r_user ← try_user_congrs E vis e
  let s ← M.get
  if r_user.has_proof then
    if s.rel = get_eq_name then do
      let r ← visit_fn E vis r_user.new
      join E r_user r
    else pure r_user
  else if s.rel = get_eq_name then do
    match ← try_auto_eq_congr E vis e with
    | some r_args => do
        let r ← visit_fn E vis r_args.new
        join E r_args r
    | none => do
        let f := app_fn e
        let arg := app_arg e
        let r_f ← vis f (some e)
        if ← is_dependent_fn E f then
          if r_f.has_proof then congr_fun E r_f arg
          else pure (simp_result.refl (App r_f.new arg))
        else do
          let r_arg ← vis arg (some e)
          congr_fun_arg E r_f r_arg
  else pure (simp_result.refl e)

/-! ## Binder congruence (`simplify_ext_core_fn`) -/

/-- The unrolling `while (is_lambda(it))` of `visit_lambda`: the remaining body
(not yet instantiated) and the local constants. -/
def unroll_lambdas (E : env σ τ) (ctx : σ) : expr → List expr → expr × List expr
  | Lambda n d b, locals =>
      unroll_lambdas E ctx b (locals ++ [push_local E ctx locals n (instantiate_rev d locals)])
  | it, locals => (it, locals)

/-- The method `simplify_ext_core_fn::visit_lambda`. -/
def ext_visit_lambda (E : env σ τ) (vis : visit_type σ) (e : expr) : M σ simp_result := do
  let s ← M.get
  if s.rel ≠ get_eq_name || !E.use_axioms then pure (simp_result.refl e)
  else do
    let u := unroll_lambdas E s.ctx e []
    let it := instantiate_rev u.1 u.2
    let r ← vis it (some e)
    if r.new = it then pure (simp_result.refl e)
    else
      match r.proof with
      | none => pure (simp_result.refl (locals_mk_lambda u.2 r.new))
      | some pr0 => do
          let s1 ← M.get
          let pr := u.2.foldr (fun l pr => E.mk_funext s1.ctx (locals_mk_lambda [l] pr)) pr0
          pure ⟨locals_mk_lambda u.2 r.new, some pr⟩

/-- The unrolling `while (is_pi(it))` of `forall_congr`, which stops at a
propositional domain: the remaining term, the unrolled pis and the locals. -/
def unroll_foralls (E : env σ τ) (ctx : σ) :
    expr → List expr → List expr → expr × List expr × List expr
  | Pi n d b, pis, locals =>
      if E.is_prop ctx (instantiate_rev d locals) then (Pi n d b, pis, locals)
      else
        unroll_foralls E ctx b (pis ++ [Pi n d b])
          (locals ++ [push_local E ctx locals n (instantiate_rev d locals)])
  | it, pis, locals => (it, pis, locals)

/-- The proof loop of `forall_congr`, over the pis and locals from the last to
the first: it returns `R` and `Pr`. -/
def forall_congr_proof (E : env σ τ) (ctx : σ) (lemma_name : name) :
    List (expr × expr) → expr → expr → expr × expr
  | [], R, Pr => (R, Pr)
  | (pi, l) :: rest, R, Pr =>
      let A := binding_domain pi
      let A_lvl := E.get_level ctx (E.infer ctx l)
      let P := Lambda (binding_name pi) A (binding_body pi)
      let Q := Lambda (binding_name pi) A R
      let H := Lambda (binding_name pi) A Pr
      forall_congr_proof E ctx lemma_name rest (update_binding pi A R)
        (mk_app (Constant lemma_name [A_lvl]) [A, P, Q, H])

/-- The method `forall_congr`. -/
def forall_congr (E : env σ τ) (vis : visit_type σ) (e : expr) : M σ simp_result := do
  let s ← M.get
  let u := unroll_foralls E s.ctx e [] []
  let pis := u.2.1
  let ls := u.2.2
  let body := instantiate_rev u.1 ls
  let body_r ← vis body (some e)
  let s1 ← M.get
  let abst_new_body := abstract_locals body_r.new ls
  let lemma_name := if s1.rel = get_eq_name then get_forall_congr_eq_name else get_forall_congr_name
  match body_r.proof with
  | some pr =>
      let b := forall_congr_proof E s1.ctx lemma_name (pis.zip ls).reverse abst_new_body
        (abstract_locals pr ls)
      pure ⟨b.1, some b.2⟩
  | none =>
      if body_r.new = body then pure (simp_result.refl e)
      else
        pure (simp_result.refl
          (pis.reverse.foldl (fun R pi => update_binding pi (binding_domain pi) R) abst_new_body))

/-- The method `imp_congr`. -/
def imp_congr (E : env σ τ) (vis : visit_type σ) (e : expr) : M σ simp_result := do
  let a := binding_domain e
  let b := binding_body e
  let r_a ← vis a (some e)
  let s ← M.get
  if E.contextual then do
    let locals := [push_local E s.ctx [] "_h" r_a.new]
    let r_b ← flet_slss (add_to_slss E s.ctx s.slss locals) (freset_cache (vis b (some e)))
    let s1 ← M.get
    if r_a.new = a && r_b.new = b then pure (simp_result.refl e)
    else if !r_a.has_proof && !r_b.has_proof then
      pure (simp_result.refl (mk_arrow r_a.new r_b.new))
    else
      let fn := mk_constant
        (if s1.rel = get_eq_name then get_imp_congr_ctx_eq_name else get_imp_congr_ctx_name)
      let pr_a := (finalize E s1.ctx s1.rel r_a).get_proof
      let pr_b := locals_mk_lambda locals (finalize E s1.ctx s1.rel r_b).get_proof
      pure ⟨mk_arrow r_a.new r_b.new, some (mk_app fn [a, b, r_a.new, r_b.new, pr_a, pr_b])⟩
  else do
    let r_b ← vis b (some e)
    let s1 ← M.get
    if r_a.new = a && r_b.new = b then pure (simp_result.refl e)
    else if !r_a.has_proof && !r_b.has_proof then
      pure (simp_result.refl (mk_arrow r_a.new r_b.new))
    else
      let fn := mk_constant
        (if s1.rel = get_eq_name then get_imp_congr_eq_name else get_imp_congr_name)
      let pr_a := (finalize E s1.ctx s1.rel r_a).get_proof
      let pr_b := (finalize E s1.ctx s1.rel r_b).get_proof
      pure ⟨mk_arrow r_a.new r_b.new, some (mk_app fn [a, b, r_a.new, r_b.new, pr_a, pr_b])⟩

/-- The method `simplify_core_fn::visit_pi`. -/
def core_visit_pi (E : env σ τ) (vis : visit_type σ) (e : expr) : M σ simp_result :=
  try_user_congrs E vis e

/-- The method `simplify_ext_core_fn::visit_pi`. -/
def ext_visit_pi (E : env σ τ) (vis : visit_type σ) (e : expr) : M σ simp_result := do
  let s ← M.get
  if (s.rel = get_eq_name && E.use_axioms) || s.rel = get_iff_name then
    if E.is_prop s.ctx e then
      if !E.is_prop s.ctx (binding_domain e) then forall_congr E vis e
      else if is_arrow e then imp_congr E vis e
      else core_visit_pi E vis e
    else core_visit_pi E vis e
  else core_visit_pi E vis e

/-- The virtual method `visit_lambda`: `simplify_core_fn::visit_lambda` returns
`simp_result(e)`, the three derived classes use the override. -/
def visit_lambda (E : env σ τ) (vis : visit_type σ) (e : expr) : M σ simp_result :=
  match E.cls with
  | .simplify_core_fn => pure (simp_result.refl e)
  | _ => ext_visit_lambda E vis e

/-- The virtual method `visit_pi`. -/
def visit_pi (E : env σ τ) (vis : visit_type σ) (e : expr) : M σ simp_result :=
  match E.cls with
  | .simplify_core_fn => core_visit_pi E vis e
  | _ => ext_visit_pi E vis e

/-- The virtual method `visit_let`: both `simplify_core_fn::visit_let` and the
override `simplify_ext_core_fn::visit_let` return `simp_result(e)`. -/
def visit_let (E : env σ τ) (e : expr) : M σ simp_result :=
  match E.cls with
  | .simplify_core_fn => pure (simp_result.refl e)
  | _ => pure (simp_result.refl e)

/-! ## The visitor -/

/-- The `switch` on the kind of the current term in the loop of `visit`. -/
def visit_step (E : env σ τ) (vis : visit_type σ) (curr_result : simp_result) : M σ simp_result :=
  match curr_result.new.kind with
  | .Local | .Meta | expr_kind.Sort | .Constant | .Macro => pure curr_result
  | .Var => M.throw unreachable_msg
  | .Lambda => do
      let r ← visit_lambda E vis curr_result.new
      join E curr_result r
  | .Pi => do
      let r ← visit_pi E vis curr_result.new
      join E curr_result r
  | .App => do
      let r ← visit_app E vis curr_result.new
      join E curr_result r
  | .Let => do
      let r ← visit_let E curr_result.new
      join E curr_result r

/-- The loop `while (true)` of `visit`; the first argument bounds the number of
iterations.  It returns the value of `curr_result` at the `break`. -/
def visit_loop (E : env σ τ) (vis : visit_type σ) (parent : Option expr) :
    Nat → simp_result → M σ simp_result
  | 0, _ => fun _ => .out_of_fuel
  | n + 1, curr_result => do
      let new_result ← visit_step E vis curr_result
      match ← post E new_result.new parent with
      | some (r2, false) => join E new_result r2
      | some (r2, true) =>
          if r2.new = curr_result.new then pure curr_result
          else do
            let c ← join E new_result r2
            visit_loop E vis parent n c
      | none => pure new_result

/-- The block `if (m_lift_eq && m_rel != get_eq_name())` of `visit`. -/
def visit_lift (E : env σ τ) (vis : visit_type σ) (parent : Option expr)
    (curr_result : simp_result) : M σ simp_result := do
  let s ← M.get
  if E.lift_eq && s.rel ≠ get_eq_name then do
    let eq_result ← flet_rel get_eq_name (freset_cache (vis curr_result.new parent))
    if eq_result.new ≠ curr_result.new then do
      let l ← lift_from_eq E eq_result
      let c ← join E curr_result l
      let r ← vis c.new parent
      join E c r
    else pure curr_result
  else pure curr_result

/-- The statement `m_cache.insert(mk_pair(e, r))`. -/
def cache_store (e : expr) (r : simp_result) : M σ Unit :=
  M.modify (fun s => { s with cache := cache_insert s.cache e r })

/-- The method `visit` after the step counter has been bumped and checked:
cache lookup, `pre`, the loop, relation lifting and memoization. -/
def visit_cached (E : env σ τ) (vis : visit_type σ) (n : Nat) (e : expr) (parent : Option expr) :
    M σ simp_result := do
  let s ← M.get
  match cache_find s.cache e with
  | some r => pure r
  | none =>
      match ← pre E e parent with
      | some (r1, false) => do
          cache_store e r1
          pure r1
      | r1 => do
          let curr0 := match r1 with
            | some (r, _) => r
            | none => simp_result.refl e
          let curr1 ← visit_loop E vis parent n curr0
          let curr2 ← visit_lift E vis parent curr1
          cache_store e curr2
          pure curr2

/-- The body of the method `visit`, with the recursive calls `vis` and the
bound `n` on the iterations of its loop. -/
def visit_body (E : env σ τ) (vis : visit_type σ) (n : Nat) (e : expr) (parent : Option expr) :
    M σ simp_result := do
  inc_num_steps E
  visit_cached E vis n e parent

/-- The method `visit`.  The fuel bounds the depth of the recursion and the
number of iterations of each loop. -/
def visit (E : env σ τ) : Nat → visit_type σ
  | 0 => fun _ _ _ => .out_of_fuel
  | n + 1 => visit_body E (visit E n) (n + 1)

/-- The loop `while (true)` of `operator()`. -/
def simplify_loop (E : env σ τ) (fuel : Nat) : Nat → simp_result → M σ simp_result
  | 0, _ => fun _ => .out_of_fuel
  | n + 1, r => do
      M.modify (fun s => { s with need_restart := false })
      let v ← visit E fuel r.new none
      let r1 ← join E r v
      let s ← M.get
      if !s.need_restart || !should_defeq_canonize E then pure r1
      else do
        M.modify (fun s => { s with cache := [] })
        simplify_loop E fuel n r1

/-- The method `simplify_core_fn::operator()(rel, e)`. -/
def simplify (E : env σ τ) (fuel : Nat) (rel : name) (e : expr) : M σ simp_result := do
  M.modify (fun s => { s with rel := rel, cache := [] })
  simplify_loop E fuel fuel (simp_result.refl e)

/-- The test `is_relation(…, rrel, lhs, rhs) && is_refl_relation(…, rrel) &&
m_ctx.is_def_eq(lhs, rhs)` of `prove_by_simp`: the relation and the left-hand
side when it holds. -/
def refl_instance (E : env σ τ) (ctx : σ) (e : expr) : Option (name × expr) :=
  match E.is_relation e with
  | some (rrel, lhs, rhs) =>
      if E.is_refl_relation rrel && E.is_def_eq ctx lhs rhs then some (rrel, lhs) else none
  | none => none

/-- The method `simplify_core_fn::prove_by_simp(rel, e)`. -/
def prove_by_simp (E : env σ τ) (fuel : Nat) (rel : name) (e : expr) : M σ (Option expr) := do
  let r ← simplify E fuel rel e
  let mpr := if rel = get_eq_name then get_eq_mpr_name else get_iff_mpr_name
  let s ← M.get
  match refl_instance E s.ctx r.new with
  | some (rrel, lhs) =>
      if r.has_proof then
        pure (some (E.mk_app_builder s.ctx mpr [r.get_proof, E.mk_refl s.ctx rrel lhs]))
      else pure (some (E.mk_refl s.ctx rrel lhs))
  | none =>
      if E.is_true r.new then
        if r.has_proof then
          pure (some (E.mk_app_builder s.ctx mpr [r.get_proof, E.mk_true_intro]))
        else pure (some E.mk_true_intro)
      else pure none

/-! ## Entry points -/

/-- The state of a newly constructed simplifier object. -/
def initial_state (ctx : σ) (slss : simp_lemmas) : state σ :=
  { ctx := ctx, rel := "", slss := slss, cache := [], num_steps := 0, need_restart := false }

/-- The outcome of a tactic. -/
inductive tactic_result (α : Type) where
  | success (a : α)
  | exception (msg : String)
  | out_of_bounds
  | out_of_fuel

def nothing_to_simplify_msg : String := "simplify tactic failed to simplify"

/-- The entry point `tactic_simplify_core`, which runs a `simplify_fn`; on
success the pair of the new term and the proof. -/
def tactic_simplify_core (E : env σ τ) (fuel : Nat) (ctx : σ) (slss : simp_lemmas) (rel : name)
    (e : expr) : tactic_result (expr × expr) :=
  let F := { E with cls := simp_class.simplify_fn }
  match simplify F fuel rel e (initial_state ctx slss) with
  | .ok result s =>
      if result.new ≠ e then
        let r := finalize F s.ctx rel result
        .success (r.new, r.get_proof)
      else .exception nothing_to_simplify_msg
  | .exception msg => .exception msg
  | .out_of_bounds => .out_of_bounds
  | .out_of_fuel => .out_of_fuel

/-- The entry point `ext_simplify_core`, which runs a `vm_simplify_fn`; the
accumulator is part of `ctx`.  On success the final accumulator, the new term
and the proof. -/
def ext_simplify_core (E : env σ τ) (fuel : Nat) (ctx : σ) (slss : simp_lemmas) (rel : name)
    (e : expr) : tactic_result (σ × expr × expr) :=
  let F := { E with cls := simp_class.vm_simplify_fn }
  match simplify F fuel rel e (initial_state ctx slss) with
  | .ok p s =>
      if p.new ≠ e then
        let r := finalize F s.ctx rel p
        .success (s.ctx, r.new, r.get_proof)
      else .exception nothing_to_simplify_msg
  | .exception msg => .exception msg
  | .out_of_bounds => .out_of_bounds
  | .out_of_fuel => .out_of_fuel

/-! ## Sample collaborators

Concrete collaborators, used to run the simplifier on concrete inputs. -/

/-- An empty lemma index. -/
def empty_slss : simp_lemmas := ⟨fun _ => none⟩

/-- The index with the rewrite lemmas `srs`, for every relation and term. -/
def slss_of (srs : List simp_lemma) : simp_lemmas :=
  ⟨fun _ => some ⟨fun _ => some srs, fun _ => none⟩⟩

/-- A closed rewrite lemma `lhs = rhs` with proof `pf`. -/
def closed_lemma (lhs rhs pf : expr) (perm is_refl : Bool) : simp_lemma :=
  { id := "h", num_umeta := 0, num_emeta := 0, emetas := [], instances := [], lhs := lhs,
    rhs := rhs, proof := pf, is_permutation := perm, is_refl := is_refl, congr_hyps := [] }

/-- Collaborators for the core simplifier: the unifier is syntactic equality,
nothing is a proposition, no congruence lemma is synthesized, the term order
compares sizes, the hooks report no result, and proofs are built as
applications of named constants. -/
def sample_env (σ : Type) : env σ Unit where
  cls := simp_class.simplify_core_fn
  max_steps := 100
  contextual := false
  lift_eq := false
  canonize_instances := false
  canonize_proofs := false
  use_axioms := false
  infer := fun _ _ => expr.Sort 0
  relaxed_whnf := fun _ e => e
  is_prop := fun _ _ => false
  is_def_eq := fun _ a b => a == b
  mk_class_instance := fun _ _ => none
  reduce_projection := fun _ _ => none
  get_level := fun _ _ => 0
  fresh_name := fun _ _ n => n
  tmp_type_context := fun _ _ _ => ()
  tmp_is_def_eq := fun t a b => (a == b, t)
  tmp_infer := fun _ _ => expr.Sort 0
  tmp_instantiate_mvars := fun _ e => e
  tmp_is_eassigned := fun _ _ => true
  tmp_is_uassigned := fun _ _ => true
  tmp_assign := fun t _ _ => t
  is_eqp := fun _ _ => false
  is_lt := fun a b => decide (expr_size a < expr_size b)
  add := fun _ _ _ _ _ => none
  is_simp_relation := fun _ => none
  is_relation := fun _ => none
  is_refl_relation := fun _ => false
  is_true := fun _ => false
  mk_true_intro := Constant "true.intro" []
  mk_specialized_congr_simp := fun _ _ => none
  get_specialized_subsingleton_info := fun _ _ => []
  get_fun_info := fun _ _ _ => []
  defeq_canonize := fun c e => (e, false, c)
  mk_refl := fun _ rel e => mk_app (Constant "refl" []) [Constant rel [], e]
  mk_trans := fun _ rel p1 p2 => mk_app (Constant "trans" []) [Constant rel [], p1, p2]
  lift_from_eq := fun _ rel pr => mk_app (Constant "lift_from_eq" []) [Constant rel [], pr]
  mk_congr := fun _ p1 p2 => mk_app (Constant "congr" []) [p1, p2]
  mk_congr_fun := fun _ p a => mk_app (Constant "congr_fun" []) [p, a]
  mk_congr_arg := fun _ f p => mk_app (Constant "congr_arg" []) [f, p]
  mk_funext := fun _ p => mk_app (Constant "funext" []) [p]
  mk_app_builder := fun _ n args => mk_app (Constant n []) args
  vm_pre := fun _ _ _ _ _ => none
  vm_post := fun _ _ _ _ _ => none
  vm_prove := fun _ _ => none

/-- The constants `a`, `b`, `c`, `f` and a proof constant. -/
def const_a : expr := Constant "a" []
def const_b : expr := Constant "b" []
def const_c : expr := Constant "c" []
def const_f : expr := Constant "f" []
def const_pf : expr := Constant "pf" []

/-- The plain simplifier over the sample collaborators. -/
def plain_env : env Unit Unit := { sample_env Unit with cls := simp_class.simplify_fn }

/-- The plain simplifier with a projection reduction: `prod.fst (prod.mk u v)`
reduces to `u`. -/
def projection_env : env Unit Unit :=
  { plain_env with
    reduce_projection := fun _ x =>
      match x with
      | App (Constant "prod.fst" _) (App (App (Constant "prod.mk" _) u) _) => some u
      | _ => none }

/-- The term `prod.fst (prod.mk a b)`. -/
def fst_pair : expr :=
  App (Constant "prod.fst" []) (App (App (Constant "prod.mk" []) const_a) const_b)

/-- The proposition `True`. -/
def const_true : expr := Constant "true" []

/-- The plain simplifier with contextual hypotheses: everything is a
proposition, the type of a local constant is the one it carries, and adding
the hypothesis `h : P` to a lemma set gives the rewrite lemma `P ↔ true` with
proof `iff_true_intro h`. -/
def contextual_env : env Unit Unit :=
  { plain_env with
    contextual := true
    is_prop := fun _ _ => true
    infer := fun _ x =>
      match x with
      | Local _ t => t
      | _ => expr.Sort 0
    add := fun _ _ _ type pr =>
      some (slss_of [closed_lemma type const_true (App (Constant "iff_true_intro" []) pr)
        false false]) }

/-- The script-driven simplifier whose `pre` callback returns its input term
with a proof and asks to stop. -/
def pre_proof_env : env Unit Unit :=
  { sample_env Unit with
    cls := simp_class.vm_simplify_fn
    vm_pre := fun c _ _ _ e => some (c, ⟨e, some const_pf⟩, false) }

/-- The script-driven simplifier with a `post` callback that counts its calls
in the accumulator: the first call rewrites `a` to `b`, the second call `b` to
`a`, each with a proof, and later calls report nothing. -/
def round_trip_env : env Nat Unit :=
  { sample_env Nat with
    cls := simp_class.vm_simplify_fn
    vm_post := fun c _ _ _ e =>
      if c = 0 ∧ e = const_a then some (1, ⟨const_b, some (Constant "p1" [])⟩, true)
      else if c = 1 ∧ e = const_b then some (2, ⟨const_a, some (Constant "p2" [])⟩, true)
      else none }

/-- The script-driven simplifier with a `post` callback that rewrites `c` to
`f c` on its first call and reports nothing afterwards; the synthesized
congruence lemma of an application has one `Eq` argument. -/
def once_env : env Nat Unit :=
  { sample_env Nat with
    cls := simp_class.vm_simplify_fn
    mk_specialized_congr_simp := fun _ _ =>
      some ⟨Constant "congr_type" [], Constant "congr_proof" [], [congr_arg_kind.Eq]⟩
    vm_post := fun c _ _ _ e =>
      if c = 0 ∧ e = const_c then some (1, ⟨App const_f const_c, some const_pf⟩, true)
      else none }

/-- The state in which `once_env` starts a run under `eq`. -/
def once_state : state Nat := { initial_state 0 empty_slss with rel := "eq" }

/-- The plain simplifier that recognizes the constant `true` as `True`. -/
def true_env : env Unit Unit := { plain_env with is_true := fun e => e == const_true }

/-- The script-driven simplifier in which no metavariable is assigned, there
is no class instance, every type is a proposition and the `prove` callback
succeeds with the proof `pf`. -/
def instance_env : env Unit Unit :=
  { sample_env Unit with
    cls := simp_class.vm_simplify_fn
    is_prop := fun _ _ => true
    tmp_is_eassigned := fun _ _ => false
    vm_prove := fun c _ => some (c, const_pf) }

/-- The script-driven simplifier whose `pre` callback returns `b` for `a` with
the boolean `flag`, and whose `post` callback rewrites `b` to `c` with a proof
and the boolean `false`. -/
def flag_env (flag : Bool) : env Unit Unit :=
  { sample_env Unit with
    cls := simp_class.vm_simplify_fn
    vm_pre := fun c _ _ _ e => if e = const_a then some (c, ⟨const_b, none⟩, flag) else none
    vm_post := fun c _ _ _ e =>
      if e = const_b then some (c, ⟨const_c, some const_pf⟩, false) else none }

/-- The script-driven simplifier with a synthesized congruence lemma that has
one `Eq` argument and a `post` callback that rewrites `a` to `b` (boolean
`false`) and answers `f b` with the boolean `true`: with `f a` when `back` is
set, with `f b` itself otherwise. -/
def back_env (back : Bool) : env Unit Unit :=
  { sample_env Unit with
    cls := simp_class.vm_simplify_fn
    mk_specialized_congr_simp := fun _ _ =>
      some ⟨Constant "congr_type" [], Constant "congr_proof" [], [congr_arg_kind.Eq]⟩
    vm_post := fun c _ _ _ e =>
      if e = const_a then some (c, ⟨const_b, none⟩, false)
      else if e = App const_f const_b then
        some (c, ⟨if back then App const_f const_a else App const_f const_b, some const_pf⟩, true)
      else none }

/-- The state in which the sample simplifiers over `Unit` start a run under
`eq`. -/
def eq_state : state Unit := { initial_state () empty_slss with rel := "eq" }

/-- The script-driven simplifier with relation lifting, no reflexive relation,
and a `post` callback that counts in the accumulator its calls under `eq` and
leaves every term as it is. -/
def lift_env : env Nat Unit :=
  { sample_env Nat with
    cls := simp_class.vm_simplify_fn
    lift_eq := true
    vm_post := fun c _ rel _ e => if rel = "eq" then some (c + 1, ⟨e, none⟩, false) else none }

/-- The cast `eq.rec A x C a x (eq.refl A x)` of the constant `a`. -/
def cast_a : expr :=
  mk_app (Constant "eq.rec" [])
    [Constant "A" [], Constant "x" [], Constant "C" [], const_a, Constant "x" [],
      mk_app (Constant "eq.refl" []) [Constant "A" [], Constant "x" []]]

/-- The plain simplifier in which the synthesized congruence lemma of an
application has one `Cast` argument and the first parameter of every function
is a subsingleton. -/
def cast_env : env Unit Unit :=
  { plain_env with
    mk_specialized_congr_simp := fun _ x =>
      match x with
      | App _ _ => some ⟨Constant "congr_type" [], Constant "congr_proof" [], [congr_arg_kind.Cast]⟩
      | _ => none
    get_specialized_subsingleton_info := fun _ _ => [true] }

/-- The lemma index with the two rewrite lemmas `a = b` and `b = a`. -/
def flip_slss : simp_lemmas :=
  slss_of [closed_lemma const_a const_b (Constant "p1" []) false false,
    closed_lemma const_b const_a (Constant "p2" []) false false]

/-- The state of the plain simplifier with the lemmas `a = b` and `b = a` when
the loop of the first `visit` is entered, under the relation `rel`. -/
def flip_state (rel : name) : state Unit :=
  { initial_state () flip_slss with rel := rel, num_steps := 1 }

/-! ## Reasoning about methods -/

/-- The outcomes that are not a normal return. -/
inductive failure where
  | exception (msg : String)
  | out_of_bounds
  | out_of_fuel

/-- Weakest precondition: started in `s`, the method `m` returns normally with a
value and state that satisfy `Q`, or fails with an outcome allowed by `F`. -/
def wp {α : Type} (F : failure → Prop) (m : M σ α) (Q : α → state σ → Prop) (s : state σ) :
    Prop :=
  match m s with
  | .ok a s1 => Q a s1
  | .exception msg => F (.exception msg)
  | .out_of_bounds => F .out_of_bounds
  | .out_of_fuel => F .out_of_fuel

/-- Every failure is allowed: partial correctness. -/
def any_failure : failure → Prop := fun _ => True

/-- Only the step-budget error is allowed. -/
def budget_only : failure → Prop := fun f => f = .exception max_steps_msg

/-! ## Notions used to state the claims -/

/-- The candidates are tried one after the other, from state `s` to state
`s1`, and none of them fires: every attempt returns `simp_result(e)` for the
object `e` itself, or a term that is the object `e`. -/
def no_candidate_fires (E : env σ τ) (e : expr) : List simp_lemma → state σ → state σ → Prop
  | [], s, s1 => s1 = s
  | sl :: srs, s, s1 =>
      ∃ a s2, rewrite_lemma E e sl s = .ok a s2 ∧ (∀ r, a = some r → E.is_eqp r.new e = true) ∧
        no_candidate_fires E e srs s2 s1

/-- The kinds for which the loop of `visit` has no structural descent. -/
def no_descent_kind (k : expr_kind) : Bool :=
  k == expr_kind.Local || k == expr_kind.Meta || k == expr_kind.Sort ||
    k == expr_kind.Constant || k == expr_kind.Macro || k == expr_kind.Let

/-- Every entry of the cache is the identity: a term is mapped to itself with
no proof. -/
def cache_identity (c : simplify_cache) : Prop :=
  ∀ k v, cache_find c k = some v → v = simp_result.refl k

/-- The lemma index has no entry for any relation. -/
def no_lemmas (slss : simp_lemmas) : Prop := ∀ rel, slss.find rel = none

/-- The state of a run with an empty lemma index in the type context `c`
under the relation `R`. -/
def identity_inv (c : σ) (R : name) (s : state σ) : Prop :=
  s.ctx = c ∧ s.rel = R ∧ no_lemmas s.slss ∧ cache_identity s.cache

/-- The terms on which `visit` can be invoked during the visit of `e` in the
type context `c` when no term is changed: `e` itself, the function and the
argument of an application, the instantiated body of the unrolled lambdas, the
instantiated body of the pis that `forall_congr` unrolls when the domain is not
a proposition, and the two sides of an arrow. -/
inductive reached (E : env σ τ) (c : σ) (e : expr) : expr → Prop where
  | root : reached E c e e
  | app_fn (f a : expr) : reached E c e (App f a) → reached E c e f
  | app_arg (f a : expr) : reached E c e (App f a) → reached E c e a
  | lambda_body (n : name) (d b : expr) : reached E c e (Lambda n d b) →
      reached E c e (instantiate_rev (unroll_lambdas E c (Lambda n d b) []).1
        (unroll_lambdas E c (Lambda n d b) []).2)
  | forall_body (n : name) (d b : expr) : reached E c e (Pi n d b) →
      E.is_prop c d = false →
      reached E c e (instantiate_rev (unroll_foralls E c (Pi n d b) [] []).1
        (unroll_foralls E c (Pi n d b) [] []).2.2)
  | arrow_domain (n : name) (d b : expr) : reached E c e (Pi n d b) →
      is_arrow (Pi n d b) = true → reached E c e d
  | arrow_body (n : name) (d b : expr) : reached E c e (Pi n d b) →
      is_arrow (Pi n d b) = true → reached E c e b

/-- The contract of the congruence-lemma synthesizer for the term `x` in the
type context `c`: a lemma for `f a₁ … aₙ` has at most `n` argument kinds and
none of them is `HEq`. -/
def congr_simp_ok (E : env σ τ) (c : σ) (x : expr) : Prop :=
  ∀ cl, E.mk_specialized_congr_simp c x = some cl →
    cl.arg_kinds.length ≤ (get_app_args x).length ∧ congr_arg_kind.HEq ∉ cl.arg_kinds

/-- The plain simplifier `simplify_fn` with canonicalization disabled and
without contextual hypotheses. -/
structure identity_setting (E : env σ τ) : Prop where
  cls : E.cls = simp_class.simplify_fn
  canonize_instances : E.canonize_instances = false
  canonize_proofs : E.canonize_proofs = false
  contextual : E.contextual = false

/-- On every term reached from `e` in the type context `c`, the projection
reduction of the `pre` hook does not fire and the congruence-lemma synthesizer
keeps its contract. -/
structure identity_scope (E : env σ τ) (c : σ) (e : expr) : Prop where
  reduce_projection : ∀ x, reached E c e x → E.reduce_projection c x = none
  congr : ∀ x, reached E c e x → congr_simp_ok E c x

/-- A call of `visit` on a closed term that is reached from `e0` and smaller
than `bound`, under the relation `R`, returns the term itself with no proof or
raises the step-budget error. -/
def visits_identity (E : env σ τ) (vis : visit_type σ) (c : σ) (e0 : expr) (R : name)
    (bound : Nat) : Prop :=
  ∀ x p s, reached E c e0 x → closed x = true → expr_size x < bound → identity_inv c R s →
    wp budget_only (vis x p) (fun r s1 => r = simp_result.refl x ∧ identity_inv c R s1) s

/-- The fuel `n` is enough to visit `e` under the relation `rel`. -/
def fuel_ok (rel : name) (e : expr) (n : Nat) : Prop :=
  (rel = get_eq_name ∧ expr_size e ≤ n) ∨ 2 * expr_size e ≤ n

/-- The instance step of the discharge is passed with the temporary context
`tmp1`: the metavariable is not instance-flagged, or class-instance synthesis
returns a value and the metavariable unifies with it. -/
def instance_step_passed (E : env σ τ) (tmp_ctx : τ) (mvar mvar_type : expr) (is_instance : Bool)
    (s : state σ) (tmp1 : τ) : Prop :=
  (is_instance = false ∧ tmp1 = tmp_ctx) ∨
  (is_instance = true ∧ ∃ v, E.mk_class_instance s.ctx mvar_type = some v ∧
    (E.tmp_is_def_eq tmp_ctx mvar v).1 = true ∧ tmp1 = (E.tmp_is_def_eq tmp_ctx mvar v).2)

/-- The condition for the discharge of the metavariable `mvar` with index `i`
and instance flag `is_instance`, in the temporary context `tmp_ctx` and the
state `s`: its instantiated type contains no metavariable, and it is already
assigned, or it is instance-flagged, synthesis returns `v` and the unification
with `v` succeeds and leaves it assigned, or it has passed the instance step
unassigned, its type is a proposition and `prove` succeeds. -/
def emeta_discharged (E : env σ τ) (tmp_ctx : τ) (i : Nat) (mvar : expr) (is_instance : Bool)
    (s : state σ) : Prop :=
  has_metavar (E.tmp_instantiate_mvars tmp_ctx (E.tmp_infer tmp_ctx mvar)) = false ∧
  (E.tmp_is_eassigned tmp_ctx i = true ∨
    (is_instance = true ∧
      ∃ v, E.mk_class_instance s.ctx
          (E.tmp_instantiate_mvars tmp_ctx (E.tmp_infer tmp_ctx mvar)) = some v ∧
        (E.tmp_is_def_eq tmp_ctx mvar v).1 = true ∧
        E.tmp_is_eassigned (E.tmp_is_def_eq tmp_ctx mvar v).2 i = true) ∨
    (∃ tmp1, instance_step_passed E tmp_ctx mvar
        (E.tmp_instantiate_mvars tmp_ctx (E.tmp_infer tmp_ctx mvar)) is_instance s tmp1 ∧
      E.tmp_is_eassigned tmp1 i = false ∧
      E.is_prop s.ctx (E.tmp_instantiate_mvars tmp_ctx (E.tmp_infer tmp_ctx mvar)) = true ∧
      ∃ pf s1, prove E (E.tmp_instantiate_mvars tmp_ctx (E.tmp_infer tmp_ctx mvar)) s =
        .ok (some pf) s1))

/-- The condition holds for every metavariable in list order, the `k`-th entry
having index `num_emeta - 1 - k`, each in the context that the discharge of the
entries before it has produced. -/
def emetas_discharged (E : env σ τ) (num_emeta : Nat) :
    Nat → List expr → List Bool → τ → state σ → Prop
  | k, mvar :: emetas, is_instance :: instances, tmp_ctx, s =>
      emeta_discharged E tmp_ctx (num_emeta - 1 - k) mvar is_instance s ∧
      ∀ tmp1 s1,
        instantiate_emeta E tmp_ctx (num_emeta - 1 - k) mvar is_instance s = .ok (some tmp1) s1 →
        emetas_discharged E num_emeta (k + 1) emetas instances tmp1 s1
  | _, _, _, _, _ => True

/-! ## Frames and invariants

`only_ctx` is the frame of the methods that do not call `visit`.  `stable`
and `sat` serve a traversal of all methods for an invariant `Inv` of the state
and, when the flag `b` is set, the property that results carry no proof. -/

/-- The method `m` changes no member other than the type context and the
restart flag. -/
def only_ctx {α : Type} (m : M σ α) : Prop :=
  ∀ s, wp any_failure m
    (fun _ s1 => s1 = { s with ctx := s1.ctx, need_restart := s1.need_restart }) s

/-- With the flag set: the result carries no proof. -/
def keeps (b : Bool) (r : simp_result) : Prop := b = true → r.proof = none

/-- What the traversal needs of an invariant. -/
structure stable (E : env σ τ) (b : Bool) (Inv : state σ → Prop) : Prop where
  set_ctx : ∀ s c x, Inv s → Inv { s with ctx := c, need_restart := x }
  set_rel : ∀ s x, Inv s → Inv { s with rel := x }
  set_slss : ∀ s x, Inv s → Inv { s with slss := x }
  cache_clear : ∀ s, Inv s → Inv { s with cache := [] }
  cache_restore : ∀ s s1, Inv s → Inv s1 → Inv { s1 with cache := s.cache }
  cache_insert : ∀ s e r, Inv s → keeps b r → Inv { s with cache := cache_insert s.cache e r }
  cache_find : ∀ s e r, Inv s → cache_find s.cache e = some r → keeps b r

/-- The invariant survives the increment of the step counter that passes the
check of `inc_num_steps`. -/
def step_ok (E : env σ τ) (Inv : state σ → Prop) : Prop :=
  ∀ s, Inv s → (s.num_steps + 1) % 4294967296 ≤ E.max_steps →
    Inv { s with num_steps := s.num_steps + 1 }

/-- Started in a state with the invariant, a normal return of `m` has the
invariant again and its value satisfies `P`. -/
def sat {α : Type} (Inv : state σ → Prop) (m : M σ α) (P : α → Prop) : Prop :=
  ∀ s, Inv s → wp any_failure m (fun a s1 => Inv s1 ∧ P a) s

/-- With the flag set: no call of the hooks `pre` and `post` returns a proof. -/
def hooks_keep (E : env σ τ) (b : Bool) : Prop :=
  b = true → ∀ (e : expr) (p : Option expr) (s s1 : state σ) (r : simp_result) (c : Bool),
    (pre E e p s = .ok (some (r, c)) s1 ∨ post E e p s = .ok (some (r, c)) s1) →
    r.proof = none

/-- Every outcome but the exhaustion of the fuel is allowed: the method
terminates. -/
def fuel_free : failure → Prop := fun f => f ≠ .out_of_fuel

/-- The method `m` does not run out of fuel. -/
def no_fuel {α : Type} (m : M σ α) : Prop := ∀ s, wp fuel_free m (fun _ _ => True) s

/-- Started in a state with the invariant, `m` does not run out of fuel, and a
normal return has the invariant again and a value that satisfies `P`. -/
def tsat {α : Type} (Inv : state σ → Prop) (m : M σ α) (P : α → Prop) : Prop :=
  ∀ s, Inv s → wp fuel_free m (fun a s1 => Inv s1 ∧ P a) s

/-- The hook `post` never asks to continue: no call returns the flag `true`. -/
def post_stops (E : env σ τ) : Prop :=
  ∀ (x : expr) (p : Option expr) (s s1 : state σ) (r : simp_result),
    post E x p s ≠ .ok (some (r, true)) s1

/-! ## Notions and sample data for congruence, canonicalization and binders -/

/-- The arguments at the `Eq` positions of the argument kinds, left to right. -/
def eq_kinded_args : List congr_arg_kind → List expr → List expr
  | k :: ks, a :: as => if k = congr_arg_kind.Eq then a :: eq_kinded_args ks as else eq_kinded_args ks as
  | _, _ => []

/-- Visit the terms of a list with the parent `e`: each term once, left to
right. -/
def visit_each (vis : visit_type σ) (e : expr) : List expr → M σ (List simp_result)
  | [] => pure []
  | a :: as => do
      let r ← vis a (some e)
      let rs ← visit_each vis e as
      pure (r :: rs)

/-- The new arguments: an `Eq` position holds the new term of its result,
every other position keeps the original argument. -/
def merge_new_args : List congr_arg_kind → List expr → List simp_result → List expr
  | k :: ks, a :: as, rs =>
      if k = congr_arg_kind.Eq then
        match rs with
        | r :: rs1 => r.new :: merge_new_args ks as rs1
        | [] => a :: merge_new_args ks as []
      else a :: merge_new_args ks as rs
  | _, _, _ => []

/-- Some result has a new term that differs from the term it was computed
for. -/
def some_changed : List expr → List simp_result → Bool
  | a :: as, r :: rs => decide (r.new ≠ a) || some_changed as rs
  | _, _ => false

/-- The locals of the first pass of `try_auto_eq_congr` once the arguments
`as` with the kinds `kinds` have been processed with the results `rs` for the
`Eq` arguments. -/
def pass_after (p : eq_congr_pass) (kinds : List congr_arg_kind) (as : List expr)
    (rs : List simp_result) : eq_congr_pass :=
  { r_args := p.r_args ++ rs
    new_args := p.new_args ++ merge_new_args kinds as rs
    has_proof := p.has_proof || rs.any simp_result.has_proof
    has_cast := p.has_cast || kinds.contains congr_arg_kind.Cast
    has_simplified := p.has_simplified || some_changed (eq_kinded_args kinds as) rs }

/-- The core simplifier over a type context that logs terms, in which the
synthesized congruence lemma of every term has the argument kinds `Fixed`,
`Eq`, `Cast`, `Eq`. -/
def kinds_env : env (List expr) Unit :=
  { sample_env (List expr) with
    mk_specialized_congr_simp := fun _ _ =>
      some ⟨Constant "congr_type" [], Constant "congr_proof" [],
        [congr_arg_kind.Fixed, congr_arg_kind.Eq, congr_arg_kind.Cast, congr_arg_kind.Eq]⟩ }

/-- A visitor that logs the term it is called on in the type context and
rewrites `a` to `b` without a proof. -/
def log_visit : visit_type (List expr) := fun x _ s =>
  .ok (if x = const_a then ⟨const_b, none⟩ else simp_result.refl x) { s with ctx := s.ctx ++ [x] }

/-- The state in which the logging simplifiers start a run under `eq`. -/
def log_state : state (List expr) := { initial_state [] empty_slss with rel := "eq" }

/-- The logging core simplifier in which every function has the non-dependent
type `Sort 0 → Sort 0`. -/
def arrow_env : env (List expr) Unit :=
  { sample_env (List expr) with infer := fun _ _ => mk_arrow (expr.Sort 0) (expr.Sort 0) }

/-- The term is an application of `eq.rec`, `eq.drec` or `eq.nrec`. -/
def is_cast_app (a : expr) : Bool :=
  is_constant (get_app_fn a) && is_cast_name (const_name (get_app_fn a))

/-- The term is an application of `eq.rec`, `eq.drec` or `eq.nrec` whose major
premise (the sixth argument) is headed by `eq.refl`. -/
def is_refl_cast (a : expr) : Bool :=
  is_cast_app a &&
    match (get_app_args a).get? 5 with
    | some major_premise =>
        is_constant (get_app_fn major_premise) &&
          const_name (get_app_fn major_premise) == get_eq_refl_name
    | none => false

/-- Replace, at most `n` times, a cast whose major premise is headed by
`eq.refl` by its underlying value, the fourth argument. -/
def elide_casts : Nat → expr → expr
  | 0, a => a
  | n + 1, a =>
      if is_refl_cast a then
        match (get_app_args a).get? 3 with
        | some v => elide_casts n v
        | none => a
      else a

/-- The term obtained from `a` by repeatedly replacing a cast whose major
premise is headed by `eq.refl` by its underlying value, until the term is no
longer such a cast.  Every step yields a proper subterm, so the size of `a`
bounds the number of steps. -/
def strip_casts (a : expr) : expr := elide_casts (expr_size a) a

/-- Every cast met in the first `n` steps of the replacement has six
arguments. -/
def casts_have_six : Nat → expr → Bool
  | 0, _ => true
  | n + 1, a =>
      if is_cast_app a then
        decide ((get_app_args a).length = 6) &&
          (if is_refl_cast a then
            match (get_app_args a).get? 3 with
            | some v => casts_have_six n v
            | none => true
          else true)
      else true

/-- Every cast met when the casts of `a` are replaced has six arguments. -/
def cast_arity_ok (a : expr) : Bool := casts_have_six (expr_size a) a

/-- The arguments after cast elision: a flagged position holds the stripped
argument, every other position the original argument. -/
def elide_flagged : List Bool → List expr → List expr
  | b :: bs, a :: as => (if b then strip_casts a else a) :: elide_flagged bs as
  | _, as => as

/-- The test of `defeq_canonize_args_step` for one parameter. -/
def canonize_flag (E : env σ τ) (pinfo : param_info) : Bool :=
  (E.canonize_instances && pinfo.is_inst_implicit) || (E.canonize_proofs && pinfo.is_prop)

/-- Canonicalization of the flagged arguments, left to right: the canonizer is
called on the arguments at the flagged positions and on no other term; the
type context and the restart flag are threaded through the calls. -/
def canonize_flagged (E : env σ τ) : List param_info → List expr → σ → Bool →
    List expr × σ × Bool
  | pinfo :: infos, a :: as, ctx, restart =>
      if canonize_flag E pinfo then
        ((E.defeq_canonize ctx a).1 ::
            (canonize_flagged E infos as (E.defeq_canonize ctx a).2.2
              (restart || (E.defeq_canonize ctx a).2.1)).1,
          (canonize_flagged E infos as (E.defeq_canonize ctx a).2.2
            (restart || (E.defeq_canonize ctx a).2.1)).2)
      else (a :: (canonize_flagged E infos as ctx restart).1,
        (canonize_flagged E infos as ctx restart).2)
  | _, as, ctx, restart => (as, ctx, restart)

/-- The simplifier `E` with the canonizer `c` in place of its own. -/
def with_canonizer (E : env σ τ) (c : σ → expr → expr × Bool × σ) : env σ τ :=
  { E with defeq_canonize := c }

/-- The logging core simplifier with canonicalization of instances: the second
of three parameters is instance-implicit, the third is a proposition, and the
canonizer logs its argument and maps `a` to `b`. -/
def canon_env : env (List expr) Unit :=
  { sample_env (List expr) with
    canonize_instances := true
    get_fun_info := fun _ _ _ => [⟨false, false⟩, ⟨true, false⟩, ⟨false, true⟩]
    defeq_canonize := fun ctx x => (if x = const_a then const_b else x, false, ctx ++ [x]) }

/-- The plain simplifier in which the type of a metavariable is the one it
carries and a simplification relation is a binary application of a constant. -/
def congr_env : env Unit Unit :=
  { plain_env with
    tmp_infer := fun _ x =>
      match x with
      | Meta _ t => t
      | _ => expr.Sort 0
    is_simp_relation := fun t =>
      match t with
      | App (App (Constant r ls) lhs) rhs => some (Constant r ls, lhs, rhs)
      | _ => none }

/-- The congruence lemma `f_congr : (h : a ↔ ?rhs) → (f a ↔ f ?rhs)` for the
term `f a`. -/
def f_congr : simp_lemma :=
  { id := "f_congr", num_umeta := 0, num_emeta := 2,
    emetas := [], instances := [],
    lhs := App const_f const_a,
    rhs := App const_f (Meta "rhs" (expr.Sort 0)),
    proof := App (Constant "f_congr" [])
      (Meta "h" (App (App (Constant "iff" []) const_a) (Meta "rhs" (expr.Sort 0)))),
    is_permutation := false, is_refl := false,
    congr_hyps := [Meta "h" (App (App (Constant "iff" []) const_a) (Meta "rhs" (expr.Sort 0)))] }

/-- The index with the rewrite lemmas `srs` for every relation and term, and
the congruence lemma `f_congr` for the term `f a`. -/
def congr_slss (srs : List simp_lemma) : simp_lemmas :=
  ⟨fun _ => some ⟨fun _ => some srs,
    fun x => if x = App const_f const_a then some [f_congr] else none⟩⟩

/-- The state of a run under `iff` with the lemmas of `congr_slss srs`. -/
def congr_state (srs : List simp_lemma) : state Unit :=
  { initial_state () (congr_slss srs) with rel := "iff" }

/-- The rewrite lemma `a = b` that holds by reflexivity: it rewrites `a` to
`b` without a proof. -/
def refl_lemma : simp_lemma := closed_lemma const_a const_b const_pf false true

/-- The body `R` under the binders `pis`, the first binder outermost: every
binder keeps its name and its domain. -/
def rebind : List expr → expr → expr
  | [], R => R
  | pi :: pis, R => update_binding pi (binding_domain pi) (rebind pis R)

/-- The proof that `forall_congr` builds for the binders `pis` with their
local constants, the first binder outermost, from the abstracted new body `R`
and the abstracted proof `Pr`: one combinator `lemma_name` per binder. -/
def forall_congr_chain (E : env σ τ) (ctx : σ) (lemma_name : name) :
    List (expr × expr) → expr → expr → expr
  | [], _, Pr => Pr
  | (pi, l) :: rest, R, Pr =>
      mk_app (Constant lemma_name [E.get_level ctx (E.infer ctx l)])
        [binding_domain pi,
          Lambda (binding_name pi) (binding_domain pi) (binding_body pi),
          Lambda (binding_name pi) (binding_domain pi) (rebind (rest.map Prod.fst) R),
          Lambda (binding_name pi) (binding_domain pi)
            (forall_congr_chain E ctx lemma_name rest R Pr)]

/-- The proposition `∀ x : A, p`. -/
def forall_p : expr := Pi "x" (Constant "A" []) (Constant "p" [])

/-- The plain simplifier with the use of axioms enabled. -/
def propext_env : env Unit Unit := { plain_env with use_axioms := true }

/-- The index with the single rewrite lemma `a ↔ b`, for the relation `iff`. -/
def iff_slss : simp_lemmas :=
  ⟨fun rel =>
    if rel = "iff" then
      some ⟨fun _ => some [closed_lemma const_a const_b const_pf false false], fun _ => none⟩
    else none⟩

/-- The state of a run under `eq` with the lemma `a ↔ b`. -/
def iff_state : state Unit := { initial_state () iff_slss with rel := "eq" }

/-- The core simplifier with canonicalization of instances over a type context
that counts the calls of the canonizer: every function has one
instance-implicit parameter, and the canonizer leaves its argument as it is and
raises the restart flag on its first call only. -/
def restart_env : env Nat Unit :=
  { sample_env Nat with
    canonize_instances := true
    get_fun_info := fun _ _ _ => [⟨true, false⟩]
    defeq_canonize := fun c x => (x, c == 0, c + 1) }

/-- The unification of `rewrite(t, sl)` in the state `s` is a syntactic match:
when it succeeds, the left-hand side is instantiated to the term `t` itself. -/
def syntactic_match (E : env σ τ) (sl : simp_lemma) (t : expr) (s : state σ) : Prop :=
  ∀ tmp_ctx s1, rewrite_unify E t sl s = .ok (some tmp_ctx) s1 →
    E.tmp_instantiate_mvars tmp_ctx sl.lhs = t

/-- Unfolding of the constant `J`, a reducible abbreviation of the constant
`I`. -/
def unfold_abbrev : expr → expr
  | Constant n ls => if n = "J" then Constant "I" ls else Constant n ls
  | App f a => App (unfold_abbrev f) (unfold_abbrev a)
  | e => e

/-- The rank of a constant in the sample term order: `J < a < b < I`. -/
def const_rank (n : name) : Nat :=
  if n = "J" then 0 else if n = "a" then 1 else if n = "b" then 2 else if n = "I" then 3 else 4

/-- The ranks of the constants of a term, from left to right. -/
def expr_code : expr → List Nat
  | Constant n _ => [const_rank n]
  | App f a => expr_code f ++ expr_code a
  | _ => [5]

/-- The strict lexicographic order on lists of ranks. -/
def lex_lt : List Nat → List Nat → Bool
  | [], [] => false
  | [], _ :: _ => true
  | _ :: _, [] => false
  | x :: xs, y :: ys => if x < y then true else if y < x then false else lex_lt xs ys

/-- Collaborators with a unifier up to definitional equality: two terms unify
when they are equal after the abbreviation `J` is unfolded to `I`; the term
order is lexicographic in the ranks of the constants. -/
def defeq_env : env Unit Unit :=
  { sample_env Unit with
    tmp_is_def_eq := fun t a b => (unfold_abbrev a == unfold_abbrev b, t)
    is_lt := fun a b => lex_lt (expr_code a) (expr_code b) }

/-- The term `add i x y`. -/
def add_app (i x y : expr) : expr := mk_app (Constant "add" []) [i, x, y]

/-- The instance `add I b a = add I a b` of commutativity, flagged as a
permutation lemma. -/
def comm_lemma : simp_lemma :=
  closed_lemma (add_app (Constant "I" []) const_b const_a)
    (add_app (Constant "I" []) const_a const_b) const_pf true false

/-- The lemma `k I = k J`, flagged as a permutation lemma. -/
def fold_lemma : simp_lemma :=
  closed_lemma (App (Constant "k" []) (Constant "I" [])) (App (Constant "k" []) (Constant "J" []))
    const_pf true false

/-- The type of the hooks `pre` and `post`. -/
abbrev hook_type (σ : Type) : Type := expr → Option expr → M σ (Option (simp_result × Bool))

/-- The error with which an observed run stops when a hook returns a proof. -/
def hook_proof_msg : String := "a hook returned a result with a proof"

/-- The hook `h` under observation: its result is passed on as it is, except
that a result with a proof stops the run with `hook_proof_msg`. -/
def proofless (h : hook_type σ) : hook_type σ := fun e parent => do
  match ← h e parent with
  | some (r, c) => if r.has_proof then M.throw hook_proof_msg else pure (some (r, c))
  | none => pure none

/-- The loop of `visit` with the hook `h_post` in the place of `post`. -/
def visit_loop_with (h_post : hook_type σ) (E : env σ τ) (vis : visit_type σ)
    (parent : Option expr) : Nat → simp_result → M σ simp_result
  | 0, _ => fun _ => .out_of_fuel
  | n + 1, curr_result => do
      let new_result ← visit_step E vis curr_result
      match ← h_post new_result.new parent with
      | some (r2, false) => join E new_result r2
      | some (r2, true) =>
          if r2.new = curr_result.new then pure curr_result
          else do
            let c ← join E new_result r2
            visit_loop_with h_post E vis parent n c
      | none => pure new_result

/-- The method `visit` after the step counter, with the hooks `h_pre` and
`h_post` in the place of `pre` and `post`. -/
def visit_cached_with (h_pre h_post : hook_type σ) (E : env σ τ) (vis : visit_type σ) (n : Nat)
    (e : expr) (parent : Option expr) : M σ simp_result := do
  let s ← M.get
  match cache_find s.cache e with
  | some r => pure r
  | none =>
      match ← h_pre e parent with
      | some (r1, false) => do
          cache_store e r1
          pure r1
      | r1 => do
          let curr0 := match r1 with
            | some (r, _) => r
            | none => simp_result.refl e
          let curr1 ← visit_loop_with h_post E vis parent n curr0
          let curr2 ← visit_lift E vis parent curr1
          cache_store e curr2
          pure curr2

/-- The body of `visit` with the hooks `h_pre` and `h_post` in the place of
`pre` and `post`. -/
def visit_body_with (h_pre h_post : hook_type σ) (E : env σ τ) (vis : visit_type σ) (n : Nat)
    (e : expr) (parent : Option expr) : M σ simp_result := do
  inc_num_steps E
  visit_cached_with h_pre h_post E vis n e parent

/-- The method `visit` with the hooks `h_pre` and `h_post` in the place of
`pre` and `post`. -/
def visit_with (h_pre h_post : hook_type σ) (E : env σ τ) : Nat → visit_type σ
  | 0 => fun _ _ _ => .out_of_fuel
  | n + 1 => visit_body_with h_pre h_post E (visit_with h_pre h_post E n) (n + 1)

/-- The loop of `operator()` with the hooks `h_pre` and `h_post` in the place
of `pre` and `post`. -/
def simplify_loop_with (h_pre h_post : hook_type σ) (E : env σ τ) (fuel : Nat) :
    Nat → simp_result → M σ simp_result
  | 0, _ => fun _ => .out_of_fuel
  | n + 1, r => do
      M.modify (fun s => { s with need_restart := false })
      let v ← visit_with h_pre h_post E fuel r.new none
      let r1 ← join E r v
      let s ← M.get
      if !s.need_restart || !should_defeq_canonize E then pure r1
      else do
        M.modify (fun s => { s with cache := [] })
        simplify_loop_with h_pre h_post E fuel n r1

/-- The method `operator()(rel, e)` with the hooks `h_pre` and `h_post` in the
place of `pre` and `post`.  With `proofless (pre E)` and `proofless (post E)`
it is the observed run: it follows `operator()` and stops at the first call of
a hook that returns a proof. -/
def simplify_with (h_pre h_post : hook_type σ) (E : env σ τ) (fuel : Nat) (rel : name)
    (e : expr) : M σ simp_result := do
  M.modify (fun s => { s with rel := rel, cache := [] })
  simplify_loop_with h_pre h_post E fuel fuel (simp_result.refl e)

/-- The method `m1` stops with `hook_proof_msg` or does what `m` does. -/
def stops_or_agrees {α : Type} (m1 m : M σ α) : Prop :=
  ∀ s, m1 s = m s ∨ m1 s = .exception hook_proof_msg

/-- The core simplifier over the sample collaborators with the step budget
`2^32 - 1`, the largest value of an `unsigned` and the fallback of
`get_simplify_config`. -/
def unlimited_env : env Unit Unit := { sample_env Unit with max_steps := 4294967295 }

/-- The number `k` of successive calls of `operator()(rel, e)` on the same
simplifier object. -/
def simplify_times (E : env σ τ) (fuel : Nat) (rel : name) (e : expr) : Nat → M σ Unit
  | 0 => pure ()
  | k + 1 => do
      let _ ← simplify E fuel rel e
      simplify_times E fuel rel e k

/-! ## Running a method -/

theorem run_bind {α β : Type} (m : M σ α) (f : α → M σ β) (s : state σ) :
    (m >>= f) s =
      match m s with
      | .ok a s1 => f a s1
      | .exception msg => .exception msg
      | .out_of_bounds => .out_of_bounds
      | .out_of_fuel => .out_of_fuel := rfl

theorem run_pure {α : Type} (a : α) (s : state σ) : (pure a : M σ α) s = .ok a s := rfl

theorem run_get (s : state σ) : (M.get : M σ (state σ)) s = .ok s s := rfl

theorem run_modify (f : state σ → state σ) (s : state σ) : M.modify f s = .ok () (f s) := rfl

theorem run_throw {α : Type} (msg : String) (s : state σ) :
    (M.throw msg : M σ α) s = .exception msg := rfl

/-! ## Basic rules of the weakest precondition -/

theorem wp_bind {α β : Type} (F : failure → Prop) (m : M σ α) (f : α → M σ β)
    (Q : β → state σ → Prop) (s : state σ) :
    wp F (m >>= f) Q s = wp F m (fun a s1 => wp F (f a) Q s1) s := by
  show wp F (M.bind m f) Q s = _
  unfold wp M.bind
  cases h : m s <;> simp

theorem wp_pure {α : Type} (F : failure → Prop) (a : α) (Q : α → state σ → Prop) (s : state σ) :
    wp F (pure a : M σ α) Q s = Q a s := rfl

theorem wp_get (F : failure → Prop) (Q : state σ → state σ → Prop) (s : state σ) :
    wp F M.get Q s = Q s s := rfl

theorem wp_modify (F : failure → Prop) (f : state σ → state σ) (Q : Unit → state σ → Prop)
    (s : state σ) : wp F (M.modify f) Q s = Q () (f s) := rfl

theorem wp_throw {α : Type} (F : failure → Prop) (msg : String) (Q : α → state σ → Prop)
    (s : state σ) : wp F (M.throw msg : M σ α) Q s = F (.exception msg) := rfl

theorem wp_mono {α : Type} {F : failure → Prop} {m : M σ α} {Q Q1 : α → state σ → Prop}
    {s : state σ} (h : wp F m Q s) (hq : ∀ a s1, Q a s1 → Q1 a s1) : wp F m Q1 s := by
  unfold wp at *
  cases hm : m s <;> simp_all

theorem wp_any {α : Type} (m : M σ α) (s : state σ) : wp any_failure m (fun _ _ => True) s := by
  unfold wp any_failure
  cases m s <;> trivial

theorem wp_ok {α : Type} {F : failure → Prop} {m : M σ α} {Q : α → state σ → Prop}
    {s s1 : state σ} {a : α} (h : wp F m Q s) (hm : m s = .ok a s1) : Q a s1 := by
  unfold wp at h
  rw [hm] at h
  exact h

theorem wp_at_index {α : Type} (b : List α) (i : Nat) (Q : α → state σ → Prop) (s : state σ) :
    wp any_failure (M.at_index b i) Q s ↔ ∀ a, b.get? i = some a → Q a s := by
  unfold wp M.at_index
  cases h : b.get? i <;> simp [any_failure]

theorem wp_flet_rel {α : Type} (F : failure → Prop) (rel : name) (m : M σ α)
    (Q : α → state σ → Prop) (s : state σ) :
    wp F (flet_rel rel m) Q s =
      wp F m (fun a s1 => Q a { s1 with rel := s.rel }) { s with rel := rel } := by
  unfold wp flet_rel
  cases h : m { s with rel := rel } <;> simp

theorem wp_flet_slss {α : Type} (F : failure → Prop) (slss : simp_lemmas) (m : M σ α)
    (Q : α → state σ → Prop) (s : state σ) :
    wp F (flet_slss slss m) Q s =
      wp F m (fun a s1 => Q a { s1 with slss := s.slss }) { s with slss := slss } := by
  unfold wp flet_slss
  cases h : m { s with slss := slss } <;> simp

theorem wp_freset_cache {α : Type} (F : failure → Prop) (m : M σ α)
    (Q : α → state σ → Prop) (s : state σ) :
    wp F (freset_cache m) Q s =
      wp F m (fun a s1 => Q a { s1 with cache := s.cache }) { s with cache := [] } := by
  unfold wp freset_cache
  cases h : m { s with cache := [] } <;> simp

/-! ## Methods that only change the type context -/

theorem only_ctx_pure {α : Type} (a : α) : only_ctx (pure a : M σ α) := fun _ => rfl

theorem only_ctx_bind {α β : Type} {m : M σ α} {f : α → M σ β} (hm : only_ctx m)
    (hf : ∀ a, only_ctx (f a)) : only_ctx (m >>= f) := by
  intro s
  rw [wp_bind]
  refine wp_mono (hm s) ?_
  intro a s1 h1
  refine wp_mono (hf a s1) ?_
  intro b s2 h2
  rw [h2, h1]

theorem only_ctx_modify (f : state σ → state σ)
    (h : ∀ s, f s = { s with ctx := (f s).ctx, need_restart := (f s).need_restart }) :
    only_ctx (M.modify f) := fun s => h s

theorem only_ctx_throw {α : Type} (msg : String) : only_ctx (M.throw msg : M σ α) :=
  fun _ => trivial

theorem only_ctx_at_index {α : Type} (b : List α) (i : Nat) :
    only_ctx (M.at_index b i : M σ α) := by
  intro s
  rw [wp_at_index]
  intro a _
  rfl

theorem only_ctx_get : only_ctx (M.get : M σ (state σ)) := fun _ => rfl

theorem only_ctx_set_ctx (c : σ) : only_ctx (M.modify (fun s : state σ => { s with ctx := c })) :=
  fun _ => rfl

theorem vm_prove_only_ctx (E : env σ τ) (e : expr) : only_ctx (vm_prove E e) := by
  unfold vm_prove
  refine only_ctx_bind only_ctx_get (fun s => ?_)
  split
  · exact only_ctx_bind (only_ctx_set_ctx _) (fun _ => only_ctx_pure _)
  · exact only_ctx_pure _

theorem prove_only_ctx (E : env σ τ) (e : expr) : only_ctx (prove E e) := by
  unfold prove
  split
  · exact vm_prove_only_ctx E e
  · exact only_ctx_pure _

theorem instantiate_emeta_only_ctx (E : env σ τ) (tmp_ctx : τ) (i : Nat) (mvar : expr)
    (is_instance : Bool) : only_ctx (instantiate_emeta E tmp_ctx i mvar is_instance) := by
  unfold instantiate_emeta
  refine only_ctx_bind only_ctx_get (fun s => ?_)
  simp only []
  split
  · exact only_ctx_pure _
  · split
    · exact only_ctx_pure _
    · split
      · exact only_ctx_pure _
      · split
        · exact only_ctx_pure _
        · split
          · refine only_ctx_bind (prove_only_ctx E _) (fun o => ?_)
            split <;> exact only_ctx_pure _
          · exact only_ctx_pure _

theorem instantiate_emetas_loop_only_ctx (E : env σ τ) (emetas : List expr) :
    ∀ (instances : List Bool) (i : Nat) (tmp_ctx : τ),
      only_ctx (instantiate_emetas_loop E emetas instances i tmp_ctx) := by
  induction emetas with
  | nil =>
      intro instances i tmp_ctx
      unfold instantiate_emetas_loop
      exact only_ctx_pure _
  | cons mvar emetas ih =>
      intro instances i tmp_ctx
      cases instances with
      | nil =>
          unfold instantiate_emetas_loop
          exact only_ctx_pure _
      | cons b instances =>
          unfold instantiate_emetas_loop
          refine only_ctx_bind (instantiate_emeta_only_ctx E _ _ _ _) (fun o => ?_)
          split
          · exact ih _ _ _
          · exact only_ctx_pure _

theorem rewrite_unify_only_ctx (E : env σ τ) (e : expr) (sl : simp_lemma) :
    only_ctx (rewrite_unify E e sl) := by
  unfold rewrite_unify
  refine only_ctx_bind only_ctx_get (fun s => ?_)
  simp only []
  split
  · exact only_ctx_pure _
  · refine only_ctx_bind (instantiate_emetas_loop_only_ctx E _ _ _ _) (fun o => ?_)
    split
    · exact only_ctx_pure _
    · split <;> exact only_ctx_pure _

theorem rewrite_lemma_only_ctx (E : env σ τ) (e : expr) (sl : simp_lemma) :
    only_ctx (rewrite_lemma E e sl) := by
  unfold rewrite_lemma
  refine only_ctx_bind (rewrite_unify_only_ctx E e sl) (fun o => ?_)
  split <;> exact only_ctx_pure _

theorem rewrite_loop_only_ctx (E : env σ τ) (e : expr) (srs : List simp_lemma) :
    only_ctx (rewrite_loop E e srs) := by
  induction srs with
  | nil =>
      unfold rewrite_loop
      exact only_ctx_pure _
  | cons sl srs ih =>
      unfold rewrite_loop
      refine only_ctx_bind (rewrite_lemma_only_ctx E e sl) (fun o => ?_)
      split
      · split
        · exact only_ctx_pure _
        · exact ih
      · exact ih

theorem rewrite_expr_only_ctx (E : env σ τ) (e : expr) : only_ctx (rewrite_expr E e) := by
  unfold rewrite_expr
  refine only_ctx_bind only_ctx_get (fun s => ?_)
  split
  · exact only_ctx_pure _
  · split
    · exact only_ctx_pure _
    · exact rewrite_loop_only_ctx E e _

theorem remove_casts_loop_only_ctx (n : Nat) :
    ∀ (a : expr) (modified : Bool), only_ctx (remove_casts_loop n a modified : M σ _) := by
  induction n with
  | zero =>
      intro a modified s
      trivial
  | succ n ih =>
      intro a modified
      unfold remove_casts_loop
      split
      · split
        · refine only_ctx_bind (only_ctx_at_index _ _) (fun mp => ?_)
          dsimp only
          split
          · exact only_ctx_bind (only_ctx_at_index _ _) (fun v => ih _ _)
          · exact only_ctx_pure _
        · exact only_ctx_pure _
      · exact only_ctx_pure _

theorem remove_casts_args_only_ctx (ss_infos : List Bool) :
    ∀ (i : Nat) (args : List expr) (modified : Bool),
      only_ctx (remove_casts_args ss_infos i args modified : M σ _) := by
  induction ss_infos with
  | nil =>
      intro i args modified
      unfold remove_casts_args
      exact only_ctx_pure _
  | cons b ss_infos ih =>
      intro i args modified
      unfold remove_casts_args
      split
      · refine only_ctx_bind (only_ctx_at_index _ _) (fun a => ?_)
        exact only_ctx_bind (remove_casts_loop_only_ctx _ _ _) (fun r => ih _ _ _)
      · exact ih _ _ _

theorem remove_unnecessary_casts_only_ctx (E : env σ τ) (e : expr) :
    only_ctx (remove_unnecessary_casts E e) := by
  unfold remove_unnecessary_casts
  refine only_ctx_bind only_ctx_get (fun s => ?_)
  exact only_ctx_bind (remove_casts_args_only_ctx _ _ _ _) (fun r => only_ctx_pure _)

theorem defeq_canonize_args_only_ctx (E : env σ τ) (infos : List param_info) :
    ∀ (i : Nat) (args : List expr) (modified : Bool),
      only_ctx (defeq_canonize_args E infos i args modified) := by
  induction infos with
  | nil =>
      intro i args modified
      unfold defeq_canonize_args
      exact only_ctx_pure _
  | cons pinfo infos ih =>
      intro i args modified
      unfold defeq_canonize_args
      split
      · refine only_ctx_bind (only_ctx_at_index _ _) (fun a => ?_)
        refine only_ctx_bind only_ctx_get (fun s => ?_)
        refine only_ctx_bind (only_ctx_modify _ (fun _ => rfl)) (fun _ => ?_)
        split
        · exact ih _ _ _
        · exact ih _ _ _
      · exact ih _ _ _

theorem defeq_canonize_args_step_only_ctx (E : env σ τ) (e : expr) :
    only_ctx (defeq_canonize_args_step E e) := by
  unfold defeq_canonize_args_step
  refine only_ctx_bind only_ctx_get (fun s => ?_)
  exact only_ctx_bind (defeq_canonize_args_only_ctx E _ _ _ _) (fun r => only_ctx_pure _)

theorem join_only_ctx (E : env σ τ) (r1 r2 : simp_result) : only_ctx (join E r1 r2) :=
  only_ctx_bind only_ctx_get (fun _ => only_ctx_pure _)

theorem invoke_fn_only_ctx
    (fn : σ → simp_lemmas → name → Option expr → expr → Option (σ × simp_result × Bool))
    (e : expr) (parent : Option expr) : only_ctx (invoke_fn fn e parent) := by
  unfold invoke_fn
  refine only_ctx_bind only_ctx_get (fun s => ?_)
  split
  · exact only_ctx_bind (only_ctx_modify _ (fun _ => rfl)) (fun _ => only_ctx_pure _)
  · exact only_ctx_pure _

theorem eq_congr_second_pass_only_ctx (E : env σ τ) (ctx : σ) (rel : name) (args : List expr)
    (r_args : List simp_result) (kinds : List congr_arg_kind) :
    ∀ (i i_eq : Nat) (proof type : expr) (subst : List expr),
      only_ctx (eq_congr_second_pass E ctx rel args r_args kinds i i_eq proof type subst) := by
  induction kinds with
  | nil =>
      intro i i_eq proof type subst
      unfold eq_congr_second_pass
      exact only_ctx_pure _
  | cons ckind kinds ih =>
      intro i i_eq proof type subst
      unfold eq_congr_second_pass
      split
      · exact only_ctx_throw _
      · exact only_ctx_bind (only_ctx_at_index _ _) (fun a => ih _ _ _ _ _)
      · exact only_ctx_bind (only_ctx_at_index _ _) (fun a => ih _ _ _ _ _)
      · exact ih _ _ _ _ _
      · refine only_ctx_bind (only_ctx_at_index _ _) (fun a => ?_)
        exact only_ctx_bind (only_ctx_at_index _ _) (fun r => ih _ _ _ _ _)

theorem assign_congr_proofs_only_ctx (E : env σ τ) (ctx : σ) (ms : List expr) :
    ∀ (ds : List congr_hyp_data) (tmp_ctx : τ),
      only_ctx (assign_congr_proofs E ctx ms ds tmp_ctx) := by
  induction ms with
  | nil =>
      intro ds tmp_ctx
      unfold assign_congr_proofs
      exact only_ctx_pure _
  | cons m ms ih =>
      intro ds tmp_ctx
      unfold assign_congr_proofs
      exact only_ctx_bind (only_ctx_at_index _ _) (fun d => ih _ _)

/-! ## Invariants of a run -/

theorem sat_pure {α : Type} {Inv : state σ → Prop} {P : α → Prop} {a : α} (h : P a) :
    sat Inv (pure a : M σ α) P := fun _ hs => ⟨hs, h⟩

theorem sat_bind {α β : Type} {Inv : state σ → Prop} {m : M σ α} {f : α → M σ β}
    {P : α → Prop} {Q : β → Prop} (hm : sat Inv m P) (hf : ∀ a, P a → sat Inv (f a) Q) :
    sat Inv (m >>= f) Q := by
  intro s hs
  rw [wp_bind]
  refine wp_mono (hm s hs) ?_
  intro a s1 h1
  exact hf a h1.2 s1 h1.1

theorem sat_mono {α : Type} {Inv : state σ → Prop} {m : M σ α} {P Q : α → Prop}
    (hm : sat Inv m P) (h : ∀ a, P a → Q a) : sat Inv m Q :=
  fun s hs => wp_mono (hm s hs) (fun a _ h1 => ⟨h1.1, h a h1.2⟩)

theorem sat_get {Inv : state σ → Prop} : sat Inv (M.get : M σ (state σ)) Inv :=
  fun _ hs => ⟨hs, hs⟩

theorem sat_throw {α : Type} {Inv : state σ → Prop} {P : α → Prop} (msg : String) :
    sat Inv (M.throw msg : M σ α) P := fun _ _ => trivial

theorem sat_at_index {α : Type} {Inv : state σ → Prop} (l : List α) (i : Nat) :
    sat Inv (M.at_index l i : M σ α) (fun a => l.get? i = some a) := by
  intro s hs
  rw [wp_at_index]
  exact fun a ha => ⟨hs, ha⟩

theorem sat_only_ctx {α : Type} {E : env σ τ} {b : Bool} {Inv : state σ → Prop}
    (hI : stable E b Inv) {m : M σ α} (hm : only_ctx m) : sat Inv m (fun _ => True) := by
  intro s hs
  refine wp_mono (hm s) ?_
  intro a s1 h1
  rw [h1]
  exact ⟨hI.set_ctx s _ _ hs, trivial⟩

theorem sat_flet_rel {α : Type} {E : env σ τ} {b : Bool} {Inv : state σ → Prop}
    (hI : stable E b Inv) {m : M σ α} {P : α → Prop} (rel : name) (hm : sat Inv m P) :
    sat Inv (flet_rel rel m) P := by
  intro s hs
  rw [wp_flet_rel]
  refine wp_mono (hm _ (hI.set_rel s rel hs)) ?_
  intro a s1 h1
  exact ⟨hI.set_rel s1 _ h1.1, h1.2⟩

theorem sat_flet_slss {α : Type} {E : env σ τ} {b : Bool} {Inv : state σ → Prop}
    (hI : stable E b Inv) {m : M σ α} {P : α → Prop} (slss : simp_lemmas) (hm : sat Inv m P) :
    sat Inv (flet_slss slss m) P := by
  intro s hs
  rw [wp_flet_slss]
  refine wp_mono (hm _ (hI.set_slss s slss hs)) ?_
  intro a s1 h1
  exact ⟨hI.set_slss s1 _ h1.1, h1.2⟩

theorem sat_freset_cache {α : Type} {E : env σ τ} {b : Bool} {Inv : state σ → Prop}
    (hI : stable E b Inv) {m : M σ α} {P : α → Prop} (hm : sat Inv m P) :
    sat Inv (freset_cache m) P := by
  intro s hs
  rw [wp_freset_cache]
  refine wp_mono (hm _ (hI.cache_clear s hs)) ?_
  intro a s1 h1
  exact ⟨hI.cache_restore s s1 hs h1.1, h1.2⟩

theorem keeps_refl (b : Bool) (e : expr) : keeps b (simp_result.refl e) := fun _ => rfl

theorem keeps_join (E : env σ τ) (b : Bool) (ctx : σ) (rel : name) {r1 r2 : simp_result}
    (h1 : keeps b r1) (h2 : keeps b r2) : keeps b (join_results E ctx rel r1 r2) := by
  intro hb
  unfold join_results
  rw [h1 hb]
  exact h2 hb

theorem sat_join {E : env σ τ} {b : Bool} {Inv : state σ → Prop} {r1 r2 : simp_result}
    (h1 : keeps b r1) (h2 : keeps b r2) : sat Inv (join E r1 r2) (keeps b) := by
  unfold join
  exact sat_bind sat_get (fun s _ => sat_pure (keeps_join E b _ _ h1 h2))

theorem sat_lift_from_eq {E : env σ τ} {b : Bool} {Inv : state σ → Prop} {r : simp_result}
    (h : keeps b r) : sat Inv (lift_from_eq E r) (keeps b) := by
  unfold lift_from_eq
  refine sat_bind sat_get (fun s _ => ?_)
  split
  · exact sat_pure h
  · rename_i pr hpr
    refine sat_pure (fun hb => ?_)
    rw [h hb] at hpr
    cases hpr

theorem sat_congr_funs {E : env σ τ} {b : Bool} {Inv : state σ → Prop} {r : simp_result}
    (args : List expr) (h : keeps b r) : sat Inv (congr_funs E r args) (keeps b) := by
  unfold congr_funs
  refine sat_bind sat_get (fun s _ => ?_)
  dsimp only
  split
  · exact sat_pure (keeps_refl _ _)
  · rename_i pr hpr
    refine sat_pure (fun hb => ?_)
    rw [h hb] at hpr
    cases hpr

theorem has_proof_of_keeps {b : Bool} {r : simp_result} (h : keeps b r) (hb : b = true) :
    r.has_proof = false := by
  unfold simp_result.has_proof
  rw [h hb]
  rfl

theorem sat_congr_fun_arg {E : env σ τ} {b : Bool} {Inv : state σ → Prop}
    {r_f r_arg : simp_result} (hf : keeps b r_f) (ha : keeps b r_arg) :
    sat Inv (congr_fun_arg E r_f r_arg) (keeps b) := by
  unfold congr_fun_arg
  split
  · exact sat_pure (keeps_refl _ _)
  · rename_i h1
    have hb : b ≠ true := by
      intro hb
      simp [has_proof_of_keeps hf hb, has_proof_of_keeps ha hb] at h1
    have hk : ∀ r : simp_result, keeps b r := fun r hb1 => absurd hb1 hb
    split
    · exact sat_bind sat_get (fun s _ => sat_pure (hk _))
    · split
      · exact sat_bind sat_get (fun s _ => sat_pure (hk _))
      · exact sat_bind sat_get (fun s _ => sat_pure (hk _))

theorem wp_and {α : Type} {F : failure → Prop} {m : M σ α} {Q1 Q2 : α → state σ → Prop}
    {s : state σ} (h1 : wp F m Q1 s) (h2 : wp F m Q2 s) :
    wp F m (fun a s1 => Q1 a s1 ∧ Q2 a s1) s := by
  unfold wp at *
  cases hm : m s <;> simp_all

theorem wp_self {α : Type} (m : M σ α) (s : state σ) :
    wp any_failure m (fun a s1 => m s = .ok a s1) s := by
  unfold wp
  cases hm : m s <;> simp [any_failure]

theorem only_ctx_flet_rel {α : Type} {m : M σ α} (rel : name) (hm : only_ctx m) :
    only_ctx (flet_rel rel m) := by
  intro s
  rw [wp_flet_rel]
  refine wp_mono (hm _) ?_
  intro a s1 h1
  rw [h1]

theorem propext_rewrite_only_ctx (E : env σ τ) (e : expr) : only_ctx (propext_rewrite E e) := by
  unfold propext_rewrite
  refine only_ctx_bind only_ctx_get (fun s => ?_)
  split
  · exact only_ctx_pure _
  · refine only_ctx_flet_rel _ ?_
    refine only_ctx_bind (rewrite_expr_only_ctx E e) (fun r => ?_)
    refine only_ctx_bind only_ctx_get (fun s1 => ?_)
    split <;> exact only_ctx_pure _

theorem pre_only_ctx (E : env σ τ) (e : expr) (parent : Option expr) :
    only_ctx (pre E e parent) := by
  unfold pre
  split
  · unfold simplify_fn_pre
    refine only_ctx_bind only_ctx_get (fun s => ?_)
    split <;> exact only_ctx_pure _
  · exact invoke_fn_only_ctx _ _ _
  · exact only_ctx_pure _

theorem post_only_ctx (E : env σ τ) (e : expr) (parent : Option expr) :
    only_ctx (post E e parent) := by
  unfold post
  split
  · unfold simplify_fn_post
    refine only_ctx_bind (rewrite_expr_only_ctx E e) (fun r => ?_)
    split
    · exact only_ctx_pure _
    · split
      · exact only_ctx_pure _
      · refine only_ctx_bind (propext_rewrite_only_ctx E e) (fun r => ?_)
        split <;> exact only_ctx_pure _
  · exact invoke_fn_only_ctx _ _ _
  · exact only_ctx_pure _

theorem sat_pre {E : env σ τ} {b : Bool} {Inv : state σ → Prop} (hI : stable E b Inv)
    (hH : hooks_keep E b) (e : expr) (p : Option expr) :
    sat Inv (pre E e p) (fun o => ∀ r c, o = some (r, c) → keeps b r) := by
  intro s hs
  refine wp_mono (wp_and (sat_only_ctx hI (pre_only_ctx E e p) s hs) (wp_self _ s)) ?_
  intro o s1 h
  refine ⟨h.1.1, ?_⟩
  intro r c ho hb
  rw [ho] at h
  exact hH hb e p s s1 r c (Or.inl h.2)

theorem sat_post {E : env σ τ} {b : Bool} {Inv : state σ → Prop} (hI : stable E b Inv)
    (hH : hooks_keep E b) (e : expr) (p : Option expr) :
    sat Inv (post E e p) (fun o => ∀ r c, o = some (r, c) → keeps b r) := by
  intro s hs
  refine wp_mono (wp_and (sat_only_ctx hI (post_only_ctx E e p) s hs) (wp_self _ s)) ?_
  intro o s1 h
  refine ⟨h.1.1, ?_⟩
  intro r c ho hb
  rw [ho] at h
  exact hH hb e p s s1 r c (Or.inr h.2)

section traversal

variable {E : env σ τ} {b : Bool} {Inv : state σ → Prop} {vis : visit_type σ}

theorem sat_congr_hyps_loop (hI : stable E b Inv) (ih : ∀ e p, sat Inv (vis e p) (keeps b))
    (e : expr) (ms : List expr) :
    ∀ (tmp_ctx : τ) (simplified : Bool) (acc : List congr_hyp_data),
      sat Inv (congr_hyps_loop E vis e ms tmp_ctx simplified acc)
        (fun h => b = true → h.2.1 = simplified) := by
  induction ms with
  | nil =>
      intro tmp_ctx simplified acc
      unfold congr_hyps_loop
      exact sat_pure (fun _ => rfl)
  | cons m ms ihm =>
      intro tmp_ctx simplified acc
      unfold congr_hyps_loop
      refine sat_bind sat_get (fun s _ => ?_)
      dsimp only
      refine sat_bind (P := keeps b) ?_ (fun r hr => ?_)
      · refine sat_flet_slss hI _ ?_
        split
        · exact sat_flet_rel hI _ (sat_freset_cache hI (ih _ _))
        · exact ih _ _
      · refine sat_mono (ihm _ _ _) ?_
        intro h hh hb
        rw [hh hb, has_proof_of_keeps hr hb]
        simp

theorem sat_try_user_congr (hI : stable E b Inv) (ih : ∀ e p, sat Inv (vis e p) (keeps b))
    (e : expr) (cl : simp_lemma) : sat Inv (try_user_congr E vis e cl) (keeps b) := by
  unfold try_user_congr
  refine sat_bind sat_get (fun s _ => ?_)
  dsimp only
  split
  · exact sat_pure (keeps_refl _ _)
  · refine sat_bind (sat_congr_hyps_loop hI ih e _ _ _ _) (fun h hh => ?_)
    split
    · exact sat_pure (keeps_refl _ _)
    · rename_i h1
      have hb : b ≠ true := by
        intro hb
        rw [hh hb] at h1
        simp at h1
      have hk : ∀ r : simp_result, keeps b r := fun r hb1 => absurd hb1 hb
      refine sat_bind sat_get (fun s1 _ => ?_)
      refine sat_bind (sat_only_ctx hI (assign_congr_proofs_only_ctx E _ _ _ _)) (fun t _ => ?_)
      refine sat_bind (sat_only_ctx hI (instantiate_emetas_loop_only_ctx E _ _ _ _)) (fun o _ => ?_)
      split
      · exact sat_pure (hk _)
      · split <;> exact sat_pure (hk _)

theorem sat_try_user_congrs (hI : stable E b Inv) (ih : ∀ e p, sat Inv (vis e p) (keeps b))
    (e : expr) : sat Inv (try_user_congrs E vis e) (keeps b) := by
  have hloop : ∀ cls : List simp_lemma, sat Inv (try_user_congrs_loop E vis e cls) (keeps b) := by
    intro cls
    induction cls with
    | nil =>
        unfold try_user_congrs_loop
        exact sat_pure (keeps_refl _ _)
    | cons cl cls ihc =>
        unfold try_user_congrs_loop
        refine sat_bind (sat_try_user_congr hI ih e cl) (fun r hr => ?_)
        split
        · exact sat_pure hr
        · exact ihc
  unfold try_user_congrs
  refine sat_bind sat_get (fun s _ => ?_)
  split
  · exact sat_pure (keeps_refl _ _)
  · split
    · exact sat_pure (keeps_refl _ _)
    · exact hloop _

theorem sat_eq_congr_first_pass (ih : ∀ e p, sat Inv (vis e p) (keeps b))
    (e : expr) (args : List expr) (kinds : List congr_arg_kind) :
    ∀ (i : Nat) (p : eq_congr_pass),
      sat Inv (eq_congr_first_pass vis e args kinds i p)
        (fun q => b = true → q.has_proof = p.has_proof) := by
  induction kinds with
  | nil =>
      intro i p
      unfold eq_congr_first_pass
      exact sat_pure (fun _ => rfl)
  | cons ckind kinds ihk =>
      intro i p
      unfold eq_congr_first_pass
      split
      · exact sat_throw _
      · exact sat_bind (sat_at_index _ _) (fun a _ => ihk _ _)
      · exact sat_bind (sat_at_index _ _) (fun a _ => ihk _ _)
      · refine sat_bind (sat_at_index _ _) (fun a _ => ?_)
        refine sat_bind (ih _ _) (fun r hr => ?_)
        refine sat_mono (ihk _ _) ?_
        intro q hq hb
        rw [hq hb, has_proof_of_keeps hr hb]
        simp
      · exact sat_bind (sat_at_index _ _) (fun a _ => ihk _ _)

theorem sat_try_auto_eq_congr (hI : stable E b Inv) (ih : ∀ e p, sat Inv (vis e p) (keeps b))
    (e : expr) :
    sat Inv (try_auto_eq_congr E vis e) (fun o => ∀ r, o = some r → keeps b r) := by
  unfold try_auto_eq_congr
  dsimp only
  refine sat_bind sat_get (fun s _ => ?_)
  split
  · exact sat_pure (fun r hr => by cases hr)
  · split
    · exact sat_pure (fun r hr => by cases hr)
    · refine sat_bind (sat_eq_congr_first_pass ih e _ _ _ _) (fun p hp => ?_)
      split
      · refine sat_pure (fun r hr => ?_)
        cases hr
        exact keeps_refl _ _
      · split
        · refine sat_pure (fun r hr => ?_)
          cases hr
          exact keeps_refl _ _
        · rename_i h1 h2
          have hb : b ≠ true := by
            intro hb
            rw [hp hb] at h2
            simp at h2
          have hk : ∀ r : simp_result, keeps b r := fun r hb1 => absurd hb1 hb
          refine sat_bind sat_get (fun s1 _ => ?_)
          refine sat_bind (sat_only_ctx hI (eq_congr_second_pass_only_ctx E _ _ _ _ _ _ _ _ _ _))
            (fun q _ => ?_)
          dsimp only
          split
          · refine sat_bind (sat_only_ctx hI (remove_unnecessary_casts_only_ctx E _)) (fun e1 _ => ?_)
            exact sat_pure (fun r _ => hk r)
          · exact sat_pure (fun r _ => hk r)

theorem sat_visit_fn (ih : ∀ e p, sat Inv (vis e p) (keeps b)) (e : expr) :
    sat Inv (visit_fn E vis e) (keeps b) := by
  unfold visit_fn
  exact sat_bind (ih _ _) (fun r hr => sat_congr_funs _ hr)

theorem sat_visit_app (hI : stable E b Inv) (ih : ∀ e p, sat Inv (vis e p) (keeps b))
    (e0 : expr) : sat Inv (visit_app E vis e0) (keeps b) := by
  unfold visit_app
  refine sat_bind (P := fun _ => True) ?_ (fun e _ => ?_)
  · split
    · exact sat_only_ctx hI (defeq_canonize_args_step_only_ctx E e0)
    · exact sat_pure trivial
  · refine sat_bind (sat_try_user_congrs hI ih e) (fun r_user hu => ?_)
    refine sat_bind sat_get (fun s _ => ?_)
    split
    · split
      · exact sat_bind (sat_visit_fn ih _) (fun r hr => sat_join hu hr)
      · exact sat_pure hu
    · split
      · refine sat_bind (sat_try_auto_eq_congr hI ih e) (fun o ho => ?_)
        split
        · rename_i r_args
          exact sat_bind (sat_visit_fn ih _) (fun r hr => sat_join (ho _ rfl) hr)
        · refine sat_bind (ih _ _) (fun r_f hf => ?_)
          refine sat_bind (Q := keeps b) (P := fun _ => True) ?_ (fun d _ => ?_)
          · unfold is_dependent_fn
            exact sat_bind sat_get (fun _ _ => sat_pure trivial)
          · split
            · split
              · rename_i h1
                refine sat_bind sat_get (fun _ _ => sat_pure (fun hb => ?_))
                rw [has_proof_of_keeps hf hb] at h1
                cases h1
              · exact sat_pure (keeps_refl _ _)
            · exact sat_bind (ih _ _) (fun r_arg ha => sat_congr_fun_arg hf ha)
      · exact sat_pure (keeps_refl _ _)

theorem sat_ext_visit_lambda (ih : ∀ e p, sat Inv (vis e p) (keeps b)) (e : expr) :
    sat Inv (ext_visit_lambda E vis e) (keeps b) := by
  unfold ext_visit_lambda
  refine sat_bind sat_get (fun s _ => ?_)
  split
  · exact sat_pure (keeps_refl _ _)
  · dsimp only
    refine sat_bind (ih _ _) (fun r hr => ?_)
    split
    · exact sat_pure (keeps_refl _ _)
    · split
      · exact sat_pure (keeps_refl _ _)
      · rename_i pr hpr
        refine sat_bind sat_get (fun s1 _ => sat_pure (fun hb => ?_))
        rw [hr hb] at hpr
        cases hpr

theorem sat_forall_congr (ih : ∀ e p, sat Inv (vis e p) (keeps b)) (e : expr) :
    sat Inv (forall_congr E vis e) (keeps b) := by
  unfold forall_congr
  refine sat_bind sat_get (fun s _ => ?_)
  dsimp only
  refine sat_bind (ih _ _) (fun r hr => ?_)
  refine sat_bind sat_get (fun s1 _ => ?_)
  split
  · rename_i pr hpr
    refine sat_pure (fun hb => ?_)
    rw [hr hb] at hpr
    cases hpr
  · split <;> exact sat_pure (keeps_refl _ _)

theorem sat_imp_congr (hI : stable E b Inv) (ih : ∀ e p, sat Inv (vis e p) (keeps b))
    (e : expr) : sat Inv (imp_congr E vis e) (keeps b) := by
  unfold imp_congr
  dsimp only
  refine sat_bind (ih _ _) (fun r_a ha => ?_)
  refine sat_bind sat_get (fun s _ => ?_)
  split
  · refine sat_bind (sat_flet_slss hI _ (sat_freset_cache hI (ih _ _))) (fun r_b hb1 => ?_)
    refine sat_bind sat_get (fun s1 _ => ?_)
    split
    · exact sat_pure (keeps_refl _ _)
    · split
      · exact sat_pure (keeps_refl _ _)
      · rename_i h1 h2
        refine sat_pure (fun hb => ?_)
        simp [has_proof_of_keeps ha hb, has_proof_of_keeps hb1 hb] at h2
  · refine sat_bind (ih _ _) (fun r_b hb1 => ?_)
    refine sat_bind sat_get (fun s1 _ => ?_)
    split
    · exact sat_pure (keeps_refl _ _)
    · split
      · exact sat_pure (keeps_refl _ _)
      · rename_i h1 h2
        refine sat_pure (fun hb => ?_)
        simp [has_proof_of_keeps ha hb, has_proof_of_keeps hb1 hb] at h2

theorem sat_visit_pi (hI : stable E b Inv) (ih : ∀ e p, sat Inv (vis e p) (keeps b))
    (e : expr) : sat Inv (visit_pi E vis e) (keeps b) := by
  have hc : sat Inv (core_visit_pi E vis e) (keeps b) := sat_try_user_congrs hI ih e
  unfold visit_pi
  split
  · exact hc
  · unfold ext_visit_pi
    refine sat_bind sat_get (fun s _ => ?_)
    split
    · split
      · split
        · exact sat_forall_congr ih e
        · split
          · exact sat_imp_congr hI ih e
          · exact hc
      · exact hc
    · exact hc

theorem sat_visit_lambda (ih : ∀ e p, sat Inv (vis e p) (keeps b)) (e : expr) :
    sat Inv (visit_lambda E vis e) (keeps b) := by
  unfold visit_lambda
  split
  · exact sat_pure (keeps_refl _ _)
  · exact sat_ext_visit_lambda ih e

theorem sat_visit_let (e : expr) : sat Inv (visit_let E e) (keeps b) := by
  unfold visit_let
  split <;> exact sat_pure (keeps_refl _ _)

theorem sat_visit_step (hI : stable E b Inv) (ih : ∀ e p, sat Inv (vis e p) (keeps b))
    (curr : simp_result) (hc : keeps b curr) : sat Inv (visit_step E vis curr) (keeps b) := by
  unfold visit_step
  split
  · exact sat_pure hc
  · exact sat_pure hc
  · exact sat_pure hc
  · exact sat_pure hc
  · exact sat_pure hc
  · exact sat_throw _
  · exact sat_bind (sat_visit_lambda ih _) (fun r hr => sat_join hc hr)
  · exact sat_bind (sat_visit_pi hI ih _) (fun r hr => sat_join hc hr)
  · exact sat_bind (sat_visit_app hI ih _) (fun r hr => sat_join hc hr)
  · exact sat_bind (sat_visit_let _) (fun r hr => sat_join hc hr)

theorem sat_visit_loop (hI : stable E b Inv) (hH : hooks_keep E b)
    (ih : ∀ e p, sat Inv (vis e p) (keeps b)) (parent : Option expr) (n : Nat) :
    ∀ curr : simp_result, keeps b curr → sat Inv (visit_loop E vis parent n curr) (keeps b) := by
  induction n with
  | zero =>
      intro curr _ s _
      trivial
  | succ n ihn =>
      intro curr hc
      unfold visit_loop
      refine sat_bind (sat_visit_step hI ih curr hc) (fun new_result hn => ?_)
      refine sat_bind (sat_post hI hH _ _) (fun o ho => ?_)
      split
      · exact sat_join hn (ho _ _ rfl)
      · split
        · exact sat_pure hc
        · exact sat_bind (sat_join hn (ho _ _ rfl)) (fun c hc1 => ihn c hc1)
      · exact sat_pure hn

theorem sat_visit_lift (hI : stable E b Inv) (ih : ∀ e p, sat Inv (vis e p) (keeps b))
    (parent : Option expr) (curr : simp_result) (hc : keeps b curr) :
    sat Inv (visit_lift E vis parent curr) (keeps b) := by
  unfold visit_lift
  refine sat_bind sat_get (fun s _ => ?_)
  split
  · refine sat_bind (sat_flet_rel hI _ (sat_freset_cache hI (ih _ _))) (fun eq_result he => ?_)
    split
    · refine sat_bind (sat_lift_from_eq he) (fun l hl => ?_)
      refine sat_bind (sat_join hc hl) (fun c hc1 => ?_)
      exact sat_bind (ih _ _) (fun r hr => sat_join hc1 hr)
    · exact sat_pure hc
  · exact sat_pure hc

theorem sat_inc_num_steps (hS : step_ok E Inv) : sat Inv (inc_num_steps E) (fun _ => True) := by
  intro s hs
  unfold inc_num_steps
  simp only [wp_bind, wp_modify, wp_get]
  split
  · trivial
  · rename_i h
    exact ⟨hS s hs (by simpa [counter_value] using h), trivial⟩

theorem sat_cache_store (hI : stable E b Inv) (e : expr) (r : simp_result) (hr : keeps b r) :
    sat Inv (cache_store e r) (fun _ => True) :=
  fun s hs => ⟨hI.cache_insert s e r hs hr, trivial⟩

theorem sat_visit_cached (hI : stable E b Inv) (hH : hooks_keep E b)
    (ih : ∀ e p, sat Inv (vis e p) (keeps b)) (n : Nat) (e : expr) (parent : Option expr) :
    sat Inv (visit_cached E vis n e parent) (keeps b) := by
  unfold visit_cached
  refine sat_bind sat_get (fun s hs => ?_)
  split
  · rename_i r hr
    exact sat_pure (hI.cache_find s e r hs hr)
  · refine sat_bind (sat_pre hI hH _ _) (fun o ho => ?_)
    have hrest : ∀ curr0 : simp_result, keeps b curr0 →
        sat Inv (do
          let curr1 ← visit_loop E vis parent n curr0
          let curr2 ← visit_lift E vis parent curr1
          cache_store e curr2
          pure curr2) (keeps b) := by
      intro curr0 h0
      refine sat_bind (sat_visit_loop hI hH ih parent n _ h0) (fun c1 h1 => ?_)
      refine sat_bind (sat_visit_lift hI ih parent c1 h1) (fun c2 h2 => ?_)
      exact sat_bind (sat_cache_store hI _ _ h2) (fun _ _ => sat_pure h2)
    rcases o with _ | ⟨r1, c⟩
    · exact hrest _ (keeps_refl _ _)
    · cases c
      · exact sat_bind (sat_cache_store hI _ _ (ho _ _ rfl)) (fun _ _ => sat_pure (ho _ _ rfl))
      · exact hrest _ (ho _ _ rfl)

theorem sat_visit_body (hI : stable E b Inv) (hS : step_ok E Inv) (hH : hooks_keep E b)
    (ih : ∀ e p, sat Inv (vis e p) (keeps b)) (n : Nat) (e : expr) (parent : Option expr) :
    sat Inv (visit_body E vis n e parent) (keeps b) :=
  sat_bind (sat_inc_num_steps hS) (fun _ _ => sat_visit_cached hI hH ih n e parent)

end traversal

/-- The invariant and the absence of proofs hold for every call of `visit`. -/
theorem sat_visit {E : env σ τ} {b : Bool} {Inv : state σ → Prop} (hI : stable E b Inv)
    (hS : step_ok E Inv) (hH : hooks_keep E b) (n : Nat) :
    ∀ (e : expr) (p : Option expr), sat Inv (visit E n e p) (keeps b) := by
  induction n with
  | zero =>
      intro e p s _
      trivial
  | succ n ih =>
      intro e p
      exact sat_visit_body hI hS hH ih (n + 1) e p

theorem sat_simplify_loop {E : env σ τ} {b : Bool} {Inv : state σ → Prop} (hI : stable E b Inv)
    (hS : step_ok E Inv) (hH : hooks_keep E b) (fuel : Nat) (n : Nat) :
    ∀ r : simp_result, keeps b r → sat Inv (simplify_loop E fuel n r) (keeps b) := by
  induction n with
  | zero =>
      intro r _ s _
      trivial
  | succ n ih =>
      intro r hr
      unfold simplify_loop
      refine sat_bind (P := fun _ => True) (fun s hs => ⟨hI.set_ctx s s.ctx false hs, trivial⟩)
        (fun _ _ => ?_)
      refine sat_bind (sat_visit hI hS hH fuel _ _) (fun v hv => ?_)
      refine sat_bind (sat_join hr hv) (fun r1 h1 => ?_)
      refine sat_bind sat_get (fun s _ => ?_)
      split
      · exact sat_pure h1
      · refine sat_bind (P := fun _ => True) (fun s hs => ⟨hI.cache_clear s hs, trivial⟩)
          (fun _ _ => ?_)
        exact ih r1 h1

theorem sat_simplify {E : env σ τ} {b : Bool} {Inv : state σ → Prop} (hI : stable E b Inv)
    (hS : step_ok E Inv) (hH : hooks_keep E b) (fuel : Nat) (rel : name) (e : expr) :
    sat Inv (simplify E fuel rel e) (keeps b) := by
  unfold simplify
  refine sat_bind (P := fun _ => True)
    (fun s hs => ⟨hI.cache_clear _ (hI.set_rel s rel hs), trivial⟩) (fun _ _ => ?_)
  exact sat_simplify_loop hI hS hH fuel fuel _ (keeps_refl _ _)

/-! ## Entry points (C1) -/

theorem finalize_spec (E : env σ τ) (c : σ) (rel : name) (r : simp_result) :
    (finalize E c rel r).new = r.new ∧
    (finalize E c rel r).proof = some (finalize E c rel r).get_proof := by
  unfold finalize simp_result.get_proof
  cases hp : r.proof <;> simp [hp]

/-- C1: when the simplifier run inside `tactic_simplify_core` (resp.
`ext_simplify_core`) returns a result, the entry point fails with "simplify
tactic failed to simplify" exactly when the result term is structurally equal
to `e`; otherwise it succeeds with the new term and the proof of the finalized
result, which is always present.  An exception of the run is passed on. -/
theorem C1_entry_points (E : env σ τ) (fuel : Nat) (ctx : σ) (slss : simp_lemmas) (rel : name)
    (e : expr) :
    (∀ r s,
      simplify { E with cls := simp_class.simplify_fn } fuel rel e (initial_state ctx slss) =
        .ok r s →
      (tactic_simplify_core E fuel ctx slss rel e = .exception nothing_to_simplify_msg ↔
        r.new = e) ∧
      (r.new ≠ e → ∃ pf,
        (finalize { E with cls := simp_class.simplify_fn } s.ctx rel r).proof = some pf ∧
        tactic_simplify_core E fuel ctx slss rel e = .success (r.new, pf))) ∧
    (∀ r s,
      simplify { E with cls := simp_class.vm_simplify_fn } fuel rel e (initial_state ctx slss) =
        .ok r s →
      (ext_simplify_core E fuel ctx slss rel e = .exception nothing_to_simplify_msg ↔
        r.new = e) ∧
      (r.new ≠ e → ∃ pf,
        (finalize { E with cls := simp_class.vm_simplify_fn } s.ctx rel r).proof = some pf ∧
        ext_simplify_core E fuel ctx slss rel e = .success (s.ctx, r.new, pf))) ∧
    (∀ msg,
      (simplify { E with cls := simp_class.simplify_fn } fuel rel e (initial_state ctx slss) =
        .exception msg → tactic_simplify_core E fuel ctx slss rel e = .exception msg) ∧
      (simplify { E with cls := simp_class.vm_simplify_fn } fuel rel e (initial_state ctx slss) =
        .exception msg → ext_simplify_core E fuel ctx slss rel e = .exception msg)) := by
  refine ⟨?_, ?_, ?_⟩
  · intro r s h
    refine ⟨?_, ?_⟩
    · unfold tactic_simplify_core
      simp only [h]
      by_cases hne : r.new = e <;> simp [hne]
    · intro hne
      refine ⟨_, (finalize_spec _ s.ctx rel r).2, ?_⟩
      unfold tactic_simplify_core
      simp only [h]
      simp [hne, (finalize_spec _ s.ctx rel r).1]
  · intro r s h
    refine ⟨?_, ?_⟩
    · unfold ext_simplify_core
      simp only [h]
      by_cases hne : r.new = e <;> simp [hne]
    · intro hne
      refine ⟨_, (finalize_spec _ s.ctx rel r).2, ?_⟩
      unfold ext_simplify_core
      simp only [h]
      simp [hne, (finalize_spec _ s.ctx rel r).1]
  · intro msg
    refine ⟨?_, ?_⟩
    · intro h
      unfold tactic_simplify_core
      simp only [h]
    · intro h
      unfold ext_simplify_core
      simp only [h]

/-- A run of C1: the lemma `a = b` with proof `pf` rewrites the constant `a`, so
the plain simplifier returns `(b, pf)` and the entry point does not fail with
"simplify tactic failed to simplify"; the script-driven simplifier, whose hooks
report nothing, returns `a` unchanged and the entry point fails. -/
theorem C1_entry_points_witness :
    (tactic_simplify_core (sample_env Unit) 3 ()
          (slss_of [closed_lemma const_a const_b const_pf false false]) "eq" const_a =
        .exception nothing_to_simplify_msg ↔ const_b = const_a) ∧
    (ext_simplify_core (sample_env Unit) 3 ()
          (slss_of [closed_lemma const_a const_b const_pf false false]) "eq" const_a =
        .exception nothing_to_simplify_msg ↔ const_a = const_a) :=
  ⟨((C1_entry_points (sample_env Unit) 3 ()
      (slss_of [closed_lemma const_a const_b const_pf false false]) "eq" const_a).1
      ⟨const_b, some const_pf⟩ _ rfl).1,
    ((C1_entry_points (sample_env Unit) 3 ()
      (slss_of [closed_lemma const_a const_b const_pf false false]) "eq" const_a).2.1
      (simp_result.refl const_a) _ rfl).1⟩

/-! ## Step budget (C2) -/

theorem hooks_keep_false (E : env σ τ) : hooks_keep E false := by
  intro h
  cases h

/-- The counter never decreases and never passes `max_steps` in a state that
is reached by a normal return. -/
theorem stable_counter (E : env σ τ) (k : Nat) :
    stable E false (fun x => k ≤ x.num_steps ∧ x.num_steps ≤ E.max_steps) where
  set_ctx := fun _ _ _ h => h
  set_rel := fun _ _ h => h
  set_slss := fun _ _ h => h
  cache_clear := fun _ h => h
  cache_restore := fun _ _ _ h => h
  cache_insert := fun _ _ _ h _ => h
  cache_find := fun _ _ _ _ _ hb => by cases hb

/-- Below `2^32 - 1` the 32-bit counter does not wrap around before the check
fails. -/
theorem step_counter (E : env σ τ) (hmax : E.max_steps < 4294967295) (k : Nat) :
    step_ok E (fun x => k ≤ x.num_steps ∧ x.num_steps ≤ E.max_steps) := by
  intro s h h1
  have h2 : (s.num_steps + 1) % 4294967296 = s.num_steps + 1 :=
    Nat.mod_eq_of_lt (by omega)
  rw [h2] at h1
  exact ⟨Nat.le_succ_of_le h.1, h1⟩

/-- The counter is left as it is. -/
theorem stable_count (E : env σ τ) (k : Nat) : stable E false (fun x => x.num_steps = k) where
  set_ctx := fun _ _ _ h => h
  set_rel := fun _ _ h => h
  set_slss := fun _ _ h => h
  cache_clear := fun _ h => h
  cache_restore := fun _ _ _ h => h
  cache_insert := fun _ _ _ h _ => h
  cache_find := fun _ _ _ _ _ hb => by cases hb

theorem visit_succ_eq (E : env σ τ) (n : Nat) (e : expr) (p : Option expr) (s : state σ) :
    visit E (n + 1) e p s =
      if E.max_steps < (s.num_steps + 1) % 4294967296 then .exception max_steps_msg
      else visit_cached E (visit E n) (n + 1) e p { s with num_steps := s.num_steps + 1 } := by
  show visit_body E (visit E n) (n + 1) e p s = _
  unfold visit_body inc_num_steps
  simp only [run_bind, run_modify, run_get, counter_value]
  by_cases h : E.max_steps < (s.num_steps + 1) % 4294967296
  · simp [h, run_throw]
  · simp [h, run_pure]

/-- After the preamble of `visit`, the counter changes only in the nested
invocations of `visit`. -/
theorem visit_cached_count (E : env σ τ) (vis : visit_type σ) (n : Nat) (e : expr)
    (p : Option expr) (s s1 : state σ) (r : simp_result)
    (hvis : ∀ x q t a t1, vis x q t = .ok a t1 → t1.num_steps = t.num_steps)
    (h : visit_cached E vis n e p s = .ok r s1) : s1.num_steps = s.num_steps := by
  have ih : ∀ x q, sat (fun y : state σ => y.num_steps = s.num_steps) (vis x q) (keeps false) := by
    intro x q t ht
    unfold wp
    cases hv : vis x q t with
    | ok a t1 => exact ⟨(hvis x q t a t1 hv).trans ht, fun hb => by cases hb⟩
    | exception msg => trivial
    | out_of_bounds => trivial
    | out_of_fuel => trivial
  exact (wp_ok (sat_visit_cached (stable_count E s.num_steps) (hooks_keep_false E) ih n e p s rfl)
    h).1

/-- C2 (amended): for a step budget `max_steps` below `2^32 - 1`.  Every
invocation of `visit` first increments the step counter, before the cache
lookup, so that a cache hit is counted too, and raises the step-budget error
exactly when the incremented counter exceeds `max_steps`; after this preamble
the counter changes only in nested invocations, so `num_steps` is the number of
invocations of `visit` so far.  Starting from at most `max_steps` invocations,
an invocation that returns has counted at least itself and leaves the number
at most `max_steps`; the invocation entered after `max_steps` invocations, the
one with number `max_steps + 1`, raises the error, which ends the run.  Hence
in a run from the zero counter at most `max_steps` invocations get past the
check and there are at most `max_steps + 1` invocations. -/
theorem C2_step_budget (E : env σ τ) (hmax : E.max_steps < 4294967295) :
    (∀ (n : Nat) (e : expr) (p : Option expr) (s : state σ),
      visit E (n + 1) e p s =
        if E.max_steps < counter_value { s with num_steps := s.num_steps + 1 } then
          .exception max_steps_msg
        else visit_cached E (visit E n) (n + 1) e p { s with num_steps := s.num_steps + 1 }) ∧
    (∀ (n : Nat) (e : expr) (p : Option expr) (s : state σ) (r : simp_result),
      cache_find s.cache e = some r → s.num_steps < E.max_steps →
      visit E (n + 1) e p s = .ok r { s with num_steps := s.num_steps + 1 }) ∧
    (∀ (vis : visit_type σ) (n : Nat) (e : expr) (p : Option expr) (s s1 : state σ)
        (r : simp_result),
      (∀ x q t a t1, vis x q t = .ok a t1 → t1.num_steps = t.num_steps) →
      visit_cached E vis n e p s = .ok r s1 → s1.num_steps = s.num_steps) ∧
    (∀ (n : Nat) (e : expr) (p : Option expr) (s s1 : state σ) (r : simp_result),
      s.num_steps ≤ E.max_steps → visit E n e p s = .ok r s1 →
      s.num_steps + 1 ≤ s1.num_steps ∧ s1.num_steps ≤ E.max_steps) ∧
    (∀ (n : Nat) (e : expr) (p : Option expr) (s : state σ),
      s.num_steps = E.max_steps → visit E (n + 1) e p s = .exception max_steps_msg) ∧
    (∀ (fuel : Nat) (rel : name) (e : expr) (ctx : σ) (slss : simp_lemmas) (r : simp_result)
        (s1 : state σ),
      simplify E fuel rel e (initial_state ctx slss) = .ok r s1 → s1.num_steps ≤ E.max_steps) := by
  refine ⟨fun n e p s => visit_succ_eq E n e p s, ?_, ?_, ?_, ?_, ?_⟩
  · intro n e p s r hr hb
    rw [visit_succ_eq]
    have hlt : ¬ E.max_steps < (s.num_steps + 1) % 4294967296 := by omega
    simp only [hlt, if_false]
    unfold visit_cached
    simp only [run_bind, run_get, hr, run_pure]
  · intro vis n e p s s1 r hvis h
    exact visit_cached_count E vis n e p s s1 r hvis h
  · intro n e p s s1 r hs h
    cases n with
    | zero => cases h
    | succ m =>
        rw [visit_succ_eq] at h
        split at h
        · cases h
        · rename_i hle
          have hle1 : s.num_steps + 1 ≤ E.max_steps := by omega
          have hs1 := sat_visit_cached (stable_counter E (s.num_steps + 1)) (hooks_keep_false E)
            (sat_visit (stable_counter E (s.num_steps + 1))
              (step_counter E hmax (s.num_steps + 1)) (hooks_keep_false E) m) (m + 1) e p
            { s with num_steps := s.num_steps + 1 } ⟨le_refl _, hle1⟩
          exact (wp_ok hs1 h).1
  · intro n e p s hs
    rw [visit_succ_eq]
    have hlt : E.max_steps < (s.num_steps + 1) % 4294967296 := by omega
    simp only [hlt, if_true]
  · intro fuel rel e ctx slss r s1 h
    have hs := sat_simplify (stable_counter E 0) (step_counter E hmax 0) (hooks_keep_false E)
      fuel rel e (initial_state ctx slss) ⟨Nat.zero_le _, Nat.zero_le _⟩
    exact (wp_ok hs h).1.2

/-- With the step budget `2^32 - 1` the check of `inc_num_steps` never fails:
a call of `operator()` on the constant `c` makes one invocation of `visit`,
whatever the number of earlier invocations. -/
theorem simplify_unlimited (s : state Unit) :
    simplify unlimited_env 1 "eq" const_c s =
      .ok (simp_result.refl const_c)
        { s with
          rel := "eq", cache := [(const_c, simp_result.refl const_c)],
          num_steps := s.num_steps + 1, need_restart := false } := by
  unfold simplify simplify_loop
  simp only [run_bind, run_modify]
  rw [visit_succ_eq]
  have hlt : ¬ unlimited_env.max_steps < (s.num_steps + 1) % 4294967296 := by
    show ¬ 4294967295 < (s.num_steps + 1) % 4294967296
    omega
  simp only [hlt, if_false]
  rfl

theorem simplify_times_unlimited (k : Nat) :
    ∀ s : state Unit, 0 < k →
      simplify_times unlimited_env 1 "eq" const_c k s =
        .ok ()
          { s with
            rel := "eq", cache := [(const_c, simp_result.refl const_c)],
            num_steps := s.num_steps + k, need_restart := false } := by
  induction k with
  | zero => intro s h; cases h
  | succ k ih =>
      intro s _
      unfold simplify_times
      rw [run_bind, simplify_unlimited]
      cases k with
      | zero => rfl
      | succ j =>
          simp only
          rw [ih _ (Nat.succ_pos j)]
          simp only [Nat.add_assoc, Nat.add_comm 1]

/-- Witness of C2 with the step budget 100: the invocation entered after 100
invocations raises the error, a cache hit after 99 invocations is counted, and
a run from the zero counter ends with at most 100 invocations. -/
theorem C2_step_budget_witness :
    visit (sample_env Unit) 1 const_c none { initial_state () empty_slss with num_steps := 100 } =
      .exception max_steps_msg ∧
    visit (sample_env Unit) 1 const_c none
        { initial_state () empty_slss with
          cache := [(const_c, simp_result.refl const_c)], num_steps := 99 } =
      .ok (simp_result.refl const_c)
        { initial_state () empty_slss with
          cache := [(const_c, simp_result.refl const_c)], num_steps := 99 + 1 } ∧
    ({ initial_state () empty_slss with
        rel := "eq", num_steps := 1,
        cache := [(const_c, simp_result.refl const_c)] } : state Unit).num_steps ≤
      (sample_env Unit).max_steps :=
  ⟨(C2_step_budget (sample_env Unit) (by decide)).2.2.2.2.1 0 const_c none
      { initial_state () empty_slss with num_steps := 100 } rfl,
    (C2_step_budget (sample_env Unit) (by decide)).2.1 0 const_c none
      { initial_state () empty_slss with
        cache := [(const_c, simp_result.refl const_c)], num_steps := 99 }
      (simp_result.refl const_c) rfl (by decide),
    (C2_step_budget (sample_env Unit) (by decide)).2.2.2.2.2 3 "eq" const_c () empty_slss
      (simp_result.refl const_c)
      { initial_state () empty_slss with
        rel := "eq", num_steps := 1, cache := [(const_c, simp_result.refl const_c)] } rfl⟩

/-- Counterexample to C2 as stated, with the step budget `2^32 - 1`: the
32-bit counter wraps around to zero, so the invocation of `visit` entered after
`2^32 - 1` invocations passes the check and the error is never raised; `2^32 +
1` successive calls of `operator()` on the constant `c`, from the zero counter,
make `2^32 + 1` invocations of `visit` that all return. -/
theorem C2_counterexample :
    unlimited_env.max_steps = 4294967295 ∧
    (visit unlimited_env 1 const_c none
        { initial_state () empty_slss with num_steps := 4294967295 }).value =
      some (simp_result.refl const_c) ∧
    counter_value { initial_state () empty_slss with num_steps := 4294967295 + 1 } = 0 ∧
    (simplify_times unlimited_env 1 "eq" const_c 4294967297
        (initial_state () empty_slss)).final.map (fun s => s.num_steps) = some 4294967297 := by
  refine ⟨rfl, by decide, by decide, ?_⟩
  rw [simplify_times_unlimited 4294967297 _ (by decide)]
  rfl

/-! ## Rewriting with one lemma (C5, C7) -/

theorem rewrite_lemma_eq (E : env σ τ) (e : expr) (sl : simp_lemma) (s : state σ) :
    rewrite_lemma E e sl s =
      match rewrite_unify E e sl s with
      | .ok (some tmp_ctx) s1 => .ok (rewrite_result E sl tmp_ctx) s1
      | .ok none s1 => .ok none s1
      | .exception msg => .exception msg
      | .out_of_bounds => .out_of_bounds
      | .out_of_fuel => .out_of_fuel := by
  unfold rewrite_lemma
  rw [run_bind]
  cases h : rewrite_unify E e sl s with
  | ok a s1 => cases a <;> rfl
  | exception msg => rfl
  | out_of_bounds => rfl
  | out_of_fuel => rfl

theorem rewrite_lemma_some (E : env σ τ) (e : expr) (sl : simp_lemma) (s s1 : state σ)
    (r : simp_result) (h : rewrite_lemma E e sl s = .ok (some r) s1) :
    ∃ tmp_ctx, rewrite_unify E e sl s = .ok (some tmp_ctx) s1 ∧
      rewrite_result E sl tmp_ctx = some r := by
  rw [rewrite_lemma_eq] at h
  cases hu : rewrite_unify E e sl s with
  | ok a s2 =>
      rw [hu] at h
      cases a with
      | none => cases h
      | some tmp_ctx =>
          simp only [result.ok.injEq] at h
          exact ⟨tmp_ctx, by rw [h.2], h.1⟩
  | exception msg => rw [hu] at h; cases h
  | out_of_bounds => rw [hu] at h; cases h
  | out_of_fuel => rw [hu] at h; cases h

/-- C7: when the lemma fires on `e` (unification, side conditions and universe
metavariables pass, and for a permutation lemma the instantiated right-hand
side is smaller), `rewrite(e, sl)` returns the instantiated right-hand side,
with no proof if the lemma is flagged `refl` and with the instantiated proof of
the lemma otherwise. -/
theorem C7_rewrite_result (E : env σ τ) (e : expr) (sl : simp_lemma) (s s1 : state σ)
    (tmp_ctx : τ) (hu : rewrite_unify E e sl s = .ok (some tmp_ctx) s1)
    (hp : sl.is_permutation = true →
      E.is_lt (E.tmp_instantiate_mvars tmp_ctx sl.rhs) (E.tmp_instantiate_mvars tmp_ctx sl.lhs) =
        true) :
    (sl.is_refl = true →
      rewrite_lemma E e sl s =
        .ok (some ⟨E.tmp_instantiate_mvars tmp_ctx sl.rhs, none⟩) s1) ∧
    (sl.is_refl = false →
      rewrite_lemma E e sl s =
        .ok (some ⟨E.tmp_instantiate_mvars tmp_ctx sl.rhs,
          some (E.tmp_instantiate_mvars tmp_ctx sl.proof)⟩) s1) := by
  have hperm : (sl.is_permutation &&
      !E.is_lt (E.tmp_instantiate_mvars tmp_ctx sl.rhs)
        (E.tmp_instantiate_mvars tmp_ctx sl.lhs)) = false := by
    cases h : sl.is_permutation
    · rfl
    · simp [hp h]
  constructor
  · intro hr
    rw [rewrite_lemma_eq, hu]
    simp [rewrite_result, hperm, hr, simp_result.refl]
  · intro hr
    rw [rewrite_lemma_eq, hu]
    simp [rewrite_result, hperm, hr]

/-- Witness of C7: the closed lemma `a = b` with proof `pf` fires on `a`. -/
theorem C7_rewrite_result_witness :
    ((closed_lemma const_a const_b const_pf false false).is_refl = true →
      rewrite_lemma (sample_env Unit) const_a (closed_lemma const_a const_b const_pf false false)
          (initial_state () empty_slss) =
        .ok (some ⟨const_b, none⟩) (initial_state () empty_slss)) ∧
    ((closed_lemma const_a const_b const_pf false false).is_refl = false →
      rewrite_lemma (sample_env Unit) const_a (closed_lemma const_a const_b const_pf false false)
          (initial_state () empty_slss) =
        .ok (some ⟨const_b, some const_pf⟩) (initial_state () empty_slss)) :=
  C7_rewrite_result (sample_env Unit) const_a (closed_lemma const_a const_b const_pf false false)
    (initial_state () empty_slss) (initial_state () empty_slss) () rfl (fun h => by cases h)

/-- C5 (amended): a permutation lemma only rewrites downward with respect to
its instantiated left-hand side.  A result built by `rewrite(e, sl)` is the
instantiated right-hand side and is strictly less (`is_lt`) than the
instantiated left-hand side; it is strictly less than the input `e` when the
unification is a syntactic match, that is when the left-hand side is
instantiated to `e` itself.  When the instantiated right-hand side is not
strictly less, `rewrite(e, sl)` returns `simp_result(e)`.  Hence, `is_lt` being
asymmetric, when the lemma matches both `e` and its own output syntactically,
applying it to its output does not give back `e`. -/
theorem C5_permutation_downward (E : env σ τ) (sl : simp_lemma)
    (hperm : sl.is_permutation = true) :
    (∀ e s r s1, rewrite_lemma E e sl s = .ok (some r) s1 →
      ∃ tmp_ctx, rewrite_unify E e sl s = .ok (some tmp_ctx) s1 ∧
        r.new = E.tmp_instantiate_mvars tmp_ctx sl.rhs ∧
        E.is_lt r.new (E.tmp_instantiate_mvars tmp_ctx sl.lhs) = true ∧
        (syntactic_match E sl e s → E.is_lt r.new e = true)) ∧
    (∀ e s tmp_ctx s1, rewrite_unify E e sl s = .ok (some tmp_ctx) s1 →
      E.is_lt (E.tmp_instantiate_mvars tmp_ctx sl.rhs) (E.tmp_instantiate_mvars tmp_ctx sl.lhs) =
        false →
      rewrite_lemma E e sl s = .ok none s1 ∧
        rewrite_lemma_result e none = simp_result.refl e) ∧
    ((∀ a b, E.is_lt a b = true → E.is_lt b a = false) →
      ∀ e s r1 s1 s2 a2 s3, rewrite_lemma E e sl s = .ok (some r1) s1 →
        rewrite_lemma E r1.new sl s2 = .ok a2 s3 →
        syntactic_match E sl e s → syntactic_match E sl r1.new s2 →
        (rewrite_lemma_result r1.new a2).new ≠ e) := by
  have ha : ∀ e s r s1, rewrite_lemma E e sl s = .ok (some r) s1 →
      ∃ tmp_ctx, rewrite_unify E e sl s = .ok (some tmp_ctx) s1 ∧
        r.new = E.tmp_instantiate_mvars tmp_ctx sl.rhs ∧
        E.is_lt r.new (E.tmp_instantiate_mvars tmp_ctx sl.lhs) = true ∧
        (syntactic_match E sl e s → E.is_lt r.new e = true) := by
    intro e s r s1 h
    obtain ⟨tmp_ctx, hu, hr⟩ := rewrite_lemma_some E e sl s s1 r h
    unfold rewrite_result at hr
    simp only [hperm, Bool.true_and] at hr
    cases hlt : E.is_lt (E.tmp_instantiate_mvars tmp_ctx sl.rhs)
        (E.tmp_instantiate_mvars tmp_ctx sl.lhs) with
    | false => simp [hlt] at hr
    | true =>
        have hnew : r.new = E.tmp_instantiate_mvars tmp_ctx sl.rhs := by
          simp only [hlt, Bool.not_true] at hr
          split at hr
          · cases hr
          · split at hr <;> (cases hr; rfl)
        refine ⟨tmp_ctx, hu, hnew, ?_, ?_⟩
        · rw [hnew]; exact hlt
        · intro hm
          rw [hnew, ← hm tmp_ctx s1 hu]; exact hlt
  refine ⟨ha, ?_, ?_⟩
  · intro e s tmp_ctx s1 hu hlt
    refine ⟨?_, rfl⟩
    rw [rewrite_lemma_eq, hu]
    simp [rewrite_result, hperm, hlt]
  · intro h_asymm e s r1 s1 s2 a2 s3 h1 h2 hm1 hm2 heq
    obtain ⟨_, _, _, _, hlt1⟩ := ha e s r1 s1 h1
    have hlt1 := hlt1 hm1
    cases a2 with
    | none =>
        have : r1.new = e := heq
        rw [this] at hlt1
        have := h_asymm e e hlt1
        rw [hlt1] at this
        cases this
    | some r2 =>
        obtain ⟨_, _, _, _, hlt2⟩ := ha r1.new s2 r2 s3 h2
        have hlt2 := hlt2 hm2
        have h3 : r2.new = e := heq
        rw [h3] at hlt2
        have := h_asymm _ _ hlt1
        rw [hlt2] at this
        cases this

theorem sample_unify_match (sl : simp_lemma) (t : expr) (s : state Unit) :
    syntactic_match (sample_env Unit) sl t s := by
  intro tmp_ctx s1 h
  unfold rewrite_unify at h
  simp only [run_bind, run_get, sample_env] at h
  by_cases ht : t = sl.lhs
  · exact ht.symm
  · simp [ht, run_pure] at h

/-- Witness of C5: the permutation-flagged lemma `f a = a` rewrites `f a` to
the smaller term `a`, and applied to `a` it does not give back `f a`. -/
theorem C5_permutation_downward_witness :
    (sample_env Unit).is_lt const_a (App const_f const_a) = true ∧
    (rewrite_lemma_result const_a
      (none : Option simp_result)).new ≠ App const_f const_a :=
  have h := C5_permutation_downward (sample_env Unit)
    (closed_lemma (App const_f const_a) const_a const_pf true false) rfl
  ⟨(h.1 (App const_f const_a) (initial_state () empty_slss) ⟨const_a, some const_pf⟩
      (initial_state () empty_slss) rfl).choose_spec.2.2.2 (sample_unify_match _ _ _),
    h.2.2 (fun a b hab => by
        simp only [sample_env, decide_eq_true_eq, decide_eq_false_iff_not] at hab ⊢
        omega)
      (App const_f const_a) (initial_state () empty_slss) ⟨const_a, some const_pf⟩
      (initial_state () empty_slss) (initial_state () empty_slss) none
      (initial_state () empty_slss) rfl rfl (sample_unify_match _ _ _) (sample_unify_match _ _ _)⟩

/-- Counterexample to C5 as stated, with a unifier up to definitional equality
(`J` unfolds to `I`).  The permutation lemma `add I b a = add I a b` fires on
the input `add J b a`: its instantiated left-hand side is `add I b a`, not the
input, and the result `add I a b` is strictly less than the instantiated
left-hand side but not than the input.  The permutation-flagged lemma
`k I = k J` fires on `k J` and returns `k J`, so applying it to its own output
gives the original term again. -/
theorem C5_counterexample :
    (rewrite_lemma defeq_env (add_app (Constant "J" []) const_b const_a) comm_lemma
        (initial_state () empty_slss)).value =
      some (some ⟨add_app (Constant "I" []) const_a const_b, some const_pf⟩) ∧
    defeq_env.is_lt (add_app (Constant "I" []) const_a const_b)
      (add_app (Constant "I" []) const_b const_a) = true ∧
    defeq_env.is_lt (add_app (Constant "I" []) const_a const_b)
      (add_app (Constant "J" []) const_b const_a) = false ∧
    (rewrite_lemma defeq_env (App (Constant "k" []) (Constant "J" [])) fold_lemma
        (initial_state () empty_slss)).value =
      some (some ⟨App (Constant "k" []) (Constant "J" []), some const_pf⟩) ∧
    ((rewrite_lemma defeq_env (App (Constant "k" []) (Constant "J" [])) fold_lemma
        (initial_state () empty_slss)).value.bind
      (fun a => (rewrite_lemma defeq_env
        (rewrite_lemma_result (App (Constant "k" []) (Constant "J" [])) a).new fold_lemma
        (initial_state () empty_slss)).value)) =
      some (some ⟨App (Constant "k" []) (Constant "J" []), some const_pf⟩) := by
  refine ⟨?_, ?_, ?_, ?_, ?_⟩ <;> decide

/-! ## Rewriting with the candidates of the index (C6) -/

theorem rewrite_loop_none (E : env σ τ) (e : expr) (srs : List simp_lemma) :
    ∀ s s1, no_candidate_fires E e srs s s1 →
      rewrite_loop E e srs s = .ok (simp_result.refl e) s1 := by
  induction srs with
  | nil =>
      intro s s1 h
      unfold no_candidate_fires at h
      rw [h]
      rfl
  | cons sl srs ih =>
      intro s s1 h
      unfold no_candidate_fires at h
      obtain ⟨a, s2, ha, heqp, hrest⟩ := h
      unfold rewrite_loop
      rw [run_bind, ha]
      cases a with
      | none => exact ih s2 s1 hrest
      | some r =>
          simp only [heqp r rfl, Bool.not_true]
          exact ih s2 s1 hrest

theorem rewrite_loop_first (E : env σ τ) (e : expr) (before : List simp_lemma) :
    ∀ (sl : simp_lemma) (after : List simp_lemma) (s s1 s2 : state σ) (r : simp_result),
      no_candidate_fires E e before s s1 → rewrite_lemma E e sl s1 = .ok (some r) s2 →
      E.is_eqp r.new e = false →
      rewrite_loop E e (before ++ sl :: after) s = .ok r s2 := by
  induction before with
  | nil =>
      intro sl after s s1 s2 r h hr heqp
      unfold no_candidate_fires at h
      rw [h] at hr
      simp only [List.nil_append]
      unfold rewrite_loop
      rw [run_bind, hr]
      simp only [heqp, Bool.not_false]
      rfl
  | cons b before ih =>
      intro sl after s s1 s2 r h hr heqp
      unfold no_candidate_fires at h
      obtain ⟨a, s3, ha, hb, hrest⟩ := h
      simp only [List.cons_append]
      unfold rewrite_loop
      rw [run_bind, ha]
      cases a with
      | none => exact ih sl after s3 s1 s2 r hrest hr heqp
      | some r0 =>
          simp only [hb r0 rfl, Bool.not_true]
          exact ih sl after s3 s1 s2 r hrest hr heqp

/-- C6: `rewrite(e)` tries the candidates that the index returns for `e` under
the active relation in their order and returns the result of the first one
whose attempt yields a term that is not the object `e`, whatever candidates
come after it; if the relation has no lemma set, the term has no candidates, or
no candidate fires, it returns `simp_result(e)`: the term `e` with no proof. -/
theorem C6_rewrite_candidates (E : env σ τ) (e : expr) (s : state σ) :
    (s.slss.find s.rel = none → rewrite_expr E e s = .ok (simp_result.refl e) s) ∧
    (∀ sr, s.slss.find s.rel = some sr → sr.find e = none →
      rewrite_expr E e s = .ok (simp_result.refl e) s) ∧
    (∀ sr srs, s.slss.find s.rel = some sr → sr.find e = some srs →
      (∀ s1, no_candidate_fires E e srs s s1 →
        rewrite_expr E e s = .ok (simp_result.refl e) s1) ∧
      (∀ before sl after s1 s2 r, srs = before ++ sl :: after →
        no_candidate_fires E e before s s1 → rewrite_lemma E e sl s1 = .ok (some r) s2 →
        E.is_eqp r.new e = false → rewrite_expr E e s = .ok r s2)) := by
  refine ⟨?_, ?_, ?_⟩
  · intro h
    unfold rewrite_expr
    simp only [run_bind, run_get, h, run_pure]
  · intro sr h1 h2
    unfold rewrite_expr
    simp only [run_bind, run_get, h1, h2, run_pure]
  · intro sr srs h1 h2
    have hrw : rewrite_expr E e s = rewrite_loop E e srs s := by
      unfold rewrite_expr
      simp only [run_bind, run_get, h1, h2]
    refine ⟨?_, ?_⟩
    · intro s1 h
      rw [hrw]
      exact rewrite_loop_none E e srs s s1 h
    · intro before sl after s1 s2 r hsrs hb hr heqp
      rw [hrw, hsrs]
      exact rewrite_loop_first E e before sl after s s1 s2 r hb hr heqp

/-! ## No structural descent (C8, C9) -/

theorem join_refl_self (E : env σ τ) (curr : simp_result) (s : state σ) :
    join E curr (simp_result.refl curr.new) s = .ok curr s := by
  unfold join
  simp only [run_bind, run_get, run_pure, join_results, simp_result.refl]
  cases h : curr.proof with
  | none =>
      simp only
      congr 1
      cases curr
      simp_all
  | some pr =>
      simp only
      congr 1
      cases curr
      simp_all

theorem visit_step_no_descent (E : env σ τ) (vis : visit_type σ) (curr : simp_result)
    (s : state σ) (hk : no_descent_kind curr.new.kind = true) :
    visit_step E vis curr s = .ok curr s := by
  unfold visit_step
  cases h : curr.new.kind <;> rw [h] at hk <;> simp only [no_descent_kind] at hk
  · cases hk
  · rfl
  · rfl
  · rfl
  · rfl
  · cases hk
  · cases hk
  · cases hk
  · simp only [run_bind]
    have hl : visit_let E curr.new s = .ok (simp_result.refl curr.new) s := by
      unfold visit_let
      cases E.cls <;> rfl
    rw [hl]
    exact join_refl_self E curr s
  · rfl

/-- C8: for a term of kind Local, Meta, Sort, Constant, Macro or Let the
structural step of `visit` leaves the current result unchanged and calls
`visit` on no subterm (it does so for every `vis`), and `visit_let` returns
`simp_result(e)` for every class; so with hooks that report nothing and
lifting off, `visit(e)` on a term that is not in the cache returns
`simp_result(e)` and increases the step counter by exactly one, with fuel for
one invocation only. -/
theorem C8_no_descent_leaves_let (E : env σ τ) (e : expr) (p : Option expr) (s : state σ)
    (hk : no_descent_kind e.kind = true)
    (hpre : ∀ s1 : state σ, pre E e p s1 = .ok none s1)
    (hpost : ∀ s1 : state σ, post E e p s1 = .ok none s1)
    (hlift : E.lift_eq = false)
    (hbudget : s.num_steps < E.max_steps)
    (hmiss : cache_find s.cache e = none) :
    (∀ (vis : visit_type σ) (curr : simp_result) (s1 : state σ),
      no_descent_kind curr.new.kind = true → visit_step E vis curr s1 = .ok curr s1) ∧
    (∀ (x : expr) (s1 : state σ), visit_let E x s1 = .ok (simp_result.refl x) s1) ∧
    (∀ n, visit E (n + 1) e p s =
      .ok (simp_result.refl e)
        { s with num_steps := s.num_steps + 1, cache := (e, simp_result.refl e) :: s.cache }) := by
  refine ⟨fun vis curr s1 h => visit_step_no_descent E vis curr s1 h, ?_, ?_⟩
  · intro x s1
    unfold visit_let
    cases E.cls <;> rfl
  · intro n
    rw [visit_succ_eq]
    have hb : ¬ E.max_steps < (s.num_steps + 1) % 4294967296 := by omega
    simp only [hb, if_false]
    unfold visit_cached
    simp only [run_bind, run_get, hmiss, hpre]
    unfold visit_loop
    simp only [run_bind]
    rw [visit_step_no_descent E _ _ _ hk]
    simp only [simp_result.refl, hpost, run_pure]
    unfold visit_lift
    simp only [run_bind, run_get, hlift, Bool.false_and, run_pure, cache_store, run_modify]
    simp [cache_insert, hmiss, run_pure]

/-- Witness of C8: the core simplifier visits the constant `a`. -/
theorem C8_no_descent_leaves_let_witness :
    visit (sample_env Unit) 1 const_a none (initial_state () empty_slss) =
      .ok (simp_result.refl const_a)
        { initial_state () empty_slss with
          num_steps := 1, cache := [(const_a, simp_result.refl const_a)] } :=
  (C8_no_descent_leaves_let (sample_env Unit) const_a none (initial_state () empty_slss) rfl
    (fun _ => rfl) (fun _ => rfl) rfl (by decide) rfl).2.2 0

/-- C9: `visit_lambda(e)` of the extended simplifier returns `simp_result(e)`
and calls `visit` on nothing (it does so for every `vis`) when `use_axioms` is
false or the active relation is not `eq`; `visit_lambda` of the core
simplifier returns `simp_result(e)` unconditionally. -/
theorem C9_lambda_not_descended (E : env σ τ) (vis : visit_type σ) (e : expr) (s : state σ) :
    ((E.use_axioms = false ∨ s.rel ≠ get_eq_name) →
      ext_visit_lambda E vis e s = .ok (simp_result.refl e) s ∧
      visit_lambda E vis e s = .ok (simp_result.refl e) s) ∧
    (E.cls = simp_class.simplify_core_fn →
      visit_lambda E vis e s = .ok (simp_result.refl e) s) := by
  have hext : (E.use_axioms = false ∨ s.rel ≠ get_eq_name) →
      ext_visit_lambda E vis e s = .ok (simp_result.refl e) s := by
    intro h
    unfold ext_visit_lambda
    simp only [run_bind, run_get]
    have hc : (decide (s.rel ≠ get_eq_name) || !E.use_axioms) = true := by
      rcases h with h | h
      · simp [h]
      · simp [h]
    simp only [hc, if_true, run_pure]
  refine ⟨fun h => ⟨hext h, ?_⟩, ?_⟩
  · unfold visit_lambda
    cases hc : E.cls
    · rfl
    · exact hext h
    · exact hext h
    · exact hext h
  · intro hc
    unfold visit_lambda
    rw [hc]
    rfl

/-! ## Facts about terms -/

theorem expr_size_pos (e : expr) : 0 < expr_size e := by
  cases e <;> simp [expr_size]

theorem get_app_args_aux_append (e : expr) :
    ∀ acc, get_app_args_aux e acc = get_app_args_aux e [] ++ acc := by
  induction e with
  | App f a ihf _ =>
      intro acc
      unfold get_app_args_aux
      rw [ihf (a :: acc), ihf [a]]
      simp
  | _ => intro acc; simp [get_app_args_aux]

theorem get_app_args_app (f a : expr) : get_app_args (App f a) = get_app_args f ++ [a] := by
  unfold get_app_args
  rw [get_app_args_aux, get_app_args_aux_append]

theorem mk_app_get_app_args (e : expr) : mk_app (get_app_fn e) (get_app_args e) = e := by
  induction e with
  | App f a ihf _ =>
      rw [get_app_args_app, get_app_fn]
      unfold mk_app at *
      rw [List.foldl_append, ihf]
      rfl
  | _ => rfl

theorem closed_app {f a : expr} (h : closed (App f a) = true) :
    closed f = true ∧ closed a = true := by
  unfold closed at *
  simp only [has_loose_from, Bool.not_or, Bool.and_eq_true] at h
  exact h

theorem get_app_fn_closed (e : expr) (h : closed e = true) : closed (get_app_fn e) = true := by
  induction e with
  | App f a ihf _ =>
      rw [get_app_fn]
      exact ihf (closed_app h).1
  | _ => simpa [get_app_fn] using h

theorem get_app_fn_size (f a : expr) : expr_size (get_app_fn (App f a)) < expr_size (App f a) := by
  induction f generalizing a with
  | App g b ihg _ =>
      have := ihg b
      rw [get_app_fn] at this ⊢
      rw [get_app_fn]
      simp only [expr_size] at this ⊢
      omega
  | _ => simp only [get_app_fn, expr_size]; omega

theorem get_app_args_mem (e : expr) (h : closed e = true) :
    ∀ a ∈ get_app_args e, closed a = true ∧ expr_size a < expr_size e := by
  induction e with
  | App f b ihf _ =>
      intro a ha
      rw [get_app_args_app, List.mem_append] at ha
      rcases ha with ha | ha
      · have := ihf (closed_app h).1 a ha
        refine ⟨this.1, ?_⟩
        simp only [expr_size]
        omega
      · simp only [List.mem_singleton] at ha
        subst ha
        refine ⟨(closed_app h).2, ?_⟩
        simp only [expr_size]
        omega
  | _ => intro a ha; simp [get_app_args, get_app_args_aux] at ha

theorem lift_free_vars_local_like (d : Nat) (v : expr) (k : Nat)
    (h : ∃ n t, v = Local n t) : lift_free_vars d v k = v := by
  obtain ⟨n, t, rfl⟩ := h
  rfl

theorem instantiate_rev_at_size (subst : List expr) (hs : ∀ v ∈ subst, ∃ n t, v = Local n t)
    (e : expr) : ∀ k, expr_size (instantiate_rev_at subst e k) = expr_size e := by
  induction e with
  | Var i =>
      intro k
      unfold instantiate_rev_at
      split
      · rfl
      · split
        · rename_i v hv
          have hm : v ∈ subst := by
            have := List.get?_mem hv
            simpa using this
          obtain ⟨n, t, rfl⟩ := hs v hm
          rfl
        · rfl
  | App f a ihf iha => intro k; simp [instantiate_rev_at, expr_size, ihf, iha]
  | Lambda n d b ihd ihb => intro k; simp [instantiate_rev_at, expr_size, ihd, ihb]
  | Pi n d b ihd ihb => intro k; simp [instantiate_rev_at, expr_size, ihd, ihb]
  | Let n t v b iht ihv ihb => intro k; simp [instantiate_rev_at, expr_size, iht, ihv, ihb]
  | _ => intro k; rfl

theorem instantiate_rev_at_closed (subst : List expr) (hs : ∀ v ∈ subst, ∃ n t, v = Local n t)
    (e : expr) :
    ∀ k, has_loose_from e (k + subst.length) = false →
      has_loose_from (instantiate_rev_at subst e k) k = false := by
  induction e with
  | Var i =>
      intro k h
      simp only [has_loose_from, decide_eq_false_iff_not, not_le] at h
      unfold instantiate_rev_at
      split
      · rename_i hik
        simp [has_loose_from, hik]
      · split
        · rename_i v hv
          have hm : v ∈ subst := by
            have := List.get?_mem hv
            simpa using this
          obtain ⟨n, t, rfl⟩ := hs v hm
          rfl
        · rename_i hik hnone
          rw [List.get?_eq_none] at hnone
          simp only [List.length_reverse] at hnone
          omega
  | App f a ihf iha =>
      intro k h
      simp only [has_loose_from, Bool.or_eq_false_iff] at h
      simp [instantiate_rev_at, has_loose_from, ihf k h.1, iha k h.2]
  | Lambda n d b ihd ihb =>
      intro k h
      simp only [has_loose_from, Bool.or_eq_false_iff] at h
      have hb := ihb (k + 1) (by rw [Nat.add_right_comm]; exact h.2)
      simp [instantiate_rev_at, has_loose_from, ihd k h.1, hb]
  | Pi n d b ihd ihb =>
      intro k h
      simp only [has_loose_from, Bool.or_eq_false_iff] at h
      have hb := ihb (k + 1) (by rw [Nat.add_right_comm]; exact h.2)
      simp [instantiate_rev_at, has_loose_from, ihd k h.1, hb]
  | Let n t v b iht ihv ihb =>
      intro k h
      simp only [has_loose_from, Bool.or_eq_false_iff] at h
      have hb := ihb (k + 1) (by rw [Nat.add_right_comm]; exact h.2)
      simp [instantiate_rev_at, has_loose_from, iht k h.1.1, ihv k h.1.2, hb]
  | _ => intro k _; rfl

theorem instantiate_rev_nil (e : expr) : instantiate_rev e [] = e := by
  have h : ∀ k, instantiate_rev_at [] e k = e := by
    induction e with
    | Var i =>
        intro k
        unfold instantiate_rev_at
        split
        · rfl
        · simp
    | App f a ihf iha => intro k; simp [instantiate_rev_at, ihf, iha]
    | Lambda n d b ihd ihb => intro k; simp [instantiate_rev_at, ihd, ihb]
    | Pi n d b ihd ihb => intro k; simp [instantiate_rev_at, ihd, ihb]
    | Let n t v b iht ihv ihb => intro k; simp [instantiate_rev_at, iht, ihv, ihb]
    | _ => intro k; rfl
  exact h 0

theorem has_loose_from_of_free (b : expr) :
    ∀ k, has_free_var b k = false → has_loose_from b (k + 1) = false →
      has_loose_from b k = false := by
  induction b with
  | Var i =>
      intro k h1 h2
      simp only [has_free_var, beq_eq_false_iff_ne, ne_eq] at h1
      simp only [has_loose_from, decide_eq_false_iff_not, not_le] at h2 ⊢
      omega
  | App f a ihf iha =>
      intro k h1 h2
      simp only [has_free_var, has_loose_from, Bool.or_eq_false_iff] at h1 h2 ⊢
      exact ⟨ihf k h1.1 h2.1, iha k h1.2 h2.2⟩
  | Lambda n d b ihd ihb =>
      intro k h1 h2
      simp only [has_free_var, has_loose_from, Bool.or_eq_false_iff] at h1 h2 ⊢
      exact ⟨ihd k h1.1 h2.1, ihb (k + 1) h1.2 h2.2⟩
  | Pi n d b ihd ihb =>
      intro k h1 h2
      simp only [has_free_var, has_loose_from, Bool.or_eq_false_iff] at h1 h2 ⊢
      exact ⟨ihd k h1.1 h2.1, ihb (k + 1) h1.2 h2.2⟩
  | Let n t v b iht ihv ihb =>
      intro k h1 h2
      simp only [has_free_var, has_loose_from, Bool.or_eq_false_iff] at h1 h2 ⊢
      exact ⟨⟨iht k h1.1.1 h2.1.1, ihv k h1.1.2 h2.1.2⟩, ihb (k + 1) h1.2 h2.2⟩
  | _ => intro k _ _; rfl

theorem unroll_lambdas_spec (E : env σ τ) (ctx : σ) (e : expr) :
    ∀ locals : List expr, (∀ v ∈ locals, ∃ n t, v = Local n t) →
      has_loose_from e locals.length = false →
      (∀ v ∈ (unroll_lambdas E ctx e locals).2, ∃ n t, v = Local n t) ∧
      has_loose_from (unroll_lambdas E ctx e locals).1
        (unroll_lambdas E ctx e locals).2.length = false ∧
      expr_size (unroll_lambdas E ctx e locals).1 ≤ expr_size e ∧
      (is_lambda e = true → expr_size (unroll_lambdas E ctx e locals).1 < expr_size e) := by
  induction e with
  | Lambda n d b _ ihb =>
      intro locals hl hc
      unfold unroll_lambdas
      simp only [has_loose_from, Bool.or_eq_false_iff] at hc
      have hl1 : ∀ v ∈ locals ++ [push_local E ctx locals n (instantiate_rev d locals)],
          ∃ n t, v = Local n t := by
        intro v hv
        rw [List.mem_append] at hv
        rcases hv with hv | hv
        · exact hl v hv
        · simp only [List.mem_singleton] at hv
          exact ⟨_, _, hv⟩
      have := ihb _ hl1 (by simpa using hc.2)
      refine ⟨this.1, this.2.1, ?_, ?_⟩
      · simp only [expr_size]
        omega
      · intro _
        simp only [expr_size]
        omega
  | _ =>
      intro locals hl hc
      unfold unroll_lambdas
      exact ⟨hl, hc, le_refl _, fun h => by simp [is_lambda, expr.kind] at h⟩

theorem unroll_foralls_spec (E : env σ τ) (ctx : σ) (e : expr) :
    ∀ pis locals : List expr, (∀ v ∈ locals, ∃ n t, v = Local n t) →
      has_loose_from e locals.length = false →
      (∀ v ∈ (unroll_foralls E ctx e pis locals).2.2, ∃ n t, v = Local n t) ∧
      has_loose_from (unroll_foralls E ctx e pis locals).1
        (unroll_foralls E ctx e pis locals).2.2.length = false ∧
      expr_size (unroll_foralls E ctx e pis locals).1 ≤ expr_size e ∧
      (E.is_prop ctx (instantiate_rev (binding_domain e) locals) = false → is_pi e = true →
        expr_size (unroll_foralls E ctx e pis locals).1 < expr_size e) := by
  induction e with
  | Pi n d b _ ihb =>
      intro pis locals hl hc
      unfold unroll_foralls
      split
      · rename_i hp
        refine ⟨hl, hc, le_refl _, ?_⟩
        intro hnp
        simp only [binding_domain] at hnp
        rw [hnp] at hp
        cases hp
      · simp only [has_loose_from, Bool.or_eq_false_iff] at hc
        have hl1 : ∀ v ∈ locals ++ [push_local E ctx locals n (instantiate_rev d locals)],
            ∃ n t, v = Local n t := by
          intro v hv
          rw [List.mem_append] at hv
          rcases hv with hv | hv
          · exact hl v hv
          · simp only [List.mem_singleton] at hv
            exact ⟨_, _, hv⟩
        have := ihb (pis ++ [Pi n d b]) _ hl1 (by simpa using hc.2)
        refine ⟨this.1, this.2.1, ?_, ?_⟩
        · simp only [expr_size]
          omega
        · intro _ _
          simp only [expr_size]
          omega
  | _ =>
      intro pis locals hl hc
      unfold unroll_foralls
      exact ⟨hl, hc, le_refl _, fun _ h => by simp [is_pi, expr.kind] at h⟩

/-! ## An empty lemma index yields the identity (C4) -/

theorem wp_at_index_some {α : Type} (F : failure → Prop) {l : List α} {i : Nat} {a : α}
    (h : l.get? i = some a) (Q : α → state σ → Prop) (s : state σ) :
    wp F (M.at_index l i) Q s = Q a s := by
  unfold wp M.at_index
  rw [h]

theorem wp_run {α : Type} (F : failure → Prop) {m : M σ α} {s s1 : state σ} {a : α}
    (h : m s = .ok a s1) (Q : α → state σ → Prop) : wp F m Q s = Q a s1 := by
  unfold wp
  rw [h]

theorem state_rel_eta (s : state σ) (x : name) :
    ({ ({ s with rel := x } : state σ) with rel := s.rel } : state σ) = s := by
  cases s
  rfl

theorem rewrite_expr_no_lemmas (E : env σ τ) (e : expr) (s : state σ) (h : no_lemmas s.slss) :
    rewrite_expr E e s = .ok (simp_result.refl e) s := by
  unfold rewrite_expr
  simp only [run_bind, run_get, h s.rel, run_pure]

theorem try_user_congrs_no_lemmas (E : env σ τ) (vis : visit_type σ) (e : expr) (s : state σ)
    (h : no_lemmas s.slss) : try_user_congrs E vis e s = .ok (simp_result.refl e) s := by
  unfold try_user_congrs
  simp only [run_bind, run_get, h s.rel, run_pure]

theorem propext_rewrite_no_lemmas (E : env σ τ) (e : expr) (s : state σ)
    (h : no_lemmas s.slss) : propext_rewrite E e s = .ok (simp_result.refl e) s := by
  unfold propext_rewrite
  simp only [run_bind, run_get]
  split
  · rfl
  · unfold flet_rel
    simp only [run_bind, run_get]
    rw [rewrite_expr_no_lemmas E e { s with rel := get_iff_name } h]
    simp only [simp_result.refl, run_pure, state_rel_eta]

theorem pre_identity {E : env σ τ} (hE : identity_setting E) (e : expr) (p : Option expr)
    (s : state σ) (hp : E.reduce_projection s.ctx e = none) : pre E e p s = .ok none s := by
  unfold pre
  rw [hE.cls]
  simp only
  unfold simplify_fn_pre
  simp only [run_bind, run_get, hp, run_pure, no_ext_result]

theorem post_identity {E : env σ τ} (hE : identity_setting E) (e : expr) (p : Option expr)
    (s : state σ) (h : no_lemmas s.slss) : post E e p s = .ok none s := by
  unfold post
  rw [hE.cls]
  simp only
  unfold simplify_fn_post
  simp only [run_bind, rewrite_expr_no_lemmas E e s h, simp_result.refl, ne_eq, not_true_eq_false,
    if_false]
  split
  · rfl
  · simp only [run_bind]
    have := propext_rewrite_no_lemmas E e s h
    simp only [simp_result.refl] at this
    rw [this]
    simp only [not_true_eq_false, if_false]
    rfl

section identity

variable {E : env σ τ} {vis : visit_type σ} {R : name} {c : σ} {e0 : expr}

theorem reached_app_fn {e : expr} (h : reached E c e0 e) : reached E c e0 (get_app_fn e) := by
  induction e with
  | App f a ihf _ => exact ihf (reached.app_fn f a h)
  | _ => exact h

theorem reached_app_args {e : expr} (h : reached E c e0 e) :
    ∀ a ∈ get_app_args e, reached E c e0 a := by
  induction e with
  | App f b ihf _ =>
      intro a ha
      rw [get_app_args_app, List.mem_append] at ha
      rcases ha with ha | ha
      · exact ihf (reached.app_fn f b h) a ha
      · simp only [List.mem_singleton] at ha
        subst ha
        exact reached.app_arg f a h
  | _ => intro a ha; simp [get_app_args, get_app_args_aux] at ha

theorem eq_congr_first_pass_identity {bound : Nat} (hv : visits_identity E vis c e0 R bound)
    (e : expr) (args : List expr)
    (hargs : ∀ a ∈ args, reached E c e0 a ∧ closed a = true ∧ expr_size a < bound)
    (kinds : List congr_arg_kind) :
    ∀ (i : Nat) (p : eq_congr_pass), congr_arg_kind.HEq ∉ kinds →
      i + kinds.length ≤ args.length → p.has_simplified = false →
      ∀ s, identity_inv c R s →
        wp budget_only (eq_congr_first_pass vis e args kinds i p)
          (fun q s1 => q.has_simplified = false ∧ identity_inv c R s1) s := by
  induction kinds with
  | nil =>
      intro i p _ _ hp s hs
      unfold eq_congr_first_pass
      exact ⟨hp, hs⟩
  | cons ckind kinds ih =>
      intro i p hheq hlen hp s hs
      simp only [List.mem_cons, not_or] at hheq
      simp only [List.length_cons] at hlen
      have hi : i < args.length := by omega
      have hget : args.get? i = some (args.get ⟨i, hi⟩) := List.get?_eq_get hi
      have hmem : args.get ⟨i, hi⟩ ∈ args := List.get_mem args i hi
      unfold eq_congr_first_pass
      cases ckind with
      | HEq => exact absurd rfl hheq.1
      | Fixed =>
          simp only [wp_bind, wp_at_index_some _ hget]
          refine ih (i + 1) _ hheq.2 (by omega) ?_ s hs
          exact hp
      | FixedNoParam =>
          simp only [wp_bind, wp_at_index_some _ hget]
          refine ih (i + 1) _ hheq.2 (by omega) ?_ s hs
          exact hp
      | Cast =>
          simp only [wp_bind, wp_at_index_some _ hget]
          refine ih (i + 1) _ hheq.2 (by omega) ?_ s hs
          exact hp
      | Eq =>
          simp only [wp_bind, wp_at_index_some _ hget]
          refine wp_mono (hv _ _ s (hargs _ hmem).1 (hargs _ hmem).2.1 (hargs _ hmem).2.2 hs) ?_
          rintro r s1 ⟨rfl, hs1⟩
          refine ih (i + 1) _ hheq.2 (by omega) ?_ s1 hs1
          simp [hp, simp_result.refl]

theorem try_auto_eq_congr_identity (hS : identity_scope E c e0) (e : expr)
    (hx : reached E c e0 e) (hc : closed e = true) (hv : visits_identity E vis c e0 R (expr_size e)) (s : state σ)
    (hs : identity_inv c R s) :
    wp budget_only (try_auto_eq_congr E vis e)
      (fun o s1 => (o = none ∨ o = some (simp_result.refl e)) ∧ identity_inv c R s1) s := by
  unfold try_auto_eq_congr
  simp only [wp_bind, wp_get]
  cases hcl : E.mk_specialized_congr_simp s.ctx e with
  | none => exact ⟨Or.inl rfl, hs⟩
  | some cl =>
      simp only
      split
      · exact ⟨Or.inl rfl, hs⟩
      · rename_i hlen
        have hok := hS.congr e hx cl (by rw [← hs.1]; exact hcl)
        simp only [wp_bind]
        refine wp_mono (eq_congr_first_pass_identity hv e _
          (fun a ha => ⟨reached_app_args hx a ha, get_app_args_mem e hc a ha⟩) _ 0
          ⟨[], [], false, false, false⟩ hok.2 (by omega) rfl s hs) ?_
        rintro q s1 ⟨hq, hs1⟩
        simp only [hq, Bool.not_false, if_true]
        exact ⟨Or.inr rfl, hs1⟩

theorem congr_funs_refl (E : env σ τ) (e : expr) (s : state σ) :
    congr_funs E (simp_result.refl (get_app_fn e)) (get_app_args e) s =
      .ok (simp_result.refl e) s := by
  unfold congr_funs
  simp only [run_bind, run_get, simp_result.refl, mk_app_get_app_args, run_pure]

theorem visit_fn_identity (f a : expr) (hx : reached E c e0 (App f a))
    (hc : closed (App f a) = true)
    (hv : visits_identity E vis c e0 R (expr_size (App f a))) (s : state σ) (hs : identity_inv c R s) :
    wp budget_only (visit_fn E vis (App f a))
      (fun r s1 => r = simp_result.refl (App f a) ∧ identity_inv c R s1) s := by
  unfold visit_fn
  simp only [wp_bind]
  refine wp_mono (hv _ _ s (reached_app_fn hx) (get_app_fn_closed _ hc) (get_app_fn_size f a)
    hs) ?_
  rintro r s1 ⟨rfl, hs1⟩
  rw [wp_run _ (congr_funs_refl E _ s1)]
  exact ⟨rfl, hs1⟩

theorem join_refl_refl (E : env σ τ) (e : expr) (s : state σ) :
    join E (simp_result.refl e) (simp_result.refl e) s = .ok (simp_result.refl e) s := rfl

theorem visit_app_identity (hE : identity_setting E) (hS : identity_scope E c e0) (f a : expr)
    (hx : reached E c e0 (App f a)) (hc : closed (App f a) = true) (hv : visits_identity E vis c e0 R (expr_size (App f a)))
    (s : state σ) (hs : identity_inv c R s) :
    wp budget_only (visit_app E vis (App f a))
      (fun r s1 => r = simp_result.refl (App f a) ∧ identity_inv c R s1) s := by
  unfold visit_app
  have hcan : should_defeq_canonize E = false := by
    simp [should_defeq_canonize, hE.canonize_instances, hE.canonize_proofs]
  simp only [hcan, wp_bind, wp_pure, Bool.false_eq_true, if_false]
  rw [wp_run _ (try_user_congrs_no_lemmas E vis _ s hs.2.2.1)]
  simp only [wp_get, simp_result.has_proof, simp_result.refl, Option.isSome_none,
    Bool.false_eq_true, if_false]
  split
  · simp only [wp_bind]
    refine wp_mono (try_auto_eq_congr_identity hS _ hx hc hv s hs) ?_
    rintro o s1 ⟨ho, hs1⟩
    rcases ho with rfl | rfl
    · simp only [wp_bind, app_fn, app_arg]
      have hsz : expr_size f < expr_size (App f a) := by simp only [expr_size]; omega
      have hsza : expr_size a < expr_size (App f a) := by simp only [expr_size]; omega
      refine wp_mono (hv f _ s1 (reached.app_fn f a hx) (closed_app hc).1 hsz hs1) ?_
      rintro r s2 ⟨rfl, hs2⟩
      unfold is_dependent_fn
      simp only [wp_bind, wp_get, wp_pure]
      split
      · simp only [simp_result.refl, simp_result.has_proof, Option.isSome_none,
          Bool.false_eq_true, if_false, wp_pure]
        exact ⟨trivial, hs2⟩
      · simp only [wp_bind]
        refine wp_mono (hv a _ s2 (reached.app_arg f a hx) (closed_app hc).2 hsza hs2) ?_
        rintro r s3 ⟨rfl, hs3⟩
        exact ⟨rfl, hs3⟩
    · simp only [wp_bind]
      refine wp_mono (visit_fn_identity f a hx hc hv s1 hs1) ?_
      rintro r s2 ⟨rfl, hs2⟩
      exact ⟨rfl, hs2⟩
  · exact ⟨rfl, hs⟩

theorem ext_visit_lambda_identity (n : name) (d b : expr)
    (hx : reached E c e0 (Lambda n d b)) (hc : closed (Lambda n d b) = true)
    (hv : visits_identity E vis c e0 R (expr_size (Lambda n d b))) (s : state σ)
    (hs : identity_inv c R s) :
    wp budget_only (ext_visit_lambda E vis (Lambda n d b))
      (fun r s1 => r = simp_result.refl (Lambda n d b) ∧ identity_inv c R s1) s := by
  have hctx : s.ctx = c := hs.1
  subst hctx
  unfold ext_visit_lambda
  simp only [wp_bind, wp_get]
  split
  · exact ⟨rfl, hs⟩
  · have hu := unroll_lambdas_spec E s.ctx (Lambda n d b) []
      (fun v hv => by cases hv) (by simpa [closed] using hc)
    have hcl : closed (instantiate_rev (unroll_lambdas E s.ctx (Lambda n d b) []).1
        (unroll_lambdas E s.ctx (Lambda n d b) []).2) = true := by
      have := instantiate_rev_at_closed _ hu.1 _ 0 (by simpa using hu.2.1)
      simp [closed, instantiate_rev, this]
    have hsz : expr_size (instantiate_rev (unroll_lambdas E s.ctx (Lambda n d b) []).1
        (unroll_lambdas E s.ctx (Lambda n d b) []).2) < expr_size (Lambda n d b) := by
      unfold instantiate_rev
      rw [instantiate_rev_at_size _ hu.1]
      exact hu.2.2.2 rfl
    simp only [wp_bind]
    refine wp_mono (hv _ _ s (reached.lambda_body n d b hx) hcl hsz hs) ?_
    rintro r s1 ⟨rfl, hs1⟩
    simp only [simp_result.refl, if_true, wp_pure]
    exact ⟨trivial, hs1⟩

theorem forall_congr_identity (n : name) (d b : expr) (hx : reached E c e0 (Pi n d b))
    (hc : closed (Pi n d b) = true)
    (hv : visits_identity E vis c e0 R (expr_size (Pi n d b))) (s : state σ)
    (hs : identity_inv c R s) (hd : E.is_prop s.ctx d = false) :
    wp budget_only (forall_congr E vis (Pi n d b))
      (fun r s1 => r = simp_result.refl (Pi n d b) ∧ identity_inv c R s1) s := by
  have hctx : s.ctx = c := hs.1
  subst hctx
  unfold forall_congr
  simp only [wp_bind, wp_get]
  have hu := unroll_foralls_spec E s.ctx (Pi n d b) [] []
    (fun v hv => by cases hv) (by simpa [closed] using hc)
  have hcl : closed (instantiate_rev (unroll_foralls E s.ctx (Pi n d b) [] []).1
      (unroll_foralls E s.ctx (Pi n d b) [] []).2.2) = true := by
    have := instantiate_rev_at_closed _ hu.1 _ 0 (by simpa using hu.2.1)
    simp [closed, instantiate_rev, this]
  have hsz : expr_size (instantiate_rev (unroll_foralls E s.ctx (Pi n d b) [] []).1
      (unroll_foralls E s.ctx (Pi n d b) [] []).2.2) < expr_size (Pi n d b) := by
    unfold instantiate_rev
    rw [instantiate_rev_at_size _ hu.1]
    refine hu.2.2.2 ?_ rfl
    simp only [binding_domain, instantiate_rev_nil]
    exact hd
  refine wp_mono (hv _ _ s (reached.forall_body n d b hx hd) hcl hsz hs) ?_
  rintro r s1 ⟨rfl, hs1⟩
  simp only [simp_result.refl, if_true, wp_pure]
  exact ⟨trivial, hs1⟩

theorem imp_congr_identity (hE : identity_setting E) (n : name) (d b : expr)
    (hx : reached E c e0 (Pi n d b)) (hc : closed (Pi n d b) = true) (ha : is_arrow (Pi n d b) = true)
    (hv : visits_identity E vis c e0 R (expr_size (Pi n d b))) (s : state σ)
    (hs : identity_inv c R s) :
    wp budget_only (imp_congr E vis (Pi n d b))
      (fun r s1 => r = simp_result.refl (Pi n d b) ∧ identity_inv c R s1) s := by
  have hcd : closed d = true ∧ closed b = true := by
    simp only [closed, has_loose_from, Bool.not_or, Bool.and_eq_true, Bool.not_eq_true'] at hc
    simp only [is_arrow, binding_body, Bool.and_eq_true, Bool.not_eq_true'] at ha
    refine ⟨by simp [closed, hc.1], ?_⟩
    simp [closed, has_loose_from_of_free b 0 ha.2 hc.2]
  have hszd : expr_size d < expr_size (Pi n d b) := by simp only [expr_size]; omega
  have hszb : expr_size b < expr_size (Pi n d b) := by simp only [expr_size]; omega
  unfold imp_congr
  simp only [binding_domain, binding_body, wp_bind, hE.contextual, Bool.false_eq_true, if_false,
    wp_get]
  refine wp_mono (hv d _ s (reached.arrow_domain n d b hx ha) hcd.1 hszd hs) ?_
  rintro r s1 ⟨rfl, hs1⟩
  refine wp_mono (hv b _ s1 (reached.arrow_body n d b hx ha) hcd.2 hszb hs1) ?_
  rintro r s2 ⟨rfl, hs2⟩
  simp only [simp_result.refl, decide_True, Bool.and_self, if_true, wp_pure]
  exact ⟨trivial, hs2⟩

theorem visit_pi_identity (hE : identity_setting E) (n : name) (d b : expr)
    (hx : reached E c e0 (Pi n d b)) (hc : closed (Pi n d b) = true) (hv : visits_identity E vis c e0 R (expr_size (Pi n d b)))
    (s : state σ) (hs : identity_inv c R s) :
    wp budget_only (visit_pi E vis (Pi n d b))
      (fun r s1 => r = simp_result.refl (Pi n d b) ∧ identity_inv c R s1) s := by
  have hcore : wp budget_only (core_visit_pi E vis (Pi n d b))
      (fun r s1 => r = simp_result.refl (Pi n d b) ∧ identity_inv c R s1) s := by
    unfold core_visit_pi
    rw [wp_run _ (try_user_congrs_no_lemmas E vis _ s hs.2.2.1)]
    exact ⟨rfl, hs⟩
  unfold visit_pi
  rw [hE.cls]
  simp only
  unfold ext_visit_pi
  simp only [wp_bind, wp_get]
  split
  · split
    · split
      · rename_i hd
        refine forall_congr_identity n d b hx hc hv s hs ?_
        simpa [binding_domain] using hd
      · split
        · rename_i ha
          exact imp_congr_identity hE n d b hx hc ha hv s hs
        · exact hcore
    · exact hcore
  · exact hcore

theorem visit_step_identity (hE : identity_setting E) (hS : identity_scope E c e0) (e : expr)
    (hx : reached E c e0 e) (hc : closed e = true)
    (hv : visits_identity E vis c e0 R (expr_size e)) (s : state σ) (hs : identity_inv c R s) :
    wp budget_only (visit_step E vis (simp_result.refl e))
      (fun r s1 => r = simp_result.refl e ∧ identity_inv c R s1) s := by
  unfold visit_step
  cases e with
  | Var i => simp [closed, has_loose_from] at hc
  | «Sort» l => exact ⟨rfl, hs⟩
  | Constant n ls => exact ⟨rfl, hs⟩
  | Meta n t => exact ⟨rfl, hs⟩
  | Local n t => exact ⟨rfl, hs⟩
  | Macro n => exact ⟨rfl, hs⟩
  | App f a =>
      simp only [simp_result.refl, expr.kind, wp_bind]
      refine wp_mono (visit_app_identity hE hS f a hx hc hv s hs) ?_
      rintro r s1 ⟨rfl, hs1⟩
      exact ⟨rfl, hs1⟩
  | Lambda n d b =>
      simp only [simp_result.refl, expr.kind, wp_bind]
      have hl : wp budget_only (visit_lambda E vis (Lambda n d b))
          (fun r s1 => r = simp_result.refl (Lambda n d b) ∧ identity_inv c R s1) s := by
        unfold visit_lambda
        rw [hE.cls]
        exact ext_visit_lambda_identity n d b hx hc hv s hs
      refine wp_mono hl ?_
      rintro r s1 ⟨rfl, hs1⟩
      exact ⟨rfl, hs1⟩
  | Pi n d b =>
      simp only [simp_result.refl, expr.kind, wp_bind]
      refine wp_mono (visit_pi_identity hE n d b hx hc hv s hs) ?_
      rintro r s1 ⟨rfl, hs1⟩
      exact ⟨rfl, hs1⟩
  | Let n t v b =>
      simp only [simp_result.refl, expr.kind, wp_bind]
      have hl : visit_let E (Let n t v b) s = .ok (simp_result.refl (Let n t v b)) s := by
        unfold visit_let
        cases E.cls <;> rfl
      rw [wp_run _ hl]
      exact ⟨rfl, hs⟩

theorem cache_identity_insert (c : simplify_cache) (e : expr) (h : cache_identity c) :
    cache_identity (cache_insert c e (simp_result.refl e)) := by
  unfold cache_insert
  cases hf : cache_find c e with
  | some v => exact h
  | none =>
      intro k v hk
      simp only [cache_find] at hk
      split at hk
      · rename_i hek
        cases hk
        rw [hek]
      · exact h k v hk

theorem visit_cached_identity (hE : identity_setting E) (hS : identity_scope E c e0) (e : expr)
    (p : Option expr) (hx : reached E c e0 e) (hc : closed e = true) (hv : visits_identity E vis c e0 R (expr_size e))
    (hlift : R ≠ get_eq_name → ∀ s, identity_inv c get_eq_name s →
      wp budget_only (vis e p)
        (fun r s1 => r = simp_result.refl e ∧ identity_inv c get_eq_name s1) s)
    (n : Nat) (s : state σ) (hs : identity_inv c R s) :
    wp budget_only (visit_cached E vis (n + 1) e p)
      (fun r s1 => r = simp_result.refl e ∧ identity_inv c R s1) s := by
  unfold visit_cached
  simp only [wp_bind, wp_get]
  cases hf : cache_find s.cache e with
  | some r => exact ⟨hs.2.2.2 e r hf, hs⟩
  | none =>
      simp only [wp_bind]
      rw [wp_run _ (pre_identity hE e p s (by rw [hs.1]; exact hS.reduce_projection e hx))]
      simp only [wp_bind]
      unfold visit_loop
      simp only [wp_bind]
      refine wp_mono (visit_step_identity hE hS e hx hc hv s hs) ?_
      rintro r s1 ⟨rfl, hs1⟩
      rw [wp_run _ (post_identity hE _ p s1 hs1.2.2.1)]
      simp only [wp_pure]
      unfold visit_lift
      simp only [wp_bind, wp_get]
      have hstore : ∀ s2 : state σ, identity_inv c R s2 →
          wp budget_only (cache_store e (simp_result.refl e))
            (fun _ s3 => True ∧ identity_inv c R s3) s2 := by
        intro s2 hs2
        exact ⟨trivial, hs2.1, hs2.2.1, hs2.2.2.1, cache_identity_insert _ _ hs2.2.2.2⟩
      split
      · rename_i hcond
        have hne : R ≠ get_eq_name := by
          rw [← hs1.2.1]
          simp only [Bool.and_eq_true, decide_eq_true_eq] at hcond
          exact hcond.2
        simp only [wp_bind, wp_flet_rel, wp_freset_cache]
        refine wp_mono (hlift hne _ ⟨hs1.1, rfl, hs1.2.2.1, fun k v hk => by cases hk⟩) ?_
        rintro r s2 ⟨rfl, hs2⟩
        simp only [simp_result.refl, ne_eq, not_true_eq_false, if_false, wp_pure]
        exact hstore _ ⟨hs2.1, hs1.2.1, hs2.2.2.1, hs1.2.2.2⟩
      · simp only [wp_pure]
        exact hstore _ hs1

end identity

theorem visit_identity {E : env σ τ} (hE : identity_setting E) {c : σ} {e0 : expr}
    (hS : identity_scope E c e0) (n : Nat) :
    ∀ (e : expr) (p : Option expr) (s : state σ), reached E c e0 e → closed e = true →
      fuel_ok s.rel e n → identity_inv c s.rel s →
      wp budget_only (visit E n e p)
        (fun r s1 => r = simp_result.refl e ∧ identity_inv c s.rel s1) s := by
  induction n with
  | zero =>
      intro e p s _ _ hf _
      have := expr_size_pos e
      rcases hf with hf | hf <;> omega
  | succ n ih =>
      intro e p s hx hc hf hs
      show wp budget_only (visit_body E (visit E n) (n + 1) e p) _ s
      unfold visit_body inc_num_steps
      simp only [wp_bind, wp_modify, wp_get]
      split
      · rfl
      · simp only [wp_pure]
        have hv : visits_identity E (visit E n) c e0 s.rel (expr_size e) := by
          intro x q s2 hxx hcx hsz hs2
          have hf2 : fuel_ok s2.rel x n := by
            rw [hs2.2.1]
            rcases hf with hf | hf
            · exact Or.inl ⟨hf.1, by omega⟩
            · exact Or.inr (by omega)
          have := ih x q s2 hxx hcx hf2 (by rw [hs2.2.1]; exact hs2)
          rw [hs2.2.1] at this
          exact this
        have hlift : s.rel ≠ get_eq_name → ∀ s2, identity_inv c get_eq_name s2 →
            wp budget_only (visit E n e p)
              (fun r s1 => r = simp_result.refl e ∧ identity_inv c get_eq_name s1) s2 := by
          intro hne s2 hs2
          have hf2 : fuel_ok s2.rel e n := by
            rw [hs2.2.1]
            have := expr_size_pos e
            rcases hf with hf | hf
            · exact absurd hf.1 hne
            · exact Or.inl ⟨rfl, by omega⟩
          have := ih e p s2 hx hc hf2 (by rw [hs2.2.1]; exact hs2)
          rw [hs2.2.1] at this
          exact this
        exact visit_cached_identity hE hS e p hx hc hv hlift n _ hs

theorem simplify_identity {E : env σ τ} (hE : identity_setting E) (e : expr)
    (hc : closed e = true) (rel : name) (s : state σ) (hS : identity_scope E s.ctx e)
    (hs : no_lemmas s.slss) (fuel : Nat)
    (hfuel : 2 * expr_size e ≤ fuel) :
    wp budget_only (simplify E fuel rel e) (fun r _ => r = simp_result.refl e) s := by
  have hcan : should_defeq_canonize E = false := by
    simp [should_defeq_canonize, hE.canonize_instances, hE.canonize_proofs]
  have hpos := expr_size_pos e
  unfold simplify
  simp only [wp_bind, wp_modify]
  cases fuel with
  | zero => omega
  | succ n =>
      unfold simplify_loop
      simp only [wp_bind, wp_modify, simp_result.refl]
      have hv := visit_identity hE hS (n + 1) e none
        { s with rel := rel, cache := [], need_restart := false } reached.root hc (Or.inr hfuel)
        ⟨rfl, rfl, hs, fun k v hk => by cases hk⟩
      refine wp_mono hv ?_
      rintro r s1 ⟨rfl, _⟩
      simp only [wp_get, hcan, Bool.not_false, Bool.or_true, if_true]
      rfl

/-- C4 (amended): with a lemma index that has no entry for any relation,
`rewrite(e)` and `try_user_congrs(e)` return `simp_result(e)` for every `e`;
and the plain simplifier, with canonicalization and contextual hypotheses
disabled, returns for every closed term `e` and every relation the term itself
with no proof, unless it raises the step-budget error, provided that on the
terms reached from `e` by structural descent the projection reduction of the
`pre` hook does not fire and the congruence-lemma synthesizer keeps its
contract (at most as many argument kinds as arguments, none of them `HEq`). -/
theorem C4_empty_index_identity (E : env σ τ) (e : expr) (s : state σ)
    (hs : no_lemmas s.slss) :
    (rewrite_expr E e s = .ok (simp_result.refl e) s ∧
      ∀ vis, try_user_congrs E vis e s = .ok (simp_result.refl e) s) ∧
    (identity_setting E → identity_scope E s.ctx e → closed e = true →
      ∀ (rel : name) (fuel : Nat), 2 * expr_size e ≤ fuel →
      (∃ s1, simplify E fuel rel e s = .ok (simp_result.refl e) s1) ∨
        simplify E fuel rel e s = .exception max_steps_msg) := by
  refine ⟨⟨rewrite_expr_no_lemmas E e s hs, fun vis => try_user_congrs_no_lemmas E vis e s hs⟩,
    ?_⟩
  intro hE hS hc rel fuel hfuel
  have h := simplify_identity hE e hc rel s hS hs fuel hfuel
  unfold wp at h
  cases hm : simplify E fuel rel e s with
  | ok r s1 =>
      rw [hm] at h
      simp only at h
      rw [h]
      exact Or.inl ⟨s1, rfl⟩
  | exception msg =>
      rw [hm] at h
      simp only [budget_only, failure.exception.injEq] at h
      rw [h]
      exact Or.inr rfl
  | out_of_bounds =>
      rw [hm] at h
      simp [budget_only] at h
  | out_of_fuel =>
      rw [hm] at h
      simp [budget_only] at h

theorem plain_env_setting : identity_setting plain_env where
  cls := rfl
  canonize_instances := rfl
  canonize_proofs := rfl
  contextual := rfl

theorem projection_env_setting : identity_setting projection_env where
  cls := rfl
  canonize_instances := rfl
  canonize_proofs := rfl
  contextual := rfl

/-- The terms reached from `f a` are `f a`, `f` and `a`. -/
theorem reached_app_const (E : env σ τ) (c : σ) (x : expr)
    (h : reached E c (App const_f const_a) x) :
    x = App const_f const_a ∨ x = const_f ∨ x = const_a := by
  induction h with
  | root => exact Or.inl rfl
  | app_fn f a _ ih =>
      rcases ih with ih | ih | ih
      · simp only [App.injEq] at ih
        exact Or.inr (Or.inl ih.1)
      · simp [const_f] at ih
      · simp [const_a] at ih
  | app_arg f a _ ih =>
      rcases ih with ih | ih | ih
      · simp only [App.injEq] at ih
        exact Or.inr (Or.inr ih.2)
      · simp [const_f] at ih
      · simp [const_a] at ih
  | lambda_body n d b _ ih => rcases ih with ih | ih | ih <;> simp [const_f, const_a] at ih
  | forall_body n d b _ _ ih => rcases ih with ih | ih | ih <;> simp [const_f, const_a] at ih
  | arrow_domain n d b _ _ ih => rcases ih with ih | ih | ih <;> simp [const_f, const_a] at ih
  | arrow_body n d b _ _ ih => rcases ih with ih | ih | ih <;> simp [const_f, const_a] at ih

/-- The projection reduction of `projection_env` can fire, but not on the
terms reached from `f a`. -/
theorem projection_env_scope : identity_scope projection_env () (App const_f const_a) where
  reduce_projection := by
    intro x hx
    rcases reached_app_const _ _ x hx with rfl | rfl | rfl <;> rfl
  congr := fun _ _ _ h => by cases h

/-- Witness of C4: the plain simplifier with a projection reduction, which does
not fire on `f a`, `f` and `a`, on the application `f a` under `iff`. -/
theorem C4_empty_index_identity_witness :
    projection_env.reduce_projection () fst_pair = some const_a ∧
    (simplify projection_env 6 "iff" (App const_f const_a) (initial_state () empty_slss)).value =
      some (simp_result.refl (App const_f const_a)) :=
  have h := (C4_empty_index_identity projection_env (App const_f const_a)
    (initial_state () empty_slss) (fun _ => rfl)).2 projection_env_setting projection_env_scope
    rfl "iff" 6 (by decide)
  ⟨rfl, match h with
    | Or.inl ⟨s1, h1⟩ => by rw [h1]; rfl
    | Or.inr h2 => by
        have h3 : (simplify projection_env 6 "iff" (App const_f const_a)
            (initial_state () empty_slss)).value =
            some (simp_result.refl (App const_f const_a)) := by
          decide
        exact h3⟩

/-- Counterexample to C4 as stated: with an empty lemma index the plain
simplifier turns `prod.fst (prod.mk a b)` into `a`, by the projection reduction
of its `pre` hook, and with contextual hypotheses it rewrites `a → a` to
`a → true` under `iff`; and when the synthesized congruence lemma of `f a` has
four argument kinds, the run reads the argument buffer out of bounds. -/
theorem C4_counterexample :
    (simplify projection_env 5 "eq" fst_pair (initial_state () empty_slss)).value =
      some (simp_result.refl const_a) ∧
    ((simplify contextual_env 5 "iff" (Pi "h" const_a const_a)
        (initial_state () empty_slss)).value.map simp_result.new) =
      some (Pi "a" const_a const_true) ∧
    simplify { kinds_env with cls := simp_class.simplify_fn } 5 "eq" (App const_f const_a)
        (initial_state [] empty_slss) = .out_of_bounds :=
  ⟨by decide, by decide, rfl⟩

/-! ## Identity and proofs (C3) -/

/-- Every cache entry is without proof: an invariant of a run whose hooks
return no proof. -/
theorem stable_no_proof (E : env σ τ) :
    stable E true (fun x => ∀ k v, cache_find x.cache k = some v → v.proof = none) where
  set_ctx := fun _ _ _ h => h
  set_rel := fun _ _ h => h
  set_slss := fun _ _ h => h
  cache_clear := fun _ _ k v hk => by cases hk
  cache_restore := fun _ _ h _ => h
  cache_insert := by
    intro s e r h hr k v hk
    simp only [cache_insert] at hk
    split at hk
    · exact h k v hk
    · simp only [cache_find] at hk
      split at hk
      · cases hk
        exact hr rfl
      · exact h k v hk
  cache_find := fun _ e r h hf _ => h e r hf

theorem step_no_proof (E : env σ τ) :
    step_ok E (fun x => ∀ k v, cache_find x.cache k = some v → v.proof = none) :=
  fun _ h _ => h

theorem visit_loop_with_eq (E : env σ τ) (vis : visit_type σ) (parent : Option expr) (n : Nat) :
    ∀ r, visit_loop_with (post E) E vis parent n r = visit_loop E vis parent n r := by
  induction n with
  | zero => intro r; rfl
  | succ n ih =>
      intro r
      unfold visit_loop_with visit_loop
      simp only [ih]

theorem visit_cached_with_eq (E : env σ τ) (vis : visit_type σ) (n : Nat) (e : expr)
    (parent : Option expr) :
    visit_cached_with (pre E) (post E) E vis n e parent = visit_cached E vis n e parent := by
  unfold visit_cached_with visit_cached
  simp only [visit_loop_with_eq]

theorem visit_with_eq (E : env σ τ) (n : Nat) : visit_with (pre E) (post E) E n = visit E n := by
  induction n with
  | zero => rfl
  | succ n ih =>
      show visit_body_with (pre E) (post E) E (visit_with (pre E) (post E) E n) (n + 1) =
        visit_body E (visit E n) (n + 1)
      rw [ih]
      funext e p
      unfold visit_body_with visit_body
      rw [visit_cached_with_eq]

theorem simplify_loop_with_eq (E : env σ τ) (fuel n : Nat) :
    ∀ r, simplify_loop_with (pre E) (post E) E fuel n r = simplify_loop E fuel n r := by
  induction n with
  | zero => intro r; rfl
  | succ n ih =>
      intro r
      unfold simplify_loop_with simplify_loop
      simp only [ih, visit_with_eq]

/-- With the hooks `pre` and `post` themselves, the run with replaced hooks is
`operator()`. -/
theorem simplify_with_eq (E : env σ τ) (fuel : Nat) (rel : name) (e : expr) :
    simplify_with (pre E) (post E) E fuel rel e = simplify E fuel rel e := by
  unfold simplify_with simplify
  simp only [simplify_loop_with_eq]

theorem soa_refl {α : Type} (m : M σ α) : stops_or_agrees m m := fun _ => Or.inl rfl

theorem soa_bind {α β : Type} {m1 m : M σ α} {f1 f : α → M σ β} (hm : stops_or_agrees m1 m)
    (hf : ∀ a, stops_or_agrees (f1 a) (f a)) : stops_or_agrees (m1 >>= f1) (m >>= f) := by
  intro s
  rw [run_bind, run_bind]
  rcases hm s with h | h
  · rw [h]
    cases hms : m s with
    | ok a s1 => exact hf a s1
    | exception msg => exact Or.inl rfl
    | out_of_bounds => exact Or.inl rfl
    | out_of_fuel => exact Or.inl rfl
  · rw [h]
    exact Or.inr rfl

theorem soa_flet_rel {α : Type} {m1 m : M σ α} (rel : name) (hm : stops_or_agrees m1 m) :
    stops_or_agrees (flet_rel rel m1) (flet_rel rel m) := by
  intro s
  unfold flet_rel
  rcases hm { s with rel := rel } with h | h
  · rw [h]; exact Or.inl rfl
  · rw [h]; exact Or.inr rfl

theorem soa_flet_slss {α : Type} {m1 m : M σ α} (slss : simp_lemmas)
    (hm : stops_or_agrees m1 m) : stops_or_agrees (flet_slss slss m1) (flet_slss slss m) := by
  intro s
  unfold flet_slss
  rcases hm { s with slss := slss } with h | h
  · rw [h]; exact Or.inl rfl
  · rw [h]; exact Or.inr rfl

theorem soa_freset_cache {α : Type} {m1 m : M σ α} (hm : stops_or_agrees m1 m) :
    stops_or_agrees (freset_cache m1) (freset_cache m) := by
  intro s
  unfold freset_cache
  rcases hm { s with cache := [] } with h | h
  · rw [h]; exact Or.inl rfl
  · rw [h]; exact Or.inr rfl

theorem soa_proofless (h : hook_type σ) (e : expr) (p : Option expr) :
    stops_or_agrees (proofless h e p) (h e p) := by
  intro s
  unfold proofless
  rw [run_bind]
  cases hs : h e p s with
  | ok o s1 =>
      rcases o with _ | ⟨r, c⟩
      · exact Or.inl rfl
      · simp only
        split
        · exact Or.inr rfl
        · exact Or.inl rfl
  | exception msg => exact Or.inl rfl
  | out_of_bounds => exact Or.inl rfl
  | out_of_fuel => exact Or.inl rfl

section observed

variable {E : env σ τ} {vis1 vis : visit_type σ}

theorem soa_congr_hyps_loop (hv : ∀ e p, stops_or_agrees (vis1 e p) (vis e p)) (e : expr)
    (ms : List expr) :
    ∀ (tmp_ctx : τ) (simplified : Bool) (acc : List congr_hyp_data),
      stops_or_agrees (congr_hyps_loop E vis1 e ms tmp_ctx simplified acc)
        (congr_hyps_loop E vis e ms tmp_ctx simplified acc) := by
  induction ms with
  | nil => intro tmp_ctx simplified acc; exact soa_refl _
  | cons m ms ihm =>
      intro tmp_ctx simplified acc
      unfold congr_hyps_loop
      refine soa_bind (soa_refl _) (fun s => ?_)
      dsimp only
      refine soa_bind ?_ (fun r => ihm _ _ _)
      refine soa_flet_slss _ ?_
      split
      · exact soa_flet_rel _ (soa_freset_cache (hv _ _))
      · exact hv _ _

theorem soa_try_user_congr (hv : ∀ e p, stops_or_agrees (vis1 e p) (vis e p)) (e : expr)
    (cl : simp_lemma) :
    stops_or_agrees (try_user_congr E vis1 e cl) (try_user_congr E vis e cl) := by
  unfold try_user_congr
  repeat' first
    | exact soa_refl _
    | exact hv _ _
    | exact soa_congr_hyps_loop hv _ _ _ _ _
    | refine soa_bind ?_ (fun _ => ?_)
    | split
    | dsimp only

theorem soa_try_user_congrs_loop (hv : ∀ e p, stops_or_agrees (vis1 e p) (vis e p)) (e : expr)
    (cls : List simp_lemma) :
    stops_or_agrees (try_user_congrs_loop E vis1 e cls) (try_user_congrs_loop E vis e cls) := by
  induction cls with
  | nil => exact soa_refl _
  | cons cl cls ih =>
      unfold try_user_congrs_loop
      repeat' first
        | exact soa_refl _
        | exact ih
        | exact soa_try_user_congr hv _ _
        | refine soa_bind ?_ (fun _ => ?_)
        | split

theorem soa_try_user_congrs (hv : ∀ e p, stops_or_agrees (vis1 e p) (vis e p)) (e : expr) :
    stops_or_agrees (try_user_congrs E vis1 e) (try_user_congrs E vis e) := by
  unfold try_user_congrs
  repeat' first
    | exact soa_refl _
    | exact soa_try_user_congrs_loop hv _ _
    | refine soa_bind ?_ (fun _ => ?_)
    | split

theorem soa_eq_congr_first_pass (hv : ∀ e p, stops_or_agrees (vis1 e p) (vis e p)) (e : expr)
    (args : List expr) (kinds : List congr_arg_kind) :
    ∀ (i : Nat) (p : eq_congr_pass),
      stops_or_agrees (eq_congr_first_pass vis1 e args kinds i p)
        (eq_congr_first_pass vis e args kinds i p) := by
  induction kinds with
  | nil => intro i p; exact soa_refl _
  | cons ckind kinds ih =>
      intro i p
      unfold eq_congr_first_pass
      repeat' first
        | exact soa_refl _
        | exact hv _ _
        | exact ih _ _
        | refine soa_bind ?_ (fun _ => ?_)
        | split

theorem soa_try_auto_eq_congr (hv : ∀ e p, stops_or_agrees (vis1 e p) (vis e p)) (e : expr) :
    stops_or_agrees (try_auto_eq_congr E vis1 e) (try_auto_eq_congr E vis e) := by
  unfold try_auto_eq_congr
  repeat' first
    | exact soa_refl _
    | exact soa_eq_congr_first_pass hv _ _ _ _ _
    | refine soa_bind ?_ (fun _ => ?_)
    | split

theorem soa_visit_fn (hv : ∀ e p, stops_or_agrees (vis1 e p) (vis e p)) (e : expr) :
    stops_or_agrees (visit_fn E vis1 e) (visit_fn E vis e) := by
  unfold visit_fn
  exact soa_bind (hv _ _) (fun _ => soa_refl _)

theorem soa_visit_app (hv : ∀ e p, stops_or_agrees (vis1 e p) (vis e p)) (e : expr) :
    stops_or_agrees (visit_app E vis1 e) (visit_app E vis e) := by
  unfold visit_app
  repeat' first
    | exact soa_refl _
    | exact hv _ _
    | exact soa_try_user_congrs hv _
    | exact soa_try_auto_eq_congr hv _
    | exact soa_visit_fn hv _
    | refine soa_bind ?_ (fun _ => ?_)
    | split

theorem soa_ext_visit_lambda (hv : ∀ e p, stops_or_agrees (vis1 e p) (vis e p)) (e : expr) :
    stops_or_agrees (ext_visit_lambda E vis1 e) (ext_visit_lambda E vis e) := by
  unfold ext_visit_lambda
  repeat' first
    | exact soa_refl _
    | exact hv _ _
    | refine soa_bind ?_ (fun _ => ?_)
    | split

theorem soa_forall_congr (hv : ∀ e p, stops_or_agrees (vis1 e p) (vis e p)) (e : expr) :
    stops_or_agrees (forall_congr E vis1 e) (forall_congr E vis e) := by
  unfold forall_congr
  repeat' first
    | exact soa_refl _
    | exact hv _ _
    | refine soa_bind ?_ (fun _ => ?_)

theorem soa_imp_congr (hv : ∀ e p, stops_or_agrees (vis1 e p) (vis e p)) (e : expr) :
    stops_or_agrees (imp_congr E vis1 e) (imp_congr E vis e) := by
  unfold imp_congr
  repeat' first
    | exact soa_refl _
    | exact hv _ _
    | exact soa_flet_slss _ (soa_freset_cache (hv _ _))
    | refine soa_bind ?_ (fun _ => ?_)
    | split

theorem soa_visit_pi (hv : ∀ e p, stops_or_agrees (vis1 e p) (vis e p)) (e : expr) :
    stops_or_agrees (visit_pi E vis1 e) (visit_pi E vis e) := by
  unfold visit_pi ext_visit_pi core_visit_pi
  repeat' first
    | exact soa_refl _
    | exact soa_try_user_congrs hv _
    | exact soa_forall_congr hv _
    | exact soa_imp_congr hv _
    | refine soa_bind ?_ (fun _ => ?_)
    | split

theorem soa_visit_lambda (hv : ∀ e p, stops_or_agrees (vis1 e p) (vis e p)) (e : expr) :
    stops_or_agrees (visit_lambda E vis1 e) (visit_lambda E vis e) := by
  unfold visit_lambda
  split
  · exact soa_refl _
  · exact soa_ext_visit_lambda hv e

theorem soa_visit_step (hv : ∀ e p, stops_or_agrees (vis1 e p) (vis e p))
    (curr : simp_result) :
    stops_or_agrees (visit_step E vis1 curr) (visit_step E vis curr) := by
  unfold visit_step
  repeat' first
    | exact soa_refl _
    | exact soa_visit_lambda hv _
    | exact soa_visit_pi hv _
    | exact soa_visit_app hv _
    | refine soa_bind ?_ (fun _ => ?_)
    | split

theorem soa_visit_lift (hv : ∀ e p, stops_or_agrees (vis1 e p) (vis e p))
    (parent : Option expr) (curr : simp_result) :
    stops_or_agrees (visit_lift E vis1 parent curr) (visit_lift E vis parent curr) := by
  unfold visit_lift
  repeat' first
    | exact soa_refl _
    | exact hv _ _
    | exact soa_flet_rel _ (soa_freset_cache (hv _ _))
    | refine soa_bind ?_ (fun _ => ?_)
    | split

variable {h_pre1 h_pre h_post1 h_post : hook_type σ}

theorem soa_visit_loop_with (hq : ∀ e p, stops_or_agrees (h_post1 e p) (h_post e p))
    (hv : ∀ e p, stops_or_agrees (vis1 e p) (vis e p)) (parent : Option expr) (n : Nat) :
    ∀ curr, stops_or_agrees (visit_loop_with h_post1 E vis1 parent n curr)
      (visit_loop_with h_post E vis parent n curr) := by
  induction n with
  | zero => intro curr; exact soa_refl _
  | succ n ih =>
      intro curr
      unfold visit_loop_with
      repeat' first
        | exact soa_refl _
        | exact hq _ _
        | exact ih _
        | exact soa_visit_step hv _
        | refine soa_bind ?_ (fun _ => ?_)
        | split

theorem soa_visit_cached_with (hp : ∀ e p, stops_or_agrees (h_pre1 e p) (h_pre e p))
    (hq : ∀ e p, stops_or_agrees (h_post1 e p) (h_post e p))
    (hv : ∀ e p, stops_or_agrees (vis1 e p) (vis e p)) (n : Nat) (e : expr)
    (parent : Option expr) :
    stops_or_agrees (visit_cached_with h_pre1 h_post1 E vis1 n e parent)
      (visit_cached_with h_pre h_post E vis n e parent) := by
  unfold visit_cached_with
  repeat' first
    | exact soa_refl _
    | exact hp _ _
    | exact soa_visit_loop_with hq hv _ _ _
    | exact soa_visit_lift hv _ _
    | refine soa_bind ?_ (fun _ => ?_)
    | split

theorem soa_visit_with (hp : ∀ e p, stops_or_agrees (h_pre1 e p) (h_pre e p))
    (hq : ∀ e p, stops_or_agrees (h_post1 e p) (h_post e p)) (E : env σ τ) (n : Nat) :
    ∀ e p, stops_or_agrees (visit_with h_pre1 h_post1 E n e p) (visit_with h_pre h_post E n e p) := by
  induction n with
  | zero => intro e p; exact soa_refl _
  | succ n ih =>
      intro e p
      show stops_or_agrees (visit_body_with h_pre1 h_post1 E (visit_with h_pre1 h_post1 E n) (n + 1) e p)
        (visit_body_with h_pre h_post E (visit_with h_pre h_post E n) (n + 1) e p)
      unfold visit_body_with
      exact soa_bind (soa_refl _) (fun _ => soa_visit_cached_with hp hq ih _ _ _)

theorem soa_simplify_loop_with (hp : ∀ e p, stops_or_agrees (h_pre1 e p) (h_pre e p))
    (hq : ∀ e p, stops_or_agrees (h_post1 e p) (h_post e p)) (E : env σ τ) (fuel n : Nat) :
    ∀ r, stops_or_agrees (simplify_loop_with h_pre1 h_post1 E fuel n r)
      (simplify_loop_with h_pre h_post E fuel n r) := by
  induction n with
  | zero => intro r; exact soa_refl _
  | succ n ih =>
      intro r
      unfold simplify_loop_with
      repeat' first
        | exact soa_refl _
        | exact ih _
        | exact soa_visit_with hp hq E _ _ _
        | refine soa_bind ?_ (fun _ => ?_)
        | split

theorem soa_simplify_with (hp : ∀ e p, stops_or_agrees (h_pre1 e p) (h_pre e p))
    (hq : ∀ e p, stops_or_agrees (h_post1 e p) (h_post e p)) (E : env σ τ) (fuel : Nat)
    (rel : name) (e : expr) :
    stops_or_agrees (simplify_with h_pre1 h_post1 E fuel rel e)
      (simplify_with h_pre h_post E fuel rel e) := by
  unfold simplify_with
  exact soa_bind (soa_refl _) (fun _ => soa_simplify_loop_with hp hq E _ _ _)

/-- The observed run stops with `hook_proof_msg` or does what `operator()`
does. -/
theorem observed_run (E : env σ τ) (fuel : Nat) (rel : name) (e : expr) :
    stops_or_agrees (simplify_with (proofless (pre E)) (proofless (post E)) E fuel rel e)
      (simplify E fuel rel e) := by
  rw [← simplify_with_eq]
  exact soa_simplify_with (soa_proofless _) (soa_proofless _) E fuel rel e

end observed

section observed_sat

variable {E : env σ τ} {b : Bool} {Inv : state σ → Prop} {vis : visit_type σ}
variable {h_pre h_post : hook_type σ}

theorem sat_visit_loop_with (hI : stable E b Inv)
    (hq : ∀ e p, sat Inv (h_post e p) (fun o => ∀ r c, o = some (r, c) → keeps b r))
    (ih : ∀ e p, sat Inv (vis e p) (keeps b)) (parent : Option expr) (n : Nat) :
    ∀ curr : simp_result, keeps b curr →
      sat Inv (visit_loop_with h_post E vis parent n curr) (keeps b) := by
  induction n with
  | zero =>
      intro curr _ s _
      trivial
  | succ n ihn =>
      intro curr hc
      unfold visit_loop_with
      refine sat_bind (sat_visit_step hI ih curr hc) (fun new_result hn => ?_)
      refine sat_bind (hq _ _) (fun o ho => ?_)
      split
      · exact sat_join hn (ho _ _ rfl)
      · split
        · exact sat_pure hc
        · exact sat_bind (sat_join hn (ho _ _ rfl)) (fun c hc1 => ihn c hc1)
      · exact sat_pure hn

theorem sat_visit_cached_with (hI : stable E b Inv)
    (hp : ∀ e p, sat Inv (h_pre e p) (fun o => ∀ r c, o = some (r, c) → keeps b r))
    (hq : ∀ e p, sat Inv (h_post e p) (fun o => ∀ r c, o = some (r, c) → keeps b r))
    (ih : ∀ e p, sat Inv (vis e p) (keeps b)) (n : Nat) (e : expr) (parent : Option expr) :
    sat Inv (visit_cached_with h_pre h_post E vis n e parent) (keeps b) := by
  unfold visit_cached_with
  refine sat_bind sat_get (fun s hs => ?_)
  split
  · rename_i r hr
    exact sat_pure (hI.cache_find s e r hs hr)
  · refine sat_bind (hp _ _) (fun o ho => ?_)
    have hrest : ∀ curr0 : simp_result, keeps b curr0 →
        sat Inv (do
          let curr1 ← visit_loop_with h_post E vis parent n curr0
          let curr2 ← visit_lift E vis parent curr1
          cache_store e curr2
          pure curr2) (keeps b) := by
      intro curr0 h0
      refine sat_bind (sat_visit_loop_with hI hq ih parent n _ h0) (fun c1 h1 => ?_)
      refine sat_bind (sat_visit_lift hI ih parent c1 h1) (fun c2 h2 => ?_)
      exact sat_bind (sat_cache_store hI _ _ h2) (fun _ _ => sat_pure h2)
    rcases o with _ | ⟨r1, c⟩
    · exact hrest _ (keeps_refl _ _)
    · cases c
      · exact sat_bind (sat_cache_store hI _ _ (ho _ _ rfl)) (fun _ _ => sat_pure (ho _ _ rfl))
      · exact hrest _ (ho _ _ rfl)

theorem sat_visit_with (hI : stable E b Inv) (hS : step_ok E Inv)
    (hp : ∀ e p, sat Inv (h_pre e p) (fun o => ∀ r c, o = some (r, c) → keeps b r))
    (hq : ∀ e p, sat Inv (h_post e p) (fun o => ∀ r c, o = some (r, c) → keeps b r)) (n : Nat) :
    ∀ (e : expr) (p : Option expr), sat Inv (visit_with h_pre h_post E n e p) (keeps b) := by
  induction n with
  | zero =>
      intro e p s _
      trivial
  | succ n ih =>
      intro e p
      show sat Inv (visit_body_with h_pre h_post E (visit_with h_pre h_post E n) (n + 1) e p) _
      unfold visit_body_with
      exact sat_bind (sat_inc_num_steps hS) (fun _ _ => sat_visit_cached_with hI hp hq ih _ _ _)

theorem sat_simplify_loop_with (hI : stable E b Inv) (hS : step_ok E Inv)
    (hp : ∀ e p, sat Inv (h_pre e p) (fun o => ∀ r c, o = some (r, c) → keeps b r))
    (hq : ∀ e p, sat Inv (h_post e p) (fun o => ∀ r c, o = some (r, c) → keeps b r))
    (fuel : Nat) (n : Nat) :
    ∀ r : simp_result, keeps b r →
      sat Inv (simplify_loop_with h_pre h_post E fuel n r) (keeps b) := by
  induction n with
  | zero =>
      intro r _ s _
      trivial
  | succ n ih =>
      intro r hr
      unfold simplify_loop_with
      refine sat_bind (P := fun _ => True) (fun s hs => ⟨hI.set_ctx s s.ctx false hs, trivial⟩)
        (fun _ _ => ?_)
      refine sat_bind (sat_visit_with hI hS hp hq fuel _ _) (fun v hv => ?_)
      refine sat_bind (sat_join hr hv) (fun r1 h1 => ?_)
      refine sat_bind sat_get (fun s _ => ?_)
      split
      · exact sat_pure h1
      · refine sat_bind (P := fun _ => True) (fun s hs => ⟨hI.cache_clear s hs, trivial⟩)
          (fun _ _ => ?_)
        exact ih r1 h1

theorem sat_proofless (hI : stable E true Inv) (h : hook_type σ) (e : expr) (p : Option expr)
    (hh : only_ctx (h e p)) :
    sat Inv (proofless h e p) (fun o => ∀ r c, o = some (r, c) → keeps true r) := by
  unfold proofless
  refine sat_bind (sat_only_ctx hI hh) (fun o _ => ?_)
  rcases o with _ | ⟨r, c⟩
  · exact sat_pure (fun r c h => by cases h)
  · simp only
    split
    · exact sat_throw _
    · rename_i hp
      refine sat_pure (fun r1 c1 h1 _ => ?_)
      simp only [Option.some.injEq, Prod.mk.injEq] at h1
      rw [← h1.1]
      simpa [simp_result.has_proof] using hp

end observed_sat

/-- The observed run returns no proof: when the run of `operator()` that stops
at the first call of `pre` or `post` returning a proof returns normally, it
returns what `operator()` returns, and the result has no proof. -/
theorem observed_run_no_proof (E : env σ τ) (fuel : Nat) (rel : name) (e : expr) (s s1 : state σ)
    (r : simp_result)
    (hrun : simplify_with (proofless (pre E)) (proofless (post E)) E fuel rel e s = .ok r s1) :
    simplify E fuel rel e s = .ok r s1 ∧ r.proof = none := by
  constructor
  · rcases observed_run E fuel rel e s with h | h
    · rw [← h]; exact hrun
    · rw [h] at hrun; cases hrun
  · have hs := sat_simplify_loop_with (stable_no_proof E) (step_no_proof E)
      (fun x p => sat_proofless (stable_no_proof E) (pre E) x p (pre_only_ctx E x p))
      (fun x p => sat_proofless (stable_no_proof E) (post E) x p (post_only_ctx E x p))
      fuel fuel (simp_result.refl e) (keeps_refl _ _) { s with rel := rel, cache := [] }
      (fun k v hk => by cases hk)
    have heq : simplify_with (proofless (pre E)) (proofless (post E)) E fuel rel e s =
        simplify_loop_with (proofless (pre E)) (proofless (post E)) E fuel fuel
          (simp_result.refl e) { s with rel := rel, cache := [] } := by
      unfold simplify_with
      simp only [run_bind, run_modify]
    rw [heq] at hrun
    unfold wp at hs
    rw [hrun] at hs
    exact hs.2 rfl

/-- C10, the failing run: `visit(c)` returns `(f c, pf)` but leaves the entry
`c ↦ (c, no proof)` that the nested visit of the argument `c` stored, because
`insert` keeps an entry that is already present; the next `visit(c)` under the
same relation and cache returns `(c, no proof)`. -/
theorem C10_stale_cache_entry :
    (visit once_env 6 const_c none once_state).value = some ⟨App const_f const_c, some const_pf⟩ ∧
    ((visit once_env 6 const_c none once_state).final.map
        (fun s1 => cache_find s1.cache const_c)) = some (some (simp_result.refl const_c)) ∧
    ((visit once_env 6 const_c none once_state).final.bind
        (fun s1 => (visit once_env 6 const_c none s1).value)) =
      some (simp_result.refl const_c) := by
  refine ⟨?_, ?_, ?_⟩ <;> decide

/-- A cache hit: when `e` has an entry and the step counter is below
`max_steps`, `visit(e, p)` returns the entry and only bumps the counter, for
every parent, with fuel for one invocation only and whatever the hooks and the
other collaborators are. -/
theorem visit_cache_hit (E F : env σ τ) (hmax : F.max_steps = E.max_steps) (n : Nat) (e : expr)
    (p : Option expr) (s : state σ) (r : simp_result) (hr : cache_find s.cache e = some r)
    (hb : s.num_steps < E.max_steps) :
    visit E (n + 1) e p s = .ok r { s with num_steps := s.num_steps + 1 } ∧
    visit F 1 e p s = .ok r { s with num_steps := s.num_steps + 1 } := by
  have h : ∀ (G : env σ τ) (m : Nat), G.max_steps = E.max_steps →
      visit G (m + 1) e p s = .ok r { s with num_steps := s.num_steps + 1 } := by
    intro G m hG
    rw [visit_succ_eq]
    have hlt : ¬ G.max_steps < (s.num_steps + 1) % 4294967296 := by omega
    simp only [hlt, if_false]
    unfold visit_cached
    simp only [run_bind, run_get, hr, run_pure]
  exact ⟨h E n rfl, h F 0 hmax⟩

/-- Witness of the cache hit: the term `c` with an entry in the cache. -/
theorem visit_cache_hit_witness :
    visit once_env 1 const_c none
        { once_state with cache := [(const_c, simp_result.refl const_c)] } =
      .ok (simp_result.refl const_c)
        { once_state with cache := [(const_c, simp_result.refl const_c)], num_steps := 1 } :=
  (visit_cache_hit once_env once_env rfl 0 const_c none
    { once_state with cache := [(const_c, simp_result.refl const_c)] }
    (simp_result.refl const_c) rfl (by decide)).1

/-- Every normal return of `visit(e, p)` is a cache hit, which returns the
entry of `e` and leaves the cache as it was, or ends with the call
`m_cache.insert(mk_pair(e, r))` for the returned result `r`. -/
theorem visit_stores (E : env σ τ) (n : Nat) (e : expr) (p : Option expr) (s s1 : state σ)
    (r : simp_result) (h : visit E n e p s = .ok r s1) :
    (cache_find s.cache e = some r ∧ s1.cache = s.cache) ∨
      ∃ c, s1.cache = cache_insert c e r := by
  cases n with
  | zero => cases h
  | succ m =>
      rw [visit_succ_eq] at h
      split at h
      · cases h
      · have hw : wp any_failure (visit_cached E (visit E m) (m + 1) e p)
            (fun r s1 => (cache_find s.cache e = some r ∧ s1.cache = s.cache) ∨
              ∃ c, s1.cache = cache_insert c e r)
            { s with num_steps := s.num_steps + 1 } := by
          unfold visit_cached
          simp only [wp_bind, wp_get]
          cases hf : cache_find s.cache e with
          | some r0 => exact Or.inl ⟨rfl, rfl⟩
          | none =>
              simp only [wp_bind]
              refine wp_mono (wp_any _ _) ?_
              intro o s2 _
              have hrest : ∀ (curr0 : simp_result) (s2 : state σ), wp any_failure (do
                    let curr1 ← visit_loop E (visit E m) p (m + 1) curr0
                    let curr2 ← visit_lift E (visit E m) p curr1
                    cache_store e curr2
                    (pure curr2 : M σ simp_result))
                  (fun r s1 => (none = some r ∧ s1.cache = s.cache) ∨
                    ∃ c, s1.cache = cache_insert c e r) s2 := by
                intro curr0 s2
                simp only [wp_bind]
                refine wp_mono (wp_any _ _) ?_
                intro c1 s3 _
                refine wp_mono (wp_any _ _) ?_
                intro c2 s4 _
                exact Or.inr ⟨s4.cache, rfl⟩
              rcases o with _ | ⟨r1, c⟩
              · exact hrest _ s2
              · cases c
                · exact Or.inr ⟨s2.cache, rfl⟩
                · exact hrest _ s2
        exact wp_ok hw h

/-- Witness of `visit_stores`: the core simplifier visits the constant `a`. -/
theorem visit_stores_witness :
    (cache_find (initial_state () empty_slss).cache const_a = some (simp_result.refl const_a) ∧
        [(const_a, simp_result.refl const_a)] = (initial_state () empty_slss).cache) ∨
      ∃ c, [(const_a, simp_result.refl const_a)] = cache_insert c const_a (simp_result.refl const_a) :=
  visit_stores (sample_env Unit) 1 const_a none (initial_state () empty_slss)
    { initial_state () empty_slss with
      num_steps := 1, cache := [(const_a, simp_result.refl const_a)] }
    (simp_result.refl const_a) rfl

/-! ## Termination and the step budget (C11) -/

/-- With the lemmas `a = b` and `b = a`, `post` rewrites `a` to `b` and `b` to
`a`, and asks to continue. -/
theorem flip_post (rel : name) :
    (∃ r, post plain_env const_a none (flip_state rel) = .ok (some (r, true)) (flip_state rel) ∧
      r.new = const_b) ∧
    (∃ r, post plain_env const_b none (flip_state rel) = .ok (some (r, true)) (flip_state rel) ∧
      r.new = const_a) :=
  ⟨⟨_, rfl, rfl⟩, ⟨_, rfl, rfl⟩⟩

theorem join_new (E : env σ τ) (r1 r2 : simp_result) (s : state σ) :
    ∃ r, join E r1 r2 s = .ok r s ∧ r.new = r2.new := by
  refine ⟨_, rfl, ?_⟩
  unfold join_results
  cases r1.proof <;> cases r2.proof <;> rfl

/-- The loop of `visit` on `a` or `b` never exits: no number of iterations is
enough, and no iteration calls `visit`. -/
theorem flip_loop_diverges (rel : name) (vis : visit_type Unit) (n : Nat) :
    ∀ curr : simp_result, curr.new = const_a ∨ curr.new = const_b →
      visit_loop plain_env vis none n curr (flip_state rel) = .out_of_fuel := by
  induction n with
  | zero =>
      intro curr _
      rfl
  | succ n ih =>
      intro curr hcurr
      have hstep : visit_step plain_env vis curr (flip_state rel) = .ok curr (flip_state rel) := by
        apply visit_step_no_descent
        rcases hcurr with h | h <;> rw [h] <;> rfl
      unfold visit_loop
      simp only [run_bind, hstep]
      rcases hcurr with h | h
      · obtain ⟨r, hr, hnew⟩ := (flip_post rel).1
        rw [h, hr]
        have hne : ¬ r.new = const_a := by
          rw [hnew]
          decide
        simp only [hne, if_false]
        obtain ⟨c, hc, hcn⟩ := join_new plain_env curr r (flip_state rel)
        simp only [run_bind, hc]
        exact ih c (Or.inr (by rw [hcn, hnew]))
      · obtain ⟨r, hr, hnew⟩ := (flip_post rel).2
        rw [h, hr]
        have hne : ¬ r.new = const_b := by
          rw [hnew]
          decide
        simp only [hne, if_false]
        obtain ⟨c, hc, hcn⟩ := join_new plain_env curr r (flip_state rel)
        simp only [run_bind, hc]
        exact ih c (Or.inl (by rw [hcn, hnew]))

/-- C11, the failing run: with the rewrite lemmas `a = b` and `b = a` and
`max_steps = 100`, the plain simplifier does not terminate on the constant `a`.
The loop of the first `visit` rewrites `a` to `b` and `b` to `a` for ever,
without a call of `visit`, so the step counter stays at one: whatever the fuel,
the run ends neither with a result nor with the step-budget error. -/
theorem C11_post_loop_diverges (fuel : Nat) (rel : name) :
    tactic_simplify_core (sample_env Unit) fuel () flip_slss rel const_a = .out_of_fuel ∧
    visit plain_env fuel const_a none { initial_state () flip_slss with rel := rel } =
      .out_of_fuel := by
  have hv : ∀ n, visit plain_env n const_a none
      { initial_state () flip_slss with rel := rel, need_restart := false } =
      .out_of_fuel := by
    intro n
    cases n with
    | zero => rfl
    | succ n =>
        rw [visit_succ_eq]
        have hb : ¬ plain_env.max_steps < 0 + 1 := by decide
        simp only [initial_state, hb, if_false]
        unfold visit_cached
        simp only [run_bind, run_get, cache_find]
        have hpre : pre plain_env const_a none (flip_state rel) = .ok none (flip_state rel) := rfl
        have hl := flip_loop_diverges rel (visit plain_env n) (n + 1) (simp_result.refl const_a)
          (Or.inl rfl)
        simp only [flip_state, initial_state] at hpre hl
        simp only [hpre]
        rw [run_bind, hl]
  constructor
  · unfold tactic_simplify_core
    have hs : simplify plain_env fuel rel const_a (initial_state () flip_slss) = .out_of_fuel := by
      unfold simplify
      simp only [run_bind, run_modify]
      cases fuel with
      | zero => rfl
      | succ n =>
          unfold simplify_loop
          simp only [run_bind, run_modify]
          have := hv (n + 1)
          simp only [initial_state] at this
          simp only [initial_state, simp_result.refl, this]
    have he : ({ sample_env Unit with cls := simp_class.simplify_fn } : env Unit Unit) = plain_env :=
      rfl
    rw [he]
    dsimp only
    rw [hs]
  · exact hv fuel

/-! ## Termination within the step budget

When `post` never asks to continue, every loop of `visit` ends after one
iteration and the nesting of `visit` is bounded by the step budget. -/

theorem no_fuel_pure {α : Type} (a : α) : no_fuel (pure a : M σ α) := fun _ => trivial

theorem no_fuel_bind {α β : Type} {m : M σ α} {f : α → M σ β} (hm : no_fuel m)
    (hf : ∀ a, no_fuel (f a)) : no_fuel (m >>= f) := by
  intro s
  rw [wp_bind]
  refine wp_mono (hm s) ?_
  intro a s1 _
  exact hf a s1

theorem no_fuel_modify (f : state σ → state σ) : no_fuel (M.modify f) := fun _ => trivial

theorem no_fuel_throw {α : Type} (msg : String) : no_fuel (M.throw msg : M σ α) := by
  intro s
  rw [wp_throw]
  intro h
  cases h

theorem wp_at_index_fuel_free {α : Type} (b : List α) (i : Nat) (Q : α → state σ → Prop)
    (s : state σ) :
    wp fuel_free (M.at_index b i) Q s ↔ ∀ a, b.get? i = some a → Q a s := by
  unfold wp M.at_index
  cases h : b.get? i <;> simp [fuel_free]

theorem no_fuel_at_index {α : Type} (b : List α) (i : Nat) :
    no_fuel (M.at_index b i : M σ α) := by
  intro s
  rw [wp_at_index_fuel_free]
  intro a _
  trivial

theorem no_fuel_get : no_fuel (M.get : M σ (state σ)) := fun _ => trivial

theorem no_fuel_flet_rel {α : Type} {m : M σ α} (rel : name) (hm : no_fuel m) :
    no_fuel (flet_rel rel m) := by
  intro s
  rw [wp_flet_rel]
  exact wp_mono (hm _) (fun _ _ _ => trivial)

theorem get_app_args_size (e : expr) : ∀ a ∈ get_app_args e, expr_size a < expr_size e := by
  induction e with
  | App f b ihf _ =>
      intro a ha
      rw [get_app_args_app, List.mem_append] at ha
      rcases ha with ha | ha
      · have := ihf a ha
        simp only [expr_size]
        omega
      · simp only [List.mem_singleton] at ha
        rw [ha]
        simp only [expr_size]
        omega
  | _ =>
      intro a ha
      simp [get_app_args, get_app_args_aux] at ha

/-- The loop of `remove_unnecessary_casts` ends: each iteration replaces the
argument by one of its own arguments. -/
theorem remove_casts_loop_no_fuel (n : Nat) :
    ∀ (a : expr) (modified : Bool), expr_size a ≤ n →
      no_fuel (remove_casts_loop n a modified : M σ _) := by
  induction n with
  | zero =>
      intro a modified h
      have := expr_size_pos a
      omega
  | succ n ih =>
      intro a modified h
      unfold remove_casts_loop
      split
      · split
        · refine no_fuel_bind (no_fuel_at_index _ _) (fun mp => ?_)
          dsimp only
          split
          · intro s
            rw [wp_bind, wp_at_index_fuel_free]
            intro v hv
            have hmem : v ∈ get_app_args a := List.get?_mem hv
            have := get_app_args_size a v hmem
            exact ih v true (by omega) s
          · exact no_fuel_pure _
        · exact no_fuel_pure _
      · exact no_fuel_pure _

theorem vm_prove_no_fuel (E : env σ τ) (e : expr) : no_fuel (vm_prove E e) := by
  unfold vm_prove
  refine no_fuel_bind no_fuel_get (fun s => ?_)
  split
  · exact no_fuel_bind (no_fuel_modify _) (fun _ => no_fuel_pure _)
  · exact no_fuel_pure _

theorem prove_no_fuel (E : env σ τ) (e : expr) : no_fuel (prove E e) := by
  unfold prove
  split
  · exact vm_prove_no_fuel E e
  · exact no_fuel_pure _

theorem instantiate_emeta_no_fuel (E : env σ τ) (tmp_ctx : τ) (i : Nat) (mvar : expr)
    (is_instance : Bool) : no_fuel (instantiate_emeta E tmp_ctx i mvar is_instance) := by
  unfold instantiate_emeta
  refine no_fuel_bind no_fuel_get (fun s => ?_)
  simp only []
  split
  · exact no_fuel_pure _
  · split
    · exact no_fuel_pure _
    · split
      · exact no_fuel_pure _
      · split
        · exact no_fuel_pure _
        · split
          · refine no_fuel_bind (prove_no_fuel E _) (fun o => ?_)
            split <;> exact no_fuel_pure _
          · exact no_fuel_pure _

theorem instantiate_emetas_loop_no_fuel (E : env σ τ) (emetas : List expr) :
    ∀ (instances : List Bool) (i : Nat) (tmp_ctx : τ),
      no_fuel (instantiate_emetas_loop E emetas instances i tmp_ctx) := by
  induction emetas with
  | nil =>
      intro instances i tmp_ctx
      unfold instantiate_emetas_loop
      exact no_fuel_pure _
  | cons mvar emetas ih =>
      intro instances i tmp_ctx
      cases instances with
      | nil =>
          unfold instantiate_emetas_loop
          exact no_fuel_pure _
      | cons b instances =>
          unfold instantiate_emetas_loop
          refine no_fuel_bind (instantiate_emeta_no_fuel E _ _ _ _) (fun o => ?_)
          split
          · exact ih _ _ _
          · exact no_fuel_pure _

theorem rewrite_unify_no_fuel (E : env σ τ) (e : expr) (sl : simp_lemma) :
    no_fuel (rewrite_unify E e sl) := by
  unfold rewrite_unify
  refine no_fuel_bind no_fuel_get (fun s => ?_)
  simp only []
  split
  · exact no_fuel_pure _
  · refine no_fuel_bind (instantiate_emetas_loop_no_fuel E _ _ _ _) (fun o => ?_)
    split
    · exact no_fuel_pure _
    · split <;> exact no_fuel_pure _

theorem rewrite_lemma_no_fuel (E : env σ τ) (e : expr) (sl : simp_lemma) :
    no_fuel (rewrite_lemma E e sl) := by
  unfold rewrite_lemma
  refine no_fuel_bind (rewrite_unify_no_fuel E e sl) (fun o => ?_)
  split <;> exact no_fuel_pure _

theorem rewrite_loop_no_fuel (E : env σ τ) (e : expr) (srs : List simp_lemma) :
    no_fuel (rewrite_loop E e srs) := by
  induction srs with
  | nil =>
      unfold rewrite_loop
      exact no_fuel_pure _
  | cons sl srs ih =>
      unfold rewrite_loop
      refine no_fuel_bind (rewrite_lemma_no_fuel E e sl) (fun o => ?_)
      split
      · split
        · exact no_fuel_pure _
        · exact ih
      · exact ih

theorem rewrite_expr_no_fuel (E : env σ τ) (e : expr) : no_fuel (rewrite_expr E e) := by
  unfold rewrite_expr
  refine no_fuel_bind no_fuel_get (fun s => ?_)
  split
  · exact no_fuel_pure _
  · split
    · exact no_fuel_pure _
    · exact rewrite_loop_no_fuel E e _

theorem remove_casts_args_no_fuel (ss_infos : List Bool) :
    ∀ (i : Nat) (args : List expr) (modified : Bool),
      no_fuel (remove_casts_args ss_infos i args modified : M σ _) := by
  induction ss_infos with
  | nil =>
      intro i args modified
      unfold remove_casts_args
      exact no_fuel_pure _
  | cons b ss_infos ih =>
      intro i args modified
      unfold remove_casts_args
      split
      · refine no_fuel_bind (no_fuel_at_index _ _) (fun a => ?_)
        exact no_fuel_bind (remove_casts_loop_no_fuel _ _ _ (le_refl _)) (fun r => ih _ _ _)
      · exact ih _ _ _

theorem remove_unnecessary_casts_no_fuel (E : env σ τ) (e : expr) :
    no_fuel (remove_unnecessary_casts E e) := by
  unfold remove_unnecessary_casts
  refine no_fuel_bind no_fuel_get (fun s => ?_)
  exact no_fuel_bind (remove_casts_args_no_fuel _ _ _ _) (fun r => no_fuel_pure _)

theorem defeq_canonize_args_no_fuel (E : env σ τ) (infos : List param_info) :
    ∀ (i : Nat) (args : List expr) (modified : Bool),
      no_fuel (defeq_canonize_args E infos i args modified) := by
  induction infos with
  | nil =>
      intro i args modified
      unfold defeq_canonize_args
      exact no_fuel_pure _
  | cons pinfo infos ih =>
      intro i args modified
      unfold defeq_canonize_args
      split
      · refine no_fuel_bind (no_fuel_at_index _ _) (fun a => ?_)
        refine no_fuel_bind no_fuel_get (fun s => ?_)
        refine no_fuel_bind (no_fuel_modify _) (fun _ => ?_)
        split
        · exact ih _ _ _
        · exact ih _ _ _
      · exact ih _ _ _

theorem defeq_canonize_args_step_no_fuel (E : env σ τ) (e : expr) :
    no_fuel (defeq_canonize_args_step E e) := by
  unfold defeq_canonize_args_step
  refine no_fuel_bind no_fuel_get (fun s => ?_)
  exact no_fuel_bind (defeq_canonize_args_no_fuel E _ _ _ _) (fun r => no_fuel_pure _)

theorem join_no_fuel (E : env σ τ) (r1 r2 : simp_result) : no_fuel (join E r1 r2) :=
  no_fuel_bind no_fuel_get (fun _ => no_fuel_pure _)

theorem invoke_fn_no_fuel
    (fn : σ → simp_lemmas → name → Option expr → expr → Option (σ × simp_result × Bool))
    (e : expr) (parent : Option expr) : no_fuel (invoke_fn fn e parent) := by
  unfold invoke_fn
  refine no_fuel_bind no_fuel_get (fun s => ?_)
  split
  · exact no_fuel_bind (no_fuel_modify _) (fun _ => no_fuel_pure _)
  · exact no_fuel_pure _

theorem eq_congr_second_pass_no_fuel (E : env σ τ) (ctx : σ) (rel : name) (args : List expr)
    (r_args : List simp_result) (kinds : List congr_arg_kind) :
    ∀ (i i_eq : Nat) (proof type : expr) (subst : List expr),
      no_fuel (eq_congr_second_pass E ctx rel args r_args kinds i i_eq proof type subst) := by
  induction kinds with
  | nil =>
      intro i i_eq proof type subst
      unfold eq_congr_second_pass
      exact no_fuel_pure _
  | cons ckind kinds ih =>
      intro i i_eq proof type subst
      unfold eq_congr_second_pass
      split
      · exact no_fuel_throw _
      · exact no_fuel_bind (no_fuel_at_index _ _) (fun a => ih _ _ _ _ _)
      · exact no_fuel_bind (no_fuel_at_index _ _) (fun a => ih _ _ _ _ _)
      · exact ih _ _ _ _ _
      · refine no_fuel_bind (no_fuel_at_index _ _) (fun a => ?_)
        exact no_fuel_bind (no_fuel_at_index _ _) (fun r => ih _ _ _ _ _)

theorem assign_congr_proofs_no_fuel (E : env σ τ) (ctx : σ) (ms : List expr) :
    ∀ (ds : List congr_hyp_data) (tmp_ctx : τ),
      no_fuel (assign_congr_proofs E ctx ms ds tmp_ctx) := by
  induction ms with
  | nil =>
      intro ds tmp_ctx
      unfold assign_congr_proofs
      exact no_fuel_pure _
  | cons m ms ih =>
      intro ds tmp_ctx
      unfold assign_congr_proofs
      exact no_fuel_bind (no_fuel_at_index _ _) (fun d => ih _ _)

theorem propext_rewrite_no_fuel (E : env σ τ) (e : expr) : no_fuel (propext_rewrite E e) := by
  unfold propext_rewrite
  refine no_fuel_bind no_fuel_get (fun s => ?_)
  split
  · exact no_fuel_pure _
  · refine no_fuel_flet_rel _ ?_
    refine no_fuel_bind (rewrite_expr_no_fuel E e) (fun r => ?_)
    refine no_fuel_bind no_fuel_get (fun s1 => ?_)
    split <;> exact no_fuel_pure _

theorem pre_no_fuel (E : env σ τ) (e : expr) (parent : Option expr) :
    no_fuel (pre E e parent) := by
  unfold pre
  split
  · unfold simplify_fn_pre
    refine no_fuel_bind no_fuel_get (fun s => ?_)
    split <;> exact no_fuel_pure _
  · exact invoke_fn_no_fuel _ _ _
  · exact no_fuel_pure _

theorem post_no_fuel (E : env σ τ) (e : expr) (parent : Option expr) :
    no_fuel (post E e parent) := by
  unfold post
  split
  · unfold simplify_fn_post
    refine no_fuel_bind (rewrite_expr_no_fuel E e) (fun r => ?_)
    split
    · exact no_fuel_pure _
    · split
      · exact no_fuel_pure _
      · refine no_fuel_bind (propext_rewrite_no_fuel E e) (fun r => ?_)
        split <;> exact no_fuel_pure _
  · exact invoke_fn_no_fuel _ _ _
  · exact no_fuel_pure _

theorem tsat_pure {α : Type} {Inv : state σ → Prop} {P : α → Prop} {a : α} (h : P a) :
    tsat Inv (pure a : M σ α) P := fun _ hs => ⟨hs, h⟩

theorem tsat_bind {α β : Type} {Inv : state σ → Prop} {m : M σ α} {f : α → M σ β}
    {P : α → Prop} {Q : β → Prop} (hm : tsat Inv m P) (hf : ∀ a, P a → tsat Inv (f a) Q) :
    tsat Inv (m >>= f) Q := by
  intro s hs
  rw [wp_bind]
  refine wp_mono (hm s hs) ?_
  intro a s1 h1
  exact hf a h1.2 s1 h1.1

theorem tsat_mono {α : Type} {Inv : state σ → Prop} {m : M σ α} {P Q : α → Prop}
    (hm : tsat Inv m P) (h : ∀ a, P a → Q a) : tsat Inv m Q :=
  fun s hs => wp_mono (hm s hs) (fun a _ h1 => ⟨h1.1, h a h1.2⟩)

theorem tsat_get {Inv : state σ → Prop} : tsat Inv (M.get : M σ (state σ)) Inv :=
  fun _ hs => ⟨hs, hs⟩

theorem tsat_throw {α : Type} {Inv : state σ → Prop} {P : α → Prop} (msg : String) :
    tsat Inv (M.throw msg : M σ α) P := by
  intro s _
  rw [wp_throw]
  intro h
  cases h

theorem tsat_at_index {α : Type} {Inv : state σ → Prop} (l : List α) (i : Nat) :
    tsat Inv (M.at_index l i : M σ α) (fun a => l.get? i = some a) := by
  intro s hs
  rw [wp_at_index_fuel_free]
  exact fun a ha => ⟨hs, ha⟩

theorem wp_fuel_free_of {α : Type} {m : M σ α} {Q : α → state σ → Prop} {s : state σ}
    (h1 : wp any_failure m Q s) (h2 : wp fuel_free m (fun _ _ => True) s) :
    wp fuel_free m Q s := by
  unfold wp at *
  cases hm : m s <;> simp_all

theorem tsat_only_ctx {α : Type} {E : env σ τ} {b : Bool} {Inv : state σ → Prop}
    (hI : stable E b Inv) {m : M σ α} (hm : only_ctx m) (hn : no_fuel m) :
    tsat Inv m (fun _ => True) := by
  intro s hs
  refine wp_mono (wp_fuel_free_of (hm s) (hn s)) ?_
  intro a s1 h1
  rw [h1]
  exact ⟨hI.set_ctx s _ _ hs, trivial⟩

theorem tsat_flet_rel {α : Type} {E : env σ τ} {b : Bool} {Inv : state σ → Prop}
    (hI : stable E b Inv) {m : M σ α} {P : α → Prop} (rel : name) (hm : tsat Inv m P) :
    tsat Inv (flet_rel rel m) P := by
  intro s hs
  rw [wp_flet_rel]
  refine wp_mono (hm _ (hI.set_rel s rel hs)) ?_
  intro a s1 h1
  exact ⟨hI.set_rel s1 _ h1.1, h1.2⟩

theorem tsat_flet_slss {α : Type} {E : env σ τ} {b : Bool} {Inv : state σ → Prop}
    (hI : stable E b Inv) {m : M σ α} {P : α → Prop} (slss : simp_lemmas) (hm : tsat Inv m P) :
    tsat Inv (flet_slss slss m) P := by
  intro s hs
  rw [wp_flet_slss]
  refine wp_mono (hm _ (hI.set_slss s slss hs)) ?_
  intro a s1 h1
  exact ⟨hI.set_slss s1 _ h1.1, h1.2⟩

theorem tsat_freset_cache {α : Type} {E : env σ τ} {b : Bool} {Inv : state σ → Prop}
    (hI : stable E b Inv) {m : M σ α} {P : α → Prop} (hm : tsat Inv m P) :
    tsat Inv (freset_cache m) P := by
  intro s hs
  rw [wp_freset_cache]
  refine wp_mono (hm _ (hI.cache_clear s hs)) ?_
  intro a s1 h1
  exact ⟨hI.cache_restore s s1 hs h1.1, h1.2⟩

theorem wp_self_fuel_free {α : Type} {m : M σ α} (hn : no_fuel m) (s : state σ) :
    wp fuel_free m (fun a s1 => m s = .ok a s1) s := by
  have h := hn s
  unfold wp at *
  cases hm : m s <;> simp_all

theorem tsat_pre {E : env σ τ} {b : Bool} {Inv : state σ → Prop} (hI : stable E b Inv)
    (hH : hooks_keep E b) (e : expr) (p : Option expr) :
    tsat Inv (pre E e p) (fun o => ∀ r c, o = some (r, c) → keeps b r) := by
  intro s hs
  refine wp_mono (wp_and (tsat_only_ctx hI (pre_only_ctx E e p) (pre_no_fuel E e p) s hs)
    (wp_self_fuel_free (pre_no_fuel E e p) s)) ?_
  intro o s1 h
  refine ⟨h.1.1, ?_⟩
  intro r c ho hb
  rw [ho] at h
  exact hH hb e p s s1 r c (Or.inl h.2)

theorem tsat_post {E : env σ τ} {b : Bool} {Inv : state σ → Prop} (hI : stable E b Inv)
    (hH : hooks_keep E b) (hP : post_stops E) (e : expr) (p : Option expr) :
    tsat Inv (post E e p) (fun o => ∀ r c, o = some (r, c) → keeps b r ∧ c = false) := by
  intro s hs
  refine wp_mono (wp_and (tsat_only_ctx hI (post_only_ctx E e p) (post_no_fuel E e p) s hs)
    (wp_self_fuel_free (post_no_fuel E e p) s)) ?_
  intro o s1 h
  refine ⟨h.1.1, ?_⟩
  intro r c ho
  rw [ho] at h
  refine ⟨fun hb => hH hb e p s s1 r c (Or.inr h.2), ?_⟩
  cases c
  · rfl
  · exact absurd h.2 (hP e p s s1 r)

theorem tsat_join {E : env σ τ} {b : Bool} {Inv : state σ → Prop} {r1 r2 : simp_result}
    (h1 : keeps b r1) (h2 : keeps b r2) : tsat Inv (join E r1 r2) (keeps b) := by
  unfold join
  exact tsat_bind tsat_get (fun s _ => tsat_pure (keeps_join E b _ _ h1 h2))

theorem tsat_lift_from_eq {E : env σ τ} {b : Bool} {Inv : state σ → Prop} {r : simp_result}
    (h : keeps b r) : tsat Inv (lift_from_eq E r) (keeps b) := by
  unfold lift_from_eq
  refine tsat_bind tsat_get (fun s _ => ?_)
  split
  · exact tsat_pure h
  · rename_i pr hpr
    refine tsat_pure (fun hb => ?_)
    rw [h hb] at hpr
    cases hpr

theorem tsat_congr_funs {E : env σ τ} {b : Bool} {Inv : state σ → Prop} {r : simp_result}
    (args : List expr) (h : keeps b r) : tsat Inv (congr_funs E r args) (keeps b) := by
  unfold congr_funs
  refine tsat_bind tsat_get (fun s _ => ?_)
  dsimp only
  split
  · exact tsat_pure (keeps_refl _ _)
  · rename_i pr hpr
    refine tsat_pure (fun hb => ?_)
    rw [h hb] at hpr
    cases hpr

theorem tsat_congr_fun_arg {E : env σ τ} {b : Bool} {Inv : state σ → Prop}
    {r_f r_arg : simp_result} (hf : keeps b r_f) (ha : keeps b r_arg) :
    tsat Inv (congr_fun_arg E r_f r_arg) (keeps b) := by
  unfold congr_fun_arg
  split
  · exact tsat_pure (keeps_refl _ _)
  · rename_i h1
    have hb : b ≠ true := by
      intro hb
      simp [has_proof_of_keeps hf hb, has_proof_of_keeps ha hb] at h1
    have hk : ∀ r : simp_result, keeps b r := fun r hb1 => absurd hb1 hb
    split
    · exact tsat_bind tsat_get (fun s _ => tsat_pure (hk _))
    · split
      · exact tsat_bind tsat_get (fun s _ => tsat_pure (hk _))
      · exact tsat_bind tsat_get (fun s _ => tsat_pure (hk _))

section budget_traversal

variable {E : env σ τ} {b : Bool} {Inv : state σ → Prop} {vis : visit_type σ}

theorem tsat_congr_hyps_loop (hI : stable E b Inv) (ih : ∀ e p, tsat Inv (vis e p) (keeps b))
    (e : expr) (ms : List expr) :
    ∀ (tmp_ctx : τ) (simplified : Bool) (acc : List congr_hyp_data),
      tsat Inv (congr_hyps_loop E vis e ms tmp_ctx simplified acc)
        (fun h => b = true → h.2.1 = simplified) := by
  induction ms with
  | nil =>
      intro tmp_ctx simplified acc
      unfold congr_hyps_loop
      exact tsat_pure (fun _ => rfl)
  | cons m ms ihm =>
      intro tmp_ctx simplified acc
      unfold congr_hyps_loop
      refine tsat_bind tsat_get (fun s _ => ?_)
      dsimp only
      refine tsat_bind (P := keeps b) ?_ (fun r hr => ?_)
      · refine tsat_flet_slss hI _ ?_
        split
        · exact tsat_flet_rel hI _ (tsat_freset_cache hI (ih _ _))
        · exact ih _ _
      · refine tsat_mono (ihm _ _ _) ?_
        intro h hh hb
        rw [hh hb, has_proof_of_keeps hr hb]
        simp

theorem tsat_try_user_congr (hI : stable E b Inv) (ih : ∀ e p, tsat Inv (vis e p) (keeps b))
    (e : expr) (cl : simp_lemma) : tsat Inv (try_user_congr E vis e cl) (keeps b) := by
  unfold try_user_congr
  refine tsat_bind tsat_get (fun s _ => ?_)
  dsimp only
  split
  · exact tsat_pure (keeps_refl _ _)
  · refine tsat_bind (tsat_congr_hyps_loop hI ih e _ _ _ _) (fun h hh => ?_)
    split
    · exact tsat_pure (keeps_refl _ _)
    · rename_i h1
      have hb : b ≠ true := by
        intro hb
        rw [hh hb] at h1
        simp at h1
      have hk : ∀ r : simp_result, keeps b r := fun r hb1 => absurd hb1 hb
      refine tsat_bind tsat_get (fun s1 _ => ?_)
      refine tsat_bind (tsat_only_ctx hI (assign_congr_proofs_only_ctx E _ _ _ _) (assign_congr_proofs_no_fuel E _ _ _ _)) (fun t _ => ?_)
      refine tsat_bind (tsat_only_ctx hI (instantiate_emetas_loop_only_ctx E _ _ _ _) (instantiate_emetas_loop_no_fuel E _ _ _ _)) (fun o _ => ?_)
      split
      · exact tsat_pure (hk _)
      · split <;> exact tsat_pure (hk _)

theorem tsat_try_user_congrs (hI : stable E b Inv) (ih : ∀ e p, tsat Inv (vis e p) (keeps b))
    (e : expr) : tsat Inv (try_user_congrs E vis e) (keeps b) := by
  have hloop : ∀ cls : List simp_lemma, tsat Inv (try_user_congrs_loop E vis e cls) (keeps b) := by
    intro cls
    induction cls with
    | nil =>
        unfold try_user_congrs_loop
        exact tsat_pure (keeps_refl _ _)
    | cons cl cls ihc =>
        unfold try_user_congrs_loop
        refine tsat_bind (tsat_try_user_congr hI ih e cl) (fun r hr => ?_)
        split
        · exact tsat_pure hr
        · exact ihc
  unfold try_user_congrs
  refine tsat_bind tsat_get (fun s _ => ?_)
  split
  · exact tsat_pure (keeps_refl _ _)
  · split
    · exact tsat_pure (keeps_refl _ _)
    · exact hloop _

theorem tsat_eq_congr_first_pass (ih : ∀ e p, tsat Inv (vis e p) (keeps b))
    (e : expr) (args : List expr) (kinds : List congr_arg_kind) :
    ∀ (i : Nat) (p : eq_congr_pass),
      tsat Inv (eq_congr_first_pass vis e args kinds i p)
        (fun q => b = true → q.has_proof = p.has_proof) := by
  induction kinds with
  | nil =>
      intro i p
      unfold eq_congr_first_pass
      exact tsat_pure (fun _ => rfl)
  | cons ckind kinds ihk =>
      intro i p
      unfold eq_congr_first_pass
      split
      · exact tsat_throw _
      · exact tsat_bind (tsat_at_index _ _) (fun a _ => ihk _ _)
      · exact tsat_bind (tsat_at_index _ _) (fun a _ => ihk _ _)
      · refine tsat_bind (tsat_at_index _ _) (fun a _ => ?_)
        refine tsat_bind (ih _ _) (fun r hr => ?_)
        refine tsat_mono (ihk _ _) ?_
        intro q hq hb
        rw [hq hb, has_proof_of_keeps hr hb]
        simp
      · exact tsat_bind (tsat_at_index _ _) (fun a _ => ihk _ _)

theorem tsat_try_auto_eq_congr (hI : stable E b Inv) (ih : ∀ e p, tsat Inv (vis e p) (keeps b))
    (e : expr) :
    tsat Inv (try_auto_eq_congr E vis e) (fun o => ∀ r, o = some r → keeps b r) := by
  unfold try_auto_eq_congr
  dsimp only
  refine tsat_bind tsat_get (fun s _ => ?_)
  split
  · exact tsat_pure (fun r hr => by cases hr)
  · split
    · exact tsat_pure (fun r hr => by cases hr)
    · refine tsat_bind (tsat_eq_congr_first_pass ih e _ _ _ _) (fun p hp => ?_)
      split
      · refine tsat_pure (fun r hr => ?_)
        cases hr
        exact keeps_refl _ _
      · split
        · refine tsat_pure (fun r hr => ?_)
          cases hr
          exact keeps_refl _ _
        · rename_i h1 h2
          have hb : b ≠ true := by
            intro hb
            rw [hp hb] at h2
            simp at h2
          have hk : ∀ r : simp_result, keeps b r := fun r hb1 => absurd hb1 hb
          refine tsat_bind tsat_get (fun s1 _ => ?_)
          refine tsat_bind (tsat_only_ctx hI (eq_congr_second_pass_only_ctx E _ _ _ _ _ _ _ _ _ _) (eq_congr_second_pass_no_fuel E _ _ _ _ _ _ _ _ _ _))
            (fun q _ => ?_)
          dsimp only
          split
          · refine tsat_bind (tsat_only_ctx hI (remove_unnecessary_casts_only_ctx E _) (remove_unnecessary_casts_no_fuel E _)) (fun e1 _ => ?_)
            exact tsat_pure (fun r _ => hk r)
          · exact tsat_pure (fun r _ => hk r)

theorem tsat_visit_fn (ih : ∀ e p, tsat Inv (vis e p) (keeps b)) (e : expr) :
    tsat Inv (visit_fn E vis e) (keeps b) := by
  unfold visit_fn
  exact tsat_bind (ih _ _) (fun r hr => tsat_congr_funs _ hr)

theorem tsat_visit_app (hI : stable E b Inv) (ih : ∀ e p, tsat Inv (vis e p) (keeps b))
    (e0 : expr) : tsat Inv (visit_app E vis e0) (keeps b) := by
  unfold visit_app
  refine tsat_bind (P := fun _ => True) ?_ (fun e _ => ?_)
  · split
    · exact tsat_only_ctx hI (defeq_canonize_args_step_only_ctx E e0) (defeq_canonize_args_step_no_fuel E e0)
    · exact tsat_pure trivial
  · refine tsat_bind (tsat_try_user_congrs hI ih e) (fun r_user hu => ?_)
    refine tsat_bind tsat_get (fun s _ => ?_)
    split
    · split
      · exact tsat_bind (tsat_visit_fn ih _) (fun r hr => tsat_join hu hr)
      · exact tsat_pure hu
    · split
      · refine tsat_bind (tsat_try_auto_eq_congr hI ih e) (fun o ho => ?_)
        split
        · rename_i r_args
          exact tsat_bind (tsat_visit_fn ih _) (fun r hr => tsat_join (ho _ rfl) hr)
        · refine tsat_bind (ih _ _) (fun r_f hf => ?_)
          refine tsat_bind (Q := keeps b) (P := fun _ => True) ?_ (fun d _ => ?_)
          · unfold is_dependent_fn
            exact tsat_bind tsat_get (fun _ _ => tsat_pure trivial)
          · split
            · split
              · rename_i h1
                refine tsat_bind tsat_get (fun _ _ => tsat_pure (fun hb => ?_))
                rw [has_proof_of_keeps hf hb] at h1
                cases h1
              · exact tsat_pure (keeps_refl _ _)
            · exact tsat_bind (ih _ _) (fun r_arg ha => tsat_congr_fun_arg hf ha)
      · exact tsat_pure (keeps_refl _ _)

theorem tsat_ext_visit_lambda (ih : ∀ e p, tsat Inv (vis e p) (keeps b)) (e : expr) :
    tsat Inv (ext_visit_lambda E vis e) (keeps b) := by
  unfold ext_visit_lambda
  refine tsat_bind tsat_get (fun s _ => ?_)
  split
  · exact tsat_pure (keeps_refl _ _)
  · dsimp only
    refine tsat_bind (ih _ _) (fun r hr => ?_)
    split
    · exact tsat_pure (keeps_refl _ _)
    · split
      · exact tsat_pure (keeps_refl _ _)
      · rename_i pr hpr
        refine tsat_bind tsat_get (fun s1 _ => tsat_pure (fun hb => ?_))
        rw [hr hb] at hpr
        cases hpr

theorem tsat_forall_congr (ih : ∀ e p, tsat Inv (vis e p) (keeps b)) (e : expr) :
    tsat Inv (forall_congr E vis e) (keeps b) := by
  unfold forall_congr
  refine tsat_bind tsat_get (fun s _ => ?_)
  dsimp only
  refine tsat_bind (ih _ _) (fun r hr => ?_)
  refine tsat_bind tsat_get (fun s1 _ => ?_)
  split
  · rename_i pr hpr
    refine tsat_pure (fun hb => ?_)
    rw [hr hb] at hpr
    cases hpr
  · split <;> exact tsat_pure (keeps_refl _ _)

theorem tsat_imp_congr (hI : stable E b Inv) (ih : ∀ e p, tsat Inv (vis e p) (keeps b))
    (e : expr) : tsat Inv (imp_congr E vis e) (keeps b) := by
  unfold imp_congr
  dsimp only
  refine tsat_bind (ih _ _) (fun r_a ha => ?_)
  refine tsat_bind tsat_get (fun s _ => ?_)
  split
  · refine tsat_bind (tsat_flet_slss hI _ (tsat_freset_cache hI (ih _ _))) (fun r_b hb1 => ?_)
    refine tsat_bind tsat_get (fun s1 _ => ?_)
    split
    · exact tsat_pure (keeps_refl _ _)
    · split
      · exact tsat_pure (keeps_refl _ _)
      · rename_i h1 h2
        refine tsat_pure (fun hb => ?_)
        simp [has_proof_of_keeps ha hb, has_proof_of_keeps hb1 hb] at h2
  · refine tsat_bind (ih _ _) (fun r_b hb1 => ?_)
    refine tsat_bind tsat_get (fun s1 _ => ?_)
    split
    · exact tsat_pure (keeps_refl _ _)
    · split
      · exact tsat_pure (keeps_refl _ _)
      · rename_i h1 h2
        refine tsat_pure (fun hb => ?_)
        simp [has_proof_of_keeps ha hb, has_proof_of_keeps hb1 hb] at h2

theorem tsat_visit_pi (hI : stable E b Inv) (ih : ∀ e p, tsat Inv (vis e p) (keeps b))
    (e : expr) : tsat Inv (visit_pi E vis e) (keeps b) := by
  have hc : tsat Inv (core_visit_pi E vis e) (keeps b) := tsat_try_user_congrs hI ih e
  unfold visit_pi
  split
  · exact hc
  · unfold ext_visit_pi
    refine tsat_bind tsat_get (fun s _ => ?_)
    split
    · split
      · split
        · exact tsat_forall_congr ih e
        · split
          · exact tsat_imp_congr hI ih e
          · exact hc
      · exact hc
    · exact hc

theorem tsat_visit_lambda (ih : ∀ e p, tsat Inv (vis e p) (keeps b)) (e : expr) :
    tsat Inv (visit_lambda E vis e) (keeps b) := by
  unfold visit_lambda
  split
  · exact tsat_pure (keeps_refl _ _)
  · exact tsat_ext_visit_lambda ih e

theorem tsat_visit_let (e : expr) : tsat Inv (visit_let E e) (keeps b) := by
  unfold visit_let
  split <;> exact tsat_pure (keeps_refl _ _)

theorem tsat_visit_step (hI : stable E b Inv) (ih : ∀ e p, tsat Inv (vis e p) (keeps b))
    (curr : simp_result) (hc : keeps b curr) : tsat Inv (visit_step E vis curr) (keeps b) := by
  unfold visit_step
  split
  · exact tsat_pure hc
  · exact tsat_pure hc
  · exact tsat_pure hc
  · exact tsat_pure hc
  · exact tsat_pure hc
  · exact tsat_throw _
  · exact tsat_bind (tsat_visit_lambda ih _) (fun r hr => tsat_join hc hr)
  · exact tsat_bind (tsat_visit_pi hI ih _) (fun r hr => tsat_join hc hr)
  · exact tsat_bind (tsat_visit_app hI ih _) (fun r hr => tsat_join hc hr)
  · exact tsat_bind (tsat_visit_let _) (fun r hr => tsat_join hc hr)

theorem tsat_visit_lift (hI : stable E b Inv) (ih : ∀ e p, tsat Inv (vis e p) (keeps b))
    (parent : Option expr) (curr : simp_result) (hc : keeps b curr) :
    tsat Inv (visit_lift E vis parent curr) (keeps b) := by
  unfold visit_lift
  refine tsat_bind tsat_get (fun s _ => ?_)
  split
  · refine tsat_bind (tsat_flet_rel hI _ (tsat_freset_cache hI (ih _ _))) (fun eq_result he => ?_)
    split
    · refine tsat_bind (tsat_lift_from_eq he) (fun l hl => ?_)
      refine tsat_bind (tsat_join hc hl) (fun c hc1 => ?_)
      exact tsat_bind (ih _ _) (fun r hr => tsat_join hc1 hr)
    · exact tsat_pure hc
  · exact tsat_pure hc

theorem tsat_inc_num_steps (hS : step_ok E Inv) : tsat Inv (inc_num_steps E) (fun _ => True) := by
  intro s hs
  unfold inc_num_steps
  simp only [wp_bind, wp_modify, wp_get]
  split
  · rw [wp_throw]
    intro h
    cases h
  · rename_i h
    exact ⟨hS s hs (by simpa [counter_value] using h), trivial⟩

theorem tsat_cache_store (hI : stable E b Inv) (e : expr) (r : simp_result) (hr : keeps b r) :
    tsat Inv (cache_store e r) (fun _ => True) :=
  fun s hs => ⟨hI.cache_insert s e r hs hr, trivial⟩

end budget_traversal

section termination

variable {E : env σ τ} {b : Bool} {Inv : state σ → Prop} {vis : visit_type σ}

/-- When `post` never asks to continue, the loop of `visit` ends after one
iteration. -/
theorem tsat_visit_loop (hI : stable E b Inv) (hH : hooks_keep E b) (hP : post_stops E)
    (ih : ∀ e p, tsat Inv (vis e p) (keeps b)) (parent : Option expr) (n : Nat)
    (curr : simp_result) (hc : keeps b curr) :
    tsat Inv (visit_loop E vis parent (n + 1) curr) (keeps b) := by
  unfold visit_loop
  refine tsat_bind (tsat_visit_step hI ih curr hc) (fun new_result hn => ?_)
  refine tsat_bind (tsat_post hI hH hP _ _) (fun o ho => ?_)
  split
  · exact tsat_join hn (ho _ _ rfl).1
  · have := (ho _ _ rfl).2
    cases this
  · exact tsat_pure hn

theorem tsat_visit_cached (hI : stable E b Inv) (hH : hooks_keep E b) (hP : post_stops E)
    (ih : ∀ e p, tsat Inv (vis e p) (keeps b)) (n : Nat) (e : expr) (parent : Option expr) :
    tsat Inv (visit_cached E vis (n + 1) e parent) (keeps b) := by
  unfold visit_cached
  refine tsat_bind tsat_get (fun s hs => ?_)
  split
  · rename_i r hr
    exact tsat_pure (hI.cache_find s e r hs hr)
  · refine tsat_bind (tsat_pre hI hH _ _) (fun o ho => ?_)
    have hrest : ∀ curr0 : simp_result, keeps b curr0 →
        tsat Inv (do
          let curr1 ← visit_loop E vis parent (n + 1) curr0
          let curr2 ← visit_lift E vis parent curr1
          cache_store e curr2
          pure curr2) (keeps b) := by
      intro curr0 h0
      refine tsat_bind (tsat_visit_loop hI hH hP ih parent n _ h0) (fun c1 h1 => ?_)
      refine tsat_bind (tsat_visit_lift hI ih parent c1 h1) (fun c2 h2 => ?_)
      exact tsat_bind (tsat_cache_store hI _ _ h2) (fun _ _ => tsat_pure h2)
    rcases o with _ | ⟨r1, c⟩
    · exact hrest _ (keeps_refl _ _)
    · cases c
      · exact tsat_bind (tsat_cache_store hI _ _ (ho _ _ rfl)) (fun _ _ => tsat_pure (ho _ _ rfl))
      · exact hrest _ (ho _ _ rfl)

end termination

/-- With fuel for the remaining budget, `visit` does not run out of fuel. -/
theorem tsat_visit {E : env σ τ} (hmax : E.max_steps < 4294967295) (hP : post_stops E)
    (n : Nat) :
    ∀ (k : Nat), E.max_steps ≤ k + n → ∀ (e : expr) (p : Option expr),
      tsat (fun x => k ≤ x.num_steps ∧ x.num_steps ≤ E.max_steps) (visit E (n + 1) e p)
        (keeps false) := by
  induction n with
  | zero =>
      intro k hk e p s hs
      unfold wp
      rw [visit_succ_eq]
      have hlt : E.max_steps < (s.num_steps + 1) % 4294967296 := by omega
      simp only [hlt, if_true]
      intro h
      cases h
  | succ n ih =>
      intro k hk e p s hs
      have hcached := tsat_visit_cached (stable_counter E (k + 1)) (hooks_keep_false E) hP
        (fun e p => ih (k + 1) (by omega) e p) (n + 1) e p
      unfold wp
      rw [visit_succ_eq]
      by_cases hlt : E.max_steps < (s.num_steps + 1) % 4294967296
      · simp only [hlt, if_true]
        intro h
        cases h
      · simp only [hlt, if_false]
        have hle : s.num_steps + 1 ≤ E.max_steps := by omega
        have h1 := hcached { s with num_steps := s.num_steps + 1 }
          ⟨Nat.succ_le_succ hs.1, hle⟩
        unfold wp at h1
        cases hm : visit_cached E (visit E (n + 1)) (n + 1 + 1) e p
            { s with num_steps := s.num_steps + 1 } with
        | ok a s1 =>
            rw [hm] at h1
            exact ⟨⟨Nat.le_of_succ_le h1.1.1, h1.1.2⟩, h1.2⟩
        | exception msg =>
            simp only
            intro h
            cases h
        | out_of_bounds =>
            simp only
            intro h
            cases h
        | out_of_fuel =>
            rw [hm] at h1
            exact absurd rfl h1

/-- When `post` never asks to continue and the step budget is below
`2^32 - 1`, `visit` terminates: started with at most `max_steps` counted steps
and with fuel for the remaining step budget plus one, it returns a result or
fails with an error, and the nesting of `visit` is bounded by the budget. -/
theorem visit_terminates (E : env σ τ) (hmax : E.max_steps < 4294967295) (hP : post_stops E)
    (n : Nat) (e : expr) (p : Option expr) (s : state σ) (hs : s.num_steps ≤ E.max_steps)
    (hn : E.max_steps ≤ s.num_steps + n) :
    visit E (n + 1) e p s ≠ .out_of_fuel := by
  have h := tsat_visit hmax hP n s.num_steps hn e p s ⟨le_refl _, hs⟩
  unfold wp at h
  intro hm
  rw [hm] at h
  exact h rfl

/-- Witness of `visit_terminates`: the core simplifier, whose `post` reports
nothing, on the application `f a`. -/
theorem visit_terminates_witness :
    visit (sample_env Unit) 101 (App const_f const_a) none (initial_state () empty_slss) ≠
      .out_of_fuel :=
  visit_terminates (sample_env Unit) (by decide)
    (fun x p s s1 r h => by cases h)
    100 (App const_f const_a) none (initial_state () empty_slss) (by decide) (by decide)

/-! ## Proving by simplification (C12) -/

/-- C12: when the run of the simplifier inside `prove_by_simp(rel, e)` returns
the result `r`, `prove_by_simp` returns a proof exactly when the new term is
an instance `rrel lhs rhs` of a reflexive relation with `lhs` and `rhs`
definitionally equal, or is `True`.  The proof is the reflexivity proof (resp.
`True.intro`) when `r` has no proof, and `mpr` applied to the proof of `r` and
the reflexivity proof (resp. `True.intro`) otherwise, where `mpr` is `eq.mpr`
for `eq` and `iff.mpr` for `iff`. -/
theorem C12_prove_by_simp (E : env σ τ) (fuel : Nat) (rel : name) (e : expr) (s s1 : state σ)
    (r : simp_result) (h : simplify E fuel rel e s = .ok r s1) :
    (∀ rrel lhs rhs, E.is_relation r.new = some (rrel, lhs, rhs) →
      E.is_refl_relation rrel = true → E.is_def_eq s1.ctx lhs rhs = true →
      prove_by_simp E fuel rel e s =
        .ok (some (match r.proof with
          | none => E.mk_refl s1.ctx rrel lhs
          | some pf => E.mk_app_builder s1.ctx
              (if rel = get_eq_name then get_eq_mpr_name else get_iff_mpr_name)
              [pf, E.mk_refl s1.ctx rrel lhs])) s1) ∧
    ((∀ rrel lhs rhs, E.is_relation r.new = some (rrel, lhs, rhs) →
        E.is_refl_relation rrel = false ∨ E.is_def_eq s1.ctx lhs rhs = false) →
      (E.is_true r.new = true →
        prove_by_simp E fuel rel e s =
          .ok (some (match r.proof with
            | none => E.mk_true_intro
            | some pf => E.mk_app_builder s1.ctx
                (if rel = get_eq_name then get_eq_mpr_name else get_iff_mpr_name)
                [pf, E.mk_true_intro])) s1) ∧
      (E.is_true r.new = false → prove_by_simp E fuel rel e s = .ok none s1)) ∧
    ((if get_eq_name = get_eq_name then get_eq_mpr_name else get_iff_mpr_name) = "eq.mpr" ∧
      (if get_iff_name = get_eq_name then get_eq_mpr_name else get_iff_mpr_name) = "iff.mpr") := by
  have hrun : prove_by_simp E fuel rel e s =
      (match refl_instance E s1.ctx r.new with
        | some (rrel, lhs) =>
            if r.has_proof then
              .ok (some (E.mk_app_builder s1.ctx
                (if rel = get_eq_name then get_eq_mpr_name else get_iff_mpr_name)
                [r.get_proof, E.mk_refl s1.ctx rrel lhs])) s1
            else .ok (some (E.mk_refl s1.ctx rrel lhs)) s1
        | none =>
            if E.is_true r.new then
              if r.has_proof then
                .ok (some (E.mk_app_builder s1.ctx
                  (if rel = get_eq_name then get_eq_mpr_name else get_iff_mpr_name)
                  [r.get_proof, E.mk_true_intro])) s1
              else .ok (some E.mk_true_intro) s1
            else .ok none s1) := by
    unfold prove_by_simp
    simp only [run_bind, h, run_get]
    cases refl_instance E s1.ctx r.new with
    | some p =>
        obtain ⟨rrel, lhs⟩ := p
        simp only
        split <;> rfl
    | none =>
        simp only
        split
        · split <;> rfl
        · rfl
  refine ⟨?_, ?_, by decide⟩
  · intro rrel lhs rhs h1 h2 h3
    have hi : refl_instance E s1.ctx r.new = some (rrel, lhs) := by
      simp [refl_instance, h1, h2, h3]
    rw [hrun, hi]
    cases hp : r.proof <;> simp [simp_result.has_proof, simp_result.get_proof, hp]
  · intro hno
    have hi : refl_instance E s1.ctx r.new = none := by
      unfold refl_instance
      cases h1 : E.is_relation r.new with
      | none => rfl
      | some p =>
          obtain ⟨rrel, lhs, rhs⟩ := p
          rcases hno rrel lhs rhs h1 with h2 | h2 <;> simp [h2]
    refine ⟨?_, ?_⟩
    · intro ht
      rw [hrun, hi]
      cases hp : r.proof <;> simp [simp_result.has_proof, simp_result.get_proof, hp, ht]
    · intro ht
      rw [hrun, hi]
      simp [ht]

/-- Witness of C12: the lemma `a = true` with proof `pf` rewrites `a` to
`true`, and `prove_by_simp` returns `eq.mpr pf true.intro`. -/
theorem C12_prove_by_simp_witness :
    prove_by_simp true_env 3 "eq" const_a
        (initial_state () (slss_of [closed_lemma const_a const_true const_pf false false])) =
      .ok (some (mk_app (Constant "eq.mpr" []) [const_pf, Constant "true.intro" []]))
        { initial_state () (slss_of [closed_lemma const_a const_true const_pf false false]) with
          rel := "eq", num_steps := 1, cache := [(const_a, ⟨const_true, some const_pf⟩)] } :=
  ((C12_prove_by_simp true_env 3 "eq" const_a
    (initial_state () (slss_of [closed_lemma const_a const_true const_pf false false]))
    { initial_state () (slss_of [closed_lemma const_a const_true const_pf false false]) with
      rel := "eq", num_steps := 1, cache := [(const_a, ⟨const_true, some const_pf⟩)] }
    ⟨const_true, some const_pf⟩ rfl).2.1 (fun _ _ _ h => by cases h)).1 rfl

/-! ## Cast elision (C13) -/

/-- C13 (amended): `try_auto_eq_congr(e)` returns `simp_result(e)`, with every
cast in place, when no `Eq` argument was simplified, and the application of the
head to the new arguments when an argument was simplified without a proof;
`remove_unnecessary_casts` is applied only to the right-hand side read off the
congruence lemma, when an argument was simplified with a proof and the lemma
has a `Cast` argument.  So the plain simplifier without rewrite lemmas, with
canonicalization and contextual hypotheses disabled, returns a closed
application `f (eq.rec … a … (eq.refl …))` as it is, with no proof, unless it
raises the step-budget error, provided that on the terms reached from it by
structural descent the projection reduction of the `pre` hook does not fire
and the congruence-lemma synthesizer keeps its contract. -/
theorem C13_cast_elision (E : env σ τ) (e : expr) (s : state σ) :
    (∀ (vis : visit_type σ) (cl : congr_lemma) (p : eq_congr_pass) (s1 : state σ),
      E.mk_specialized_congr_simp s.ctx e = some cl →
      (get_app_args e).length ≤ cl.arg_kinds.length →
      eq_congr_first_pass vis e (get_app_args e) cl.arg_kinds 0 ⟨[], [], false, false, false⟩ s =
        .ok p s1 →
      (p.has_simplified = false →
        try_auto_eq_congr E vis e s = .ok (some (simp_result.refl e)) s1) ∧
      (p.has_simplified = true → p.has_proof = false →
        try_auto_eq_congr E vis e s =
          .ok (some (simp_result.refl (mk_app (get_app_fn e) p.new_args))) s1) ∧
      (p.has_simplified = true → p.has_proof = true → ∀ b s2,
        eq_congr_second_pass E s1.ctx s1.rel (get_app_args e) p.r_args cl.arg_kinds 0 0
          cl.proof cl.type [] s1 = .ok b s2 →
        (p.has_cast = false →
          try_auto_eq_congr E vis e s =
            .ok (some ⟨instantiate_rev (app_arg b.2.1) b.2.2, some b.1⟩) s2) ∧
        (p.has_cast = true →
          try_auto_eq_congr E vis e s =
            (do
              let e1 ← remove_unnecessary_casts E (instantiate_rev (app_arg b.2.1) b.2.2)
              (pure (some ⟨e1, some b.1⟩) : M σ (Option simp_result))) s2))) ∧
    (identity_setting E → identity_scope E s.ctx e → no_lemmas s.slss → closed e = true →
      ∀ (rel : name) (fuel : Nat), 2 * expr_size e ≤ fuel →
      (∃ s1, simplify E fuel rel e s = .ok (simp_result.refl e) s1) ∨
        simplify E fuel rel e s = .exception max_steps_msg) := by
  constructor
  · intro vis cl p s1 hcl hlen hpass
    have hlt : ¬ cl.arg_kinds.length < (get_app_args e).length := by omega
    refine ⟨?_, ?_, ?_⟩
    · intro h1
      unfold try_auto_eq_congr
      simp only [run_bind, run_get, hcl, hlt, if_false, hpass, h1, Bool.not_false, if_true,
        run_pure]
    · intro h1 h2
      unfold try_auto_eq_congr
      simp only [run_bind, run_get, hcl, hlt, if_false, hpass, h1, h2, Bool.not_true,
        Bool.not_false, Bool.false_eq_true, if_true, run_pure]
    · intro h1 h2 b s2 hb
      constructor
      · intro h3
        unfold try_auto_eq_congr
        simp only [run_bind, run_get, hcl, hlt, if_false, hpass, h1, h2, h3, Bool.not_true,
          Bool.false_eq_true, hb, run_pure]
      · intro h3
        unfold try_auto_eq_congr
        simp only [run_bind, run_get, hcl, hlt, if_false, hpass, h1, h2, h3, Bool.not_true,
          Bool.false_eq_true, hb, if_true]
  · intro hE hS hs hc rel fuel hfuel
    have h := simplify_identity hE e hc rel s hS hs fuel hfuel
    unfold wp at h
    cases hm : simplify E fuel rel e s with
    | ok r s1 =>
        rw [hm] at h
        simp only at h
        rw [h]
        exact Or.inl ⟨s1, rfl⟩
    | exception msg =>
        rw [hm] at h
        simp only [budget_only, failure.exception.injEq] at h
        rw [h]
        exact Or.inr rfl
    | out_of_bounds =>
        rw [hm] at h
        simp [budget_only] at h
    | out_of_fuel =>
        rw [hm] at h
        simp [budget_only] at h

theorem cast_env_setting : identity_setting cast_env where
  cls := rfl
  canonize_instances := rfl
  canonize_proofs := rfl
  contextual := rfl

theorem cast_env_scope (e : expr) : identity_scope cast_env () e where
  reduce_projection := fun _ _ => rfl
  congr := by
    intro x _ cl h
    cases x with
    | App f a =>
        simp only [cast_env, Option.some.injEq] at h
        rw [← h]
        refine ⟨?_, by decide⟩
        rw [get_app_args_app]
        simp
    | _ => cases h

/-- Witness of C13: `try_auto_eq_congr` leaves `f (eq.rec A x C a x (eq.refl A
x))` as it is, and so does the run of the plain simplifier. -/
theorem C13_cast_elision_witness :
    try_auto_eq_congr cast_env (visit cast_env 3) (App const_f cast_a) eq_state =
      .ok (some (simp_result.refl (App const_f cast_a))) eq_state ∧
    (simplify cast_env 40 "eq" (App const_f cast_a) (initial_state () empty_slss)).value =
      some (simp_result.refl (App const_f cast_a)) :=
  ⟨((C13_cast_elision cast_env (App const_f cast_a) eq_state).1 (visit cast_env 3)
      ⟨Constant "congr_type" [], Constant "congr_proof" [], [congr_arg_kind.Cast]⟩
      ⟨[], [cast_a], false, true, false⟩ eq_state rfl (by decide) rfl).1 rfl,
    match (C13_cast_elision cast_env (App const_f cast_a) (initial_state () empty_slss)).2
        cast_env_setting (cast_env_scope _) (fun _ => rfl) (by decide) "eq" 40 (by decide) with
    | Or.inl ⟨s1, h1⟩ => by rw [h1]; rfl
    | Or.inr h2 => by
        have h3 : (simplify cast_env 40 "eq" (App const_f cast_a)
            (initial_state () empty_slss)).value =
            some (simp_result.refl (App const_f cast_a)) := by
          decide
        exact h3⟩

/-- Counterexample to C13 as stated: under `eq` and without rewrite lemmas the
plain simplifier returns `f (eq.rec A x C a x (eq.refl A x))` unchanged, with
no proof, although the argument is at a subsingleton position and
`remove_unnecessary_casts` would turn the term into `f a`. -/
theorem C13_counterexample :
    (simplify cast_env 40 "eq" (App const_f cast_a) (initial_state () empty_slss)).value =
      some (simp_result.refl (App const_f cast_a)) ∧
    (remove_unnecessary_casts cast_env (App const_f cast_a) eq_state).value =
      some (App const_f const_a) ∧
    App const_f cast_a ≠ App const_f const_a := by
  refine ⟨?_, ?_, ?_⟩ <;> decide

/-! ## The hook protocols (C15, C16) and relation lifting (C14) -/

/-- C15 (amended): on a cache miss, if `pre(e, parent)` returns `(r, false)`,
`visit` stores `r` under `e` and returns `r`, without `post` and without
descent; if it returns `(r, true)`, `visit` continues with the current result
`r`; if it returns nothing, `visit` continues with `simp_result(e)`.  For the
script-driven simplifier the second component is the boolean of the callback:
`visit` stops when the callback returns `false`. -/
theorem C15_pre_protocol (E : env σ τ) (vis : visit_type σ) (n : Nat) (e : expr)
    (p : Option expr) (s s1 : state σ) (hmiss : cache_find s.cache e = none) :
    (∀ r, pre E e p s = .ok (some (r, false)) s1 →
      visit_cached E vis n e p s = .ok r { s1 with cache := cache_insert s1.cache e r }) ∧
    (∀ r, pre E e p s = .ok (some (r, true)) s1 →
      visit_cached E vis n e p s =
        (do
          let curr1 ← visit_loop E vis p n r
          let curr2 ← visit_lift E vis p curr1
          cache_store e curr2
          (pure curr2 : M σ simp_result)) s1) ∧
    (pre E e p s = .ok none s1 →
      visit_cached E vis n e p s =
        (do
          let curr1 ← visit_loop E vis p n (simp_result.refl e)
          let curr2 ← visit_lift E vis p curr1
          cache_store e curr2
          (pure curr2 : M σ simp_result)) s1) ∧
    (∀ ctx1 r flag, E.cls = simp_class.vm_simplify_fn →
      E.vm_pre s.ctx s.slss s.rel p e = some (ctx1, r, flag) →
      pre E e p s = .ok (some (r, flag)) { s with ctx := ctx1 }) := by
  refine ⟨?_, ?_, ?_, ?_⟩
  · intro r h
    unfold visit_cached
    simp only [run_bind, run_get, hmiss, h]
    rfl
  · intro r h
    unfold visit_cached
    simp only [run_bind, run_get, hmiss, h]
  · intro h
    unfold visit_cached
    simp only [run_bind, run_get, hmiss, h]
  · intro ctx1 r flag hc hv
    unfold pre
    rw [hc]
    simp only
    unfold invoke_fn
    simp only [run_bind, run_get, hv, run_modify, run_pure]

/-- Witness of C15: the `pre` callback returns `b` for `a` with the boolean
`false`, and `visit` stores and returns `b`. -/
theorem C15_pre_protocol_witness :
    visit_cached (flag_env false) (visit (flag_env false) 1) 2 const_a none
        (initial_state () empty_slss) =
      .ok ⟨const_b, none⟩
        { initial_state () empty_slss with cache := [(const_a, ⟨const_b, none⟩)] } :=
  (C15_pre_protocol (flag_env false) (visit (flag_env false) 1) 2 const_a none
    (initial_state () empty_slss) (initial_state () empty_slss) rfl).1 ⟨const_b, none⟩ rfl

/-- Counterexample to C15 as stated: when the `pre` callback returns the
boolean `true`, `visit` does not stop with the result `b` of the callback: it
goes on, `post` rewrites `b` to `c`, and `(c, pf)` is returned and stored. -/
theorem C15_counterexample :
    (flag_env true).vm_pre () empty_slss "eq" none const_a = some ((), ⟨const_b, none⟩, true) ∧
    (visit (flag_env true) 3 const_a none
        { initial_state () empty_slss with rel := "eq" }).value =
      some ⟨const_c, some const_pf⟩ ∧
    (visit (flag_env false) 3 const_a none
        { initial_state () empty_slss with rel := "eq" }).value =
      some ⟨const_b, none⟩ := by
  refine ⟨rfl, ?_, ?_⟩ <;> decide

/-- C16 (amended): one iteration of the loop of `visit`, where the structural
step turns the current result `curr` into `new_result` (for a lambda, a pi, an
application and a let the join of `curr` with the structural result) and `post`
is applied to the term of `new_result`.  If `post` returns `(r, false)` the loop
exits with `join(new_result, r)`; if it returns `(r, true)` and the term of `r`
is the term of `curr`, the result at the start of the iteration, the loop exits
with `curr`; if it returns `(r, true)` with another term the loop continues
with `join(new_result, r)`; if it returns nothing the loop exits with
`new_result`. -/
theorem C16_post_protocol (E : env σ τ) (vis : visit_type σ) (p : Option expr) (n : Nat)
    (curr new_result : simp_result) (s s1 : state σ)
    (hstep : visit_step E vis curr s = .ok new_result s1) :
    (∀ r s2, post E new_result.new p s1 = .ok (some (r, false)) s2 →
      visit_loop E vis p (n + 1) curr s = join E new_result r s2) ∧
    (∀ r s2, post E new_result.new p s1 = .ok (some (r, true)) s2 → r.new = curr.new →
      visit_loop E vis p (n + 1) curr s = .ok curr s2) ∧
    (∀ r s2, post E new_result.new p s1 = .ok (some (r, true)) s2 → r.new ≠ curr.new →
      visit_loop E vis p (n + 1) curr s =
        (do
          let c ← join E new_result r
          visit_loop E vis p n c) s2) ∧
    (∀ s2, post E new_result.new p s1 = .ok none s2 →
      visit_loop E vis p (n + 1) curr s = .ok new_result s2) ∧
    ((curr.new.kind = expr_kind.Lambda →
        visit_step E vis curr = (do
          let r ← visit_lambda E vis curr.new
          join E curr r)) ∧
      (curr.new.kind = expr_kind.Pi →
        visit_step E vis curr = (do
          let r ← visit_pi E vis curr.new
          join E curr r)) ∧
      (curr.new.kind = expr_kind.App →
        visit_step E vis curr = (do
          let r ← visit_app E vis curr.new
          join E curr r)) ∧
      (curr.new.kind = expr_kind.Let →
        visit_step E vis curr = (do
          let r ← visit_let E curr.new
          join E curr r))) := by
  refine ⟨?_, ?_, ?_, ?_, ?_, ?_, ?_, ?_⟩
  · intro r s2 h
    unfold visit_loop
    simp only [run_bind, hstep, h]
  · intro r s2 h heq
    unfold visit_loop
    simp only [run_bind, hstep, h, heq, if_true]
    rfl
  · intro r s2 h hne
    conv_lhs => unfold visit_loop
    simp only [run_bind, hstep, h, hne, if_false]
  · intro s2 h
    unfold visit_loop
    simp only [run_bind, hstep, h]
    rfl
  · intro hk
    unfold visit_step
    rw [hk]
  · intro hk
    unfold visit_step
    rw [hk]
  · intro hk
    unfold visit_step
    rw [hk]
  · intro hk
    unfold visit_step
    rw [hk]

/-- Witness of C16: `post` answers `f b` with `f a`, the term of the current
result, and the loop exits with the current result. -/
theorem C16_post_protocol_witness :
    visit_loop (back_env true) (visit (back_env true) 3) none 1
        (simp_result.refl (App const_f const_a)) eq_state =
      .ok (simp_result.refl (App const_f const_a))
        { eq_state with
          num_steps := 2
          cache := [(const_f, simp_result.refl const_f), (const_a, ⟨const_b, none⟩)] } :=
  (C16_post_protocol (back_env true) (visit (back_env true) 3) none 0
    (simp_result.refl (App const_f const_a)) ⟨App const_f const_b, none⟩ eq_state
    { eq_state with
      num_steps := 2
      cache := [(const_f, simp_result.refl const_f), (const_a, ⟨const_b, none⟩)] }
    rfl).2.1 ⟨App const_f const_a, some const_pf⟩ _ rfl rfl

/-- Counterexample to C16 as stated.  The structural step rewrites `f a` to
`f b`.  When `post` answers `f b` with another term, `f a`, and the boolean
`true`, the loop does not continue: it exits after one iteration, and with the
current result `(f a, no proof)`.  When `post` answers `f b` with `f b` itself
and the boolean `true`, the loop does not exit with `new_result`: one iteration
is not enough, and it ends with `join(new_result, r)`. -/
theorem C16_counterexample :
    (visit_step (back_env true) (visit (back_env true) 3)
        (simp_result.refl (App const_f const_a)) eq_state).value =
      some ⟨App const_f const_b, none⟩ ∧
    (visit_loop (back_env true) (visit (back_env true) 3) none 1
        (simp_result.refl (App const_f const_a)) eq_state).value =
      some (simp_result.refl (App const_f const_a)) ∧
    (visit_step (back_env false) (visit (back_env false) 3)
        (simp_result.refl (App const_f const_a)) eq_state).value =
      some ⟨App const_f const_b, none⟩ ∧
    (visit_loop (back_env false) (visit (back_env false) 3) none 1
        (simp_result.refl (App const_f const_a)) eq_state).value = none ∧
    (visit_loop (back_env false) (visit (back_env false) 3) none 2
        (simp_result.refl (App const_f const_a)) eq_state).value =
      some ⟨App const_f const_b, some const_pf⟩ := by
  refine ⟨?_, ?_, ?_, ?_, ?_⟩ <;> decide

/-- C14 (amended): `visit` attempts relation lifting exactly when `lift_eq` is
on and the active relation is not `eq`; it makes no test of reflexivity.  In
that case the current term is visited under `eq` with an empty cache, the
relation and the cache are restored, and, only if the term changed, the
`eq`-result is lifted and joined and the new term is visited once more under
the active relation.  Otherwise the current result is returned and nothing is
visited. -/
theorem C14_relation_lifting (E : env σ τ) (vis : visit_type σ) (p : Option expr)
    (curr : simp_result) (s : state σ) :
    ((E.lift_eq = false ∨ s.rel = get_eq_name) → visit_lift E vis p curr s = .ok curr s) ∧
    (E.lift_eq = true → s.rel ≠ get_eq_name → ∀ eq_result s1,
      vis curr.new p { s with rel := get_eq_name, cache := [] } = .ok eq_result s1 →
      (eq_result.new = curr.new →
        visit_lift E vis p curr s = .ok curr { s1 with cache := s.cache, rel := s.rel }) ∧
      (eq_result.new ≠ curr.new →
        visit_lift E vis p curr s =
          (do
            let l ← lift_from_eq E eq_result
            let c ← join E curr l
            let r ← vis c.new p
            join E c r) { s1 with cache := s.cache, rel := s.rel })) ∧
    (∀ g : name → Bool,
      visit_lift { E with is_refl_relation := g } vis p curr s = visit_lift E vis p curr s) := by
  refine ⟨?_, ?_, ?_⟩
  · intro h
    unfold visit_lift
    simp only [run_bind, run_get]
    rcases h with h | h
    · simp only [h, Bool.false_and, Bool.false_eq_true, if_false, run_pure]
    · simp only [h, ne_eq, not_true_eq_false, decide_False, Bool.and_false, Bool.false_eq_true,
        if_false, run_pure]
  · intro hl hr eq_result s1 hv
    have hrun : flet_rel get_eq_name (freset_cache (vis curr.new p)) s =
        .ok eq_result { s1 with cache := s.cache, rel := s.rel } := by
      unfold flet_rel freset_cache
      simp only [hv]
    have hc : (E.lift_eq && decide (s.rel ≠ get_eq_name)) = true := by
      simp [hl, hr]
    constructor
    · intro heq
      unfold visit_lift
      simp only [run_bind, run_get, hc, if_true, hrun, heq, ne_eq, not_true_eq_false, if_false,
        run_pure]
    · intro hne
      unfold visit_lift
      simp only [run_bind, run_get, hc, if_true, hrun, ne_eq, hne, not_false_eq_true]
  · intro g
    rfl

/-- Witness of C14: with `lift_eq` on and the relation `r`, the constant `a`
is visited under `eq` with an empty cache. -/
theorem C14_relation_lifting_witness :
    visit_lift lift_env (visit lift_env 2) none (simp_result.refl const_a)
        { initial_state 0 empty_slss with rel := "r" } =
      .ok (simp_result.refl const_a)
        { initial_state 1 empty_slss with rel := "r", num_steps := 1 } :=
  ((C14_relation_lifting lift_env (visit lift_env 2) none (simp_result.refl const_a)
    { initial_state 0 empty_slss with rel := "r" }).2.1 rfl (by decide)
    (simp_result.refl const_a)
    { initial_state 1 empty_slss with
      rel := "eq", num_steps := 1, cache := [(const_a, simp_result.refl const_a)] }
    rfl).1 rfl

/-- Counterexample to C14 as stated: the relation `r` is not registered as
reflexive, and `visit` under `r` still simplifies the term under `eq`: the
`post` callback is called once under `eq` and the term is visited twice. -/
theorem C14_counterexample :
    lift_env.is_refl_relation "r" = false ∧
    ((visit lift_env 3 const_a none { initial_state 0 empty_slss with rel := "r" }).final.map
        (fun s1 => (s1.ctx, s1.num_steps))) = some (1, 2) := by
  constructor <;> decide

/-! ## Side conditions and failed attempts (C17, C18) -/

/-- The method `prove` returns normally. -/
theorem prove_total (E : env σ τ) (x : expr) (s : state σ) :
    ∃ a s1, prove E x s = .ok a s1 := by
  unfold prove
  cases E.cls
  case vm_simplify_fn =>
    simp only
    unfold vm_prove
    simp only [run_bind, run_get]
    cases E.vm_prove s.ctx x with
    | none => exact ⟨_, _, rfl⟩
    | some p => exact ⟨_, _, rfl⟩
  all_goals exact ⟨_, _, rfl⟩

/-- One step of the discharge returns normally. -/
theorem instantiate_emeta_total (E : env σ τ) (tmp_ctx : τ) (i : Nat) (mvar : expr)
    (is_instance : Bool) (s : state σ) :
    ∃ a s1, instantiate_emeta E tmp_ctx i mvar is_instance s = .ok a s1 := by
  unfold instantiate_emeta
  simp only [run_bind, run_get]
  by_cases h1 : has_metavar (E.tmp_instantiate_mvars tmp_ctx (E.tmp_infer tmp_ctx mvar)) = true
  · simp only [h1, if_true]
    exact ⟨_, _, rfl⟩
  · simp only [h1, Bool.false_eq_true, if_false]
    by_cases h2 : E.tmp_is_eassigned tmp_ctx i = true
    · simp only [h2, if_true]
      exact ⟨_, _, rfl⟩
    · simp only [h2, Bool.false_eq_true, if_false]
      cases instantiate_instance E s.ctx tmp_ctx mvar
          (E.tmp_instantiate_mvars tmp_ctx (E.tmp_infer tmp_ctx mvar)) is_instance with
      | none => exact ⟨_, _, rfl⟩
      | some tmp1 =>
          simp only
          by_cases h3 : E.tmp_is_eassigned tmp1 i = true
          · simp only [h3, if_true]
            exact ⟨_, _, rfl⟩
          · simp only [h3, Bool.false_eq_true, if_false]
            by_cases h4 : E.is_prop s.ctx
                (E.tmp_instantiate_mvars tmp_ctx (E.tmp_infer tmp_ctx mvar)) = true
            · simp only [h4, if_true, run_bind]
              obtain ⟨a, s1, h⟩ := prove_total E
                (E.tmp_instantiate_mvars tmp_ctx (E.tmp_infer tmp_ctx mvar)) s
              rw [h]
              cases a <;> exact ⟨_, _, rfl⟩
            · simp only [h4, Bool.false_eq_true, if_false]
              exact ⟨_, _, rfl⟩

/-- The discharge of the side conditions returns normally. -/
theorem instantiate_emetas_loop_total (E : env σ τ) (emetas : List expr) :
    ∀ (instances : List Bool) (i : Nat) (tmp_ctx : τ) (s : state σ),
      ∃ a s1, instantiate_emetas_loop E emetas instances i tmp_ctx s = .ok a s1 := by
  induction emetas with
  | nil =>
      intro instances i tmp_ctx s
      exact ⟨_, _, rfl⟩
  | cons mvar emetas ih =>
      intro instances i tmp_ctx s
      cases instances with
      | nil => exact ⟨_, _, rfl⟩
      | cons b instances =>
          unfold instantiate_emetas_loop
          simp only [run_bind]
          obtain ⟨a, s1, h⟩ := instantiate_emeta_total E tmp_ctx (dec_unsigned i) mvar b s
          rw [h]
          cases a with
          | none => exact ⟨_, _, rfl⟩
          | some tmp1 => exact ih instances (dec_unsigned i) tmp1 s1

theorem all_uassigned_false (E : env σ τ) (tmp_ctx : τ) (n i : Nat) (hi : i < n)
    (h : E.tmp_is_uassigned tmp_ctx i = false) : all_uassigned E tmp_ctx n = false := by
  unfold all_uassigned
  rw [Bool.eq_false_iff]
  intro hall
  rw [List.all_eq_true] at hall
  have := hall i (List.mem_range.mpr hi)
  rw [h] at this
  cases this

/-- The first half of `rewrite(e, sl)` returns normally. -/
theorem rewrite_unify_total (E : env σ τ) (e : expr) (sl : simp_lemma) (s : state σ) :
    ∃ a s1, rewrite_unify E e sl s = .ok a s1 := by
  unfold rewrite_unify
  simp only [run_bind, run_get]
  by_cases hu : (E.tmp_is_def_eq (E.tmp_type_context s.ctx sl.num_umeta sl.num_emeta) e
      sl.lhs).1 = true
  · simp only [hu, Bool.not_true, Bool.false_eq_true, if_false]
    obtain ⟨a, s1, h⟩ := instantiate_emetas_loop_total E sl.emetas sl.instances sl.num_emeta
      (E.tmp_is_def_eq (E.tmp_type_context s.ctx sl.num_umeta sl.num_emeta) e sl.lhs).2 s
    unfold instantiate_emetas
    rw [run_bind, h]
    cases a with
    | none => exact ⟨_, _, rfl⟩
    | some tmp1 =>
        simp only
        split <;> exact ⟨_, _, rfl⟩
  · simp only [hu, Bool.not_false, if_true]
    exact ⟨_, _, rfl⟩

/-- C18: a failed attempt is skipped.  `rewrite(e, sl)` returns
`simp_result(e)`, the term `e` with no proof, by a normal return, when the
unification of the left-hand side with `e` fails, when `instantiate_emetas`
returns false, and when a universe metavariable with index below the count of
the lemma is unassigned; and `rewrite(e, sl)` raises no error. -/
theorem C18_failed_attempt_skipped (E : env σ τ) (e : expr) (sl : simp_lemma) (s : state σ) :
    ((E.tmp_is_def_eq (E.tmp_type_context s.ctx sl.num_umeta sl.num_emeta) e sl.lhs).1 = false →
      rewrite_lemma E e sl s = .ok none s) ∧
    (∀ s1,
      (E.tmp_is_def_eq (E.tmp_type_context s.ctx sl.num_umeta sl.num_emeta) e sl.lhs).1 = true →
      instantiate_emetas E
          (E.tmp_is_def_eq (E.tmp_type_context s.ctx sl.num_umeta sl.num_emeta) e sl.lhs).2
          sl.num_emeta sl.emetas sl.instances s = .ok none s1 →
      rewrite_lemma E e sl s = .ok none s1) ∧
    (∀ s1 tmp1 i,
      (E.tmp_is_def_eq (E.tmp_type_context s.ctx sl.num_umeta sl.num_emeta) e sl.lhs).1 = true →
      instantiate_emetas E
          (E.tmp_is_def_eq (E.tmp_type_context s.ctx sl.num_umeta sl.num_emeta) e sl.lhs).2
          sl.num_emeta sl.emetas sl.instances s = .ok (some tmp1) s1 →
      i < sl.num_umeta → E.tmp_is_uassigned tmp1 i = false →
      rewrite_lemma E e sl s = .ok none s1) ∧
    rewrite_lemma_result e none = ⟨e, none⟩ ∧
    (∃ a s1, rewrite_lemma E e sl s = .ok a s1) := by
  refine ⟨?_, ?_, ?_, rfl, ?_⟩
  · intro hu
    unfold rewrite_lemma rewrite_unify
    simp only [run_bind, run_get, hu, Bool.not_false, if_true, run_pure]
  · intro s1 hu hi
    unfold rewrite_lemma rewrite_unify
    simp only [run_bind, run_get, hu, Bool.not_true, Bool.false_eq_true, if_false, hi, run_pure]
  · intro s1 tmp1 i hu hi hlt hun
    unfold rewrite_lemma rewrite_unify
    simp only [run_bind, run_get, hu, Bool.not_true, Bool.false_eq_true, if_false, hi, run_pure,
      all_uassigned_false E tmp1 sl.num_umeta i hlt hun, Bool.not_false, if_true]
  · obtain ⟨a, s1, h⟩ := rewrite_unify_total E e sl s
    rw [rewrite_lemma_eq, h]
    cases a <;> exact ⟨_, _, rfl⟩

theorem instantiate_instance_passed (E : env σ τ) (tmp_ctx : τ) (mvar mvar_type : expr)
    (is_instance : Bool) (s : state σ) (tmp1 : τ) :
    instantiate_instance E s.ctx tmp_ctx mvar mvar_type is_instance = some tmp1 ↔
      instance_step_passed E tmp_ctx mvar mvar_type is_instance s tmp1 := by
  unfold instantiate_instance instance_step_passed
  cases is_instance with
  | false =>
      simp only [Bool.false_eq_true, if_false, Option.some.injEq, true_and, false_and, or_false]
      exact eq_comm
  | true =>
      simp only [if_true, Bool.true_eq_false, false_and, true_and, false_or]
      cases hv : E.mk_class_instance s.ctx mvar_type with
      | none =>
          simp only
          constructor
          · intro h
            cases h
          · rintro ⟨v, h, _⟩
            cases h
      | some v =>
          simp only [Option.some.injEq]
          by_cases hu : (E.tmp_is_def_eq tmp_ctx mvar v).1 = true
          · rw [if_pos hu]
            constructor
            · intro h
              exact ⟨v, rfl, hu, (Option.some.inj h).symm⟩
            · rintro ⟨w, rfl, _, h⟩
              rw [h]
          · rw [if_neg hu]
            constructor
            · intro h
              cases h
            · rintro ⟨w, rfl, h, _⟩
              exact absurd h hu

/-- One step of the discharge, as a case distinction. -/
theorem instantiate_emeta_eq (E : env σ τ) (tmp_ctx : τ) (i : Nat) (mvar : expr)
    (is_instance : Bool) (s : state σ) :
    instantiate_emeta E tmp_ctx i mvar is_instance s =
      if has_metavar (E.tmp_instantiate_mvars tmp_ctx (E.tmp_infer tmp_ctx mvar)) = true then
        .ok none s
      else if E.tmp_is_eassigned tmp_ctx i = true then .ok (some tmp_ctx) s
      else
        match instantiate_instance E s.ctx tmp_ctx mvar
            (E.tmp_instantiate_mvars tmp_ctx (E.tmp_infer tmp_ctx mvar)) is_instance with
        | none => .ok none s
        | some tmp1 =>
            if E.tmp_is_eassigned tmp1 i = true then .ok (some tmp1) s
            else if E.is_prop s.ctx
                (E.tmp_instantiate_mvars tmp_ctx (E.tmp_infer tmp_ctx mvar)) = true then
              match prove E (E.tmp_instantiate_mvars tmp_ctx (E.tmp_infer tmp_ctx mvar)) s with
              | .ok (some pf) s1 => .ok (some (E.tmp_is_def_eq tmp1 mvar pf).2) s1
              | .ok none s1 => .ok none s1
              | .exception msg => .exception msg
              | .out_of_bounds => .out_of_bounds
              | .out_of_fuel => .out_of_fuel
            else .ok none s := by
  unfold instantiate_emeta
  simp only [run_bind, run_get]
  by_cases h1 : has_metavar (E.tmp_instantiate_mvars tmp_ctx (E.tmp_infer tmp_ctx mvar)) = true
  · simp only [h1, if_true]
    rfl
  · simp only [h1, Bool.false_eq_true, if_false]
    by_cases h2 : E.tmp_is_eassigned tmp_ctx i = true
    · simp only [h2, if_true]
      rfl
    · simp only [h2, Bool.false_eq_true, if_false]
      cases instantiate_instance E s.ctx tmp_ctx mvar
          (E.tmp_instantiate_mvars tmp_ctx (E.tmp_infer tmp_ctx mvar)) is_instance with
      | none => rfl
      | some tmp1 =>
          simp only
          by_cases h3 : E.tmp_is_eassigned tmp1 i = true
          · simp only [h3, if_true]
            rfl
          · simp only [h3, Bool.false_eq_true, if_false]
            by_cases h4 : E.is_prop s.ctx
                (E.tmp_instantiate_mvars tmp_ctx (E.tmp_infer tmp_ctx mvar)) = true
            · simp only [h4, if_true, run_bind]
              cases prove E (E.tmp_instantiate_mvars tmp_ctx (E.tmp_infer tmp_ctx mvar)) s with
              | ok a s1 => cases a <;> rfl
              | exception msg => rfl
              | out_of_bounds => rfl
              | out_of_fuel => rfl
            · simp only [h4, Bool.false_eq_true, if_false]
              rfl

/-- One step of the discharge succeeds exactly when the condition holds. -/
theorem instantiate_emeta_iff (E : env σ τ) (tmp_ctx : τ) (i : Nat) (mvar : expr)
    (is_instance : Bool) (s : state σ) :
    (∃ tmp1 s1, instantiate_emeta E tmp_ctx i mvar is_instance s = .ok (some tmp1) s1) ↔
      emeta_discharged E tmp_ctx i mvar is_instance s := by
  rw [instantiate_emeta_eq]
  unfold emeta_discharged
  by_cases h1 : has_metavar (E.tmp_instantiate_mvars tmp_ctx (E.tmp_infer tmp_ctx mvar)) = true
  · rw [if_pos h1]
    constructor
    · rintro ⟨_, _, h⟩
      cases h
    · rintro ⟨h, _⟩
      rw [h1] at h
      cases h
  · rw [if_neg h1]
    have h1f : has_metavar (E.tmp_instantiate_mvars tmp_ctx (E.tmp_infer tmp_ctx mvar)) = false := by
      simpa using h1
    by_cases h2 : E.tmp_is_eassigned tmp_ctx i = true
    · rw [if_pos h2]
      exact ⟨fun _ => ⟨h1f, Or.inl h2⟩, fun _ => ⟨_, _, rfl⟩⟩
    · rw [if_neg h2]
      cases hinst : instantiate_instance E s.ctx tmp_ctx mvar
          (E.tmp_instantiate_mvars tmp_ctx (E.tmp_infer tmp_ctx mvar)) is_instance with
      | none =>
          simp only
          constructor
          · rintro ⟨_, _, h⟩
            cases h
          · rintro ⟨_, h | ⟨hi, v, hv, hu, _⟩ | ⟨tmp1, hp, _⟩⟩
            · exact absurd h h2
            · have : instantiate_instance E s.ctx tmp_ctx mvar
                  (E.tmp_instantiate_mvars tmp_ctx (E.tmp_infer tmp_ctx mvar)) is_instance =
                  some (E.tmp_is_def_eq tmp_ctx mvar v).2 :=
                (instantiate_instance_passed E tmp_ctx mvar _ is_instance s _).mpr
                  (Or.inr ⟨hi, v, hv, hu, rfl⟩)
              rw [hinst] at this
              cases this
            · have := (instantiate_instance_passed E tmp_ctx mvar _ is_instance s tmp1).mpr hp
              rw [hinst] at this
              cases this
      | some tmp1 =>
          simp only
          have hp := (instantiate_instance_passed E tmp_ctx mvar _ is_instance s tmp1).mp hinst
          by_cases h3 : E.tmp_is_eassigned tmp1 i = true
          · rw [if_pos h3]
            refine ⟨fun _ => ⟨h1f, ?_⟩, fun _ => ⟨_, _, rfl⟩⟩
            rcases hp with ⟨_, rfl⟩ | ⟨hi, v, hv, hu, rfl⟩
            · exact Or.inl h3
            · exact Or.inr (Or.inl ⟨hi, v, hv, hu, h3⟩)
          · rw [if_neg h3]
            have h3f : E.tmp_is_eassigned tmp1 i = false := by simpa using h3
            have huniq : ∀ t, instance_step_passed E tmp_ctx mvar
                (E.tmp_instantiate_mvars tmp_ctx (E.tmp_infer tmp_ctx mvar)) is_instance s t →
                t = tmp1 := by
              intro t ht
              have := (instantiate_instance_passed E tmp_ctx mvar _ is_instance s t).mpr ht
              rw [hinst] at this
              exact (Option.some.inj this).symm
            by_cases h4 : E.is_prop s.ctx
                (E.tmp_instantiate_mvars tmp_ctx (E.tmp_infer tmp_ctx mvar)) = true
            · rw [if_pos h4]
              constructor
              · rintro ⟨t, s1, h⟩
                refine ⟨h1f, Or.inr (Or.inr ⟨tmp1, hp, h3f, h4, ?_⟩)⟩
                cases hpr : prove E (E.tmp_instantiate_mvars tmp_ctx (E.tmp_infer tmp_ctx mvar)) s with
                | ok a s2 =>
                    rw [hpr] at h
                    cases a with
                    | none => cases h
                    | some pf => exact ⟨pf, s2, rfl⟩
                | exception msg => rw [hpr] at h; cases h
                | out_of_bounds => rw [hpr] at h; cases h
                | out_of_fuel => rw [hpr] at h; cases h
              · rintro ⟨_, h | ⟨hi, v, hv, hu, ha⟩ | ⟨t, ht, _, _, pf, s1, hpr⟩⟩
                · exact absurd h h2
                · have := huniq _ (Or.inr ⟨hi, v, hv, hu, rfl⟩)
                  rw [this] at ha
                  exact absurd ha h3
                · rw [hpr]
                  exact ⟨_, _, rfl⟩
            · rw [if_neg h4]
              constructor
              · rintro ⟨_, _, h⟩
                cases h
              · rintro ⟨_, h | ⟨hi, v, hv, hu, ha⟩ | ⟨t, ht, _, hprop, _⟩⟩
                · exact absurd h h2
                · have := huniq _ (Or.inr ⟨hi, v, hv, hu, rfl⟩)
                  rw [this] at ha
                  exact absurd ha h3
                · exact absurd hprop h4

theorem dec_unsigned_eq (i : Nat) (h1 : 0 < i) (h2 : i ≤ 4294967296) : dec_unsigned i = i - 1 := by
  unfold dec_unsigned
  omega

/-- The discharge of a list of metavariables from the counter `num_emeta - k`
succeeds exactly when the condition holds for every entry. -/
theorem instantiate_emetas_loop_iff (E : env σ τ) (num_emeta : Nat)
    (hn : num_emeta < 4294967296) (emetas : List expr) :
    ∀ (instances : List Bool) (k : Nat) (tmp_ctx : τ) (s : state σ),
      k + min emetas.length instances.length ≤ num_emeta →
      ((∃ tmp1 s1, instantiate_emetas_loop E emetas instances (num_emeta - k) tmp_ctx s =
          .ok (some tmp1) s1) ↔
        emetas_discharged E num_emeta k emetas instances tmp_ctx s) := by
  induction emetas with
  | nil =>
      intro instances k tmp_ctx s _
      simp only [instantiate_emetas_loop, emetas_discharged, iff_true]
      exact ⟨_, _, rfl⟩
  | cons mvar emetas ih =>
      intro instances k tmp_ctx s hk
      cases instances with
      | nil =>
          simp only [instantiate_emetas_loop, emetas_discharged, iff_true]
          exact ⟨_, _, rfl⟩
      | cons b instances =>
          simp only [List.length_cons] at hk
          have hdec : dec_unsigned (num_emeta - k) = num_emeta - 1 - k := by
            rw [dec_unsigned_eq _ (by omega) (by omega)]
            omega
          have hnext : num_emeta - 1 - k = num_emeta - (k + 1) := by omega
          unfold instantiate_emetas_loop emetas_discharged
          simp only [run_bind, hdec]
          rw [← instantiate_emeta_iff]
          obtain ⟨a, s1, h⟩ := instantiate_emeta_total E tmp_ctx (num_emeta - 1 - k) mvar b s
          rw [h]
          cases a with
          | none =>
              simp only
              constructor
              · rintro ⟨_, _, h0⟩
                cases h0
              · rintro ⟨⟨_, _, h0⟩, _⟩
                cases h0
          | some tmp1 =>
              simp only
              rw [hnext, ih instances (k + 1) tmp1 s1 (by omega)]
              constructor
              · intro hd
                refine ⟨⟨_, _, rfl⟩, ?_⟩
                intro t1 s2 h0
                cases h0
                exact hd
              · rintro ⟨_, hd⟩
                exact hd tmp1 s1 rfl

/-- C17 (amended): `instantiate_emetas` succeeds exactly when, for every
metavariable processed in list order (the `k`-th entry having index
`num_emeta - 1 - k`), its instantiated type contains no metavariable and it is
already assigned, or its instance step assigns it, or it has passed the
instance step unassigned (it is not instance-flagged, or synthesis and
unification succeeded), its type is a proposition and `prove` succeeds.  An
unassigned metavariable that the instance step does not assign and whose type
is not a proposition makes the discharge fail, and so does, with the default
`prove`, every unassigned metavariable that is not instance-flagged. -/
theorem C17_side_conditions (E : env σ τ) (tmp_ctx : τ) (num_emeta : Nat) (emetas : List expr)
    (instances : List Bool) (s : state σ) (hn : num_emeta < 4294967296)
    (hlen : min emetas.length instances.length ≤ num_emeta) :
    ((∃ tmp1 s1, instantiate_emetas E tmp_ctx num_emeta emetas instances s = .ok (some tmp1) s1) ↔
      emetas_discharged E num_emeta 0 emetas instances tmp_ctx s) ∧
    (∀ (i : Nat) (mvar : expr) (is_instance : Bool),
      E.tmp_is_eassigned tmp_ctx i = false →
      (∀ tmp1, instance_step_passed E tmp_ctx mvar
          (E.tmp_instantiate_mvars tmp_ctx (E.tmp_infer tmp_ctx mvar)) is_instance s tmp1 →
        E.tmp_is_eassigned tmp1 i = false) →
      E.is_prop s.ctx (E.tmp_instantiate_mvars tmp_ctx (E.tmp_infer tmp_ctx mvar)) = false →
      instantiate_emeta E tmp_ctx i mvar is_instance s = .ok none s) ∧
    (∀ (i : Nat) (mvar : expr),
      E.cls ≠ simp_class.vm_simplify_fn → E.tmp_is_eassigned tmp_ctx i = false →
      instantiate_emeta E tmp_ctx i mvar false s = .ok none s) := by
  refine ⟨?_, ?_, ?_⟩
  · have h := instantiate_emetas_loop_iff E num_emeta hn emetas instances 0 tmp_ctx s
      (by omega)
    simpa [instantiate_emetas] using h
  · intro i mvar is_instance hun hstep hprop
    rw [instantiate_emeta_eq]
    split
    · rfl
    · simp only [hun, Bool.false_eq_true, if_false]
      cases hinst : instantiate_instance E s.ctx tmp_ctx mvar
          (E.tmp_instantiate_mvars tmp_ctx (E.tmp_infer tmp_ctx mvar)) is_instance with
      | none => rfl
      | some tmp1 =>
          have := hstep tmp1 ((instantiate_instance_passed E tmp_ctx mvar _ is_instance s tmp1).mp
            hinst)
          simp only [this, Bool.false_eq_true, if_false, hprop]
  · intro i mvar hcls hun
    rw [instantiate_emeta_eq]
    split
    · rfl
    · simp only [hun, Bool.false_eq_true, if_false, instantiate_instance]
      have hprove : ∀ x, prove E x s = .ok none s := by
        intro x
        unfold prove
        cases hc : E.cls
        case vm_simplify_fn => exact absurd hc hcls
        all_goals rfl
      simp only [hprove]
      split <;> rfl

/-- Witness of C17: one metavariable that is already assigned. -/
theorem C17_side_conditions_witness :
    (∃ tmp1 s1, instantiate_emetas (sample_env Unit) () 1 [Meta "m" const_a] [false]
        (initial_state () empty_slss) = .ok (some tmp1) s1) ↔
      emetas_discharged (sample_env Unit) 1 0 [Meta "m" const_a] [false] ()
        (initial_state () empty_slss) :=
  (C17_side_conditions (sample_env Unit) () 1 [Meta "m" const_a] [false]
    (initial_state () empty_slss) (by decide) (by decide)).1

/-- Counterexample to C17 as stated: an instance-flagged metavariable for which
class-instance synthesis fails makes the discharge fail, although it is
unassigned, its type contains no metavariable and is a proposition, and
`prove` succeeds on it. -/
theorem C17_counterexample :
    instantiate_emetas instance_env () 1 [Meta "m" const_a] [true]
        (initial_state () empty_slss) = .ok none (initial_state () empty_slss) ∧
    has_metavar (instance_env.tmp_instantiate_mvars ()
        (instance_env.tmp_infer () (Meta "m" const_a))) = false ∧
    instance_env.tmp_is_eassigned () 0 = false ∧
    instance_env.is_prop () (instance_env.tmp_instantiate_mvars ()
        (instance_env.tmp_infer () (Meta "m" const_a))) = true ∧
    prove instance_env (instance_env.tmp_instantiate_mvars ()
        (instance_env.tmp_infer () (Meta "m" const_a))) (initial_state () empty_slss) =
      .ok (some const_pf) (initial_state () empty_slss) :=
  ⟨rfl, rfl, rfl, rfl, rfl⟩

/-! ## Auto-congruence without proofs (C21) -/

theorem visit_each_length (vis : visit_type σ) (e : expr) :
    ∀ (as : List expr) (s s1 : state σ) (rs : List simp_result),
      visit_each vis e as s = .ok rs s1 → rs.length = as.length := by
  intro as
  induction as with
  | nil =>
      intro s s1 rs h
      simp only [visit_each, run_pure, result.ok.injEq] at h
      rw [← h.1]
      rfl
  | cons a as ih =>
      intro s s1 rs h
      simp only [visit_each, run_bind] at h
      cases hv : vis a (some e) s with
      | ok r s2 =>
          rw [hv] at h
          simp only at h
          cases hr : visit_each vis e as s2 with
          | ok rs1 s3 =>
              rw [hr] at h
              simp only [run_pure, result.ok.injEq] at h
              rw [← h.1]
              simp [ih s2 s3 rs1 hr]
          | _ => rw [hr] at h; cases h
      | _ => rw [hv] at h; cases h

theorem drop_cons_of_lt {α : Type} (l : List α) (i : Nat) (h : i < l.length) :
    l.drop i = l.get ⟨i, h⟩ :: l.drop (i + 1) := by
  exact List.drop_eq_getElem_cons h

theorem eq_congr_first_pass_eq (vis : visit_type σ) (e : expr) (args : List expr) :
    ∀ (kinds : List congr_arg_kind) (i : Nat) (p : eq_congr_pass),
      congr_arg_kind.HEq ∉ kinds → i + kinds.length ≤ args.length →
      eq_congr_first_pass vis e args kinds i p =
        (visit_each vis e (eq_kinded_args kinds (args.drop i)) >>= fun rs =>
          (pure (pass_after p kinds (args.drop i) rs) : M σ eq_congr_pass)) := by
  intro kinds
  induction kinds with
  | nil =>
      intro i p _ _
      funext s
      simp [eq_congr_first_pass, eq_kinded_args, visit_each, run_bind, run_pure, pass_after,
        merge_new_args, some_changed]
  | cons k ks ih =>
      intro i p hk hlen
      simp only [List.length_cons] at hlen
      have hi : i < args.length := by omega
      have hks : congr_arg_kind.HEq ∉ ks := fun h => hk (List.mem_cons_of_mem _ h)
      have hne : k ≠ congr_arg_kind.HEq := fun h => hk (h ▸ List.mem_cons_self _ _)
      obtain ⟨a, hget, hdrop⟩ : ∃ a, args.get? i = some a ∧
          args.drop i = a :: args.drop (i + 1) :=
        ⟨args.get ⟨i, hi⟩, List.get?_eq_get hi, drop_cons_of_lt args i hi⟩
      have hat : ∀ s : state σ, (M.at_index args i : M σ expr) s = .ok a s := by
        intro s
        simp only [M.at_index, hget]
      funext s
      rw [hdrop]
      cases k with
      | HEq => exact absurd rfl hne
      | Fixed =>
          simp only [eq_congr_first_pass, run_bind, hat, eq_kinded_args, reduceCtorEq, if_false]
          rw [ih (i + 1) _ hks (by omega)]
          simp only [run_bind]
          cases visit_each vis e (eq_kinded_args ks (List.drop (i + 1) args)) s with
          | ok rs s1 =>
              simp [run_pure, pass_after, merge_new_args, eq_kinded_args, List.contains_cons]
          | _ => rfl
      | FixedNoParam =>
          simp only [eq_congr_first_pass, run_bind, hat, eq_kinded_args, reduceCtorEq, if_false]
          rw [ih (i + 1) _ hks (by omega)]
          simp only [run_bind]
          cases visit_each vis e (eq_kinded_args ks (List.drop (i + 1) args)) s with
          | ok rs s1 =>
              simp [run_pure, pass_after, merge_new_args, eq_kinded_args, List.contains_cons]
          | _ => rfl
      | Cast =>
          simp only [eq_congr_first_pass, run_bind, hat, eq_kinded_args, reduceCtorEq, if_false]
          rw [ih (i + 1) _ hks (by omega)]
          simp only [run_bind]
          cases visit_each vis e (eq_kinded_args ks (List.drop (i + 1) args)) s with
          | ok rs s1 =>
              simp [run_pure, pass_after, merge_new_args, eq_kinded_args, List.contains_cons]
          | _ => rfl
      | Eq =>
          simp only [eq_congr_first_pass, run_bind, hat, eq_kinded_args, if_true, visit_each]
          cases hv : vis a (some e) s with
          | ok r s1 =>
              simp only
              rw [ih (i + 1) _ hks (by omega)]
              simp only [run_bind]
              cases visit_each vis e (eq_kinded_args ks (List.drop (i + 1) args)) s1 with
              | ok rs s2 =>
                  simp [run_pure, pass_after, merge_new_args, some_changed, eq_kinded_args, List.contains_cons,
                    Bool.or_assoc]
              | _ => rfl
          | _ => rfl

theorem merge_new_args_spec :
    ∀ (kinds : List congr_arg_kind) (as : List expr) (rs : List simp_result),
      kinds.length = as.length →
      (merge_new_args kinds as rs).length = as.length ∧
      ∀ i, kinds.get? i ≠ some congr_arg_kind.Eq →
        (merge_new_args kinds as rs).get? i = as.get? i := by
  intro kinds
  induction kinds with
  | nil =>
      intro as rs h
      cases as with
      | nil => simp [merge_new_args]
      | cons a as => simp at h
  | cons k ks ih =>
      intro as rs h
      cases as with
      | nil => simp at h
      | cons a as =>
          simp only [List.length_cons, Nat.add_right_cancel_iff] at h
          by_cases hk : k = congr_arg_kind.Eq
          · cases rs with
            | nil =>
                simp only [merge_new_args, hk, if_true, List.length_cons, (ih as [] h).1, true_and]
                intro i hi
                cases i with
                | zero => simp at hi
                | succ i => simpa using (ih as [] h).2 i (by simpa using hi)
            | cons r rs =>
                simp only [merge_new_args, hk, if_true, List.length_cons, (ih as rs h).1, true_and]
                intro i hi
                cases i with
                | zero => simp at hi
                | succ i => simpa using (ih as rs h).2 i (by simpa using hi)
          · simp only [merge_new_args, hk, if_false, List.length_cons, (ih as rs h).1, true_and]
            intro i hi
            cases i with
            | zero => simp
            | succ i => simpa using (ih as rs h).2 i (by simpa using hi)

/-- C21: when the synthesized congruence lemma for `e = f a₁ … aₙ` has exactly
`n` argument kinds (none of them `HEq`, which the synthesizer never produces),
the run of `try_auto_eq_congr(e)` is the run of the visits of the `Eq`-kinded
arguments, once each and left to right, followed by a continuation `k` of the
results that is the same for every `visit`: no other term is visited.  If no
result has a new term that differs from its argument, `k` returns
`simp_result(e)`, whether or not a result carries a proof; if some new term
differs and no result carries a proof, `k` returns the head applied to the new
arguments, with no proof, where the new arguments are as many as the original
ones and every position that is not `Eq` holds the original argument. -/
theorem C21_auto_congr_without_proof (E : env σ τ) (e : expr) (cl : congr_lemma) (s : state σ)
    (hcl : E.mk_specialized_congr_simp s.ctx e = some cl)
    (hlen : cl.arg_kinds.length = (get_app_args e).length)
    (hheq : congr_arg_kind.HEq ∉ cl.arg_kinds) :
    ∃ k : List simp_result → M σ (Option simp_result),
      (∀ vis : visit_type σ,
        try_auto_eq_congr E vis e s =
          (visit_each vis e (eq_kinded_args cl.arg_kinds (get_app_args e)) >>= k) s) ∧
      (∀ rs, some_changed (eq_kinded_args cl.arg_kinds (get_app_args e)) rs = false →
        k rs = pure (some (simp_result.refl e))) ∧
      (∀ rs, some_changed (eq_kinded_args cl.arg_kinds (get_app_args e)) rs = true →
        rs.any simp_result.has_proof = false →
        k rs = pure (some (simp_result.refl
          (mk_app (get_app_fn e) (merge_new_args cl.arg_kinds (get_app_args e) rs))))) ∧
      (∀ rs, (merge_new_args cl.arg_kinds (get_app_args e) rs).length = (get_app_args e).length ∧
        ∀ i, cl.arg_kinds.get? i ≠ some congr_arg_kind.Eq →
          (merge_new_args cl.arg_kinds (get_app_args e) rs).get? i = (get_app_args e).get? i) := by
  refine ⟨fun rs =>
    if !(pass_after ⟨[], [], false, false, false⟩ cl.arg_kinds (get_app_args e) rs).has_simplified
    then pure (some (simp_result.refl e))
    else if !(pass_after ⟨[], [], false, false, false⟩ cl.arg_kinds (get_app_args e) rs).has_proof
    then pure (some (simp_result.refl (mk_app (get_app_fn e)
      (pass_after ⟨[], [], false, false, false⟩ cl.arg_kinds (get_app_args e) rs).new_args)))
    else do
      let s1 ← M.get
      let b ← eq_congr_second_pass E s1.ctx s1.rel (get_app_args e)
        (pass_after ⟨[], [], false, false, false⟩ cl.arg_kinds (get_app_args e) rs).r_args
        cl.arg_kinds 0 0 cl.proof cl.type []
      if (pass_after ⟨[], [], false, false, false⟩ cl.arg_kinds (get_app_args e) rs).has_cast then do
        let e1 ← remove_unnecessary_casts E (instantiate_rev (app_arg b.2.1) b.2.2)
        pure (some ⟨e1, some b.1⟩)
      else pure (some ⟨instantiate_rev (app_arg b.2.1) b.2.2, some b.1⟩), ?_, ?_, ?_, ?_⟩
  · intro vis
    have hlt : ¬ cl.arg_kinds.length < (get_app_args e).length := by omega
    unfold try_auto_eq_congr
    simp only [run_bind, run_get, hcl, hlt, if_false]
    rw [eq_congr_first_pass_eq vis e (get_app_args e) cl.arg_kinds 0 _ hheq (by omega)]
    simp only [run_bind, List.drop_zero]
    cases visit_each vis e (eq_kinded_args cl.arg_kinds (get_app_args e)) s with
    | ok rs s1 => rfl
    | _ => rfl
  · intro rs h
    simp [pass_after, h]
  · intro rs h1 h2
    simp [pass_after, h1, h2]
  · intro rs
    exact merge_new_args_spec cl.arg_kinds (get_app_args e) rs hlen

/-- Witness of C21: on `f c a a b` with the kinds `Fixed`, `Eq`, `Cast`, `Eq`
the second and the fourth argument are visited, in this order, and the result
is `f c b a b` with no proof. -/
theorem C21_auto_congr_without_proof_witness :
    try_auto_eq_congr kinds_env log_visit (mk_app const_f [const_c, const_a, const_a, const_b])
        log_state =
      .ok (some (simp_result.refl (mk_app const_f [const_c, const_b, const_a, const_b])))
        { log_state with ctx := [const_a, const_b] } := by
  obtain ⟨k, h1, _, h3, _⟩ := C21_auto_congr_without_proof kinds_env
    (mk_app const_f [const_c, const_a, const_a, const_b])
    ⟨Constant "congr_type" [], Constant "congr_proof" [],
      [congr_arg_kind.Fixed, congr_arg_kind.Eq, congr_arg_kind.Cast, congr_arg_kind.Eq]⟩
    log_state rfl rfl (by decide)
  rw [h1 log_visit, run_bind]
  have hv : visit_each log_visit (mk_app const_f [const_c, const_a, const_a, const_b])
      (eq_kinded_args
        [congr_arg_kind.Fixed, congr_arg_kind.Eq, congr_arg_kind.Cast, congr_arg_kind.Eq]
        (get_app_args (mk_app const_f [const_c, const_a, const_a, const_b]))) log_state =
      .ok [⟨const_b, none⟩, simp_result.refl const_b]
        { log_state with ctx := [const_a, const_b] } := rfl
  rw [hv]
  simp only
  rw [h3 _ (by decide) (by decide)]
  rfl

/-! ## Generic binary congruence (C22) -/

theorem try_auto_eq_congr_none (E : env σ τ) (vis : visit_type σ) (e : expr) (s : state σ)
    (h : ∀ cl, E.mk_specialized_congr_simp s.ctx e = some cl →
      cl.arg_kinds.length < (get_app_args e).length) :
    try_auto_eq_congr E vis e s = .ok none s := by
  unfold try_auto_eq_congr
  simp only [run_bind, run_get]
  cases hcl : E.mk_specialized_congr_simp s.ctx e with
  | none => rfl
  | some cl => simp only [h cl hcl, if_true, run_pure]

/-- C22: let the canonicalization step of `visit_app` return the application
`f a`, let the user congruence lemmas return a result without a proof, let the
relation be `eq`, and let the synthesized congruence lemma be unavailable or
have fewer argument kinds than `f a` has arguments.  Then `visit_app` visits
`f`; if the type of `f` is not an arrow (a dependent function type), `a` is
not visited and the result is `f' a`, with a `congr_fun` proof exactly when the
result of `f` has a proof; otherwise `a` is visited next and the result is
`f' a'`, with no proof when neither result has one, a `congr_arg` proof when
only the result of `a` has one, a `congr_fun` proof when only the result of `f`
has one, and a `congr` proof when both have one. -/
theorem C22_generic_binary_congruence (E : env σ τ) (vis : visit_type σ) (e0 f a : expr)
    (s s1 s2 : state σ) (r_user : simp_result)
    (hcanon : (if should_defeq_canonize E then defeq_canonize_args_step E e0 else pure e0) s =
      .ok (App f a) s1)
    (huser : try_user_congrs E vis (App f a) s1 = .ok r_user s2)
    (hno : r_user.has_proof = false)
    (hrel : s2.rel = get_eq_name)
    (hauto : ∀ cl, E.mk_specialized_congr_simp s2.ctx (App f a) = some cl →
      cl.arg_kinds.length < (get_app_args (App f a)).length) :
    visit_app E vis e0 s =
      (do
        let r_f ← vis f (some (App f a))
        let s3 ← M.get
        if is_arrow (E.relaxed_whnf s3.ctx (E.infer s3.ctx f)) then do
          let r_arg ← vis a (some (App f a))
          let s4 ← M.get
          pure (simp_result.mk (App r_f.new r_arg.new)
            (match r_f.proof, r_arg.proof with
            | none, none => none
            | none, some pa => some (E.mk_congr_arg s4.ctx r_f.new pa)
            | some pf, none => some (E.mk_congr_fun s4.ctx pf r_arg.new)
            | some pf, some pa => some (E.mk_congr s4.ctx pf pa)))
        else
          (pure (simp_result.mk (App r_f.new a)
            (r_f.proof.map (fun pf => E.mk_congr_fun s3.ctx pf a))) : M σ simp_result)) s2 := by
  unfold visit_app
  simp only [run_bind, hcanon, huser, run_get, hno, Bool.false_eq_true, if_false, hrel, if_true,
    try_auto_eq_congr_none E vis (App f a) s2 hauto, app_fn, app_arg]
  cases hf : vis f (some (App f a)) s2 with
  | ok r_f s3 =>
      simp only [is_dependent_fn, run_bind, run_get, run_pure]
      cases harrow : is_arrow (E.relaxed_whnf s3.ctx (E.infer s3.ctx f)) with
      | false =>
          simp only [Bool.not_false, if_true, Bool.false_eq_true, if_false]
          cases hp : r_f.proof with
          | none => simp [simp_result.has_proof, hp, simp_result.refl, run_pure]
          | some pf =>
              simp [simp_result.has_proof, hp, congr_fun, run_bind, run_get, run_pure,
                simp_result.get_proof]
      | true =>
          simp only [Bool.not_true, Bool.false_eq_true, if_false, if_true, run_bind, run_get]
          cases ha : vis a (some (App f a)) s3 with
          | ok r_arg s4 =>
              cases hp : r_f.proof with
              | none =>
                  cases hq : r_arg.proof with
                  | none =>
                      simp [congr_fun_arg, simp_result.has_proof, hp, hq, simp_result.refl, run_pure, run_get]
                  | some pa =>
                      simp [congr_fun_arg, simp_result.has_proof, hp, hq, congr_arg, run_bind,
                        run_get, run_pure, simp_result.get_proof]
              | some pf =>
                  cases hq : r_arg.proof with
                  | none =>
                      simp [congr_fun_arg, simp_result.has_proof, hp, hq, congr_fun, run_bind,
                        run_get, run_pure, simp_result.get_proof]
                  | some pa =>
                      simp [congr_fun_arg, simp_result.has_proof, hp, hq, congr, run_bind,
                        run_get, run_pure, simp_result.get_proof]
          | _ => rfl
  | _ => rfl

/-- Witness of C22: with the dependent type `Sort 0` for `f` only `f` is
visited and the result is `f a`; with the type `Sort 0 → Sort 0` for `f` both
`f` and `a` are visited, in this order, and the result is `f b`. -/
theorem C22_generic_binary_congruence_witness :
    visit_app (sample_env (List expr)) log_visit (App const_f const_a) log_state =
      .ok (simp_result.refl (App const_f const_a)) { log_state with ctx := [const_f] } ∧
    visit_app arrow_env log_visit (App const_f const_a) log_state =
      .ok (simp_result.refl (App const_f const_b)) { log_state with ctx := [const_f, const_a] } := by
  constructor
  · rw [C22_generic_binary_congruence (sample_env (List expr)) log_visit (App const_f const_a)
      const_f const_a log_state log_state log_state (simp_result.refl (App const_f const_a))
      rfl rfl rfl rfl (fun cl h => by cases h)]
    rfl
  · rw [C22_generic_binary_congruence arrow_env log_visit (App const_f const_a)
      const_f const_a log_state log_state log_state (simp_result.refl (App const_f const_a))
      rfl rfl rfl rfl (fun cl h => by cases h)]
    rfl

/-! ## The postcondition of cast elision (C23) -/

theorem elide_casts_size : ∀ (n : Nat) (a : expr), expr_size (elide_casts n a) ≤ expr_size a := by
  intro n
  induction n with
  | zero => intro a; exact Nat.le_refl _
  | succ n ih =>
      intro a
      unfold elide_casts
      split
      · split
        · rename_i v hv
          have h1 := get_app_args_size a v (List.get?_mem hv)
          have h2 := ih v
          omega
        · exact Nat.le_refl _
      · exact Nat.le_refl _

theorem elide_casts_step_ne (n : Nat) (a v : expr) (hv : (get_app_args a).get? 3 = some v) :
    elide_casts n v ≠ a := by
  intro h
  have h1 := get_app_args_size a v (List.get?_mem hv)
  have h2 := elide_casts_size n v
  rw [h] at h2
  omega

/-- With enough steps the replacement ends in a term that is not a cast with
a major premise headed by `eq.refl`. -/
theorem elide_casts_done : ∀ (n : Nat) (a : expr), expr_size a ≤ n →
    is_refl_cast (elide_casts n a) = false ∨
      ∃ b, is_refl_cast b = true ∧ (get_app_args b).get? 3 = none ∧ elide_casts n a = b := by
  intro n
  induction n with
  | zero =>
      intro a h
      have := expr_size_pos a
      omega
  | succ n ih =>
      intro a h
      unfold elide_casts
      by_cases hc : is_refl_cast a = true
      · rw [if_pos hc]
        cases hv : (get_app_args a).get? 3 with
        | none => exact Or.inr ⟨a, hc, hv, rfl⟩
        | some v =>
            have h1 := get_app_args_size a v (List.get?_mem hv)
            exact ih v (by omega)
      · rw [if_neg hc]
        exact Or.inl (by simpa using hc)

theorem is_refl_cast_get_three (b : expr) (h : is_refl_cast b = true) :
    ∃ v, (get_app_args b).get? 3 = some v := by
  unfold is_refl_cast at h
  simp only [Bool.and_eq_true] at h
  cases h5 : (get_app_args b).get? 5 with
  | none => rw [h5] at h; simp at h
  | some mp =>
      have hlen : 5 < (get_app_args b).length := by
        by_contra hcon
        rw [List.get?_eq_none.mpr (by omega)] at h5
        cases h5
      exact ⟨(get_app_args b).get ⟨3, by omega⟩, List.get?_eq_get (by omega)⟩

theorem strip_casts_not_cast (a : expr) : is_refl_cast (strip_casts a) = false := by
  rcases elide_casts_done (expr_size a) a (Nat.le_refl _) with h | ⟨b, hb, hnone, _⟩
  · exact h
  · obtain ⟨v, hv⟩ := is_refl_cast_get_three b hb
    rw [hv] at hnone
    cases hnone

theorem elide_casts_fixed (n : Nat) (a : expr) (h : is_refl_cast a = false) :
    elide_casts n a = a := by
  cases n with
  | zero => rfl
  | succ n => simp [elide_casts, h]

theorem strip_casts_idem (a : expr) : strip_casts (strip_casts a) = strip_casts a :=
  elide_casts_fixed _ _ (strip_casts_not_cast a)

/-- The loop of `remove_unnecessary_casts` on one argument. -/
theorem remove_casts_loop_eq (s : state σ) : ∀ (n : Nat) (a : expr) (modified : Bool),
    expr_size a ≤ n → casts_have_six n a = true →
    remove_casts_loop n a modified s =
      .ok (elide_casts n a, modified || decide (elide_casts n a ≠ a)) s := by
  intro n
  induction n with
  | zero =>
      intro a modified h
      have := expr_size_pos a
      omega
  | succ n ih =>
      intro a modified h hsix
      unfold remove_casts_loop
      unfold casts_have_six at hsix
      conv_rhs => unfold elide_casts
      by_cases h1 : is_constant (get_app_fn a) = true
      · by_cases h2 : is_cast_name (const_name (get_app_fn a)) = true
        · have hcast : is_cast_app a = true := by simp [is_cast_app, h1, h2]
          rw [if_pos hcast] at hsix
          simp only [Bool.and_eq_true, decide_eq_true_eq] at hsix
          have hlen := hsix.1
          have h5 : (get_app_args a).get? 5 = some ((get_app_args a).get ⟨5, by omega⟩) :=
            List.get?_eq_get (by omega)
          have h3 : (get_app_args a).get? 3 = some ((get_app_args a).get ⟨3, by omega⟩) :=
            List.get?_eq_get (by omega)
          generalize (get_app_args a).get ⟨5, by omega⟩ = mp at h5
          generalize (get_app_args a).get ⟨3, by omega⟩ = v at h3
          have hat5 : (M.at_index (get_app_args a) 5 : M σ expr) s = .ok mp s := by
            simp only [M.at_index, h5]
          have hat3 : (M.at_index (get_app_args a) 3 : M σ expr) s = .ok v s := by
            simp only [M.at_index, h3]
          rw [if_pos h1, if_pos h2, run_bind, hat5]
          simp only
          by_cases hr : (is_constant (get_app_fn mp) &&
              const_name (get_app_fn mp) == get_eq_refl_name) = true
          · have hrc : is_refl_cast a = true := by
              simp only [is_refl_cast, hcast, h5, Bool.true_and]
              exact hr
            rw [if_pos hr, run_bind, hat3]
            simp only
            rw [if_pos hrc, h3]
            simp only
            have hv := hsix.2
            rw [if_pos hrc, h3] at hv
            simp only at hv
            have hsz := get_app_args_size a v (List.get?_mem h3)
            rw [ih v true (by omega) hv]
            have hne := elide_casts_step_ne n a v h3
            simp [hne]
          · have hrc : ¬ is_refl_cast a = true := by
              simp only [is_refl_cast, hcast, h5, Bool.true_and]
              exact hr
            rw [if_neg hr, if_neg hrc]
            simp [run_pure]
        · have hrc : ¬ is_refl_cast a = true := by
            simp [is_refl_cast, is_cast_app, h1, h2]
          rw [if_pos h1, if_neg h2, if_neg hrc]
          simp [run_pure]
      · have hrc : ¬ is_refl_cast a = true := by
          simp [is_refl_cast, is_cast_app, h1]
        rw [if_neg h1, if_neg hrc]
        simp [run_pure]

theorem get_append_length {α : Type} (pre : List α) (a : α) (post : List α) :
    (pre ++ a :: post).get? pre.length = some a := by
  induction pre with
  | nil => rfl
  | cons x pre ih => simpa using ih

theorem set_append_length {α : Type} (pre : List α) (a v : α) (post : List α) :
    (pre ++ a :: post).set pre.length v = (pre ++ [v]) ++ post := by
  induction pre with
  | nil => rfl
  | cons x pre ih => simp

/-- The loop of `remove_unnecessary_casts` over the subsingleton flags. -/
theorem remove_casts_args_eq (s : state σ) : ∀ (ss : List Bool) (pre rest : List expr)
    (modified : Bool), ss.length ≤ rest.length →
    (∀ j a, ss.get? j = some true → rest.get? j = some a → cast_arity_ok a = true) →
    ∃ flag, remove_casts_args ss pre.length (pre ++ rest) modified s =
        .ok (pre ++ elide_flagged ss rest, flag) s ∧
      (flag = false → modified = false ∧ elide_flagged ss rest = rest) := by
  intro ss
  induction ss with
  | nil =>
      intro pre rest modified _ _
      exact ⟨modified, by simp [remove_casts_args, elide_flagged, run_pure], fun h => ⟨h, by
        cases rest <;> rfl⟩⟩
  | cons b bs ih =>
      intro pre rest modified hlen hok
      cases rest with
      | nil => simp at hlen
      | cons a post =>
          simp only [List.length_cons, Nat.add_le_add_iff_right] at hlen
          have hok1 : ∀ j x, bs.get? j = some true → post.get? j = some x →
              cast_arity_ok x = true := fun j x h1 h2 => hok (j + 1) x (by simpa using h1)
                (by simpa using h2)
          cases b with
          | false =>
              have h := ih (pre ++ [a]) post modified hlen hok1
              simp only [List.length_append, List.length_singleton, List.append_assoc,
                List.singleton_append] at h
              obtain ⟨flag, hrun, hflag⟩ := h
              refine ⟨flag, ?_, ?_⟩
              · simp only [remove_casts_args, Bool.false_eq_true, if_false, elide_flagged]
                exact hrun
              · intro hf
                simp only [elide_flagged, Bool.false_eq_true, if_false]
                exact ⟨(hflag hf).1, by rw [(hflag hf).2]⟩
          | true =>
              have hsix : cast_arity_ok a = true := hok 0 a rfl rfl
              have hat : (M.at_index (pre ++ a :: post) pre.length : M σ expr) s = .ok a s := by
                simp only [M.at_index, get_append_length]
              have hloop := remove_casts_loop_eq s (expr_size a) a modified (Nat.le_refl _) hsix
              have h := ih (pre ++ [strip_casts a]) post
                (modified || decide (strip_casts a ≠ a)) hlen hok1
              simp only [List.length_append, List.length_singleton] at h
              obtain ⟨flag, hrun, hflag⟩ := h
              refine ⟨flag, ?_, ?_⟩
              · simp only [remove_casts_args, if_true, run_bind, hat, hloop, set_append_length,
                  elide_flagged]
                rw [show elide_casts (expr_size a) a = strip_casts a from rfl, hrun]
                simp
              · intro hf
                have h1 := (hflag hf).1
                simp only [Bool.or_eq_false_iff, decide_eq_false_iff_not, ne_eq, not_not] at h1
                simp only [elide_flagged, if_true]
                exact ⟨h1.1, by rw [h1.2, (hflag hf).2]⟩

theorem get_app_fn_mk_app (f : expr) : ∀ args : List expr,
    get_app_fn (mk_app f args) = get_app_fn f := by
  intro args
  induction args generalizing f with
  | nil => rfl
  | cons a as ih =>
      show get_app_fn (mk_app (App f a) as) = _
      rw [ih (App f a)]
      rfl

theorem get_app_args_mk_app (f : expr) : ∀ args : List expr,
    get_app_args (mk_app f args) = get_app_args f ++ args := by
  intro args
  induction args generalizing f with
  | nil => simp [mk_app]
  | cons a as ih =>
      show get_app_args (mk_app (App f a) as) = _
      rw [ih (App f a), get_app_args_app]
      simp

theorem get_app_fn_idem (e : expr) : get_app_fn (get_app_fn e) = get_app_fn e := by
  induction e with
  | App f a ihf _ => simpa [get_app_fn] using ihf
  | _ => rfl

theorem get_app_args_get_app_fn (e : expr) : get_app_args (get_app_fn e) = [] := by
  induction e with
  | App f a ihf _ => simpa [get_app_fn] using ihf
  | _ => rfl

theorem elide_flagged_length : ∀ (ss : List Bool) (as : List expr),
    (elide_flagged ss as).length = as.length := by
  intro ss
  induction ss with
  | nil => intro as; cases as <;> rfl
  | cons b bs ih =>
      intro as
      cases as with
      | nil => rfl
      | cons a as => simp [elide_flagged, ih as]

theorem elide_flagged_get : ∀ (ss : List Bool) (as : List expr) (i : Nat) (a : expr),
    as.get? i = some a →
    (elide_flagged ss as).get? i = some (if ss.get? i = some true then strip_casts a else a) := by
  intro ss
  induction ss with
  | nil =>
      intro as i a h
      cases as with
      | nil => simp at h
      | cons x as => simpa [elide_flagged] using h
  | cons b bs ih =>
      intro as i a h
      cases as with
      | nil => simp at h
      | cons x as =>
          cases i with
          | zero =>
              simp only [List.get?_cons_zero, Option.some.injEq] at h
              subst h
              cases b <;> simp [elide_flagged]
          | succ i =>
              simp only [List.get?_cons_succ] at h
              simpa [elide_flagged] using ih as i a h

theorem elide_flagged_idem : ∀ (ss : List Bool) (as : List expr),
    elide_flagged ss (elide_flagged ss as) = elide_flagged ss as := by
  intro ss
  induction ss with
  | nil => intro as; cases as <;> rfl
  | cons b bs ih =>
      intro as
      cases as with
      | nil => rfl
      | cons a as =>
          cases b
          · simp [elide_flagged, ih as]
          · simp [elide_flagged, ih as, strip_casts_idem]

/-- The last term of the replacement has six arguments if it is a cast. -/
theorem casts_have_six_last : ∀ (n : Nat) (a : expr), expr_size a ≤ n →
    casts_have_six n a = true → is_cast_app (elide_casts n a) = true →
    (get_app_args (elide_casts n a)).length = 6 := by
  intro n
  induction n with
  | zero =>
      intro a h
      have := expr_size_pos a
      omega
  | succ n ih =>
      intro a h hsix hc
      unfold casts_have_six at hsix
      unfold elide_casts at hc ⊢
      by_cases hr : is_refl_cast a = true
      · have hcast : is_cast_app a = true := by
          unfold is_refl_cast at hr
          simp only [Bool.and_eq_true] at hr
          exact hr.1
        obtain ⟨v, hv⟩ := is_refl_cast_get_three a hr
        rw [if_pos hcast, if_pos hr, hv] at hsix
        simp only [Bool.and_eq_true, decide_eq_true_eq] at hsix
        rw [if_pos hr, hv] at hc ⊢
        simp only at hc ⊢
        have hsz := get_app_args_size a v (List.get?_mem hv)
        exact ih v (by omega) hsix.2 hc
      · rw [if_neg hr] at hc ⊢
        rw [if_pos hc] at hsix
        simp only [Bool.and_eq_true, decide_eq_true_eq] at hsix
        exact hsix.1

theorem cast_arity_ok_strip (a : expr) (h : cast_arity_ok a = true) :
    cast_arity_ok (strip_casts a) = true := by
  have hlast := casts_have_six_last (expr_size a) a (Nat.le_refl _) h
  have hnot := strip_casts_not_cast a
  unfold cast_arity_ok
  have hpos := expr_size_pos (strip_casts a)
  obtain ⟨m, hm⟩ : ∃ m, expr_size (strip_casts a) = m + 1 := ⟨expr_size (strip_casts a) - 1, by omega⟩
  rw [hm]
  unfold casts_have_six
  by_cases hc : is_cast_app (strip_casts a) = true
  · rw [if_pos hc, hnot]
    simp only [Bool.false_eq_true, if_false, Bool.and_true, decide_eq_true_eq]
    exact hlast hc
  · rw [if_neg hc]

/-- C23: let the subsingleton flags of `e = f a₁ … aₙ` be at most `n`, and let
every cast met at a flagged argument have six arguments.  Then
`remove_unnecessary_casts(e)` returns, in the same state, an application with
the head `f` and `n` arguments: a position that is not flagged holds the
original argument, a flagged position holds the term obtained from the
original argument by repeatedly replacing an application of `eq.rec`,
`eq.drec` or `eq.nrec` whose major premise is headed by `eq.refl` by its
fourth argument, until the term is no longer such a cast.  It returns `e` when
no argument has changed, and when the result has the same flags as `e`, a
second application returns the result of the first. -/
theorem C23_cast_elision_postcondition (E : env σ τ) (e : expr) (s : state σ)
    (hss : (E.get_specialized_subsingleton_info s.ctx e).length ≤ (get_app_args e).length)
    (hsix : ∀ i a, (E.get_specialized_subsingleton_info s.ctx e).get? i = some true →
      (get_app_args e).get? i = some a → cast_arity_ok a = true) :
    ∃ e1,
      remove_unnecessary_casts E e s = .ok e1 s ∧
      get_app_fn e1 = get_app_fn e ∧
      (get_app_args e1).length = (get_app_args e).length ∧
      (∀ i a, (get_app_args e).get? i = some a →
        (get_app_args e1).get? i =
          some (if (E.get_specialized_subsingleton_info s.ctx e).get? i = some true
            then strip_casts a else a)) ∧
      (∀ a, is_refl_cast (strip_casts a) = false) ∧
      (get_app_args e1 = get_app_args e → e1 = e) ∧
      (E.get_specialized_subsingleton_info s.ctx e1 =
          E.get_specialized_subsingleton_info s.ctx e →
        remove_unnecessary_casts E e1 s = .ok e1 s) := by
  have hrun : ∀ (x : expr),
      (E.get_specialized_subsingleton_info s.ctx x).length ≤ (get_app_args x).length →
      (∀ i a, (E.get_specialized_subsingleton_info s.ctx x).get? i = some true →
        (get_app_args x).get? i = some a → cast_arity_ok a = true) →
      remove_unnecessary_casts E x s =
        .ok (mk_app (get_app_fn x)
          (elide_flagged (E.get_specialized_subsingleton_info s.ctx x) (get_app_args x))) s := by
    intro x h1 h2
    obtain ⟨flag, hr, hflag⟩ := remove_casts_args_eq s
      (E.get_specialized_subsingleton_info s.ctx x) [] (get_app_args x) false h1 h2
    simp only [List.length_nil, List.nil_append] at hr
    unfold remove_unnecessary_casts
    simp only [run_bind, run_get, hr, run_pure]
    cases flag with
    | true => rfl
    | false =>
        rw [(hflag rfl).2]
        simp [mk_app_get_app_args]
  have hargs : get_app_args (mk_app (get_app_fn e)
      (elide_flagged (E.get_specialized_subsingleton_info s.ctx e) (get_app_args e))) =
      elide_flagged (E.get_specialized_subsingleton_info s.ctx e) (get_app_args e) := by
    rw [get_app_args_mk_app, get_app_args_get_app_fn, List.nil_append]
  have hfn : get_app_fn (mk_app (get_app_fn e)
      (elide_flagged (E.get_specialized_subsingleton_info s.ctx e) (get_app_args e))) =
      get_app_fn e := by
    rw [get_app_fn_mk_app, get_app_fn_idem]
  refine ⟨_, hrun e hss hsix, hfn, ?_, ?_, strip_casts_not_cast, ?_, ?_⟩
  · rw [hargs, elide_flagged_length]
  · intro i a h
    rw [hargs]
    exact elide_flagged_get _ _ i a h
  · intro h
    rw [hargs] at h
    rw [h, mk_app_get_app_args]
  · intro hsame
    rw [hrun _ (by rw [hsame, hargs, elide_flagged_length]; exact hss) ?_]
    · rw [hsame, hargs, hfn, elide_flagged_idem]
    · intro i a h1 h2
      rw [hsame] at h1
      rw [hargs] at h2
      have hlt : i < (get_app_args e).length := by
        have := List.get?_eq_some.mp h2
        obtain ⟨hlt, _⟩ := this
        rw [elide_flagged_length] at hlt
        exact hlt
      have h3 := elide_flagged_get (E.get_specialized_subsingleton_info s.ctx e) (get_app_args e) i
        ((get_app_args e).get ⟨i, hlt⟩) (List.get?_eq_get hlt)
      rw [h2, if_pos h1] at h3
      simp only [Option.some.injEq] at h3
      rw [h3]
      exact cast_arity_ok_strip _ (hsix i _ h1 (List.get?_eq_get hlt))

/-- Witness of C23: the cast around `a` in `f (eq.rec A x C a x (eq.refl A x))`
is removed, and a second application changes nothing. -/
theorem C23_cast_elision_postcondition_witness :
    remove_unnecessary_casts cast_env (App const_f cast_a) eq_state =
      .ok (App const_f const_a) eq_state ∧
    remove_unnecessary_casts cast_env (App const_f const_a) eq_state =
      .ok (App const_f const_a) eq_state := by
  obtain ⟨e1, h1, _, _, _, _, _, h7⟩ := C23_cast_elision_postcondition cast_env
    (App const_f cast_a) eq_state (by decide) (by
      intro i a h1 h2
      cases i with
      | zero =>
          simp only [get_app_args_app, List.get?_cons_zero, Option.some.injEq] at h2
          have : a = cast_a := by simpa [get_app_args, get_app_args_aux, const_f] using h2.symm
          rw [this]
          decide
      | succ i => simp [cast_env] at h1)
  have he : e1 = App const_f const_a := by
    have h0 : remove_unnecessary_casts cast_env (App const_f cast_a) eq_state =
        .ok (App const_f const_a) eq_state := rfl
    rw [h0] at h1
    simp only [result.ok.injEq, and_true] at h1
    exact h1.symm
  rw [he] at h1 h7
  exact ⟨h1, h7 rfl⟩

/-! ## Canonicalization of the arguments (C24) -/

section canonizer

variable (E : env σ τ) (c : σ → expr → expr × Bool × σ)

theorem with_canonizer_join (r1 r2 : simp_result) :
    join (with_canonizer E c) r1 r2 = join E r1 r2 := rfl

theorem with_canonizer_finalize (ctx : σ) (rel : name) (r : simp_result) :
    finalize (with_canonizer E c) ctx rel r = finalize E ctx rel r := rfl

theorem with_canonizer_is_dependent_fn (f : expr) :
    is_dependent_fn (with_canonizer E c) f = is_dependent_fn E f := rfl

theorem with_canonizer_congr_fun_arg (r_f r_arg : simp_result) :
    congr_fun_arg (with_canonizer E c) r_f r_arg = congr_fun_arg E r_f r_arg := rfl

theorem with_canonizer_congr_fun (r_f : simp_result) (arg : expr) :
    congr_fun (with_canonizer E c) r_f arg = congr_fun E r_f arg := rfl

theorem with_canonizer_congr_funs (r_f : simp_result) (args : List expr) :
    congr_funs (with_canonizer E c) r_f args = congr_funs E r_f args := rfl

theorem with_canonizer_visit_fn (vis : visit_type σ) (e : expr) :
    visit_fn (with_canonizer E c) vis e = visit_fn E vis e := rfl

theorem with_canonizer_remove_unnecessary_casts (e : expr) :
    remove_unnecessary_casts (with_canonizer E c) e = remove_unnecessary_casts E e := rfl

theorem with_canonizer_prove (e : expr) : prove (with_canonizer E c) e = prove E e := rfl

theorem with_canonizer_instantiate_emeta (tmp_ctx : τ) (i : Nat) (mvar : expr) (b : Bool) :
    instantiate_emeta (with_canonizer E c) tmp_ctx i mvar b =
      instantiate_emeta E tmp_ctx i mvar b := rfl

theorem with_canonizer_all_uassigned (tmp_ctx : τ) (n : Nat) :
    all_uassigned (with_canonizer E c) tmp_ctx n = all_uassigned E tmp_ctx n := rfl

theorem with_canonizer_push_local (ctx : σ) (locals : List expr) (n : name) (d : expr) :
    push_local (with_canonizer E c) ctx locals n d = push_local E ctx locals n d := rfl

theorem with_canonizer_instantiate_emetas_loop :
    ∀ (emetas : List expr) (instances : List Bool) (i : Nat) (tmp_ctx : τ),
      instantiate_emetas_loop (with_canonizer E c) emetas instances i tmp_ctx =
        instantiate_emetas_loop E emetas instances i tmp_ctx := by
  intro emetas
  induction emetas with
  | nil => intro instances i tmp_ctx; rfl
  | cons m ms ih =>
      intro instances i tmp_ctx
      cases instances with
      | nil => rfl
      | cons b bs =>
          simp only [instantiate_emetas_loop, with_canonizer_instantiate_emeta]
          congr 1
          funext o
          cases o with
          | none => rfl
          | some tmp1 => exact ih bs _ tmp1

theorem with_canonizer_add_to_slss (ctx : σ) :
    ∀ (ls : List expr) (slss : simp_lemmas),
      add_to_slss (with_canonizer E c) ctx slss ls = add_to_slss E ctx slss ls := by
  intro ls
  induction ls with
  | nil => intro slss; rfl
  | cons l ls ih =>
      intro slss
      simp only [add_to_slss]
      show (match E.add ctx slss (mlocal_name l) (E.infer ctx l) l with
        | some slss1 => add_to_slss (with_canonizer E c) ctx slss1 ls
        | none => add_to_slss (with_canonizer E c) ctx slss ls) = _
      cases E.add ctx slss (mlocal_name l) (E.infer ctx l) l with
      | none => exact ih slss
      | some slss1 => exact ih slss1

theorem with_canonizer_unroll_pis (ctx : σ) :
    ∀ (t : expr) (locals : List expr),
      unroll_pis (with_canonizer E c) ctx t locals = unroll_pis E ctx t locals := by
  intro t
  induction t with
  | Pi n d b _ ihb =>
      intro locals
      simp only [unroll_pis, with_canonizer_push_local]
      exact ihb _
  | _ => intro locals; rfl

theorem with_canonizer_congr_hyps_loop (vis : visit_type σ) (e : expr) :
    ∀ (ms : List expr) (tmp_ctx : τ) (simplified : Bool) (acc : List congr_hyp_data),
      congr_hyps_loop (with_canonizer E c) vis e ms tmp_ctx simplified acc =
        congr_hyps_loop E vis e ms tmp_ctx simplified acc := by
  intro ms
  induction ms with
  | nil => intro tmp_ctx simplified acc; rfl
  | cons m ms ih =>
      intro tmp_ctx simplified acc
      simp only [congr_hyps_loop, with_canonizer_unroll_pis, with_canonizer_add_to_slss, ih]
      rfl

theorem with_canonizer_assign_congr_proofs (ctx : σ) :
    ∀ (ms : List expr) (ds : List congr_hyp_data) (tmp_ctx : τ),
      assign_congr_proofs (with_canonizer E c) ctx ms ds tmp_ctx =
        assign_congr_proofs E ctx ms ds tmp_ctx := by
  intro ms
  induction ms with
  | nil => intro ds tmp_ctx; rfl
  | cons m ms ih =>
      intro ds tmp_ctx
      simp only [assign_congr_proofs, with_canonizer_finalize, ih]
      rfl

theorem with_canonizer_try_user_congr (vis : visit_type σ) (e : expr) (cl : simp_lemma) :
    try_user_congr (with_canonizer E c) vis e cl = try_user_congr E vis e cl := by
  simp only [try_user_congr, with_canonizer_congr_hyps_loop, with_canonizer_assign_congr_proofs,
    instantiate_emetas, with_canonizer_instantiate_emetas_loop, with_canonizer_all_uassigned]
  rfl

theorem with_canonizer_try_user_congrs_loop (vis : visit_type σ) (e : expr) :
    ∀ cls : List simp_lemma,
      try_user_congrs_loop (with_canonizer E c) vis e cls = try_user_congrs_loop E vis e cls := by
  intro cls
  induction cls with
  | nil => rfl
  | cons cl cls ih => simp only [try_user_congrs_loop, with_canonizer_try_user_congr, ih]

theorem with_canonizer_try_user_congrs (vis : visit_type σ) (e : expr) :
    try_user_congrs (with_canonizer E c) vis e = try_user_congrs E vis e := by
  simp only [try_user_congrs, with_canonizer_try_user_congrs_loop]

theorem with_canonizer_eq_congr_second_pass (ctx : σ) (rel : name) (args : List expr)
    (r_args : List simp_result) :
    ∀ (kinds : List congr_arg_kind) (i i_eq : Nat) (proof type : expr) (subst : List expr),
      eq_congr_second_pass (with_canonizer E c) ctx rel args r_args kinds i i_eq proof type subst =
        eq_congr_second_pass E ctx rel args r_args kinds i i_eq proof type subst := by
  intro kinds
  induction kinds with
  | nil => intro i i_eq proof type subst; rfl
  | cons k ks ih =>
      intro i i_eq proof type subst
      cases k <;> simp only [eq_congr_second_pass, with_canonizer_finalize, ih]

theorem with_canonizer_try_auto_eq_congr (vis : visit_type σ) (e : expr) :
    try_auto_eq_congr (with_canonizer E c) vis e = try_auto_eq_congr E vis e := by
  simp only [try_auto_eq_congr, with_canonizer_eq_congr_second_pass,
    with_canonizer_remove_unnecessary_casts]
  rfl

theorem with_canonizer_visit_app (vis : visit_type σ) (e0 : expr)
    (h1 : E.canonize_instances = false) (h2 : E.canonize_proofs = false) :
    visit_app (with_canonizer E c) vis e0 = visit_app E vis e0 := by
  have hs : should_defeq_canonize E = false := by simp [should_defeq_canonize, h1, h2]
  have hs1 : should_defeq_canonize (with_canonizer E c) = false := hs
  simp only [visit_app, hs, hs1, with_canonizer_try_user_congrs, with_canonizer_visit_fn,
    with_canonizer_join, with_canonizer_try_auto_eq_congr, with_canonizer_is_dependent_fn,
    with_canonizer_congr_fun, with_canonizer_congr_fun_arg, Bool.false_eq_true, if_false]

end canonizer

/-- The loop of `defeq_canonize_args_step` over the parameters. -/
theorem defeq_canonize_args_eq (E : env σ τ) : ∀ (infos : List param_info)
    (pre rest : List expr) (modified : Bool) (s : state σ), infos.length ≤ rest.length →
    ∃ flag, defeq_canonize_args E infos pre.length (pre ++ rest) modified s =
        .ok (pre ++ (canonize_flagged E infos rest s.ctx s.need_restart).1, flag)
          { s with ctx := (canonize_flagged E infos rest s.ctx s.need_restart).2.1,
                   need_restart := (canonize_flagged E infos rest s.ctx s.need_restart).2.2 } ∧
      (flag = false →
        modified = false ∧ (canonize_flagged E infos rest s.ctx s.need_restart).1 = rest) := by
  intro infos
  induction infos with
  | nil =>
      intro pre rest modified s _
      exact ⟨modified, by simp [defeq_canonize_args, canonize_flagged, run_pure], fun h => ⟨h, by
        cases rest <;> rfl⟩⟩
  | cons pinfo infos ih =>
      intro pre rest modified s hlen
      cases rest with
      | nil => simp at hlen
      | cons a post =>
          simp only [List.length_cons, Nat.add_le_add_iff_right] at hlen
          by_cases hflag : canonize_flag E pinfo = true
          · have hcond : ((E.canonize_instances && pinfo.is_inst_implicit) ||
                (E.canonize_proofs && pinfo.is_prop)) = true := hflag
            have hat : (M.at_index (pre ++ a :: post) pre.length : M σ expr) s = .ok a s := by
              simp only [M.at_index, get_append_length]
            by_cases hne : (E.defeq_canonize s.ctx a).1 = a
            · have h := ih (pre ++ [a]) post modified
                { s with ctx := (E.defeq_canonize s.ctx a).2.2,
                         need_restart := s.need_restart || (E.defeq_canonize s.ctx a).2.1 } hlen
              simp only [List.length_append, List.length_singleton, List.append_assoc,
                List.singleton_append] at h
              obtain ⟨flag, hrun, hf⟩ := h
              refine ⟨flag, ?_, ?_⟩
              · simp only [defeq_canonize_args, hcond, if_true, run_bind, hat, run_get,
                  run_modify, ne_eq, hne, not_true_eq_false, if_false, canonize_flagged, hflag]
                simp only [hrun, List.append_assoc, List.singleton_append]
              · intro hfl
                simp only [canonize_flagged, hflag, if_true, hne]
                exact ⟨(hf hfl).1, by rw [(hf hfl).2]⟩
            · have h := ih (pre ++ [(E.defeq_canonize s.ctx a).1]) post true
                { s with ctx := (E.defeq_canonize s.ctx a).2.2,
                         need_restart := s.need_restart || (E.defeq_canonize s.ctx a).2.1 } hlen
              simp only [List.length_append, List.length_singleton] at h
              obtain ⟨flag, hrun, hf⟩ := h
              refine ⟨flag, ?_, ?_⟩
              · simp only [defeq_canonize_args, hcond, if_true, run_bind, hat, run_get,
                  run_modify, ne_eq, hne, not_false_eq_true, canonize_flagged, hflag,
                  set_append_length]
                simp only [List.append_assoc, List.singleton_append] at hrun ⊢
                exact hrun
              · intro hfl
                have := (hf hfl).1
                cases this
          · have hcond : ¬ ((E.canonize_instances && pinfo.is_inst_implicit) ||
                (E.canonize_proofs && pinfo.is_prop)) = true := hflag
            have h := ih (pre ++ [a]) post modified s hlen
            simp only [List.length_append, List.length_singleton, List.append_assoc,
              List.singleton_append] at h
            obtain ⟨flag, hrun, hf⟩ := h
            refine ⟨flag, ?_, ?_⟩
            · simp only [defeq_canonize_args, hcond, if_false, canonize_flagged, hflag]
              exact hrun
            · intro hfl
              simp only [canonize_flagged, hflag, Bool.false_eq_true, if_false]
              exact ⟨(hf hfl).1, by rw [(hf hfl).2]⟩

theorem canonize_flagged_spec (E : env σ τ) : ∀ (infos : List param_info) (as : List expr)
    (ctx : σ) (restart : Bool),
    (canonize_flagged E infos as ctx restart).1.length = as.length ∧
    ∀ i a, as.get? i = some a → (infos.get? i).map (canonize_flag E) ≠ some true →
      (canonize_flagged E infos as ctx restart).1.get? i = some a := by
  intro infos
  induction infos with
  | nil =>
      intro as ctx restart
      cases as with
      | nil => exact ⟨rfl, fun i a h _ => h⟩
      | cons x as => exact ⟨rfl, fun i a h _ => h⟩
  | cons pinfo infos ih =>
      intro as ctx restart
      cases as with
      | nil => exact ⟨rfl, fun i a h _ => h⟩
      | cons x as =>
          by_cases hflag : canonize_flag E pinfo = true
          · simp only [canonize_flagged, hflag, if_true, List.length_cons, (ih as _ _).1,
              true_and]
            intro i a h hn
            cases i with
            | zero => simp [hflag] at hn
            | succ i => simpa using (ih as _ _).2 i a (by simpa using h) (by simpa using hn)
          · simp only [canonize_flagged, hflag, Bool.false_eq_true, if_false, List.length_cons,
              (ih as _ _).1, true_and]
            intro i a h hn
            cases i with
            | zero => simpa using h
            | succ i => simpa using (ih as _ _).2 i a (by simpa using h) (by simpa using hn)

/-- C24: let the parameters reported for the head of `e = f a₁ … aₙ` be at
most `n` (the method asserts it).  Then `defeq_canonize_args_step(e)` calls the
canonizer on the arguments at the positions whose parameter is
instance-implicit with `canonize_instances` or a proposition with
`canonize_proofs`, left to right, and on nothing else; it returns the head `f`
applied to `n` arguments, where a flagged position holds the canonical form and
every other position the original argument, and this is `e` when no argument
differs from the original one.  When `canonize_instances` and
`canonize_proofs` are both false, `visit_app` does not depend on the
canonizer. -/
theorem C24_canonicalization_flagged (E : env σ τ) (e : expr) (s : state σ)
    (hlen : (E.get_fun_info s.ctx (get_app_fn e) (get_app_args e).length).length ≤
      (get_app_args e).length) :
    defeq_canonize_args_step E e s =
      .ok (mk_app (get_app_fn e)
          (canonize_flagged E (E.get_fun_info s.ctx (get_app_fn e) (get_app_args e).length)
            (get_app_args e) s.ctx s.need_restart).1)
        { s with
          ctx := (canonize_flagged E
            (E.get_fun_info s.ctx (get_app_fn e) (get_app_args e).length)
            (get_app_args e) s.ctx s.need_restart).2.1
          need_restart := (canonize_flagged E
            (E.get_fun_info s.ctx (get_app_fn e) (get_app_args e).length)
            (get_app_args e) s.ctx s.need_restart).2.2 } ∧
    (∀ (infos : List param_info) (ctx : σ) (restart : Bool),
      get_app_fn (mk_app (get_app_fn e)
        (canonize_flagged E infos (get_app_args e) ctx restart).1) = get_app_fn e ∧
      (canonize_flagged E infos (get_app_args e) ctx restart).1.length =
        (get_app_args e).length ∧
      (∀ i a, (get_app_args e).get? i = some a →
        (infos.get? i).map (canonize_flag E) ≠ some true →
        (canonize_flagged E infos (get_app_args e) ctx restart).1.get? i = some a) ∧
      ((canonize_flagged E infos (get_app_args e) ctx restart).1 = get_app_args e →
        mk_app (get_app_fn e) (canonize_flagged E infos (get_app_args e) ctx restart).1 = e)) ∧
    (E.canonize_instances = false → E.canonize_proofs = false →
      ∀ (c : σ → expr → expr × Bool × σ) (vis : visit_type σ) (e0 : expr),
        visit_app (with_canonizer E c) vis e0 = visit_app E vis e0) := by
  refine ⟨?_, ?_, ?_⟩
  · obtain ⟨flag, hr, hflag⟩ := defeq_canonize_args_eq E
      (E.get_fun_info s.ctx (get_app_fn e) (get_app_args e).length) [] (get_app_args e) false s
      hlen
    simp only [List.length_nil, List.nil_append] at hr
    unfold defeq_canonize_args_step
    simp only [run_bind, run_get, hr, run_pure]
    cases flag with
    | true => rfl
    | false =>
        rw [(hflag rfl).2]
        simp [mk_app_get_app_args]
  · intro infos ctx restart
    refine ⟨by rw [get_app_fn_mk_app, get_app_fn_idem],
      (canonize_flagged_spec E infos _ ctx restart).1,
      (canonize_flagged_spec E infos _ ctx restart).2, ?_⟩
    intro h
    rw [h, mk_app_get_app_args]
  · intro h1 h2 c vis e0
    exact with_canonizer_visit_app E c vis e0 h1 h2

/-- Witness of C24: with `canonize_instances` only the second argument of
`f c a a` is given to the canonizer, and the result is `f c b a`. -/
theorem C24_canonicalization_flagged_witness :
    defeq_canonize_args_step canon_env (mk_app const_f [const_c, const_a, const_a]) log_state =
      .ok (mk_app const_f [const_c, const_b, const_a]) { log_state with ctx := [const_a] } :=
  (C24_canonicalization_flagged canon_env (mk_app const_f [const_c, const_a, const_a]) log_state
    (by decide)).1

/-! ## The dispatch of `visit_app` (C25) -/

/-- C25 (amended): `visit_app` first canonicalizes the arguments (if enabled)
and tries the user congruence lemmas on the canonicalized application `e`.  If
their result has a proof, `visit_app` continues with `visit_fn` under `eq` and
returns the result under another relation.  If it has no proof and the
relation is `eq`, auto-congruence is tried and then the generic binary
congruence.  If it has no proof and the relation is not `eq`, `visit_app`
returns `simp_result(e)` in the state in which the user congruence attempt
ended: it performs no visit of its own, but the attempt may have visited
arguments of `e` for the hypotheses of a congruence lemma.  When the index has
no congruence lemma for `e`, nothing is visited. -/
theorem C25_application_dispatch (E : env σ τ) (vis : visit_type σ) (e0 e : expr)
    (s s1 s2 : state σ) (r_user : simp_result)
    (hcanon : (if should_defeq_canonize E then defeq_canonize_args_step E e0 else pure e0) s =
      .ok e s1)
    (huser : try_user_congrs E vis e s1 = .ok r_user s2) :
    (r_user.has_proof = true → s2.rel = get_eq_name →
      visit_app E vis e0 s = (visit_fn E vis r_user.new >>= fun r => join E r_user r) s2) ∧
    (r_user.has_proof = true → s2.rel ≠ get_eq_name → visit_app E vis e0 s = .ok r_user s2) ∧
    (r_user.has_proof = false → s2.rel = get_eq_name → ∀ r_args s3,
      try_auto_eq_congr E vis e s2 = .ok (some r_args) s3 →
      visit_app E vis e0 s = (visit_fn E vis r_args.new >>= fun r => join E r_args r) s3) ∧
    (r_user.has_proof = false → s2.rel = get_eq_name → ∀ s3,
      try_auto_eq_congr E vis e s2 = .ok none s3 →
      visit_app E vis e0 s =
        (do
          let r_f ← vis (app_fn e) (some e)
          if ← is_dependent_fn E (app_fn e) then
            if r_f.has_proof then congr_fun E r_f (app_arg e)
            else pure (simp_result.refl (App r_f.new (app_arg e)))
          else do
            let r_arg ← vis (app_arg e) (some e)
            congr_fun_arg E r_f r_arg) s3) ∧
    (r_user.has_proof = false → s2.rel ≠ get_eq_name →
      visit_app E vis e0 s = .ok (simp_result.refl e) s2) ∧
    (s1.rel ≠ get_eq_name →
      (s1.slss.find s1.rel = none ∨
        ∃ sls, s1.slss.find s1.rel = some sls ∧ sls.find_congr e = none) →
      ∀ vis1 : visit_type σ, visit_app E vis1 e0 s = .ok (simp_result.refl e) s1) := by
  refine ⟨?_, ?_, ?_, ?_, ?_, ?_⟩
  · intro h1 h2
    unfold visit_app
    simp only [run_bind, hcanon, huser, run_get, h1, if_true, h2]
  · intro h1 h2
    unfold visit_app
    simp only [run_bind, hcanon, huser, run_get, h1, if_true, h2, if_false, run_pure]
  · intro h1 h2 r_args s3 h3
    unfold visit_app
    simp only [run_bind, hcanon, huser, run_get, h1, Bool.false_eq_true, if_false, h2, if_true,
      h3]
  · intro h1 h2 s3 h3
    unfold visit_app
    simp only [run_bind, hcanon, huser, run_get, h1, Bool.false_eq_true, if_false, h2, if_true,
      h3]
  · intro h1 h2
    unfold visit_app
    simp only [run_bind, hcanon, huser, run_get, h1, Bool.false_eq_true, if_false, h2, run_pure]
  · intro h1 h2 vis1
    have hu : try_user_congrs E vis1 e s1 = .ok (simp_result.refl e) s1 := by
      unfold try_user_congrs
      rcases h2 with h2 | ⟨sls, h2, h3⟩
      · simp only [run_bind, run_get, h2, run_pure]
      · simp only [run_bind, run_get, h2, h3, run_pure]
    unfold visit_app
    simp only [run_bind, hcanon, hu, run_get, simp_result.refl, simp_result.has_proof,
      Option.isSome_none, Bool.false_eq_true, if_false, h1, run_pure]

/-- Witness of C25: under `iff` the plain simplifier with the congruence lemma
`f_congr` returns `f a` as it is. -/
theorem C25_application_dispatch_witness :
    visit_app congr_env (visit congr_env 5) (App const_f const_a) (congr_state []) =
      .ok (simp_result.refl (App const_f const_a))
        { congr_state [] with
          num_steps := 1, cache := [(const_a, simp_result.refl const_a)] } :=
  (C25_application_dispatch congr_env (visit congr_env 5) (App const_f const_a)
    (App const_f const_a) (congr_state []) (congr_state [])
    { congr_state [] with num_steps := 1, cache := [(const_a, simp_result.refl const_a)] }
    (simp_result.refl (App const_f const_a)) rfl rfl).2.2.2.2.1 rfl (by decide)

/-- Counterexample to C25 as stated: under `iff`, with the congruence lemma
`f_congr` whose hypothesis has the left-hand side `a`, no user congruence lemma
produces a result with a proof and `visit_app` returns `simp_result(f a)`, but
the argument `a` has been visited: the step counter has advanced and the cache
holds an entry for `a`. -/
theorem C25_counterexample :
    (try_user_congrs congr_env (visit congr_env 5) (App const_f const_a)
      (congr_state [])).value = some (simp_result.refl (App const_f const_a)) ∧
    (visit_app congr_env (visit congr_env 5) (App const_f const_a) (congr_state [])).value =
      some (simp_result.refl (App const_f const_a)) ∧
    (congr_state []).num_steps = 0 ∧ (congr_state []).cache = [] ∧
    ((visit_app congr_env (visit congr_env 5) (App const_f const_a) (congr_state [])).final.map
      (fun s => (s.num_steps, s.cache))) = some (1, [(const_a, simp_result.refl const_a)]) := by
  refine ⟨?_, ?_, ?_, ?_, ?_⟩ <;> decide

/-! ## Cache scoping (C26) -/

theorem run_flet_rel {α : Type} (rel : name) (m : M σ α) (s s1 : state σ) (a : α)
    (h : m { s with rel := rel } = .ok a s1) :
    flet_rel rel m s = .ok a { s1 with rel := s.rel } := by
  unfold flet_rel
  rw [h]

theorem run_flet_slss {α : Type} (slss : simp_lemmas) (m : M σ α) (s s1 : state σ) (a : α)
    (h : m { s with slss := slss } = .ok a s1) :
    flet_slss slss m s = .ok a { s1 with slss := s.slss } := by
  unfold flet_slss
  rw [h]

theorem run_freset_cache {α : Type} (m : M σ α) (s s1 : state σ) (a : α)
    (h : m { s with cache := [] } = .ok a s1) :
    freset_cache m s = .ok a { s1 with cache := s.cache } := by
  unfold freset_cache
  rw [h]

/-- C26: the nested visit for a congruence hypothesis with `contextual` set or
with a hypothesis relation other than the active one, the nested visit of the
consequent of a contextual implication, and the nested visit under `eq` of
relation lifting start from an empty cache, under the relation and the lemma
set of the scope; when the visit returns, the relation, the lemma set and the
cache that the scope has replaced are those of before the scope, so the
entries made inside are discarded.  The visit for a congruence hypothesis
without `contextual` and with the active relation, and the visits of a
non-contextual implication, start in the current state and leave their cache
to what follows. -/
theorem C26_cache_scoping (E : env σ τ) (vis : visit_type σ) (e : expr) (s : state σ) :
    (∀ (m : expr) (ms : List expr) (tmp_ctx : τ) (simplified : Bool) (acc : List congr_hyp_data)
      (u : expr × List expr) (h : expr × expr × expr) (r : simp_result) (s1 : state σ),
      u = unroll_pis E s.ctx (E.tmp_instantiate_mvars tmp_ctx (E.tmp_infer tmp_ctx m)) [] →
      h = (E.is_simp_relation (instantiate_rev u.1 u.2)).getD (default, default, default) →
      ((E.contextual = true ∨ s.rel ≠ const_name h.1) →
        vis (E.tmp_instantiate_mvars tmp_ctx h.2.1) (some e)
          { s with
            rel := const_name h.1
            slss := if E.contextual then add_to_slss E s.ctx s.slss u.2 else s.slss
            cache := [] } = .ok r s1 →
        congr_hyps_loop E vis e (m :: ms) tmp_ctx simplified acc s =
          congr_hyps_loop E vis e ms
            (E.tmp_assign tmp_ctx (get_app_fn h.2.2) (locals_mk_lambda (get_app_args h.2.2) r.new))
            (simplified || r.has_proof) (acc ++ [⟨r, const_name h.1, u.2⟩])
            { s1 with rel := s.rel, slss := s.slss, cache := s.cache }) ∧
      (E.contextual = false → s.rel = const_name h.1 →
        vis (E.tmp_instantiate_mvars tmp_ctx h.2.1) (some e) s = .ok r s1 →
        congr_hyps_loop E vis e (m :: ms) tmp_ctx simplified acc s =
          congr_hyps_loop E vis e ms
            (E.tmp_assign tmp_ctx (get_app_fn h.2.2) (locals_mk_lambda (get_app_args h.2.2) r.new))
            (simplified || r.has_proof) (acc ++ [⟨r, const_name h.1, u.2⟩])
            { s1 with slss := s.slss })) ∧
    (∀ (r_a r_b : simp_result) (s0 s1 : state σ),
      vis (binding_domain e) (some e) s = .ok r_a s0 →
      (E.contextual = true →
        vis (binding_body e) (some e)
          { s0 with
            slss := add_to_slss E s0.ctx s0.slss [push_local E s0.ctx [] "_h" r_a.new]
            cache := [] } = .ok r_b s1 →
        ∃ r, imp_congr E vis e s = .ok r { s1 with slss := s0.slss, cache := s0.cache }) ∧
      (E.contextual = false →
        vis (binding_body e) (some e) s0 = .ok r_b s1 →
        ∃ r, imp_congr E vis e s = .ok r s1)) ∧
    (∀ (parent : Option expr) (curr_result eq_result : simp_result) (s1 : state σ),
      E.lift_eq = true → s.rel ≠ get_eq_name →
      vis curr_result.new parent { s with rel := get_eq_name, cache := [] } = .ok eq_result s1 →
      visit_lift E vis parent curr_result s =
        (if eq_result.new ≠ curr_result.new then do
          let l ← lift_from_eq E eq_result
          let c ← join E curr_result l
          let r ← vis c.new parent
          join E c r
        else pure curr_result) { s1 with rel := s.rel, cache := s.cache }) := by
  refine ⟨?_, ?_, ?_⟩
  · intro m ms tmp_ctx simplified acc u h r s1 hu hh
    constructor
    · intro hcond hv
      have hc : (E.contextual || decide (s.rel ≠ const_name h.1)) = true := by
        rcases hcond with hc | hc
        · simp [hc]
        · simp [hc]
      have h1 := run_freset_cache (vis (E.tmp_instantiate_mvars tmp_ctx h.2.1) (some e))
        { s with rel := const_name h.1,
                 slss := if E.contextual then add_to_slss E s.ctx s.slss u.2 else s.slss } s1 r hv
      have h2 := run_flet_rel (const_name h.1)
        (freset_cache (vis (E.tmp_instantiate_mvars tmp_ctx h.2.1) (some e)))
        { s with slss := if E.contextual then add_to_slss E s.ctx s.slss u.2 else s.slss } _ r h1
      have h3 := run_flet_slss (if E.contextual then add_to_slss E s.ctx s.slss u.2 else s.slss)
        (flet_rel (const_name h.1)
          (freset_cache (vis (E.tmp_instantiate_mvars tmp_ctx h.2.1) (some e)))) s _ r h2
      conv_lhs => unfold congr_hyps_loop
      simp only [run_bind, run_get]
      rw [← hu, ← hh]
      simp only [ne_eq] at hc ⊢
      rw [if_pos hc, h3]
    · intro hc hrel hv
      have hc1 : ¬ (E.contextual || decide (s.rel ≠ const_name h.1)) = true := by
        simp [hc, hrel]
      have h3 := run_flet_slss s.slss (vis (E.tmp_instantiate_mvars tmp_ctx h.2.1) (some e)) s s1 r
        hv
      conv_lhs => unfold congr_hyps_loop
      simp only [run_bind, run_get]
      rw [← hu, ← hh]
      simp only [ne_eq] at hc1 ⊢
      rw [if_neg hc1]
      simp only [hc, Bool.false_eq_true, if_false]
      rw [h3]
  · intro r_a r_b s0 s1 ha
    constructor
    · intro hc hb
      have h1 := run_freset_cache (vis (binding_body e) (some e))
        { s0 with slss := add_to_slss E s0.ctx s0.slss [push_local E s0.ctx [] "_h" r_a.new] }
        s1 r_b hb
      have h2 := run_flet_slss
        (add_to_slss E s0.ctx s0.slss [push_local E s0.ctx [] "_h" r_a.new])
        (freset_cache (vis (binding_body e) (some e))) s0 _ r_b h1
      unfold imp_congr
      simp only [run_bind, ha, run_get, hc, if_true, h2]
      split
      · exact ⟨_, rfl⟩
      · split
        · exact ⟨_, rfl⟩
        · exact ⟨_, rfl⟩
    · intro hc hb
      unfold imp_congr
      simp only [run_bind, ha, run_get, hc, Bool.false_eq_true, if_false, hb]
      split
      · exact ⟨_, rfl⟩
      · split
        · exact ⟨_, rfl⟩
        · exact ⟨_, rfl⟩
  · intro parent curr_result eq_result s1 hl hrel hv
    have h1 := run_freset_cache (vis curr_result.new parent) { s with rel := get_eq_name } s1
      eq_result hv
    have h2 := run_flet_rel get_eq_name (freset_cache (vis curr_result.new parent)) s _
      eq_result h1
    unfold visit_lift
    simp only [run_bind, run_get, hl, Bool.true_and, decide_eq_true_eq, ne_eq, hrel,
      not_false_eq_true, if_true, h2]

/-- Witness of C26: under `eq` the hypothesis `a ↔ ?rhs` of the congruence
lemma `f_congr` is simplified under `iff` from an empty cache; afterwards the
relation is `eq` again and the cache is empty as before, although `a` has been
visited. -/
theorem C26_cache_scoping_witness :
    congr_hyps_loop congr_env (visit congr_env 5) (App const_f const_a) f_congr.congr_hyps ()
        false [] { congr_state [] with rel := "eq" } =
      .ok ((), false, [⟨simp_result.refl const_a, "iff", []⟩])
        { congr_state [] with rel := "eq", num_steps := 1 } :=
  (((C26_cache_scoping congr_env (visit congr_env 5) (App const_f const_a)
    { congr_state [] with rel := "eq" }).1
      (Meta "h" (App (App (Constant "iff" []) const_a) (Meta "rhs" (expr.Sort 0)))) [] () false []
      (App (App (Constant "iff" []) const_a) (Meta "rhs" (expr.Sort 0)), [])
      (Constant "iff" [], const_a, Meta "rhs" (expr.Sort 0))
      (simp_result.refl const_a)
      { congr_state [] with
        num_steps := 1, cache := [(const_a, simp_result.refl const_a)] }
      rfl rfl).1 (Or.inr (by decide)) rfl).trans rfl

/-! ## User congruence and proofs (C27) -/

/-- The first loop of `try_user_congr` records one entry for every congruence
hypothesis, and its flag says whether the result of a hypothesis carries a
proof. -/
theorem congr_hyps_loop_spec (E : env σ τ) (vis : visit_type σ) (e : expr) :
    ∀ (ms : List expr) (tmp_ctx : τ) (simplified : Bool) (acc : List congr_hyp_data)
      (s s1 : state σ) (h : τ × Bool × List congr_hyp_data),
      congr_hyps_loop E vis e ms tmp_ctx simplified acc s = .ok h s1 →
      ∃ ds, h.2.2 = acc ++ ds ∧ ds.length = ms.length ∧
        h.2.1 = (simplified || ds.any (fun d => d.result.has_proof)) := by
  intro ms
  induction ms with
  | nil =>
      intro tmp_ctx simplified acc s s1 h hrun
      simp only [congr_hyps_loop, run_pure, result.ok.injEq] at hrun
      rw [← hrun.1]
      exact ⟨[], by simp, rfl, by simp⟩
  | cons m ms ih =>
      intro tmp_ctx simplified acc s s1 h hrun
      unfold congr_hyps_loop at hrun
      simp only [run_bind, run_get] at hrun
      split at hrun
      · rename_i r s2 _
        obtain ⟨ds, h1, h2, h3⟩ := ih _ _ _ _ _ _ hrun
        refine ⟨_, h1.trans (List.append_assoc _ _ _), ?_, ?_⟩
        · simp [h2]
        · rw [h3]
          simp [Bool.or_assoc]
      · cases hrun
      · cases hrun
      · cases hrun

theorem assign_congr_proofs_total (E : env σ τ) (ctx : σ) :
    ∀ (ms : List expr) (ds : List congr_hyp_data) (tmp_ctx : τ) (s : state σ),
      ms.length ≤ ds.length →
      ∃ tmp1, assign_congr_proofs E ctx ms ds tmp_ctx s = .ok tmp1 s := by
  intro ms
  induction ms with
  | nil =>
      intro ds tmp_ctx s _
      exact ⟨tmp_ctx, rfl⟩
  | cons m ms ih =>
      intro ds tmp_ctx s hlen
      cases ds with
      | nil => simp at hlen
      | cons d ds =>
          simp only [List.length_cons, Nat.add_le_add_iff_right] at hlen
          obtain ⟨tmp1, h1⟩ := ih ds
            (E.tmp_assign tmp_ctx m (locals_mk_lambda d.locals
              (finalize E ctx d.relation d.result).get_proof)) s hlen
          refine ⟨tmp1, ?_⟩
          unfold assign_congr_proofs
          simp only [run_bind, M.at_index, List.get?_cons_zero, List.tail_cons]
          exact h1

/-- C27 (amended): after the left-hand side of a congruence lemma unifies with
`e`, `try_user_congr` sub-simplifies every congruence hypothesis.  If no
hypothesis result carries a proof it returns `simp_result(e)`, also when a
hypothesis has been rewritten to another term without a proof; if some
hypothesis result carries a proof it assigns the hypothesis proofs, discharges
the remaining metavariables and, when that succeeds and all universe
metavariables are assigned, returns the instantiated right-hand side of the
lemma with the instantiated proof, and `simp_result(e)` otherwise. -/
theorem C27_user_congruence_proof (E : env σ τ) (vis : visit_type σ) (e : expr) (cl : simp_lemma)
    (s s1 : state σ) (h : τ × Bool × List congr_hyp_data)
    (hunify : (E.tmp_is_def_eq (E.tmp_type_context s.ctx cl.num_umeta cl.num_emeta) e cl.lhs).1 =
      true)
    (hloop : congr_hyps_loop E vis e cl.congr_hyps
      (E.tmp_is_def_eq (E.tmp_type_context s.ctx cl.num_umeta cl.num_emeta) e cl.lhs).2 false []
      s = .ok h s1) :
    h.2.2.length = cl.congr_hyps.length ∧
    h.2.1 = h.2.2.any (fun d => d.result.has_proof) ∧
    (h.2.1 = false → try_user_congr E vis e cl s = .ok (simp_result.refl e) s1) ∧
    (h.2.1 = true → ∃ tmp1 o s2,
      assign_congr_proofs E s1.ctx cl.congr_hyps h.2.2 h.1 s1 = .ok tmp1 s1 ∧
      instantiate_emetas E tmp1 cl.num_emeta cl.emetas cl.instances s1 = .ok o s2 ∧
      try_user_congr E vis e cl s =
        .ok (match o with
          | some tmp2 =>
              if all_uassigned E tmp2 cl.num_umeta then
                ⟨E.tmp_instantiate_mvars tmp2 cl.rhs, some (E.tmp_instantiate_mvars tmp2 cl.proof)⟩
              else simp_result.refl e
          | none => simp_result.refl e) s2) := by
  obtain ⟨ds, h1, h2, h3⟩ := congr_hyps_loop_spec E vis e _ _ _ _ _ _ _ hloop
  simp only [List.nil_append] at h1
  simp only [Bool.false_or] at h3
  refine ⟨by rw [h1, h2], by rw [h3, h1], ?_, ?_⟩
  · intro hf
    unfold try_user_congr
    simp only [run_bind, run_get, hunify, Bool.not_true, Bool.false_eq_true, if_false, hloop, hf,
      Bool.not_false, if_true, run_pure]
  · intro ht
    obtain ⟨tmp1, ha⟩ := assign_congr_proofs_total E s1.ctx cl.congr_hyps h.2.2 h.1 s1
      (by rw [h1, h2])
    obtain ⟨o, s2, hi⟩ := instantiate_emetas_loop_total E cl.emetas cl.instances cl.num_emeta
      tmp1 s1
    refine ⟨tmp1, o, s2, ha, hi, ?_⟩
    unfold try_user_congr
    simp only [run_bind, run_get, hunify, Bool.not_true, Bool.false_eq_true, if_false, hloop, ht,
      ha]
    have hi1 : instantiate_emetas E tmp1 cl.num_emeta cl.emetas cl.instances s1 = .ok o s2 := hi
    rw [hi1]
    cases o with
    | none => rfl
    | some tmp2 =>
        simp only
        cases all_uassigned E tmp2 cl.num_umeta <;> rfl

/-- Witness of C27: the hypothesis of `f_congr` is simplified to `a` itself
with no proof, and `try_user_congr` returns `f a` as it is. -/
theorem C27_user_congruence_proof_witness :
    try_user_congr congr_env (visit congr_env 5) (App const_f const_a) f_congr (congr_state []) =
      .ok (simp_result.refl (App const_f const_a))
        { congr_state [] with
          num_steps := 1, cache := [(const_a, simp_result.refl const_a)] } :=
  (C27_user_congruence_proof congr_env (visit congr_env 5) (App const_f const_a) f_congr
    (congr_state [])
    { congr_state [] with num_steps := 1, cache := [(const_a, simp_result.refl const_a)] }
    ((), false, [⟨simp_result.refl const_a, "iff", []⟩]) rfl rfl).2.2.1 rfl

/-- Counterexample to C27 as stated: with the rewrite lemma `a = b` that holds
by reflexivity, the hypothesis `a ↔ ?rhs` of `f_congr` is rewritten to the
different term `b` without a proof; the remaining metavariables could be
discharged and there is no universe metavariable, yet `try_user_congr` returns
`simp_result(f a)` and not the instantiated right-hand side with a proof. -/
theorem C27_counterexample :
    (congr_env.tmp_is_def_eq
      (congr_env.tmp_type_context (congr_state [refl_lemma]).ctx f_congr.num_umeta
        f_congr.num_emeta) (App const_f const_a) f_congr.lhs).1 = true ∧
    (congr_hyps_loop congr_env (visit congr_env 6) (App const_f const_a) f_congr.congr_hyps ()
      false [] (congr_state [refl_lemma])).value =
        some ((), false, [⟨⟨const_b, none⟩, "iff", []⟩]) ∧
    const_b ≠ const_a ∧
    (instantiate_emetas congr_env () f_congr.num_emeta f_congr.emetas f_congr.instances
      (congr_state [refl_lemma])).value = some (some ()) ∧
    all_uassigned congr_env () f_congr.num_umeta = true ∧
    (try_user_congr congr_env (visit congr_env 6) (App const_f const_a) f_congr
      (congr_state [refl_lemma])).value = some (simp_result.refl (App const_f const_a)) :=
  ⟨by decide, rfl, by decide, by decide, by decide, by decide⟩

/-! ## Congruence for the universal quantifier (C28) -/

theorem rebind_append (pis : List expr) (pi R : expr) :
    rebind (pis ++ [pi]) R = rebind pis (update_binding pi (binding_domain pi) R) := by
  induction pis with
  | nil => rfl
  | cons p pis ih =>
      show update_binding p (binding_domain p) (rebind (pis ++ [pi]) R) = _
      rw [ih]
      rfl

theorem forall_congr_chain_append (E : env σ τ) (ctx : σ) (lemma_name : name)
    (xs : List (expr × expr)) (pi l R Pr : expr) :
    forall_congr_chain E ctx lemma_name (xs ++ [(pi, l)]) R Pr =
      forall_congr_chain E ctx lemma_name xs (update_binding pi (binding_domain pi) R)
        (mk_app (Constant lemma_name [E.get_level ctx (E.infer ctx l)])
          [binding_domain pi,
            Lambda (binding_name pi) (binding_domain pi) (binding_body pi),
            Lambda (binding_name pi) (binding_domain pi) R,
            Lambda (binding_name pi) (binding_domain pi) Pr]) := by
  induction xs with
  | nil => rfl
  | cons x xs ih =>
      obtain ⟨p, k⟩ := x
      show mk_app (Constant lemma_name [E.get_level ctx (E.infer ctx k)])
        [binding_domain p, Lambda (binding_name p) (binding_domain p) (binding_body p),
          Lambda (binding_name p) (binding_domain p) (rebind ((xs ++ [(pi, l)]).map Prod.fst) R),
          Lambda (binding_name p) (binding_domain p)
            (forall_congr_chain E ctx lemma_name (xs ++ [(pi, l)]) R Pr)] = _
      rw [ih, List.map_append, List.map_cons, List.map_nil, rebind_append]
      rfl

/-- The proof loop of `forall_congr` runs from the last binder to the first. -/
theorem forall_congr_proof_eq (E : env σ τ) (ctx : σ) (lemma_name : name) :
    ∀ (xs : List (expr × expr)) (R Pr : expr),
      forall_congr_proof E ctx lemma_name xs R Pr =
        (rebind (xs.reverse.map Prod.fst) R,
          forall_congr_chain E ctx lemma_name xs.reverse R Pr) := by
  intro xs
  induction xs with
  | nil => intro R Pr; rfl
  | cons x xs ih =>
      intro R Pr
      obtain ⟨p, k⟩ := x
      simp only [forall_congr_proof, ih, List.reverse_cons, List.map_append, List.map_cons,
        List.map_nil, rebind_append, forall_congr_chain_append]

theorem rebind_foldl (pis : List expr) (R : expr) :
    pis.reverse.foldl (fun R pi => update_binding pi (binding_domain pi) R) R = rebind pis R := by
  rw [List.foldl_reverse]
  induction pis with
  | nil => rfl
  | cons p pis ih => simp only [List.foldr_cons, rebind, ih]

theorem unroll_foralls_length (E : env σ τ) (ctx : σ) (e : expr) :
    ∀ pis locals : List expr, pis.length = locals.length →
      (unroll_foralls E ctx e pis locals).2.1.length =
        (unroll_foralls E ctx e pis locals).2.2.length := by
  induction e with
  | Pi n d b _ ihb =>
      intro pis locals h
      unfold unroll_foralls
      split
      · exact h
      · exact ihb _ _ (by simp [h])
  | _ => intro pis locals h; simpa [unroll_foralls] using h

/-- C28 (amended): let `pis` and `ls` be the binders that `forall_congr(e)`
unrolls and their local constants, and let the visit of the instantiated body
return `body_r`.  If `body_r` carries a proof, `forall_congr(e)` returns the
re-abstracted pi over the same binders with one forall-congruence combinator
per unrolled binder, also when the term of `body_r` is the body itself.  If
`body_r` carries no proof, it returns `simp_result(e)` when the term of
`body_r` is the body, and the re-abstracted pi over the same binders with no
proof otherwise. -/
theorem C28_forall_congr (E : env σ τ) (vis : visit_type σ) (e : expr) (s s1 : state σ)
    (body_r : simp_result)
    (hvis : vis (instantiate_rev (unroll_foralls E s.ctx e [] []).1
      (unroll_foralls E s.ctx e [] []).2.2) (some e) s = .ok body_r s1) :
    (unroll_foralls E s.ctx e [] []).2.1.length = (unroll_foralls E s.ctx e [] []).2.2.length ∧
    forall_congr E vis e s =
      .ok (match body_r.proof with
        | some pr =>
            ⟨rebind (unroll_foralls E s.ctx e [] []).2.1
                (abstract_locals body_r.new (unroll_foralls E s.ctx e [] []).2.2),
              some (forall_congr_chain E s1.ctx
                (if s1.rel = get_eq_name then get_forall_congr_eq_name
                  else get_forall_congr_name)
                ((unroll_foralls E s.ctx e [] []).2.1.zip (unroll_foralls E s.ctx e [] []).2.2)
                (abstract_locals body_r.new (unroll_foralls E s.ctx e [] []).2.2)
                (abstract_locals pr (unroll_foralls E s.ctx e [] []).2.2))⟩
        | none =>
            if body_r.new = instantiate_rev (unroll_foralls E s.ctx e [] []).1
                (unroll_foralls E s.ctx e [] []).2.2 then simp_result.refl e
            else simp_result.refl (rebind (unroll_foralls E s.ctx e [] []).2.1
              (abstract_locals body_r.new (unroll_foralls E s.ctx e [] []).2.2))) s1 := by
  have hlen := unroll_foralls_length E s.ctx e [] [] rfl
  refine ⟨hlen, ?_⟩
  unfold forall_congr
  simp only [run_bind, run_get, hvis]
  cases hp : body_r.proof with
  | some pr =>
      simp only [run_pure, forall_congr_proof_eq, List.reverse_reverse]
      rw [List.map_fst_zip _ _ (Nat.le_of_eq hlen)]
  | none =>
      simp only
      split
      · rfl
      · simp only [run_pure, rebind_foldl]

/-- Witness of C28: with the core simplifier over the logging visitor, the
body `a` of `∀ x : A, a` is rewritten to `b` without a proof, and the result is
`∀ x : A, b` with no proof. -/
theorem C28_forall_congr_witness :
    forall_congr (sample_env (List expr)) log_visit (Pi "x" (Constant "A" []) const_a) log_state =
      .ok (simp_result.refl (Pi "x" (Constant "A" []) const_b))
        { log_state with ctx := [const_a] } :=
  (C28_forall_congr (sample_env (List expr)) log_visit (Pi "x" (Constant "A" []) const_a)
    log_state { log_state with ctx := [const_a] } ⟨const_b, none⟩ rfl).2

/-- Counterexample to C28 as stated: the `pre` callback returns the body `p` of
`∀ x : A, p` itself, with a proof.  The simplification of the body returns a
term equal to the body, but `forall_congr` does not return
`simp_result(∀ x : A, p)`: its result carries a forall-congruence proof. -/
theorem C28_counterexample :
    (visit pre_proof_env 3 (Constant "p" []) (some forall_p) eq_state).value =
      some ⟨Constant "p" [], some const_pf⟩ ∧
    instantiate_rev (unroll_foralls pre_proof_env eq_state.ctx forall_p [] []).1
      (unroll_foralls pre_proof_env eq_state.ctx forall_p [] []).2.2 = Constant "p" [] ∧
    (forall_congr pre_proof_env (visit pre_proof_env 3) forall_p eq_state).value =
      some ⟨forall_p, some (mk_app (Constant "forall_congr_eq" [0])
        [Constant "A" [], Lambda "x" (Constant "A" []) (Constant "p" []),
          Lambda "x" (Constant "A" []) (Constant "p" []),
          Lambda "x" (Constant "A" []) const_pf])⟩ ∧
    (forall_congr pre_proof_env (visit pre_proof_env 3) forall_p eq_state).value ≠
      some (simp_result.refl forall_p) := by
  refine ⟨?_, ?_, ?_, ?_⟩ <;> decide

/-! ## Congruence for the implication (C29) -/

/-- C29: let `r_a` and `r_b` be the results of the visits of the antecedent `a`
and the consequent `b` of `e = a → b`.  `imp_congr(e)` returns `simp_result(e)`
when both terms are unchanged; otherwise it returns the arrow of the new
terms, with no proof when neither result has a proof, and otherwise with the
combinator `imp_congr_ctx_eq` (contextual, `eq`), `imp_congr_ctx` (contextual,
not `eq`), `imp_congr_eq` (not contextual, `eq`) or `imp_congr` (not
contextual, not `eq`) applied to `a`, `b`, the new terms and the finalized
proofs, where in the contextual case the proof for `b` is abstracted over the
hypothesis.  In the contextual case `b` is visited with the lemma set extended
by a fresh local hypothesis of type `r_a.new`, from an empty cache. -/
theorem C29_imp_congr (E : env σ τ) (vis : visit_type σ) (e : expr) (s s0 : state σ)
    (r_a : simp_result) (ha : vis (binding_domain e) (some e) s = .ok r_a s0) :
    (E.contextual = true → ∀ (r_b : simp_result) (s1 : state σ),
      vis (binding_body e) (some e)
        { s0 with
          slss := add_to_slss E s0.ctx s0.slss [Local (E.fresh_name s0.ctx [] "_h") r_a.new]
          cache := [] } = .ok r_b s1 →
      imp_congr E vis e s =
        .ok (if r_a.new = binding_domain e ∧ r_b.new = binding_body e then simp_result.refl e
          else if r_a.proof = none ∧ r_b.proof = none then
            simp_result.refl (mk_arrow r_a.new r_b.new)
          else
            ⟨mk_arrow r_a.new r_b.new,
              some (mk_app
                (mk_constant (if s1.rel = get_eq_name then get_imp_congr_ctx_eq_name
                  else get_imp_congr_ctx_name))
                [binding_domain e, binding_body e, r_a.new, r_b.new,
                  (finalize E s1.ctx s1.rel r_a).get_proof,
                  locals_mk_lambda [Local (E.fresh_name s0.ctx [] "_h") r_a.new]
                    (finalize E s1.ctx s1.rel r_b).get_proof])⟩)
          { s1 with slss := s0.slss, cache := s0.cache }) ∧
    (E.contextual = false → ∀ (r_b : simp_result) (s1 : state σ),
      vis (binding_body e) (some e) s0 = .ok r_b s1 →
      imp_congr E vis e s =
        .ok (if r_a.new = binding_domain e ∧ r_b.new = binding_body e then simp_result.refl e
          else if r_a.proof = none ∧ r_b.proof = none then
            simp_result.refl (mk_arrow r_a.new r_b.new)
          else
            ⟨mk_arrow r_a.new r_b.new,
              some (mk_app
                (mk_constant (if s1.rel = get_eq_name then get_imp_congr_eq_name
                  else get_imp_congr_name))
                [binding_domain e, binding_body e, r_a.new, r_b.new,
                  (finalize E s1.ctx s1.rel r_a).get_proof,
                  (finalize E s1.ctx s1.rel r_b).get_proof])⟩) s1) := by
  constructor
  · intro hc r_b s1 hb
    have h1 := run_freset_cache (vis (binding_body e) (some e))
      { s0 with slss := add_to_slss E s0.ctx s0.slss [Local (E.fresh_name s0.ctx [] "_h") r_a.new] }
      s1 r_b hb
    have h2 := run_flet_slss
      (add_to_slss E s0.ctx s0.slss [Local (E.fresh_name s0.ctx [] "_h") r_a.new])
      (freset_cache (vis (binding_body e) (some e))) s0 _ r_b h1
    unfold imp_congr
    simp only [run_bind, ha, run_get, hc, if_true, push_local, h2]
    by_cases hsame : r_a.new = binding_domain e ∧ r_b.new = binding_body e
    · simp [hsame.1, hsame.2, run_pure]
    · have hsame1 : ¬ (decide (r_a.new = binding_domain e) && decide (r_b.new = binding_body e)) =
          true := by simpa using hsame
      rw [if_neg hsame1, if_neg hsame]
      cases hpa : r_a.proof <;> cases hpb : r_b.proof <;>
        simp [simp_result.has_proof, hpa, hpb, run_pure]
  · intro hc r_b s1 hb
    unfold imp_congr
    simp only [run_bind, ha, run_get, hc, Bool.false_eq_true, if_false, hb]
    by_cases hsame : r_a.new = binding_domain e ∧ r_b.new = binding_body e
    · simp [hsame.1, hsame.2, run_pure]
    · have hsame1 : ¬ (decide (r_a.new = binding_domain e) && decide (r_b.new = binding_body e)) =
          true := by simpa using hsame
      rw [if_neg hsame1, if_neg hsame]
      cases hpa : r_a.proof <;> cases hpb : r_b.proof <;>
        simp [simp_result.has_proof, hpa, hpb, run_pure]

/-- Witness of C29: with contextual hypotheses, under `eq`, the consequent of
`a → a` is rewritten to `true` with the hypothesis `_h : a`, and the result is
`a → true` with an `imp_congr_ctx_eq` proof. -/
theorem C29_imp_congr_witness :
    imp_congr contextual_env (visit contextual_env 6) (mk_arrow const_a const_a) eq_state =
      .ok ⟨mk_arrow const_a const_true,
          some (mk_app (Constant "imp_congr_ctx_eq" [])
            [const_a, const_a, const_a, const_true,
              mk_app (Constant "refl" []) [Constant "eq" [], const_a],
              Lambda "_h" const_a (App (Constant "iff_true_intro" []) (Var 0))])⟩
        { eq_state with num_steps := 2, cache := [(const_a, simp_result.refl const_a)] } :=
  ((C29_imp_congr contextual_env (visit contextual_env 6) (mk_arrow const_a const_a) eq_state
    { eq_state with num_steps := 1, cache := [(const_a, simp_result.refl const_a)] }
    (simp_result.refl const_a) rfl).1 rfl _ _ rfl).trans rfl

/-! ## The propext variant of rewriting (C30) -/

theorem rewrite_lemma_total (E : env σ τ) (e : expr) (sl : simp_lemma) (s : state σ) :
    ∃ a s1, rewrite_lemma E e sl s = .ok a s1 := by
  obtain ⟨a, s1, h⟩ := rewrite_unify_total E e sl s
  unfold rewrite_lemma
  rw [run_bind, h]
  cases a <;> exact ⟨_, _, rfl⟩

theorem rewrite_loop_total (E : env σ τ) (e : expr) :
    ∀ (srs : List simp_lemma) (s : state σ), ∃ r s1, rewrite_loop E e srs s = .ok r s1 := by
  intro srs
  induction srs with
  | nil => intro s; exact ⟨_, _, rfl⟩
  | cons sl srs ih =>
      intro s
      obtain ⟨a, s1, h⟩ := rewrite_lemma_total E e sl s
      unfold rewrite_loop
      rw [run_bind, h]
      cases a with
      | none => exact ih s1
      | some r =>
          simp only
          split
          · exact ⟨_, _, rfl⟩
          · exact ih s1

/-- The method `rewrite(e)` returns normally. -/
theorem rewrite_expr_total (E : env σ τ) (e : expr) (s : state σ) :
    ∃ r s1, rewrite_expr E e s = .ok r s1 := by
  unfold rewrite_expr
  simp only [run_bind, run_get]
  cases s.slss.find s.rel with
  | none => exact ⟨_, _, rfl⟩
  | some sr =>
      simp only
      cases sr.find e with
      | none => exact ⟨_, _, rfl⟩
      | some srs => exact rewrite_loop_total E e srs s

/-- C30 (amended): `propext_rewrite(e)` returns `simp_result(e)` when the
active relation is not `eq`; under `eq` it rewrites `e` with the lemmas of
`iff`, wraps a proof that it finds with `propext`, returns a result without a
proof as it is, and the active relation is `eq` again afterwards.  The
post-hook of the plain simplifier returns the result of rewriting under the
active relation when the term has changed; when the term is unchanged it tries
`propext_rewrite` only if the use of axioms is enabled, and reports no result
otherwise. -/
theorem C30_propext_variant (E : env σ τ) (e : expr) (s : state σ) :
    (s.rel ≠ get_eq_name → propext_rewrite E e s = .ok (simp_result.refl e) s) ∧
    (s.rel = get_eq_name → ∃ r2 s2,
      rewrite_expr E e { s with rel := get_iff_name } = .ok r2 s2 ∧
      propext_rewrite E e s =
        .ok ⟨r2.new, r2.proof.map (fun pr => E.mk_app_builder s2.ctx get_propext_name [pr])⟩
          { s2 with rel := get_eq_name }) ∧
    (∃ r s1, rewrite_expr E e s = .ok r s1 ∧
      (r.new ≠ e → simplify_fn_post E e s = .ok (to_ext_result r) s1) ∧
      (r.new = e → E.use_axioms = false → simplify_fn_post E e s = .ok no_ext_result s1) ∧
      (r.new = e → E.use_axioms = true → ∃ r1 s2,
        propext_rewrite E e s1 = .ok r1 s2 ∧
        simplify_fn_post E e s =
          .ok (if r1.new ≠ e then to_ext_result r1 else no_ext_result) s2)) := by
  have hprop : ∀ t : state σ, t.rel = get_eq_name → ∃ r2 s2,
      rewrite_expr E e { t with rel := get_iff_name } = .ok r2 s2 ∧
      propext_rewrite E e t =
        .ok ⟨r2.new, r2.proof.map (fun pr => E.mk_app_builder s2.ctx get_propext_name [pr])⟩
          { s2 with rel := get_eq_name } := by
    intro t ht
    obtain ⟨r2, s2, h2⟩ := rewrite_expr_total E e { t with rel := get_iff_name }
    refine ⟨r2, s2, h2, ?_⟩
    unfold propext_rewrite
    simp only [run_bind, run_get, ne_eq, ht, not_true_eq_false, if_false]
    unfold flet_rel
    simp only [run_bind, h2, run_get]
    cases hp : r2.proof with
    | none =>
        simp only [run_pure, Option.map_none', ht]
        congr 1
        cases r2
        simp only at hp
        rw [hp]
    | some pr => simp only [run_pure, Option.map_some', ht]
  have hnot : ∀ t : state σ, t.rel ≠ get_eq_name →
      propext_rewrite E e t = .ok (simp_result.refl e) t := by
    intro t ht
    unfold propext_rewrite
    simp only [run_bind, run_get, ne_eq, ht, not_false_eq_true, if_true, run_pure]
  refine ⟨hnot s, hprop s, ?_⟩
  obtain ⟨r, s1, h1⟩ := rewrite_expr_total E e s
  refine ⟨r, s1, h1, ?_, ?_, ?_⟩
  · intro hne
    unfold simplify_fn_post
    simp only [run_bind, h1, ne_eq, hne, not_false_eq_true, if_true, run_pure]
  · intro heq hax
    unfold simplify_fn_post
    simp only [run_bind, h1, ne_eq, heq, not_true_eq_false, if_false, hax, Bool.not_false, if_true,
      run_pure]
  · intro heq hax
    have hp : ∃ r1 s2, propext_rewrite E e s1 = .ok r1 s2 := by
      by_cases hrel : s1.rel = get_eq_name
      · obtain ⟨r2, s2, _, h⟩ := hprop s1 hrel
        exact ⟨_, _, h⟩
      · exact ⟨_, _, hnot s1 hrel⟩
    obtain ⟨r1, s2, h2⟩ := hp
    refine ⟨r1, s2, h2, ?_⟩
    unfold simplify_fn_post
    simp only [run_bind, h1, ne_eq, heq, not_true_eq_false, if_false, hax, Bool.not_true,
      Bool.false_eq_true, h2]
    split <;> rfl

/-- Witness of C30: with the use of axioms enabled, under `eq` and with the
lemma `a ↔ b`, the post-hook rewrites `a` to `b` and wraps the proof with
`propext`. -/
theorem C30_propext_variant_witness :
    simplify_fn_post propext_env const_a iff_state =
      .ok (to_ext_result ⟨const_b, some (mk_app (Constant "propext" []) [const_pf])⟩)
        iff_state := by
  obtain ⟨r, s1, h1, _, _, h4⟩ := (C30_propext_variant propext_env const_a iff_state).2.2
  have hr : rewrite_expr propext_env const_a iff_state = .ok (simp_result.refl const_a) iff_state :=
    rfl
  rw [hr] at h1
  simp only [result.ok.injEq] at h1
  obtain ⟨hr1, hs1⟩ := h1
  subst hr1
  subst hs1
  obtain ⟨r1, s2, h5, h6⟩ := h4 rfl rfl
  have hp : propext_rewrite propext_env const_a iff_state =
      .ok ⟨const_b, some (mk_app (Constant "propext" []) [const_pf])⟩ iff_state := rfl
  rw [hp] at h5
  simp only [result.ok.injEq] at h5
  obtain ⟨hr2, hs2⟩ := h5
  subst hr2
  subst hs2
  rw [h6]
  rfl

/-- Counterexample to C30 as stated: the plain simplifier with the use of
axioms disabled, under `eq` and with the lemma `a ↔ b`.  Rewriting under `eq`
leaves `a` unchanged and `propext_rewrite` would return `b` with a proof, but
the post-hook does not try it and reports no result. -/
theorem C30_counterexample :
    plain_env.use_axioms = false ∧ iff_state.rel = get_eq_name ∧
    (rewrite_expr plain_env const_a iff_state).value = some (simp_result.refl const_a) ∧
    (propext_rewrite plain_env const_a iff_state).value =
      some ⟨const_b, some (mk_app (Constant "propext" []) [const_pf])⟩ ∧
    (simplify_fn_post plain_env const_a iff_state).value = some none := by
  refine ⟨?_, ?_, ?_, ?_, ?_⟩ <;> decide

/-! ## The top-level driver (C31) -/

/-- C31: `operator()(rel, e)` sets the relation to `rel`, clears the cache and
enters the loop with `r = simp_result(e)`.  A pass of the loop clears the
restart flag and visits `r.new`; with the result `v` of the visit it returns
`join(r, v)` when the restart flag is not raised or canonicalization is
disabled, and otherwise it clears the cache and runs the next pass from
`join(r, v)`.  So with canonicalization disabled the run of `operator()` is
one visit of `e`, started with the relation `rel`, an empty cache and the
restart flag cleared, followed by `join(simp_result(e), v)`, which is `v`. -/
theorem C31_top_level_driver (E : env σ τ) (fuel n : Nat) (rel : name) (e : expr)
    (s : state σ) :
    simplify E fuel rel e s =
      simplify_loop E fuel fuel (simp_result.refl e) { s with rel := rel, cache := [] } ∧
    (∀ (r v : simp_result) (s0 s1 : state σ),
      visit E fuel r.new none { s0 with need_restart := false } = .ok v s1 →
      ((s1.need_restart = false ∨ should_defeq_canonize E = false) →
        simplify_loop E fuel (n + 1) r s0 = .ok (join_results E s1.ctx s1.rel r v) s1) ∧
      (s1.need_restart = true → should_defeq_canonize E = true →
        simplify_loop E fuel (n + 1) r s0 =
          simplify_loop E fuel n (join_results E s1.ctx s1.rel r v) { s1 with cache := [] })) ∧
    (should_defeq_canonize E = false →
      simplify E (fuel + 1) rel e s =
        (visit E (fuel + 1) e none >>= fun v => join E (simp_result.refl e) v)
          { s with rel := rel, cache := [], need_restart := false }) ∧
    (∀ (c : σ) (r : name) (v : simp_result),
      join_results E c r (simp_result.refl e) v = v) := by
  refine ⟨rfl, ?_, ?_, ?_⟩
  · intro r v s0 s1 hv
    constructor
    · intro h
      unfold simplify_loop
      simp only [run_bind, run_modify, hv, join, run_get, run_pure]
      rcases h with h | h
      · simp [h, run_pure]
      · simp [h, run_pure]
    · intro h1 h2
      conv_lhs => unfold simplify_loop
      simp only [run_bind, run_modify, hv, join, run_get, run_pure, h1, h2, Bool.not_true,
        Bool.or_self, Bool.false_eq_true, if_false]
  · intro h
    show simplify_loop E (fuel + 1) (fuel + 1) (simp_result.refl e)
      { s with rel := rel, cache := [] } = _
    unfold simplify_loop
    simp only [run_bind, run_modify, simp_result.refl]
    cases hv : visit E (fuel + 1) e none
        { s with rel := rel, cache := [], need_restart := false } with
    | ok v s1 => simp [join, run_bind, run_get, run_pure, h]
    | _ => rfl
  · intro c r v
    rfl

/-- Witness of C31: the plain simplifier has canonicalization disabled; it
visits the constant `a` once and returns it as it is. -/
theorem C31_top_level_driver_witness :
    simplify plain_env 3 "eq" const_a (initial_state () empty_slss) =
      .ok (simp_result.refl const_a)
        { initial_state () empty_slss with
          rel := "eq", num_steps := 1, cache := [(const_a, simp_result.refl const_a)] } :=
  ((C31_top_level_driver plain_env 2 0 "eq" const_a (initial_state () empty_slss)).2.2.1
    rfl).trans rfl

/-- A run with a restart: the canonizer raises the restart flag in the first
pass only, so `f a` is simplified in two passes; each pass visits `f a` and
`f`, and the cache holds the entries of the second pass. -/
theorem simplify_restarts_once :
    simplify restart_env 4 "eq" (App const_f const_a) (initial_state 0 empty_slss) =
      .ok (simp_result.refl (App const_f const_a))
        { initial_state 0 empty_slss with
          ctx := 2, rel := "eq", num_steps := 4,
          cache := [(App const_f const_a, simp_result.refl (App const_f const_a)),
            (const_f, simp_result.refl const_f)] } := rfl

/-! ## Index safety of auto-congruence (C32) -/

theorem at_index_lt {α : Type} (b : List α) (i : Nat) (h : i < b.length) (s : state σ) :
    ∃ a, (M.at_index b i : M σ α) s = .ok a s := by
  refine ⟨b.get ⟨i, h⟩, ?_⟩
  simp only [M.at_index, List.get?_eq_get h]

/-- The first pass reads no argument outside the buffer when the kinds are at
most as many as the arguments that remain. -/
theorem eq_congr_first_pass_in_bounds (vis : visit_type σ) (e : expr) (args : List expr)
    (hvis : ∀ a p s, vis a p s ≠ .out_of_bounds) :
    ∀ (kinds : List congr_arg_kind) (i : Nat) (p : eq_congr_pass) (s : state σ),
      i + kinds.length ≤ args.length →
      eq_congr_first_pass vis e args kinds i p s ≠ .out_of_bounds ∧
      ∀ p1 s1, eq_congr_first_pass vis e args kinds i p s = .ok p1 s1 →
        p1.r_args.length = p.r_args.length + kinds.count congr_arg_kind.Eq ∧
        congr_arg_kind.HEq ∉ kinds := by
  intro kinds
  induction kinds with
  | nil =>
      intro i p s _
      simp only [eq_congr_first_pass, run_pure, ne_eq, reduceCtorEq, not_false_eq_true,
        result.ok.injEq, List.count_nil, Nat.add_zero, List.not_mem_nil, and_true, true_and]
      intro p1 s1 h
      rw [← h.1]
  | cons k ks ih =>
      intro i p s hlen
      simp only [List.length_cons] at hlen
      obtain ⟨a, hat⟩ := at_index_lt args i (by omega) s
      cases k with
      | HEq =>
          simp only [eq_congr_first_pass, run_throw, ne_eq, reduceCtorEq, not_false_eq_true,
            true_and]
          intro p1 s1 h
          cases h
      | Fixed =>
          simp only [eq_congr_first_pass, run_bind, hat]
          have h := ih (i + 1) { p with new_args := p.new_args ++ [a] } s (by omega)
          refine ⟨h.1, fun p1 s1 h1 => ?_⟩
          have h2 := h.2 p1 s1 h1
          simp only [List.count_cons, List.mem_cons, reduceCtorEq, false_or] at h2 ⊢
          simpa using h2
      | FixedNoParam =>
          simp only [eq_congr_first_pass, run_bind, hat]
          have h := ih (i + 1) { p with new_args := p.new_args ++ [a] } s (by omega)
          refine ⟨h.1, fun p1 s1 h1 => ?_⟩
          have h2 := h.2 p1 s1 h1
          simp only [List.count_cons, List.mem_cons, reduceCtorEq, false_or] at h2 ⊢
          simpa using h2
      | Cast =>
          simp only [eq_congr_first_pass, run_bind, hat]
          have h := ih (i + 1) { p with has_cast := true, new_args := p.new_args ++ [a] } s
            (by omega)
          refine ⟨h.1, fun p1 s1 h1 => ?_⟩
          have h2 := h.2 p1 s1 h1
          simp only [List.count_cons, List.mem_cons, reduceCtorEq, false_or] at h2 ⊢
          simpa using h2
      | Eq =>
          simp only [eq_congr_first_pass, run_bind, hat]
          cases hv : vis a (some e) s with
          | ok r s2 =>
              simp only
              have h := ih (i + 1)
                { p with
                  r_args := p.r_args ++ [r]
                  new_args := p.new_args ++ [r.new]
                  has_proof := p.has_proof || r.has_proof
                  has_simplified := p.has_simplified || decide (r.new ≠ a) } s2 (by omega)
              refine ⟨h.1, fun p1 s1 h1 => ?_⟩
              have h2 := h.2 p1 s1 h1
              simp only [List.length_append, List.length_singleton, List.count_cons,
                List.mem_cons, reduceCtorEq, false_or] at h2 ⊢
              refine ⟨?_, h2.2⟩
              simp only [beq_self_eq_true, if_true]
              omega
          | exception msg =>
              simp only [ne_eq, reduceCtorEq, not_false_eq_true, true_and]
              intro p1 s1 h
              cases h
          | out_of_bounds => exact absurd hv (hvis _ _ _)
          | out_of_fuel =>
              simp only [ne_eq, reduceCtorEq, not_false_eq_true, true_and]
              intro p1 s1 h
              cases h

/-- The second pass returns normally, so it reads no argument and no result
outside its buffer, when the kinds are at most as many as the arguments that
remain and the `Eq` kinds at most as many as the results that remain. -/
theorem eq_congr_second_pass_in_bounds (E : env σ τ) (ctx : σ) (rel : name) (args : List expr)
    (r_args : List simp_result) (s : state σ) :
    ∀ (kinds : List congr_arg_kind) (i i_eq : Nat) (proof type : expr) (subst : List expr),
      congr_arg_kind.HEq ∉ kinds → i + kinds.length ≤ args.length →
      i_eq + kinds.count congr_arg_kind.Eq ≤ r_args.length →
      ∃ b, eq_congr_second_pass E ctx rel args r_args kinds i i_eq proof type subst s =
        .ok b s := by
  intro kinds
  induction kinds with
  | nil =>
      intro i i_eq proof type subst _ _ _
      exact ⟨_, rfl⟩
  | cons k ks ih =>
      intro i i_eq proof type subst hk hlen hcount
      simp only [List.length_cons] at hlen
      have hks : congr_arg_kind.HEq ∉ ks := fun h => hk (List.mem_cons_of_mem _ h)
      obtain ⟨a, hat⟩ := at_index_lt args i (by omega) s
      cases k with
      | HEq => exact absurd (List.mem_cons_self _ _) hk
      | Fixed =>
          simp only [eq_congr_second_pass, run_bind, hat]
          exact ih _ _ _ _ _ hks (by omega) (by simpa using hcount)
      | Cast =>
          simp only [eq_congr_second_pass, run_bind, hat]
          exact ih _ _ _ _ _ hks (by omega) (by simpa using hcount)
      | FixedNoParam =>
          simp only [eq_congr_second_pass]
          exact ih _ _ _ _ _ hks (by omega) (by simpa using hcount)
      | Eq =>
          simp only [List.count_cons, beq_self_eq_true, if_true] at hcount
          obtain ⟨r, hr⟩ := at_index_lt r_args i_eq (by omega) s
          simp only [eq_congr_second_pass, run_bind, hat, hr]
          exact ih _ _ _ _ _ hks (by omega) (by omega)

/-- C32 (amended): let the guard of `try_auto_eq_congr` pass with a lemma that
has exactly as many argument kinds as `e` has arguments (the synthesizer
returns at most that many), and let no nested visit read outside a buffer.
Then the first pass reads no `args[i]` outside the arguments; when it returns,
it has recorded one result for every `Eq` kind, and the second pass returns
normally, so every `args[i]` and every `r_args[i_eq]` it reads is within
bounds. -/
theorem C32_index_safety (E : env σ τ) (vis : visit_type σ) (e : expr) (cl : congr_lemma)
    (s : state σ)
    (hguard : ¬ cl.arg_kinds.length < (get_app_args e).length)
    (hcontract : cl.arg_kinds.length ≤ (get_app_args e).length)
    (hvis : ∀ a p s, vis a p s ≠ .out_of_bounds) :
    eq_congr_first_pass vis e (get_app_args e) cl.arg_kinds 0 ⟨[], [], false, false, false⟩ s ≠
      .out_of_bounds ∧
    ∀ p s1,
      eq_congr_first_pass vis e (get_app_args e) cl.arg_kinds 0 ⟨[], [], false, false, false⟩ s =
        .ok p s1 →
      p.r_args.length = cl.arg_kinds.count congr_arg_kind.Eq ∧
      ∃ b, eq_congr_second_pass E s1.ctx s1.rel (get_app_args e) p.r_args cl.arg_kinds 0 0
        cl.proof cl.type [] s1 = .ok b s1 := by
  have h := eq_congr_first_pass_in_bounds vis e (get_app_args e) hvis cl.arg_kinds 0
    ⟨[], [], false, false, false⟩ s (by omega)
  refine ⟨h.1, fun p s1 hp => ?_⟩
  have h2 := h.2 p s1 hp
  simp only [List.length_nil, Nat.zero_add] at h2
  refine ⟨h2.1, ?_⟩
  exact eq_congr_second_pass_in_bounds E s1.ctx s1.rel (get_app_args e) p.r_args s1 cl.arg_kinds
    0 0 cl.proof cl.type [] h2.2 (by omega) (by omega)

/-- Witness of C32: the four kinds `Fixed`, `Eq`, `Cast`, `Eq` for the four
arguments of `f c a a b`. -/
theorem C32_index_safety_witness :
    eq_congr_first_pass log_visit (mk_app const_f [const_c, const_a, const_a, const_b])
        (get_app_args (mk_app const_f [const_c, const_a, const_a, const_b]))
        [congr_arg_kind.Fixed, congr_arg_kind.Eq, congr_arg_kind.Cast, congr_arg_kind.Eq] 0
        ⟨[], [], false, false, false⟩ log_state ≠ .out_of_bounds :=
  (C32_index_safety kinds_env log_visit (mk_app const_f [const_c, const_a, const_a, const_b])
    ⟨Constant "congr_type" [], Constant "congr_proof" [],
      [congr_arg_kind.Fixed, congr_arg_kind.Eq, congr_arg_kind.Cast, congr_arg_kind.Eq]⟩
    log_state (by decide) (by decide) (fun a p s h => by cases h)).1

/-- Counterexample to C32 as stated: for `f a` the synthesized lemma of
`kinds_env` has four argument kinds, so the guard passes (four is at least
one), and the first pass reads `args[1]` outside the one argument. -/
theorem C32_counterexample :
    kinds_env.mk_specialized_congr_simp log_state.ctx (App const_f const_a) =
      some ⟨Constant "congr_type" [], Constant "congr_proof" [],
        [congr_arg_kind.Fixed, congr_arg_kind.Eq, congr_arg_kind.Cast, congr_arg_kind.Eq]⟩ ∧
    ¬ ([congr_arg_kind.Fixed, congr_arg_kind.Eq, congr_arg_kind.Cast,
        congr_arg_kind.Eq].length < (get_app_args (App const_f const_a)).length) ∧
    (get_app_args (App const_f const_a)).get? 1 = none ∧
    try_auto_eq_congr kinds_env log_visit (App const_f const_a) log_state = .out_of_bounds :=
  ⟨rfl, by decide, by decide, rfl⟩

end Simplify

namespace LarSolver

/-! ## Bound tightening (C19) -/

theorem map_find_set {α : Type} (m : List (Nat × α)) (j : Nat) (a : α) :
    map_find (map_set m j a) j = some a := by
  induction m with
  | nil => simp [map_set, map_find]
  | cons kv m ih =>
      obtain ⟨k, v⟩ := kv
      unfold map_set
      by_cases h : k = j
      · simp [h, map_find]
      · simp [h, map_find, ih]

theorem try_to_set_fixed_upper (ci : column_info) :
    (try_to_set_fixed ci).1.upper_bound = ci.upper_bound ∧
    (try_to_set_fixed ci).1.upper_bound_strict = ci.upper_bound_strict ∧
    (try_to_set_fixed ci).1.low_bound = ci.low_bound ∧
    (try_to_set_fixed ci).1.low_bound_strict = ci.low_bound_strict := by
  unfold try_to_set_fixed
  split <;> exact ⟨rfl, rfl, rfl, rfl⟩

/-- The column that a bound update leaves for the additional variable of the
left side has the bounds and the strictness flags of the column it was
finished with. -/
theorem finish_bound_update_column (is_infeasible : column_info → Bool) (S : lar_solver)
    (ls : canonic_left_side) (ci : column_info) :
    ∃ ci1, map_find (finish_bound_update is_infeasible S ls ci).column_infos
        ls.additional_var_index = some ci1 ∧
      ci1.upper_bound = ci.upper_bound ∧ ci1.upper_bound_strict = ci.upper_bound_strict ∧
      ci1.low_bound = ci.low_bound ∧ ci1.low_bound_strict = ci.low_bound_strict := by
  unfold finish_bound_update
  split
  · exact ⟨ci, map_find_set _ _ _, rfl, rfl, rfl, rfl⟩
  · exact ⟨_, map_find_set _ _ _, try_to_set_fixed_upper ci⟩

/-- The upper bound update is sound unless the column already has the upper
bound `v`, not strict, and the constraint is strict: after
`set_upper_bound_for_column_info` every value admitted by the recorded upper
bound satisfies the constraint. -/
theorem set_upper_bound_sound (is_infeasible : column_info → Bool) (S S1 : lar_solver)
    (c : lar_normalized_constraint) (ci : column_info)
    (hci : map_find S.column_infos c.canonic_left_side.additional_var_index = some ci)
    (hok : ¬ (ci.upper_bound_is_set = true ∧ ci.upper_bound = c.right_side ∧
      ci.upper_bound_strict = false ∧ c.kind = lconstraint_kind.LT))
    (h : set_upper_bound_for_column_info is_infeasible S c = some S1) :
    ∃ ci1, map_find S1.column_infos c.canonic_left_side.additional_var_index = some ci1 ∧
      ∀ x, admits_upper ci1 x → satisfies_upper c.kind c.right_side x := by
  unfold set_upper_bound_for_column_info at h
  simp only [hci] at h
  have hnew : ∀ S0 : lar_solver,
      ∃ ci1, map_find (finish_bound_update is_infeasible S0 c.canonic_left_side
          ((ci.set_upper_bound c.right_side).set_upper_bound_strict
            (c.kind == lconstraint_kind.LT))).column_infos
          c.canonic_left_side.additional_var_index = some ci1 ∧
        ∀ x, admits_upper ci1 x → satisfies_upper c.kind c.right_side x := by
    intro S0
    obtain ⟨ci1, h1, h2, h3, _⟩ := finish_bound_update_column is_infeasible S0
      c.canonic_left_side ((ci.set_upper_bound c.right_side).set_upper_bound_strict
        (c.kind == lconstraint_kind.LT))
    refine ⟨ci1, h1, ?_⟩
    intro x hx
    unfold admits_upper at hx
    rw [h2, h3] at hx
    simp only [column_info.set_upper_bound, column_info.set_upper_bound_strict] at hx
    unfold satisfies_upper
    by_cases hk : c.kind = lconstraint_kind.LT
    · simp only [hk, beq_self_eq_true, if_true] at hx
      exact ⟨le_of_lt hx, fun _ => hx⟩
    · have hb : (c.kind == lconstraint_kind.LT) = false := by simpa using hk
      simp only [hb, Bool.false_eq_true, if_false] at hx
      exact ⟨hx, fun h => absurd h hk⟩
  split at h
  · cases h
    exact hnew _
  · split at h
    · cases h
      exact hnew _
    · rename_i hset hgt
      cases h
      obtain ⟨ci1, h1, h2, h3, _⟩ := finish_bound_update_column is_infeasible S
        c.canonic_left_side ci
      refine ⟨ci1, h1, ?_⟩
      intro x hx
      unfold admits_upper at hx
      rw [h2, h3] at hx
      have hle : ci.upper_bound ≤ c.right_side := not_lt.mp hgt
      have hs : ci.upper_bound_is_set = true := by simpa using hset
      unfold satisfies_upper
      by_cases hst : ci.upper_bound_strict = true
      · simp only [hst, if_true] at hx
        exact ⟨le_of_lt (lt_of_lt_of_le hx hle), fun _ => lt_of_lt_of_le hx hle⟩
      · have hsf : ci.upper_bound_strict = false := by simpa using hst
        simp only [hsf, Bool.false_eq_true, if_false] at hx
        refine ⟨le_trans hx hle, fun hk => ?_⟩
        rcases lt_or_eq_of_le hle with hlt | heq
        · exact lt_of_le_of_lt hx hlt
        · exact absurd ⟨hs, heq, hsf, hk⟩ hok

/-- Witness of `set_upper_bound_sound`: the bound `x ≤ 5` is tightened to
`x < 4`. -/
theorem set_upper_bound_sound_witness :
    ∃ ci1, map_find
        ({ weak_solver with
            column_infos := [(0, { weak_column with upper_bound := 4, upper_bound_strict := true })]
            upper_bound_witness := [(0, 7)] } : lar_solver).column_infos 0 = some ci1 ∧
      ∀ x, admits_upper ci1 x → satisfies_upper lconstraint_kind.LT 4 x :=
  set_upper_bound_sound (fun _ => false) weak_solver _ (sample_constraint .LT 4) weak_column rfl
    (by simp [weak_column, free_column_info, sample_constraint])
    (by
      simp [set_upper_bound_for_column_info, sample_constraint, weak_solver, map_find,
        weak_column, free_column_info, finish_bound_update, map_set, try_to_set_fixed,
        column_info.set_upper_bound, column_info.set_upper_bound_strict]
      norm_num)

/-- The lower bound update is sound unless the column already has the lower
bound `v`, not strict, and the constraint is strict. -/
theorem set_low_bound_sound (is_infeasible : column_info → Bool) (S S1 : lar_solver)
    (c : lar_normalized_constraint) (ci : column_info)
    (hci : map_find S.column_infos c.canonic_left_side.additional_var_index = some ci)
    (hok : ¬ (ci.low_bound_is_set = true ∧ ci.low_bound = c.right_side ∧
      ci.low_bound_strict = false ∧ c.kind = lconstraint_kind.GT))
    (h : set_low_bound_for_column_info is_infeasible S c = some S1) :
    ∃ ci1, map_find S1.column_infos c.canonic_left_side.additional_var_index = some ci1 ∧
      ∀ x, admits_low ci1 x → satisfies_low c.kind c.right_side x := by
  unfold set_low_bound_for_column_info at h
  simp only [hci] at h
  have hnew : ∀ S0 : lar_solver,
      ∃ ci1, map_find (finish_bound_update is_infeasible S0 c.canonic_left_side
          ((ci.set_low_bound c.right_side).set_low_bound_strict
            (c.kind == lconstraint_kind.GT))).column_infos
          c.canonic_left_side.additional_var_index = some ci1 ∧
        ∀ x, admits_low ci1 x → satisfies_low c.kind c.right_side x := by
    intro S0
    obtain ⟨ci1, h1, _, _, h2, h3⟩ := finish_bound_update_column is_infeasible S0
      c.canonic_left_side ((ci.set_low_bound c.right_side).set_low_bound_strict
        (c.kind == lconstraint_kind.GT))
    refine ⟨ci1, h1, ?_⟩
    intro x hx
    unfold admits_low at hx
    rw [h2, h3] at hx
    simp only [column_info.set_low_bound, column_info.set_low_bound_strict] at hx
    unfold satisfies_low
    by_cases hk : c.kind = lconstraint_kind.GT
    · simp only [hk, beq_self_eq_true, if_true] at hx
      exact ⟨le_of_lt hx, fun _ => hx⟩
    · have hb : (c.kind == lconstraint_kind.GT) = false := by simpa using hk
      simp only [hb, Bool.false_eq_true, if_false] at hx
      exact ⟨hx, fun h => absurd h hk⟩
  split at h
  · cases h
    exact hnew _
  · split at h
    · cases h
      exact hnew _
    · rename_i hset hgt
      cases h
      obtain ⟨ci1, h1, _, _, h2, h3⟩ := finish_bound_update_column is_infeasible S
        c.canonic_left_side ci
      refine ⟨ci1, h1, ?_⟩
      intro x hx
      unfold admits_low at hx
      rw [h2, h3] at hx
      have hle : c.right_side ≤ ci.low_bound := not_lt.mp hgt
      have hs : ci.low_bound_is_set = true := by simpa using hset
      unfold satisfies_low
      by_cases hst : ci.low_bound_strict = true
      · simp only [hst, if_true] at hx
        exact ⟨le_of_lt (lt_of_le_of_lt hle hx), fun _ => lt_of_le_of_lt hle hx⟩
      · have hsf : ci.low_bound_strict = false := by simpa using hst
        simp only [hsf, Bool.false_eq_true, if_false] at hx
        refine ⟨le_trans hle hx, fun hk => ?_⟩
        rcases lt_or_eq_of_le hle with hlt | heq
        · exact lt_of_lt_of_le hlt hx
        · exact absurd ⟨hs, heq.symm, hsf, hk⟩ hok

theorem try_to_set_fixed_bounds (ci : column_info) :
    (try_to_set_fixed ci).1.upper_bound_is_set = ci.upper_bound_is_set ∧
    (try_to_set_fixed ci).1.low_bound_is_set = ci.low_bound_is_set := by
  unfold try_to_set_fixed
  split <;> exact ⟨rfl, rfl⟩

/-- The column that a bound update leaves has the bounds, the strictness flags
and the marks "set" of the column it was finished with. -/
theorem finish_bound_update_bounds (is_infeasible : column_info → Bool) (S : lar_solver)
    (ls : canonic_left_side) (ci : column_info) :
    ∃ ci1, map_find (finish_bound_update is_infeasible S ls ci).column_infos
        ls.additional_var_index = some ci1 ∧
      ci1.upper_bound = ci.upper_bound ∧ ci1.upper_bound_strict = ci.upper_bound_strict ∧
      ci1.upper_bound_is_set = ci.upper_bound_is_set ∧
      ci1.low_bound = ci.low_bound ∧ ci1.low_bound_strict = ci.low_bound_strict ∧
      ci1.low_bound_is_set = ci.low_bound_is_set := by
  unfold finish_bound_update
  split
  · exact ⟨ci, map_find_set _ _ _, rfl, rfl, rfl, rfl, rfl, rfl⟩
  · have h1 := try_to_set_fixed_upper ci
    have h2 := try_to_set_fixed_bounds ci
    exact ⟨_, map_find_set _ _ _, h1.1, h1.2.1, h2.1, h1.2.2.1, h1.2.2.2, h2.2⟩

/-- An upper bound update with the right side that is already recorded leaves
the bound and its strictness flag as they are, whatever the kind. -/
theorem set_upper_bound_equal (is_infeasible : column_info → Bool) (S : lar_solver)
    (c : lar_normalized_constraint) (ci : column_info)
    (hci : map_find S.column_infos c.canonic_left_side.additional_var_index = some ci)
    (hset : ci.upper_bound_is_set = true) (heq : ci.upper_bound = c.right_side) :
    ∃ S1 ci1, set_upper_bound_for_column_info is_infeasible S c = some S1 ∧
      map_find S1.column_infos c.canonic_left_side.additional_var_index = some ci1 ∧
      ci1.upper_bound = ci.upper_bound ∧ ci1.upper_bound_strict = ci.upper_bound_strict := by
  obtain ⟨ci1, h1, h2, h3, _⟩ := finish_bound_update_bounds is_infeasible S
    c.canonic_left_side ci
  refine ⟨_, ci1, ?_, h1, h2, h3⟩
  unfold set_upper_bound_for_column_info
  simp only [hci, hset, Bool.not_true, Bool.false_eq_true, if_false, heq, gt_iff_lt, lt_self_iff_false]

/-- A lower bound update with the right side that is already recorded leaves
the bound and its strictness flag as they are, whatever the kind. -/
theorem set_low_bound_equal (is_infeasible : column_info → Bool) (S : lar_solver)
    (c : lar_normalized_constraint) (ci : column_info)
    (hci : map_find S.column_infos c.canonic_left_side.additional_var_index = some ci)
    (hset : ci.low_bound_is_set = true) (heq : ci.low_bound = c.right_side) :
    ∃ S1 ci1, set_low_bound_for_column_info is_infeasible S c = some S1 ∧
      map_find S1.column_infos c.canonic_left_side.additional_var_index = some ci1 ∧
      ci1.low_bound = ci.low_bound ∧ ci1.low_bound_strict = ci.low_bound_strict := by
  obtain ⟨ci1, h1, _, _, _, h2, h3, _⟩ := finish_bound_update_bounds is_infeasible S
    c.canonic_left_side ci
  refine ⟨_, ci1, ?_, h1, h2, h3⟩
  unfold set_low_bound_for_column_info
  simp only [hci, hset, Bool.not_true, Bool.false_eq_true, if_false, heq, lt_self_iff_false]

/-- C19, the failing input: on a column without bounds the constraint `x ≤ 5`
is recorded and then the strict constraint `x < 5`.  For the second one the
test `ci.get_upper_bound() > v` fails, so the column keeps the bound `5` with
the flag "not strict": the value `5` is admitted by the recorded bound and
violates the constraint `x < 5`.  The same happens to the lower bound with
`x ≥ 3` followed by `x > 3`. -/
theorem C19_strictness_lost (is_infeasible : column_info → Bool) :
    (∃ S1 S2 ci2,
      set_upper_bound_for_column_info is_infeasible free_solver
        (sample_constraint lconstraint_kind.LE 5) = some S1 ∧
      set_upper_bound_for_column_info is_infeasible S1
        (sample_constraint lconstraint_kind.LT 5) = some S2 ∧
      map_find S2.column_infos 0 = some ci2 ∧ ci2.upper_bound = 5 ∧
      ci2.upper_bound_strict = false ∧ admits_upper ci2 5 ∧
      ¬ satisfies_upper lconstraint_kind.LT 5 5) ∧
    (∃ S1 S2 ci2,
      set_low_bound_for_column_info is_infeasible free_solver
        (sample_constraint lconstraint_kind.GE 3) = some S1 ∧
      set_low_bound_for_column_info is_infeasible S1
        (sample_constraint lconstraint_kind.GT 3) = some S2 ∧
      map_find S2.column_infos 0 = some ci2 ∧ ci2.low_bound = 3 ∧
      ci2.low_bound_strict = false ∧ admits_low ci2 3 ∧
      ¬ satisfies_low lconstraint_kind.GT 3 3) := by
  constructor
  · have hrun : set_upper_bound_for_column_info is_infeasible free_solver
        (sample_constraint lconstraint_kind.LE 5) =
        some (finish_bound_update is_infeasible
          { free_solver with upper_bound_witness := [(0, 7)] }
          (sample_constraint lconstraint_kind.LE 5).canonic_left_side
          ((free_column_info.set_upper_bound 5).set_upper_bound_strict false)) := by
      simp only [set_upper_bound_for_column_info, sample_constraint, free_solver, map_find,
        free_column_info, map_set, if_true, Bool.not_false]
      rfl
    obtain ⟨ci1, h1, h2, h3, h4, _⟩ := finish_bound_update_bounds is_infeasible
      { free_solver with upper_bound_witness := [(0, 7)] }
      (sample_constraint lconstraint_kind.LE 5).canonic_left_side
      ((free_column_info.set_upper_bound 5).set_upper_bound_strict false)
    obtain ⟨S2, ci2, g1, g2, g3, g4⟩ := set_upper_bound_equal is_infeasible _
      (sample_constraint lconstraint_kind.LT 5) ci1 h1 (by rw [h4]; rfl) (by rw [h2]; rfl)
    have hb : ci2.upper_bound = 5 := by rw [g3, h2]; rfl
    have hs : ci2.upper_bound_strict = false := by rw [g4, h3]; rfl
    refine ⟨_, S2, ci2, hrun, g1, g2, hb, hs, ?_, ?_⟩
    · unfold admits_upper
      rw [hb, hs]
      simp
    · simp [satisfies_upper]
  · have hrun : set_low_bound_for_column_info is_infeasible free_solver
        (sample_constraint lconstraint_kind.GE 3) =
        some (finish_bound_update is_infeasible
          { free_solver with low_bound_witness := [(0, 7)] }
          (sample_constraint lconstraint_kind.GE 3).canonic_left_side
          ((free_column_info.set_low_bound 3).set_low_bound_strict false)) := by
      simp only [set_low_bound_for_column_info, sample_constraint, free_solver, map_find,
        free_column_info, map_set, if_true, Bool.not_false]
      rfl
    obtain ⟨ci1, h1, _, _, _, h2, h3, h4⟩ := finish_bound_update_bounds is_infeasible
      { free_solver with low_bound_witness := [(0, 7)] }
      (sample_constraint lconstraint_kind.GE 3).canonic_left_side
      ((free_column_info.set_low_bound 3).set_low_bound_strict false)
    obtain ⟨S2, ci2, g1, g2, g3, g4⟩ := set_low_bound_equal is_infeasible _
      (sample_constraint lconstraint_kind.GT 3) ci1 h1 (by rw [h4]; rfl) (by rw [h2]; rfl)
    have hb : ci2.low_bound = 3 := by rw [g3, h2]; rfl
    have hs : ci2.low_bound_strict = false := by rw [g4, h3]; rfl
    refine ⟨_, S2, ci2, hrun, g1, g2, hb, hs, ?_, ?_⟩
    · unfold admits_low
      rw [hb, hs]
      simp
    · simp [satisfies_low]

/-! ## Checking a constraint (C20) -/

theorem get_left_side_val_foldl (m : var_index → mpq) (var_map : List (var_index × mpq))
    (left_side : List (var_index × mpq)) :
    ∀ acc : mpq, (∀ it ∈ left_side, map_find var_map it.1 = some (m it.1)) →
      left_side.foldl
        (fun ret it =>
          match ret, map_find var_map it.1 with
          | some r, some x => some (r + it.2 * x)
          | _, _ => none)
        (some acc) = some (acc + left_side_sum left_side m) := by
  induction left_side with
  | nil =>
      intro acc _
      simp [left_side_sum]
  | cons it rest ih =>
      intro acc h
      simp only [List.foldl_cons, h it (List.mem_cons_self _ _)]
      rw [ih _ (fun x hx => h x (List.mem_cons_of_mem _ hx))]
      simp only [left_side_sum, List.map_cons, List.sum_cons]
      congr 1
      ring

/-- For a model that is defined on all variables of the constraint,
`get_left_side_val` is the sum of coefficient times value, and
`constraint_holds` compares it with the right side: exactly as the constraint
says for `LE`, `GE` and `EQ`, with `≤` for `LT` and with `≥` for `GT`. -/
theorem constraint_holds_spec (constr : lar_constraint) (var_map : List (var_index × mpq))
    (m : var_index → mpq)
    (hm : ∀ it ∈ constr.left_side, map_find var_map it.1 = some (m it.1)) :
    get_left_side_val constr var_map = some (left_side_sum constr.left_side m) ∧
    (constr.kind ≠ lconstraint_kind.LT → constr.kind ≠ lconstraint_kind.GT →
      (constraint_holds constr var_map = some true ↔
        kind_holds constr.kind (left_side_sum constr.left_side m) constr.right_side)) ∧
    (constr.kind = lconstraint_kind.LT →
      (constraint_holds constr var_map = some true ↔
        left_side_sum constr.left_side m ≤ constr.right_side)) ∧
    (constr.kind = lconstraint_kind.GT →
      (constraint_holds constr var_map = some true ↔
        left_side_sum constr.left_side m ≥ constr.right_side)) := by
  have hv : get_left_side_val constr var_map = some (left_side_sum constr.left_side m) := by
    unfold get_left_side_val
    rw [get_left_side_val_foldl m var_map constr.left_side 0 hm]
    simp
  refine ⟨hv, ?_, ?_, ?_⟩
  · intro h1 h2
    unfold constraint_holds
    rw [hv]
    cases hk : constr.kind <;> simp_all [kind_holds]
  · intro hk
    unfold constraint_holds
    rw [hv]
    simp [hk]
  · intro hk
    unfold constraint_holds
    rw [hv]
    simp [hk]

/-- Witness of `constraint_holds_spec`: the constraint `2 x₁ ≤ 5` under the
model `x₁ = 2`. -/
theorem constraint_holds_spec_witness :
    constraint_holds { left_side := [(1, 2)], kind := .LE, right_side := 5, index := 0 }
        [(1, 2)] = some true ↔
      kind_holds lconstraint_kind.LE (left_side_sum [(1, 2)] (fun _ => 2)) 5 :=
  (constraint_holds_spec { left_side := [(1, 2)], kind := .LE, right_side := 5, index := 0 }
    [(1, 2)] (fun _ => 2) (by simp [map_find])).2.1 (by decide) (by decide)

/-- C20, the failing input: the constraint `x₁ < 5` and the model `x₁ = 5`.
The left side has the value `5`, which is not strictly less than `5`, and
`constraint_holds` returns true; likewise for `x₁ > 5`. -/
theorem C20_strict_constraint_accepted :
    constraint_holds { left_side := [(1, 1)], kind := .LT, right_side := 5, index := 0 }
        [(1, 5)] = some true ∧
    get_left_side_val { left_side := [(1, 1)], kind := .LT, right_side := 5, index := 0 }
        [(1, 5)] = some 5 ∧
    ¬ kind_holds lconstraint_kind.LT 5 5 ∧
    constraint_holds { left_side := [(1, 1)], kind := .GT, right_side := 5, index := 0 }
        [(1, 5)] = some true ∧
    ¬ kind_holds lconstraint_kind.GT 5 5 := by
  refine ⟨?_, ?_, ?_, ?_, ?_⟩ <;>
    simp [constraint_holds, get_left_side_val, map_find, kind_holds]

/-! ## The delta for strict bounds (C33) -/

theorem restrict_delta_low_spec (P : lar_core_solver_params) (delta : mpq) (j : Nat)
    (x l : numeric_pair) (hx : P.x.get? j = some x) (hl : P.low_bounds.get? j = some l)
    (hr : respects_low x l) (hd : 0 < delta) :
    ∃ d, restrict_delta_on_low_bound_column P delta j = .ok d ∧ 0 < d ∧ d ≤ delta ∧
      ∀ d1, 0 < d1 → d1 ≤ d → l.x ≤ x.x + d1 * x.y ∧ (l.x < x.x → l.x < x.x + d1 * x.y) := by
  unfold restrict_delta_on_low_bound_column
  rw [hx, hl]
  simp only
  by_cases h1 : x.x = l.x
  · rw [if_pos h1]
    have hy : 0 ≤ x.y := by
      rcases hr with hr | hr
      · rw [h1] at hr; exact absurd hr (lt_irrefl _)
      · exact hr.2
    refine ⟨delta, rfl, hd, le_refl _, fun d1 hd1 _ => ?_⟩
    have : 0 ≤ d1 * x.y := mul_nonneg (le_of_lt hd1) hy
    refine ⟨by rw [h1]; linarith, fun h => ?_⟩
    rw [h1] at h
    exact absurd h (lt_irrefl _)
  · rw [if_neg h1]
    have hlt : l.x < x.x := by
      rcases hr with hr | hr
      · exact hr
      · exact absurd hr.1 h1
    by_cases h2 : x.y ≥ 0
    · rw [if_pos h2]
      refine ⟨delta, rfl, hd, le_refl _, fun d1 hd1 _ => ?_⟩
      have : 0 ≤ d1 * x.y := mul_nonneg (le_of_lt hd1) h2
      exact ⟨by linarith, fun _ => by linarith⟩
    · rw [if_neg h2]
      have hy : x.y < 0 := lt_of_not_ge h2
      have hne : 2 * x.y ≠ 0 := by linarith
      have hq : 0 < (l.x - x.x) / (2 * x.y) :=
        div_pos_of_neg_of_neg (by linarith) (by linarith)
      simp only [mpq_div, hne, if_false]
      refine ⟨min delta ((l.x - x.x) / (2 * x.y)), rfl, lt_min hd hq, min_le_left _ _,
        fun d1 hd1 hle => ?_⟩
      have hle1 : d1 ≤ (l.x - x.x) / (2 * x.y) := le_trans hle (min_le_right _ _)
      have hmul : d1 * (2 * x.y) ≥ l.x - x.x := by
        have := (le_div_iff_of_neg (by linarith : 2 * x.y < 0)).mp hle1
        linarith
      have hstrict : l.x < x.x + d1 * x.y := by nlinarith
      exact ⟨le_of_lt hstrict, fun _ => hstrict⟩

theorem restrict_delta_upper_spec (P : lar_core_solver_params) (delta : mpq) (j : Nat)
    (x u : numeric_pair) (hx : P.x.get? j = some x) (hu : P.upper_bounds.get? j = some u)
    (hr : respects_upper x u) (hd : 0 < delta) :
    ∃ d, restrict_delta_on_upper_bound P delta j = .ok d ∧ 0 < d ∧ d ≤ delta ∧
      ∀ d1, 0 < d1 → d1 ≤ d → x.x + d1 * x.y ≤ u.x ∧ (x.x < u.x → x.x + d1 * x.y < u.x) := by
  unfold restrict_delta_on_upper_bound
  rw [hx, hu]
  simp only
  by_cases h1 : x.x = u.x
  · rw [if_pos h1]
    have hy : x.y ≤ 0 := by
      rcases hr with hr | hr
      · rw [h1] at hr; exact absurd hr (lt_irrefl _)
      · exact hr.2
    refine ⟨delta, rfl, hd, le_refl _, fun d1 hd1 _ => ?_⟩
    have : d1 * x.y ≤ 0 := mul_nonpos_of_nonneg_of_nonpos (le_of_lt hd1) hy
    refine ⟨by rw [h1]; linarith, fun h => ?_⟩
    rw [h1] at h
    exact absurd h (lt_irrefl _)
  · rw [if_neg h1]
    have hlt : x.x < u.x := by
      rcases hr with hr | hr
      · exact hr
      · exact absurd hr.1 h1
    by_cases h2 : x.y ≤ 0
    · rw [if_pos h2]
      refine ⟨delta, rfl, hd, le_refl _, fun d1 hd1 _ => ?_⟩
      have : d1 * x.y ≤ 0 := mul_nonpos_of_nonneg_of_nonpos (le_of_lt hd1) h2
      exact ⟨by linarith, fun _ => by linarith⟩
    · rw [if_neg h2]
      have hy : 0 < x.y := lt_of_not_ge h2
      have hne : 2 * x.y ≠ 0 := by linarith
      have hq : 0 < (u.x - x.x) / (2 * x.y) := div_pos (by linarith) (by linarith)
      simp only [mpq_div, hne, if_false]
      refine ⟨min delta ((u.x - x.x) / (2 * x.y)), rfl, lt_min hd hq, min_le_left _ _,
        fun d1 hd1 hle => ?_⟩
      have hle1 : d1 ≤ (u.x - x.x) / (2 * x.y) := le_trans hle (min_le_right _ _)
      have hmul : d1 * (2 * x.y) ≤ u.x - x.x :=
        (le_div_iff₀ (by linarith : 0 < 2 * x.y)).mp hle1
      have hstrict : x.x + d1 * x.y < u.x := by nlinarith
      exact ⟨le_of_lt hstrict, fun _ => hstrict⟩

theorem restrict_delta_low_no_division_by_zero (P : lar_core_solver_params) (delta : mpq)
    (j : Nat) : restrict_delta_on_low_bound_column P delta j ≠ .error .division_by_zero := by
  unfold restrict_delta_on_low_bound_column
  cases hx : P.x.get? j with
  | none => simp
  | some x =>
      cases hl : P.low_bounds.get? j with
      | none => simp
      | some l =>
          simp only
          by_cases h1 : x.x = l.x
          · simp [h1]
          · rw [if_neg h1]
            by_cases h2 : x.y ≥ 0
            · simp [h2]
            · rw [if_neg h2]
              have hne : 2 * x.y ≠ 0 := by
                have := lt_of_not_ge h2
                linarith
              simp [mpq_div, hne]

theorem restrict_delta_upper_no_division_by_zero (P : lar_core_solver_params) (delta : mpq)
    (j : Nat) : restrict_delta_on_upper_bound P delta j ≠ .error .division_by_zero := by
  unfold restrict_delta_on_upper_bound
  cases hx : P.x.get? j with
  | none => simp
  | some x =>
      cases hu : P.upper_bounds.get? j with
      | none => simp
      | some u =>
          simp only
          by_cases h1 : x.x = u.x
          · simp [h1]
          · rw [if_neg h1]
            by_cases h2 : x.y ≤ 0
            · simp [h2]
            · rw [if_neg h2]
              have hne : 2 * x.y ≠ 0 := by
                have := lt_of_not_ge h2
                linarith
              simp [mpq_div, hne]

theorem find_delta_step_no_division_by_zero (get_column_index : column_info → Nat)
    (D : lar_solver_ext) (delta : mpq) (t : canonic_left_side) :
    find_delta_step get_column_index D delta t ≠ .error .division_by_zero := by
  unfold find_delta_step get_column_info_from_var_index
  cases map_find D.column_infos t.additional_var_index with
  | none => simp
  | some ci =>
      simp only
      cases hlow : ci.low_bound_is_set
      · simp only [Bool.false_eq_true, if_false]
        cases ci.upper_bound_is_set
        · simp
        · simp only [if_true]
          exact restrict_delta_upper_no_division_by_zero _ _ _
      · simp only [if_true]
        cases h1 : restrict_delta_on_low_bound_column D.lar_core_solver_params delta
            (get_column_index ci) with
        | error err =>
            simp only [ne_eq, Except.error.injEq]
            intro h
            rw [h] at h1
            exact restrict_delta_low_no_division_by_zero _ _ _ h1
        | ok d1 =>
            simp only
            cases ci.upper_bound_is_set
            · simp
            · simp only [if_true]
              exact restrict_delta_upper_no_division_by_zero _ _ _

theorem find_delta_loop_no_division_by_zero (get_column_index : column_info → Nat)
    (D : lar_solver_ext) : ∀ (ts : List canonic_left_side) (delta : mpq),
    find_delta_loop get_column_index D ts delta ≠ .error .division_by_zero := by
  intro ts
  induction ts with
  | nil => intro delta; simp [find_delta_loop]
  | cons t ts ih =>
      intro delta
      unfold find_delta_loop
      cases h : find_delta_step get_column_index D delta t with
      | error err =>
          simp only [ne_eq, Except.error.injEq]
          intro he
          rw [he] at h
          exact find_delta_step_no_division_by_zero _ _ _ _ h
      | ok d1 => exact ih d1

theorem find_delta_step_spec (get_column_index : column_info → Nat) (D : lar_solver_ext)
    (delta : mpq) (t : canonic_left_side)
    (ht : column_respects_bounds get_column_index D t) (hd : 0 < delta) :
    ∃ d, find_delta_step get_column_index D delta t = .ok d ∧ 0 < d ∧ d ≤ delta ∧
      ∀ d1, 0 < d1 → d1 ≤ d → column_within_bounds get_column_index D d1 t := by
  obtain ⟨ci, x, hci, hx, hlow, hup⟩ := ht
  unfold find_delta_step get_column_info_from_var_index
  rw [hci]
  simp only
  have hlowstep : ∃ d, (if ci.low_bound_is_set = true then
        restrict_delta_on_low_bound_column D.lar_core_solver_params delta (get_column_index ci)
      else .ok delta) = .ok d ∧ 0 < d ∧ d ≤ delta ∧
      ∀ d1, 0 < d1 → d1 ≤ d → ci.low_bound_is_set = true →
        ∀ l, D.lar_core_solver_params.low_bounds.get? (get_column_index ci) = some l →
          l.x ≤ x.x + d1 * x.y ∧ (l.x < x.x → l.x < x.x + d1 * x.y) := by
    by_cases hset : ci.low_bound_is_set = true
    · obtain ⟨l, hl, hr⟩ := hlow hset
      obtain ⟨d, h1, h2, h3, h4⟩ := restrict_delta_low_spec D.lar_core_solver_params delta
        (get_column_index ci) x l hx hl hr hd
      refine ⟨d, by rw [if_pos hset]; exact h1, h2, h3, fun d1 hd1 hle _ l1 hl1 => ?_⟩
      rw [hl] at hl1
      cases hl1
      exact h4 d1 hd1 hle
    · refine ⟨delta, by rw [if_neg hset], hd, le_refl _, fun d1 _ _ h => absurd h hset⟩
  obtain ⟨d, h1, h2, h3, h4⟩ := hlowstep
  rw [h1]
  simp only
  by_cases hset : ci.upper_bound_is_set = true
  · obtain ⟨u, hu, hr⟩ := hup hset
    obtain ⟨d2, g1, g2, g3, g4⟩ := restrict_delta_upper_spec D.lar_core_solver_params d
      (get_column_index ci) x u hx hu hr h2
    refine ⟨d2, by rw [if_pos hset]; exact g1, g2, le_trans g3 h3, fun d1 hd1 hle => ?_⟩
    intro ci1 x1 hci1 hx1
    rw [hci] at hci1
    cases hci1
    rw [hx] at hx1
    cases hx1
    refine ⟨h4 d1 hd1 (le_trans hle g3), fun _ u1 hu1 => ?_⟩
    rw [hu] at hu1
    cases hu1
    exact g4 d1 hd1 hle
  · refine ⟨d, by rw [if_neg hset], h2, h3, fun d1 hd1 hle => ?_⟩
    intro ci1 x1 hci1 hx1
    rw [hci] at hci1
    cases hci1
    rw [hx] at hx1
    cases hx1
    exact ⟨h4 d1 hd1 hle, fun h => absurd h hset⟩

theorem find_delta_loop_spec (get_column_index : column_info → Nat) (D : lar_solver_ext) :
    ∀ (ts : List canonic_left_side) (delta : mpq),
      (∀ t ∈ ts, column_respects_bounds get_column_index D t) → 0 < delta →
      ∃ d, find_delta_loop get_column_index D ts delta = .ok d ∧ 0 < d ∧ d ≤ delta ∧
        ∀ d1, 0 < d1 → d1 ≤ d → ∀ t ∈ ts, column_within_bounds get_column_index D d1 t := by
  intro ts
  induction ts with
  | nil =>
      intro delta _ hd
      exact ⟨delta, rfl, hd, le_refl _, fun d1 _ _ t ht => by cases ht⟩
  | cons t ts ih =>
      intro delta hts hd
      obtain ⟨d, h1, h2, h3, h4⟩ := find_delta_step_spec get_column_index D delta t
        (hts t (List.mem_cons_self _ _)) hd
      obtain ⟨d2, g1, g2, g3, g4⟩ := ih d (fun u hu => hts u (List.mem_cons_of_mem _ hu)) h2
      refine ⟨d2, ?_, g2, le_trans g3 h3, fun d1 hd1 hle u hu => ?_⟩
      · unfold find_delta_loop
        rw [h1]
        exact g1
      · rcases List.mem_cons.mp hu with rfl | hu
        · exact h4 d1 hd1 (le_trans hle g3)
        · exact g4 d1 hd1 hle u hu

/-- C33: let every left side have a column whose index is within the vectors
and whose solution pair respects the bounds that are set, as the code asserts.
Then `find_delta_for_strict_bounds` returns a rational `delta` with
`0 < delta ≤ 1` such that for every column with a low bound
`l.x ≤ x.x + delta·x.y`, strictly when `l.x < x.x`, and for every column with
an upper bound `x.x + delta·x.y ≤ u.x`, strictly when `x.x < u.x`.  No call of
`find_delta_for_strict_bounds` divides by zero. -/
theorem C33_delta_for_strict_bounds (get_column_index : column_info → Nat) (D : lar_solver_ext)
    (h : ∀ t ∈ D.set_of_canonic_left_sides, column_respects_bounds get_column_index D t) :
    (∃ delta, find_delta_for_strict_bounds get_column_index D = .ok delta ∧
      0 < delta ∧ delta ≤ 1 ∧
      ∀ t ∈ D.set_of_canonic_left_sides, column_within_bounds get_column_index D delta t) ∧
    (∀ (D1 : lar_solver_ext),
      find_delta_for_strict_bounds get_column_index D1 ≠ .error .division_by_zero) := by
  constructor
  · obtain ⟨d, h1, h2, h3, h4⟩ := find_delta_loop_spec get_column_index D
      D.set_of_canonic_left_sides 1 h one_pos
    exact ⟨d, h1, h2, h3, h4 d h2 (le_refl _)⟩
  · intro D1
    exact find_delta_loop_no_division_by_zero get_column_index D1 _ _

theorem delta_solver_respects_bounds :
    ∀ t ∈ delta_solver.set_of_canonic_left_sides,
      column_respects_bounds (fun _ => 0) delta_solver t := by
  intro t ht
  simp only [delta_solver, List.mem_singleton] at ht
  subst ht
  refine ⟨weak_column, ⟨4, -2⟩, ?_, rfl, fun _ => ⟨⟨3, 0⟩, rfl, Or.inl ?_⟩,
    fun _ => ⟨⟨5, 0⟩, rfl, Or.inl ?_⟩⟩
  · simp [delta_solver, map_find]
  · norm_num
  · norm_num

/-- Witness of C33: for the column with the bounds `3` and `5` and the solution
pair `4 - 2ε` a delta exists, and the value of the column is strictly within
the bounds. -/
theorem C33_delta_for_strict_bounds_witness :
    ∃ delta, find_delta_for_strict_bounds (fun _ => 0) delta_solver = .ok delta ∧
      0 < delta ∧ delta ≤ 1 ∧
      ∀ t ∈ delta_solver.set_of_canonic_left_sides,
        column_within_bounds (fun _ => 0) delta_solver delta t :=
  (C33_delta_for_strict_bounds (fun _ => 0) delta_solver delta_solver_respects_bounds).1

/-- The delta of the sample solver is `1/4`: the low bound `3` restricts it to
`(3 - 4) / (2 · (-2))`, the upper bound `5` does not restrict it. -/
theorem find_delta_for_strict_bounds_sample :
    find_delta_for_strict_bounds (fun _ => 0) delta_solver = .ok (1 / 4) := by
  simp only [find_delta_for_strict_bounds, delta_solver, find_delta_loop, find_delta_step,
    get_column_info_from_var_index, map_find, if_true, weak_column, free_column_info,
    restrict_delta_on_low_bound_column, restrict_delta_on_upper_bound, List.get?_cons_zero,
    mpq_div]
  norm_num

/-! ## Constraint normalization (C34) -/

theorem kind_holds_ratio (kind : lconstraint_kind) (r rhs L : mpq) (hr : r ≠ 0) :
    kind_holds kind (r * L) rhs ↔
      kind_holds (if r < 0 then flip_kind kind else kind) L (rhs / r) := by
  rcases lt_or_gt_of_ne hr with hneg | hpos
  · rw [if_pos hneg]
    cases kind <;> simp only [kind_holds, flip_kind, ge_iff_le, gt_iff_lt]
    · rw [div_le_iff_of_neg hneg]
      constructor <;> intro h <;> linarith
    · rw [div_lt_iff_of_neg hneg]
      constructor <;> intro h <;> linarith
    · rw [le_div_iff_of_neg hneg]
      constructor <;> intro h <;> linarith
    · rw [lt_div_iff_of_neg hneg]
      constructor <;> intro h <;> linarith
    · rw [eq_div_iff hr]
      constructor <;> intro h <;> linarith
  · have hnot : ¬ r < 0 := not_lt.mpr (le_of_lt hpos)
    rw [if_neg hnot]
    cases kind <;> simp only [kind_holds, ge_iff_le, gt_iff_lt]
    · rw [le_div_iff₀ hpos]
      constructor <;> intro h <;> linarith
    · rw [lt_div_iff₀ hpos]
      constructor <;> intro h <;> linarith
    · rw [div_le_iff₀ hpos]
      constructor <;> intro h <;> linarith
    · rw [div_lt_iff₀ hpos]
      constructor <;> intro h <;> linarith
    · rw [eq_div_iff hr]
      constructor <;> intro h <;> linarith

/-- C34: let the ratio `r` of the original constraint to the canonic left side
be found and not zero.  Then `add_constraint` returns the index of the new
constraint and stores under it a normalized constraint with the ratio `r`, the
kind `flip_kind(kind)` if `r` is negative and `kind` otherwise, and the right
side `rhs / r`; for every value `L` of the canonic left side the original
constraint holds of `r·L` if and only if the normalized constraint holds of
`L`. -/
theorem C34_constraint_normalization
    (mk_coeffs : List (mpq × var_index) → List (mpq × var_index))
    (mk_left_side : List (mpq × var_index) → List (var_index × mpq)) (D : lar_solver_ext)
    (left_side : List (mpq × var_index)) (kind : lconstraint_kind) (rhs r : mpq)
    (hr : find_ratio_of_original_constraint_to_normalized
      (create_or_fetch_existing_left_side mk_coeffs
        { D with available_constr_index := (D.available_constr_index + 1) % 4294967296 }
        left_side).1
      ⟨mk_left_side left_side, kind, rhs, D.available_constr_index⟩ = .ok r)
    (hr0 : r ≠ 0) :
    ∃ D1 nc,
      add_constraint mk_coeffs mk_left_side D left_side kind rhs =
        .ok (D.available_constr_index, D1) ∧
      map_find D1.normalized_constraints D.available_constr_index = some nc ∧
      nc.ratio_to_original = r ∧
      nc.kind = (if r < 0 then flip_kind kind else kind) ∧
      nc.right_side = rhs / r ∧
      nc.origin_constraint = ⟨mk_left_side left_side, kind, rhs, D.available_constr_index⟩ ∧
      ∀ L : mpq, kind_holds kind (r * L) rhs ↔ kind_holds nc.kind L nc.right_side := by
  have hrun : add_constraint mk_coeffs mk_left_side D left_side kind rhs =
      .ok (D.available_constr_index,
        { (create_or_fetch_existing_left_side mk_coeffs
            { D with available_constr_index := (D.available_constr_index + 1) % 4294967296 }
            left_side).2 with
          normalized_constraints :=
            map_set (create_or_fetch_existing_left_side mk_coeffs
              { D with available_constr_index := (D.available_constr_index + 1) % 4294967296 }
              left_side).2.normalized_constraints D.available_constr_index
              ⟨(create_or_fetch_existing_left_side mk_coeffs
                { D with
                  available_constr_index := (D.available_constr_index + 1) % 4294967296 }
                left_side).1, r, if r < 0 then flip_kind kind else kind, rhs / r,
                ⟨mk_left_side left_side, kind, rhs, D.available_constr_index⟩,
                D.available_constr_index⟩ }) := by
    unfold add_constraint
    simp only [hr, mpq_div, hr0, if_false]
  exact ⟨_, _, hrun, map_find_set _ _ _, rfl, rfl, rfl, rfl,
    fun L => kind_holds_ratio kind r rhs L hr0⟩

/-- Witness of C34: for `-2·x₁ ≤ 6` the ratio to the canonic left side `x₁` is
`-2`, and the normalized constraint is `x₁ ≥ -3`. -/
theorem C34_constraint_normalization_witness :
    ∃ D1 nc,
      add_constraint sample_mk_coeffs sample_mk_left_side empty_solver [(-2, 1)]
        lconstraint_kind.LE 6 = .ok (empty_solver.available_constr_index, D1) ∧
      map_find D1.normalized_constraints empty_solver.available_constr_index = some nc ∧
      nc.ratio_to_original = -2 ∧
      nc.kind = (if (-2 : mpq) < 0 then flip_kind lconstraint_kind.LE else lconstraint_kind.LE) ∧
      nc.right_side = 6 / (-2) ∧
      nc.origin_constraint =
        ⟨sample_mk_left_side [(-2, 1)], lconstraint_kind.LE, 6,
          empty_solver.available_constr_index⟩ ∧
      ∀ L : mpq, kind_holds lconstraint_kind.LE (-2 * L) 6 ↔ kind_holds nc.kind L nc.right_side :=
  C34_constraint_normalization sample_mk_coeffs sample_mk_left_side empty_solver [(-2, 1)]
    lconstraint_kind.LE 6 (-2)
    (by simp [find_ratio_of_original_constraint_to_normalized,
      create_or_fetch_existing_left_side, empty_solver, sample_mk_coeffs, sample_mk_left_side,
      map_find])
    (by norm_num)

/-! ## The infeasibility measure (C35) -/

theorem canonic_left_side_val_loop_eq (get_name : column_info → String)
    (T_to_string : var_index → String) (D : lar_solver_ext) (solution : List (String × mpq)) :
    ∀ (coeffs : List (mpq × var_index)) (ret : mpq),
      (∀ it ∈ coeffs,
        ∃ v, solution_find solution (get_variable_name get_name T_to_string D it.2) = some v) →
      canonic_left_side_val_loop get_name T_to_string D solution coeffs ret =
        .ok (ret + canonic_sum get_name T_to_string D solution coeffs) := by
  intro coeffs
  induction coeffs with
  | nil =>
      intro ret _
      simp [canonic_left_side_val_loop, canonic_sum]
  | cons it its ih =>
      intro ret h
      obtain ⟨v, hv⟩ := h it (List.mem_cons_self _ _)
      unfold canonic_left_side_val_loop
      rw [hv]
      simp only
      rw [ih _ (fun u hu => h u (List.mem_cons_of_mem _ hu))]
      simp only [canonic_sum, List.map_cons, List.sum_cons, hv, Option.getD_some]
      congr 1
      ring

theorem infeasibility_of_constraint_spec (get_name : column_info → String)
    (T_to_string : var_index → String) (D : lar_solver_ext) (solution : List (String × mpq))
    (nc : lar_normalized_constraint)
    (h : solution_defined_on get_name T_to_string D solution nc.canonic_left_side) :
    get_canonic_left_side_val get_name T_to_string D nc.canonic_left_side solution =
      .ok (canonic_sum get_name T_to_string D solution nc.canonic_left_side.coeffs) ∧
    ∃ inf, get_infeasibility_of_constraint get_name T_to_string D nc solution = .ok inf ∧
      0 ≤ inf ∧
      (inf = 0 ↔ holds_non_strictly nc.kind
        (canonic_sum get_name T_to_string D solution nc.canonic_left_side.coeffs)
        nc.right_side) := by
  have hval : get_canonic_left_side_val get_name T_to_string D nc.canonic_left_side solution =
      .ok (canonic_sum get_name T_to_string D solution nc.canonic_left_side.coeffs) := by
    unfold get_canonic_left_side_val
    rw [canonic_left_side_val_loop_eq get_name T_to_string D solution _ 0 h, zero_add]
  refine ⟨hval, ?_⟩
  unfold get_infeasibility_of_constraint
  rw [hval]
  simp only
  cases nc.kind <;> simp only [holds_non_strictly]
  · exact ⟨_, rfl, le_max_right _ _, by rw [max_eq_right_iff]; constructor <;> intro h <;> linarith⟩
  · exact ⟨_, rfl, le_max_right _ _, by rw [max_eq_right_iff]; constructor <;> intro h <;> linarith⟩
  · exact ⟨_, rfl, le_max_right _ _, by rw [max_eq_right_iff]; constructor <;> intro h <;> linarith⟩
  · exact ⟨_, rfl, le_max_right _ _, by rw [max_eq_right_iff]; constructor <;> intro h <;> linarith⟩
  · exact ⟨_, rfl, abs_nonneg _, by rw [abs_eq_zero, sub_eq_zero]⟩

theorem infeasibility_of_solution_loop_spec (get_name : column_info → String)
    (T_to_string : var_index → String) (D : lar_solver_ext) (solution : List (String × mpq)) :
    ∀ (cs : List (constraint_index × lar_normalized_constraint)) (ret : mpq),
      (∀ p ∈ cs, solution_defined_on get_name T_to_string D solution p.2.canonic_left_side) →
      ∃ total, infeasibility_of_solution_loop get_name T_to_string D solution cs ret =
          .ok (ret + total) ∧ 0 ≤ total ∧
        (total = 0 ↔ ∀ p ∈ cs, holds_non_strictly p.2.kind
          (canonic_sum get_name T_to_string D solution p.2.canonic_left_side.coeffs)
          p.2.right_side) := by
  intro cs
  induction cs with
  | nil =>
      intro ret _
      exact ⟨0, by simp [infeasibility_of_solution_loop], le_refl _, by simp⟩
  | cons c cs ih =>
      intro ret h
      obtain ⟨_, inf, h1, h2, h3⟩ := infeasibility_of_constraint_spec get_name T_to_string D
        solution c.2 (h c (List.mem_cons_self _ _))
      obtain ⟨total, g1, g2, g3⟩ := ih (ret + inf) (fun p hp => h p (List.mem_cons_of_mem _ hp))
      refine ⟨inf + total, ?_, add_nonneg h2 g2, ?_⟩
      · unfold infeasibility_of_solution_loop
        rw [h1]
        simp only
        rw [g1, add_assoc]
      · constructor
        · intro hz
          have hi : inf = 0 := by linarith
          have ht : total = 0 := by linarith
          intro p hp
          rcases List.mem_cons.mp hp with rfl | hp
          · exact h3.mp hi
          · exact g3.mp ht p hp
        · intro hall
          have hi : inf = 0 := h3.mpr (hall c (List.mem_cons_self _ _))
          have ht : total = 0 := g3.mpr (fun p hp => hall p (List.mem_cons_of_mem _ hp))
          rw [hi, ht, add_zero]

/-- C35: for a normalized constraint and a solution that has a value for every
variable of its left side, `get_canonic_left_side_val` returns the sum of
coefficient times value, and `get_infeasibility_of_constraint` returns a
non-negative rational that is zero if and only if the constraint holds
non-strictly: left side `≤` right side for `LE` and `LT`, `≥` for `GE` and
`GT`, `=` for `EQ`.  When the solution has a value for every variable of every
constraint, `get_infeasibility_of_solution` returns a non-negative rational
that is zero if and only if every constraint holds non-strictly. -/
theorem C35_infeasibility_measure (get_name : column_info → String)
    (T_to_string : var_index → String) (D : lar_solver_ext) (solution : List (String × mpq)) :
    (∀ nc : lar_normalized_constraint,
      solution_defined_on get_name T_to_string D solution nc.canonic_left_side →
      get_canonic_left_side_val get_name T_to_string D nc.canonic_left_side solution =
        .ok (canonic_sum get_name T_to_string D solution nc.canonic_left_side.coeffs) ∧
      ∃ inf, get_infeasibility_of_constraint get_name T_to_string D nc solution = .ok inf ∧
        0 ≤ inf ∧
        (inf = 0 ↔ holds_non_strictly nc.kind
          (canonic_sum get_name T_to_string D solution nc.canonic_left_side.coeffs)
          nc.right_side)) ∧
    ((∀ p ∈ D.normalized_constraints,
        solution_defined_on get_name T_to_string D solution p.2.canonic_left_side) →
      ∃ total, get_infeasibility_of_solution get_name T_to_string D solution = .ok total ∧
        0 ≤ total ∧
        (total = 0 ↔ ∀ p ∈ D.normalized_constraints, holds_non_strictly p.2.kind
          (canonic_sum get_name T_to_string D solution p.2.canonic_left_side.coeffs)
          p.2.right_side)) := by
  refine ⟨fun nc h => infeasibility_of_constraint_spec get_name T_to_string D solution nc h, ?_⟩
  intro h
  obtain ⟨total, h1, h2, h3⟩ := infeasibility_of_solution_loop_spec get_name T_to_string D
    solution D.normalized_constraints 0 h
  rw [zero_add] at h1
  exact ⟨total, h1, h2, h3⟩

/-- Witness of C35: the solution `x = 7` for the solver with the constraint
`x₁ ≤ 5`, whose variable `1` is named `x`. -/
theorem C35_infeasibility_measure_witness :
    ∃ total, get_infeasibility_of_solution (fun _ => "x") toString measure_solver [("x", 7)] =
        .ok total ∧ 0 ≤ total ∧
      (total = 0 ↔ ∀ p ∈ measure_solver.normalized_constraints, holds_non_strictly p.2.kind
        (canonic_sum (fun _ => "x") toString measure_solver [("x", 7)]
          p.2.canonic_left_side.coeffs) p.2.right_side) :=
  (C35_infeasibility_measure (fun _ => "x") toString measure_solver [("x", 7)]).2 (by
    intro p hp
    simp only [measure_solver, List.mem_singleton] at hp
    subst hp
    intro it hit
    simp only [sample_constraint, List.mem_singleton] at hit
    subst hit
    exact ⟨7, by simp [solution_find, get_variable_name, measure_solver, empty_solver, map_find]⟩)

/-- The infeasibility of `x = 7` for `x₁ ≤ 5` is `2`. -/
theorem get_infeasibility_of_solution_sample :
    get_infeasibility_of_solution (fun _ => "x") toString measure_solver [("x", 7)] = .ok 2 := by
  simp only [get_infeasibility_of_solution, measure_solver, infeasibility_of_solution_loop,
    get_infeasibility_of_constraint, get_canonic_left_side_val, sample_constraint,
    canonic_left_side_val_loop, get_variable_name, empty_solver, map_find, if_true,
    solution_find]
  norm_num

end LarSolver
